import Mathlib

/-!
# gocoin: the core of the node

A shallow embedding of parts of the gocoin full node, and theorems about it.
The first part covers the peer connection of `client/network/core.go`: the
send ring, the ban score and the reception of framed messages.

Conventions of the embedding

* A Go `string` and a Go `[]byte` are both `List UInt8`.
* A Go array (`[24]byte`, `[SendBufSize]byte`, `[4]byte`, `[32]byte`) is a
  function from the index to the byte; only the indices below the declared
  size are ever read or written.
* A Go `int` that is an index or a length is a `Nat` (the code keeps it
  non-negative and far below `2^63`); the misbehave score, to which arbitrary
  caller-supplied `int` values are added, is an `Int` wrapped to 64 bits.
* `uint32` values are `Nat` reduced modulo `2^32` where they are produced.
* Mutexes are not modelled: every method is one atomic step on the state.
* Statistics kept in package `common` (`CountSafe`) and debug printing have no
  influence on any field modelled here and are left out.
-/

namespace Gocoin

/-! ## Byte-level helpers -/

/-- The bytes of an ASCII string literal. -/
def str (s : String) : List UInt8 := s.toList.map (fun ch => ch.toNat.toUInt8)

/-- Go slice expression `a[lo:hi]` on an array, as a byte list. -/
def slice (a : Nat → UInt8) (lo hi : Nat) : List UInt8 :=
  (List.range (hi - lo)).map (fun i => a (lo + i))

/-- Go builtin `copy(dst[lo:hi], src)`: copies `min (hi - lo) (len src)` bytes. -/
def copy (dst : Nat → UInt8) (lo hi : Nat) (src : List UInt8) : Nat → UInt8 :=
  fun i => if lo ≤ i ∧ i < hi ∧ i - lo < src.length then src.getD (i - lo) 0 else dst i

/-- Go builtin `copy(dst[off:], src)` on a slice `dst`; the caller guarantees
`off + len src ≤ len dst`, which is the only way the code uses it. -/
def copySlice (dst : List UInt8) (off : Nat) (src : List UInt8) : List UInt8 :=
  dst.take off ++ (src.take (dst.length - off) ++ dst.drop (off + src.length))

/-- The four bytes written by `binary.LittleEndian.PutUint32`. -/
def PutUint32 (v : Nat) : List UInt8 :=
  [v.toUInt8, (v / 2^8).toUInt8, (v / 2^16).toUInt8, (v / 2^24).toUInt8]

/-- The value read by `binary.LittleEndian.Uint32` from a slice of four bytes. -/
def Uint32 (b : List UInt8) : Nat :=
  (b.getD 0 0).toNat + (b.getD 1 0).toNat * 2^8 + (b.getD 2 0).toNat * 2^16
    + (b.getD 3 0).toNat * 2^24

/-- Go `strings.TrimRight(s, "\x00")`: drops the trailing NUL bytes. -/
def TrimRight (s : List UInt8) : List UInt8 :=
  (s.reverse.dropWhile (fun b => b == 0)).reverse

/-! ## Values defined outside the modelled files -/

/-- Package-level values of `common` and `btc` that the network code reads. -/
structure Ext where
  /-- Value `common.Magic`, a `[4]byte`. -/
  Magic : Nat → UInt8
  /-- Value `common.Version`, a `uint32`. -/
  Version : Nat
  /-- Function `btc.Sha2Sum`, double SHA-256, returning a `[32]byte`. -/
  Sha2Sum : List UInt8 → Nat → UInt8

/-! ## client/network/core.go -/

def SendBufSize : Nat := 4*1024*1024

/-- The two kinds of error of a socket read that `HandleError` tells apart. -/
inductive NetErr where
  /-- A `net.Error` whose `Timeout()` is true. -/
  | timeout
  /-- Any other error. -/
  | fatal
  deriving DecidableEq, Repr

/-- The fields of `NetworkNodeStruct`, the data from the version message, that
the modelled functions use. -/
structure NetworkNodeStruct where
  Height : Nat := 0
  DoNotRelayTxs : Bool := false

/-- The fields of `ConnectionStatus` written by the modelled methods. -/
structure ConnectionStatus where
  LastBtsSent : Nat
  LastCmdSent : List UInt8
  MaxSentBufSize : Nat
  BytesReceived : Nat
  AllHeadersReceived : Bool := false
  GetBlocksDataNow : Bool := false
  InvsRecieved : Nat := 0

/-- Messages reception state machine (`OneConnection.recv`). -/
structure Recv where
  hdr : Nat → UInt8
  hdr_len : Nat
  pl_len : Nat
  cmd : List UInt8
  dat : Option (List UInt8)
  datlen : Nat

structure OneConnection where
  broken : Bool
  banit : Bool
  misbehave : Int
  X : ConnectionStatus
  recv : Recv
  sendBuf : Nat → UInt8
  SendBufProd : Nat
  SendBufCons : Nat
  counters : List UInt8 → Nat
  Node : NetworkNodeStruct := {}
  /-- The pending invs, each a `*[36]byte` that is not written after it is made:
  the list of the 36-byte records. -/
  PendingInvs : List (List UInt8) := []

structure BCmsg where
  cmd : List UInt8
  pl : List UInt8
  deriving DecidableEq, Repr

/-- A new connection: every field has its zero value. -/
def NewConnection : OneConnection :=
  { broken := false, banit := false, misbehave := 0,
    X := { LastBtsSent := 0, LastCmdSent := [], MaxSentBufSize := 0, BytesReceived := 0 },
    recv := { hdr := fun _ => 0, hdr_len := 0, pl_len := 0, cmd := [], dat := none, datlen := 0 },
    sendBuf := fun _ => 0, SendBufProd := 0, SendBufCons := 0,
    counters := fun _ => 0 }

def BytesToSent (v : OneConnection) : Nat :=
  if v.SendBufProd ≥ v.SendBufCons then
    v.SendBufProd - v.SendBufCons
  else
    v.SendBufProd + SendBufSize - v.SendBufCons

/-- This function assumes that there is enough room inside sendBuf. -/
def append_to_send_buffer (c : OneConnection) (d : List UInt8) : OneConnection :=
  let room_left := SendBufSize - c.SendBufProd
  if room_left ≥ d.length then
    let buf := copy c.sendBuf c.SendBufProd SendBufSize d
    let room_left := c.SendBufProd + d.length
    if room_left ≥ SendBufSize then
      { c with sendBuf := buf, SendBufProd := 0 }
    else
      { c with sendBuf := buf, SendBufProd := room_left }
  else
    let buf := copy c.sendBuf c.SendBufProd SendBufSize (d.take room_left)
    let buf := copy buf 0 SendBufSize (d.drop room_left)
    { c with sendBuf := buf, SendBufProd := c.SendBufProd + d.length - SendBufSize }

def Disconnect (c : OneConnection) : OneConnection :=
  { c with broken := true }

def IsBroken (c : OneConnection) : Bool := c.broken

def DoS (c : OneConnection) (_why : List UInt8) : OneConnection :=
  { c with banit := true, broken := true }

/-- Go `int` addition: the sum wrapped to the signed 64-bit range. -/
def wrapInt (x : Int) : Int := (x + 2^63) % 2^64 - 2^63

def Misbehave (c : OneConnection) (_why : List UInt8) (how_much : Int) : Bool × OneConnection :=
  if !c.banit then
    let c := { c with misbehave := wrapInt (c.misbehave + how_much) }
    if c.misbehave ≥ 1000 then
      (true, { c with banit := true, broken := true })
    else
      (false, c)
  else
    (false, c)

/-- Go `m[name] += val` on a `map[string]uint64`. -/
def bump (m : List UInt8 → Nat) (name : List UInt8) (val : Nat) : List UInt8 → Nat :=
  fun k => if k = name then (m name + val) % 2^64 else m k

/-- The 24-byte header `sbuf` built by `SendRawMsg`. -/
def sbuf (x : Ext) (cmd pl : List UInt8) : Nat → UInt8 :=
  let sbuf : Nat → UInt8 := fun _ => 0
  let sbuf := copy sbuf 0 4 (PutUint32 x.Version)
  let sbuf := copy sbuf 0 4 (slice x.Magic 0 4)
  let sbuf := copy sbuf 4 16 cmd
  let sbuf := copy sbuf 16 20 (PutUint32 (pl.length % 2^32))
  let sh := x.Sha2Sum pl
  copy sbuf 20 24 (slice sh 0 4)

def SendRawMsg (x : Ext) (c : OneConnection) (cmd pl : List UInt8) :
    Option String × OneConnection :=
  if c.broken then
    (none, c)
  else
    -- we never allow the buffer to be totally full because then producer would be equal consumer
    let bytes_left := SendBufSize - BytesToSent c
    if bytes_left ≤ pl.length + 24 then
      (some "Send buffer overflow", Disconnect c)
    else
      let c := { c with counters := bump c.counters (str "sent_" ++ cmd) 1 }
      let c := { c with counters := bump c.counters (str "sbts_" ++ cmd) pl.length }
      let c := { c with X := { c.X with LastCmdSent := cmd, LastBtsSent := pl.length % 2^32 } }
      let c := append_to_send_buffer c (slice (sbuf x cmd pl) 0 24)
      let c := append_to_send_buffer c pl
      let c := if BytesToSent c > c.X.MaxSentBufSize then
          { c with X := { c.X with MaxSentBufSize := BytesToSent c } }
        else c
      (none, c)

/-- Returns maximum accepted payload size of a given type of message. -/
def maxmsgsize (cmd : List UInt8) : Nat :=
  if cmd = str "inv" then 3+50000*36
  else if cmd = str "tx" then 100000
  else if cmd = str "addr" then 3+1000*30
  else if cmd = str "block" then 1000000
  else if cmd = str "getblocks" then 4+3+500*32+32
  else if cmd = str "getdata" then 3+50000*36
  else if cmd = str "headers" then 3+50000*36
  else if cmd = str "getheaders" then 4+3+500*32+32
  else 1024

/-- The pending bytes of the send ring, read from `SendBufCons` up to
`SendBufProd` with wrap-around. -/
def pendingBytes (c : OneConnection) : List UInt8 :=
  (List.range (BytesToSent c)).map (fun i => c.sendBuf ((c.SendBufCons + i) % SendBufSize))

/-- The socket of a connection as the reader sees it. Function
`common.SockRead` is defined outside the modelled files, so its behaviour is a
parameter: `pending` holds the bytes the peer has sent and that were not read
yet, and `script` holds the answers of the successive reads, each being the
number of bytes the socket is ready to hand over and the error it reports. -/
structure Sock where
  pending : List UInt8
  script : List (Nat × Option NetErr)

/-- One call `common.SockRead(c.Conn, buf)` with `len(buf) = k`, answered by the
script entry `ev`: the first `min ev.1 k` pending bytes are handed over (fewer
when fewer are pending) together with the error `ev.2`. Returns the bytes read,
the error and the bytes still pending. -/
def SockRead (pending : List UInt8) (k : Nat) (ev : Nat × Option NetErr) :
    List UInt8 × Option NetErr × List UInt8 :=
  (pending.take (min ev.1 k), ev.2, pending.drop (min ev.1 k))

def HandleError (c : OneConnection) (e : NetErr) : Option NetErr × OneConnection :=
  match e with
  | .timeout => (none, c)
  | .fatal =>
    let c := { c with recv := { c.recv with hdr_len := 0 } }
    let c := { c with recv := { c.recv with dat := none } }
    (some .fatal, Disconnect c)

/-- Outcome of one run of a loop body of `FetchMessage`. -/
inductive Step where
  /-- The body executed `return nil`. -/
  | ret (c : OneConnection) (pending : List UInt8)
  /-- The body ran to its end. -/
  | cont (c : OneConnection) (pending : List UInt8)

/-- Outcome of a loop of `FetchMessage`. -/
inductive Flow where
  /-- The function returned nil from inside the loop. -/
  | ret (c : OneConnection) (s : Sock)
  /-- The loop condition became false. -/
  | next (c : OneConnection) (s : Sock)

/-- Body of the loop `for c.recv.hdr_len < 24` of `FetchMessage`, with the read
answered by `ev`. -/
def FetchMessage.hdrBody (x : Ext) (c : OneConnection) (pending : List UInt8)
    (ev : Nat × Option NetErr) : Step :=
  let r := SockRead pending (24 - c.recv.hdr_len) ev
  let c := { c with recv := { c.recv with
      hdr := copy c.recv.hdr c.recv.hdr_len 24 r.1, hdr_len := c.recv.hdr_len + r.1.length } }
  match r.2.1 with
  | some e => .ret (HandleError c e).2 r.2.2
  | none =>
    if c.recv.hdr_len ≥ 4 ∧ slice c.recv.hdr 0 4 ≠ slice x.Magic 0 4 then
      .ret (Disconnect c) r.2.2
    else if c.broken then
      .ret c r.2.2
    else if c.recv.hdr_len ≥ 24 then
      .cont { c with recv := { c.recv with
          pl_len := Uint32 (slice c.recv.hdr 16 20),
          cmd := TrimRight (slice c.recv.hdr 4 16) } } r.2.2
    else
      .cont c r.2.2

/-- The loop `for c.recv.hdr_len < 24` of `FetchMessage`. Each iteration takes
one answer of the script; a socket with no answer left reports a timeout, which
`HandleError` ignores before `FetchMessage` returns nil. -/
def FetchMessage.hdrLoop (x : Ext) :
    OneConnection → List UInt8 → List (Nat × Option NetErr) → Flow
  | c, pending, [] =>
    if c.recv.hdr_len < 24 then .ret c ⟨pending, []⟩ else .next c ⟨pending, []⟩
  | c, pending, ev :: script =>
    if c.recv.hdr_len < 24 then
      match FetchMessage.hdrBody x c pending ev with
      | .ret c pending => .ret c ⟨pending, script⟩
      | .cont c pending => FetchMessage.hdrLoop x c pending script
    else .next c ⟨pending, ev :: script⟩

/-- Body of the loop `for c.recv.datlen < c.recv.pl_len` of `FetchMessage`. -/
def FetchMessage.datBody (c : OneConnection) (pending : List UInt8)
    (ev : Nat × Option NetErr) : Step :=
  let dat := c.recv.dat.getD []
  let r := SockRead pending (dat.length - c.recv.datlen) ev
  let c := { c with recv := { c.recv with dat := some (copySlice dat c.recv.datlen r.1) } }
  let c := if r.1.length > 0 then
      { c with recv := { c.recv with datlen := (c.recv.datlen + r.1.length) % 2^32 } }
    else c
  if r.1.length > 0 ∧ c.recv.datlen > c.recv.pl_len then
    .ret (DoS c (str "MsgSizeMismatch")) r.2.2
  else
    match r.2.1 with
    | some e => .ret (HandleError c e).2 r.2.2
    | none => if c.broken then .ret c r.2.2 else .cont c r.2.2

/-- The loop `for c.recv.datlen < c.recv.pl_len` of `FetchMessage`. -/
def FetchMessage.datLoop :
    OneConnection → List UInt8 → List (Nat × Option NetErr) → Flow
  | c, pending, [] =>
    if c.recv.datlen < c.recv.pl_len then .ret c ⟨pending, []⟩ else .next c ⟨pending, []⟩
  | c, pending, ev :: script =>
    if c.recv.datlen < c.recv.pl_len then
      match FetchMessage.datBody c pending ev with
      | .ret c pending => .ret c ⟨pending, script⟩
      | .cont c pending => FetchMessage.datLoop c pending script
    else .next c ⟨pending, ev :: script⟩

/-- The block `if c.recv.pl_len > 0 { ... }` of `FetchMessage`. -/
def FetchMessage.payload (c : OneConnection) (s : Sock) : Flow :=
  if c.recv.pl_len > 0 then
    if c.recv.dat.isNone then
      let msi := maxmsgsize c.recv.cmd
      if c.recv.pl_len > msi then
        .ret (DoS c (str "Big-" ++ c.recv.cmd)) s
      else
        let c := { c with recv := { c.recv with
            dat := some (List.replicate c.recv.pl_len 0), datlen := 0 } }
        FetchMessage.datLoop c s.pending s.script
    else
      FetchMessage.datLoop c s.pending s.script
  else .next c s

def FetchMessage (x : Ext) (c : OneConnection) (s : Sock) :
    Option BCmsg × OneConnection × Sock :=
  match FetchMessage.hdrLoop x c s.pending s.script with
  | .ret c s => (none, c, s)
  | .next c s =>
    match FetchMessage.payload c s with
    | .ret c s => (none, c, s)
    | .next c s =>
      let sh := x.Sha2Sum (c.recv.dat.getD [])
      if slice c.recv.hdr 20 24 ≠ slice sh 0 4 then
        (none, DoS c (str "MsgBadChksum"), s)
      else
        let ret : BCmsg := { cmd := c.recv.cmd, pl := c.recv.dat.getD [] }
        let c := { c with
          recv := { c.recv with dat := none, hdr_len := 0 },
          X := { c.X with BytesReceived := (c.X.BytesReceived + (24 + ret.pl.length)) % 2^64 } }
        (some ret, c, s)

/-! ## The wire frame in the words of the specification -/

/-- The command field of a header: `cmd` truncated or NUL-padded to 12 bytes. -/
def cmdField (cmd : List UInt8) : List UInt8 :=
  cmd.take 12 ++ List.replicate (12 - cmd.length) 0

/-- The 24-byte header of the frame of `cmd` and `pl`. -/
def frameHeader (x : Ext) (cmd pl : List UInt8) : List UInt8 :=
  slice x.Magic 0 4 ++ cmdField cmd ++ PutUint32 pl.length ++ slice (x.Sha2Sum pl) 0 4

/-- The wire frame as the specification words it:
`[magic:4][cmd:12, NUL-padded][payload-len:u32-le][checksum:4][payload]`, the
checksum being the first 4 bytes of the double SHA-256 of the payload. -/
def frame (x : Ext) (cmd pl : List UInt8) : List UInt8 :=
  slice x.Magic 0 4 ++ cmdField cmd ++ PutUint32 pl.length ++ slice (x.Sha2Sum pl) 0 4 ++ pl

/-! ## Notions used to state the properties -/

/-- The bytes that `SendRawMsg(cmd, pl)` appends to the send ring of `c`: the
pending bytes after the call without those that were pending before it. -/
def sentBytes (x : Ext) (c : OneConnection) (cmd pl : List UInt8) : List UInt8 :=
  (pendingBytes (SendRawMsg x c cmd pl).2).drop (BytesToSent c)

/-- The command names that have a maximum of their own in `maxmsgsize`. -/
def sizedCommands : List (List UInt8) :=
  [str "inv", str "getdata", str "headers", str "getblocks", str "getheaders",
   str "tx", str "block", str "addr"]

/-- The calls that act on a connection, for statements about call sequences. -/
inductive Op where
  | DoS (why : List UInt8)
  | Misbehave (why : List UInt8) (how_much : Int)
  | Disconnect
  | HandleError (e : NetErr)
  | SendRawMsg (cmd pl : List UInt8)
  | FetchMessage (s : Sock)

/-- The connection after one call. -/
def Op.run (x : Ext) (c : OneConnection) : Op → OneConnection
  | .DoS why => Gocoin.DoS c why
  | .Misbehave why how_much => (Gocoin.Misbehave c why how_much).2
  | .Disconnect => Gocoin.Disconnect c
  | .HandleError e => (Gocoin.HandleError c e).2
  | .SendRawMsg cmd pl => (Gocoin.SendRawMsg x c cmd pl).2
  | .FetchMessage s => (Gocoin.FetchMessage x c s).2.1

/-- The connection after a sequence of calls. -/
def runOps (x : Ext) (c : OneConnection) (ops : List Op) : OneConnection :=
  ops.foldl (Op.run x) c

/-- The connection after a sequence of `Misbehave` calls with the given weights. -/
def MisbehaveAll (c : OneConnection) (ws : List Int) : OneConnection :=
  ws.foldl (fun c w => (Misbehave c (str "x") w).2) c

/-- The flag relation kept by every call: `broken` is never cleared, and
`banit → broken` is preserved. -/
def FlagsStep (c c' : OneConnection) : Prop :=
  (c.broken = true → c'.broken = true)
  ∧ ((c.banit = true → c.broken = true) → (c'.banit = true → c'.broken = true))

/-- The score is at least 1000 exactly when the peer is banned, provided only
`Misbehave` has set the ban so far. -/
def ScoreInv (c : OneConnection) : Prop :=
  (c.banit = true ↔ 1000 ≤ c.misbehave)

/-- Every read of the script hands over at least one byte and reports no error. -/
def GoodScript (script : List (Nat × Option NetErr)) : Prop :=
  ∀ ev ∈ script, 1 ≤ ev.1 ∧ ev.2 = none

instance (script : List (Nat × Option NetErr)) : Decidable (GoodScript script) := by
  unfold GoodScript; infer_instance

/-- Every read of the script that reports an error hands over no byte. -/
def ErrorsCarryNoData (script : List (Nat × Option NetErr)) : Prop :=
  ∀ ev ∈ script, ev.2 ≠ none → ev.1 = 0

instance (script : List (Nat × Option NetErr)) : Decidable (ErrorsCarryNoData script) := by
  unfold ErrorsCarryNoData; infer_instance

/-! ## Concrete values used to evaluate the model -/

/-- A concrete instance of the external values: the mainnet magic, a protocol
version, and a simple stand-in for the double SHA-256 (the theorems hold for
every hash function; this one only serves to run the definitions). -/
def sampleExt : Ext :=
  { Magic := fun i => [0xF9, 0xBE, 0xB4, 0xD9].getD i 0,
    Version := 70001,
    Sha2Sum := fun b i => b.foldl (fun a v => a + v) 7 + i.toUInt8 }

/-- A connection whose ring holds `SendBufSize - 24` pending bytes. -/
def ringAlmostFull : OneConnection := { NewConnection with SendBufCons := 24 }

/-- A connection with 10 pending bytes just before the end of the ring. -/
def ringNearEnd : OneConnection :=
  { NewConnection with SendBufProd := 4194300, SendBufCons := 4194290 }

/-- A good script of 40 reads of at most 5 bytes each. -/
def script40 : List (Nat × Option NetErr) := List.replicate 40 (5, none)

/-- The header of a `ping` frame that announces 1025 payload bytes. -/
def bigPingHeader : List UInt8 :=
  slice sampleExt.Magic 0 4 ++ cmdField (str "ping") ++ PutUint32 1025 ++ [0, 0, 0, 0]

/-- The header of a `ping` frame of 8 payload bytes with a wrong checksum. -/
def badSumHeader : List UInt8 :=
  slice sampleExt.Magic 0 4 ++ cmdField (str "ping") ++ PutUint32 8 ++ [0, 0, 0, 0]

/-! ## Panics -/

/-- Go index expression `l[i]`: panics when `i` is out of range. -/
def index {α : Type} (l : List α) (i : Nat) : Except String α :=
  match l[i]? with
  | some a => .ok a
  | none => .error "index out of range"

/-- Go pointer dereference: panics on nil. -/
def deref {α : Type} (p : Option α) : Except String α :=
  match p with
  | some a => .ok a
  | none => .error "invalid memory address or nil pointer dereference"

/-- Go slice expression `b[lo:hi]` on a byte slice whose length is at least `hi`. -/
def subslice (b : List UInt8) (lo hi : Nat) : List UInt8 :=
  (b.drop lo).take (hi - lo)

/-! ## Types of lib/btc and lib/chain -/

/-- Type `btc.TxPrevOut` (declared outside the modelled files): the hash of a
transaction and the number of one of its outputs. -/
structure TxPrevOut where
  Hash : List UInt8 := []
  Vout : Nat := 0
  deriving DecidableEq, Repr

/-- The fields of `btc.TxIn` (declared outside the modelled files) that the
modelled code reads. -/
structure TxIn where
  ScriptSig : List UInt8
  Input : TxPrevOut := {}
  deriving DecidableEq, Repr

/-- The fields of `btc.TxOut` (declared outside the modelled files) that the
modelled code reads or writes. -/
structure TxOut where
  WasCoinbase : Bool
  Value : Nat := 0
  Pk_script : List UInt8 := []
  deriving DecidableEq, Repr

/-- The fields of `btc.Tx` (declared outside the modelled files) that the
modelled code reads or writes. `Hash` is nil until it is computed. -/
structure Tx where
  TxIn : List TxIn
  TxOut : List TxOut
  Hash : Option (List UInt8)
  Size : Nat
  deriving DecidableEq, Repr

/-- Type `btc.Block`. `Hash` is the 32-byte value of the `*Uint256` (never nil in
a block made by `NewBlock`); `Txs` is nil or a slice of `*Tx`, each nil or a
transaction. -/
structure Block where
  Raw : List UInt8
  Hash : List UInt8
  Txs : Option (List (Option Tx))
  TxCount : Int
  TxOffset : Int
  Trusted : Bool
  LastKnownHeight : Nat
  VerifyFlags : Nat
  Majority_v2 : Nat
  Majority_v3 : Nat
  Majority_v4 : Nat
  Height : Nat
  Sigops : Nat
  deriving DecidableEq, Repr

/-- Type `chain.BlockTreeNode`. A `*BlockTreeNode` is the address of the node in
the memory of the chain (`Chain.mem`); `Parent` is nil or an address, and the
entries of `Childs` are addresses. -/
structure BlockTreeNode where
  BlockHash : List UInt8
  Height : Nat
  Parent : Option Nat
  Childs : List Nat
  BlockSize : Nat
  TxCount : Nat
  Sigops : Nat
  BlockHeader : Nat → UInt8

/-- The fields of `ch.Consensus` (declared outside the modelled files) that the
modelled code reads. -/
structure ConsensusParams where
  Window : Nat
  RejectBlock : Nat
  EnforceUpgrade : Nat

/-- The fields of `chain.Chain` that the modelled code uses. `mem` is the memory
in which the tree nodes live; `BlockTreeRoot` and `BlockTreeEnd` are addresses
(an initialised chain has both), and `BlockIndex` maps the index key of a hash
to the address of its node. -/
structure Chain where
  mem : Nat → BlockTreeNode
  BlockTreeRoot : Nat
  BlockTreeEnd : Nat
  BlockIndex : List UInt8 → Option Nat
  Consensus : ConsensusParams
  DoNotSync : Bool := false

/-- Constants and functions of packages `btc`, `script` and `chain` that the
modelled code uses and that are defined outside the modelled files. -/
structure Lib where
  /-- Constant `btc.MAX_BLOCK_SIZE`. -/
  MAX_BLOCK_SIZE : Nat
  /-- Function `btc.VLen`: the value of the variable-length integer at the
  start of the slice and the number of bytes it takes, 0 when it cannot be
  decoded. -/
  VLen : List UInt8 → Int × Int
  /-- Function `btc.VLenSize`: the size of the encoding of a `uint64`. -/
  VLenSize : Nat → Int
  /-- Function `btc.NewSha2Hash`: the double SHA-256 of the slice. -/
  NewSha2Hash : List UInt8 → List UInt8
  /-- Function `btc.CheckProofOfWork(hash, bits)`. -/
  CheckProofOfWork : List UInt8 → Nat → Bool
  /-- Method `Uint256.BIdx`: the key of a hash in `BlockIndex`. -/
  BIdx : List UInt8 → List UInt8
  /-- Method `Uint256.String`. -/
  HashString : List UInt8 → String
  /-- Function `btc.NewTx`: the transaction parsed at the start of the slice
  (nil on failure) and its size in bytes. -/
  NewTx : List UInt8 → Option Tx × Int
  /-- Method `Tx.IsCoinBase`. -/
  IsCoinBase : Tx → Bool
  /-- Function `btc.GetMerkel`: the Merkle root of the transactions and whether
  the construction was mutated. -/
  GetMerkel : List (Option Tx) → List UInt8 × Bool
  /-- Constant `script.VER_P2SH`. -/
  VER_P2SH : Nat
  /-- Constant `script.VER_DERSIG`. -/
  VER_DERSIG : Nat
  /-- Constant `script.VER_CLTV`. -/
  VER_CLTV : Nat
  /-- Constant `chain.MovingCheckopintDepth`. -/
  MovingCheckopintDepth : Int
  /-- Constant `chain.BIP16SwitchTime`. -/
  BIP16SwitchTime : Nat
  /-- Method `Chain.GetNextWorkRequired(prevblk, time)`. -/
  GetNextWorkRequired : Chain → Nat → Nat → Nat
  /-- Function `chain.CheckTransactions(txs, height, time)`. -/
  CheckTransactions : List (Option Tx) → Nat → Nat → Bool

/-! ## lib/btc/block.go -/

/-- The zero value of `btc.Block`. -/
def Block.zero : Block :=
  { Raw := [], Hash := [], Txs := none, TxCount := 0, TxOffset := 0, Trusted := false,
    LastKnownHeight := 0, VerifyFlags := 0, Majority_v2 := 0, Majority_v3 := 0,
    Majority_v4 := 0, Height := 0, Sigops := 0 }

def NewBlock (lib : Lib) (data : List UInt8) : Option Block × Option String :=
  if data.length < 81 then
    (none, some "Block too short")
  else
    let bl := Block.zero
    let bl := { bl with Hash := lib.NewSha2Hash (subslice data 0 80) }
    let bl := { bl with Raw := data }
    let bl := { bl with TxCount := (lib.VLen (data.drop 80)).1,
                        TxOffset := (lib.VLen (data.drop 80)).2 }
    if bl.TxOffset = 0 then
      (none, some "Block's txn_count field corrupt - RPC_Result:bad-blk-length")
    else
      (some { bl with TxOffset := bl.TxOffset + 80 }, none)

def Block.Version (bl : Block) : Nat := Uint32 (subslice bl.Raw 0 4)

def Block.ParentHash (bl : Block) : List UInt8 := subslice bl.Raw 4 36

def Block.MerkleRoot (bl : Block) : List UInt8 := subslice bl.Raw 36 68

def Block.BlockTime (bl : Block) : Nat := Uint32 (subslice bl.Raw 68 72)

def Block.Bits (bl : Block) : Nat := Uint32 (subslice bl.Raw 72 76)

/-- Go conversion `uint64(x)` of an `int`. -/
def toUint64 (x : Int) : Nat := (x % 2^64).toNat

def Block.SerializedSize (lib : Lib) (bl : Block) : Int :=
  let cnt := (lib.VLen (bl.Raw.drop 80)).1
  let off := (lib.VLen (bl.Raw.drop 80)).2
  80 + lib.VLenSize (toUint64 cnt) + bl.Raw.length - 80 - off

/-- The loop `for i:=0; i<bl.TxCount; i++` of `BuildTxList`; `todo` is
`bl.TxCount - i`. The goroutine that computes the hash of a transaction is
modelled by its effect, which is complete when `BuildTxList` returns. Returns
the error `e` and the slice `bl.Txs`. -/
def BuildTxList.loop (lib : Lib) (raw : List UInt8) :
    Nat → Nat → Int → List (Option Tx) → Except String (Option String × List (Option Tx))
  | 0, _, _, txs => .ok (none, txs)
  | todo + 1, i, offs, txs =>
    if offs < 0 ∨ offs > raw.length then
      .error "slice bounds out of range"
    else
      let r := lib.NewTx (raw.drop offs.toNat)
      let txs := txs.set i r.1
      match r.1 with
      | none => .ok (some "NewTx failed", txs)
      | some t =>
        if r.2 = 0 then
          .ok (some "NewTx failed", txs)
        else
          let t := { t with Size := (r.2 % 2^32).toNat }
          if r.2 < 0 ∨ offs + r.2 > raw.length then
            .error "slice bounds out of range"
          else
            let t := { t with
              Hash := some (lib.NewSha2Hash (subslice raw offs.toNat (offs + r.2).toNat)) }
            BuildTxList.loop lib raw todo (i + 1) (offs + r.2) (txs.set i (some t))

/-- The part of `BuildTxList` that starts at `bl.Txs = make([]*Tx, bl.TxCount)`. -/
def BuildTxList.build (lib : Lib) (bl : Block) : Except String (Option String × Block) :=
  if bl.TxCount < 0 then
    .error "makeslice: len out of range"
  else
    let bl := { bl with Txs := some (List.replicate bl.TxCount.toNat none) }
    match BuildTxList.loop lib bl.Raw bl.TxCount.toNat 0 bl.TxOffset
        (List.replicate bl.TxCount.toNat none) with
    | .error p => .error p
    | .ok (e, txs) =>
      match txs with
      | [] => .error "index out of range"
      | none :: _ => .error "invalid memory address or nil pointer dereference"
      | some t0 :: rest =>
        let t0 := { t0 with TxOut := t0.TxOut.map (fun o => { o with WasCoinbase := true }) }
        .ok (e, { bl with Txs := some (some t0 :: rest) })

/-- Parses block's transactions and adds them to the structure, calculating
hashes BTW. The result is a panic, or the returned error and the block. -/
def Block.BuildTxList (lib : Lib) (bl : Block) : Except String (Option String × Block) :=
  if bl.TxCount = 0 then
    let bl := { bl with TxCount := (lib.VLen (bl.Raw.drop 80)).1,
                        TxOffset := (lib.VLen (bl.Raw.drop 80)).2 }
    if bl.TxCount = 0 ∨ bl.TxOffset = 0 then
      .ok (some "Block's txn_count field corrupt - RPC_Result:bad-blk-length", bl)
    else
      BuildTxList.build lib { bl with TxOffset := bl.TxOffset + 80 }
  else
    BuildTxList.build lib bl

/-! ## lib/chain/chain_tree.go -/

/-- Modelled from the spec: constant `chain.MedianTimeSpan`, declared outside the
modelled files; the median time is taken over the last 11 blocks. -/
def MedianTimeSpan : Nat := 11

def BlockTreeNode.Timestamp (n : BlockTreeNode) : Nat := Uint32 (slice n.BlockHeader 68 72)

def BlockTreeNode.Bits (n : BlockTreeNode) : Nat := Uint32 (slice n.BlockHeader 72 76)

/-- Go `sort.Ints`: the slice sorted in increasing order. -/
def sortInts (l : List Int) : List Int := l.insertionSort (fun a b => a ≤ b)

/-- The loop `for i:=0; i<MedianTimeSpan && pindex!=nil; i++` of
`GetMedianTimePast`; `todo` is `MedianTimeSpan - i`. Returns `pmedian` and
`pbegin`. -/
def GetMedianTimePast.loop (mem : Nat → BlockTreeNode) :
    Nat → Option Nat → (Nat → Int) → Nat → (Nat → Int) × Nat
  | 0, _, pmedian, pbegin => (pmedian, pbegin)
  | _ + 1, none, pmedian, pbegin => (pmedian, pbegin)
  | todo + 1, some pindex, pmedian, pbegin =>
    let pbegin := pbegin - 1
    let pmedian := Function.update pmedian pbegin ((mem pindex).Timestamp : Int)
    GetMedianTimePast.loop mem todo (mem pindex).Parent pmedian pbegin

/-- Returns median time of the last 11 blocks. The receiver `pindex` is a node
(on a nil receiver the Go code panics on the index past the array). -/
def GetMedianTimePast (mem : Nat → BlockTreeNode) (pindex : Nat) : Nat :=
  let pmedian : Nat → Int := fun _ => 0
  let pbegin := MedianTimeSpan
  let pend := MedianTimeSpan
  let r := GetMedianTimePast.loop mem MedianTimeSpan (some pindex) pmedian pbegin
  let pmedian := r.1
  let pbegin := r.2
  -- sort.Ints(pmedian[pbegin:pend])
  let sorted := sortInts ((List.range (pend - pbegin)).map (fun i => pmedian (pbegin + i)))
  ((sorted.getD ((pend - pbegin) / 2) 0) % 2^32).toNat

/-- The loop over `n.Childs[1:]` of `FindFarthestNode`, `rec` being the recursive
call and the pair being `(res, depth)`. -/
def FindFarthestNode.loop (rec : Nat → Option (Nat × Nat)) :
    List Nat → Nat × Nat → Option (Nat × Nat)
  | [], acc => some acc
  | c :: cs, acc =>
    match rec c with
    | none => none
    | some r => FindFarthestNode.loop rec cs (if r.2 > acc.2 then r else acc)

/-- Looks for the farthest node. The recursion is bounded by `fuel`; `none`
means that the fuel ran out. -/
def FindFarthestNode (mem : Nat → BlockTreeNode) : Nat → Nat → Option (Nat × Nat)
  | 0, _ => none
  | fuel + 1, n =>
    match (mem n).Childs with
    | [] => some (n, 0)
    | c0 :: cs =>
      match FindFarthestNode mem fuel c0 with
      | none => none
      | some r =>
        match FindFarthestNode.loop (fun c => FindFarthestNode mem fuel c) cs r with
        | none => none
        | some r => some (r.1, r.2 + 1)

/-! ## lib/chain/block_check.go -/

/-- The loop `for cnt:=uint(0); cnt<ch.Consensus.Window && n!=nil; cnt++` of
`PreCheckBlock`; `todo` is `Window - cnt`. The counters start at 0 in a block
made by `NewBlock` and grow by at most `Window`, so they do not wrap. -/
def PreCheckBlock.count (mem : Nat → BlockTreeNode) : Nat → Option Nat → Block → Block
  | 0, _, bl => bl
  | _ + 1, none, bl => bl
  | todo + 1, some n, bl =>
    let ver := Uint32 (slice (mem n).BlockHeader 0 4)
    let bl :=
      if ver ≥ 2 then
        let bl := { bl with Majority_v2 := bl.Majority_v2 + 1 }
        if ver ≥ 3 then
          let bl := { bl with Majority_v3 := bl.Majority_v3 + 1 }
          if ver ≥ 4 then
            { bl with Majority_v4 := bl.Majority_v4 + 1 }
          else bl
        else bl
      else bl
    PreCheckBlock.count mem todo (mem n).Parent bl

/-- The three checks of `PreCheckBlock` that follow the counting of the block
versions. -/
def PreCheckBlock.majority (ch : Chain) (bl : Block) : (Option String × Bool × Bool) × Block :=
  if bl.Version < 2 ∧ bl.Majority_v2 ≥ ch.Consensus.RejectBlock then
    ((some "CheckBlock() : Rejected nVersion=1 block - RPC_Result:bad-version",
      true, false), bl)
  else if bl.Version < 3 ∧ bl.Majority_v3 ≥ ch.Consensus.RejectBlock then
    ((some "CheckBlock() : Rejected nVersion=2 block - RPC_Result:bad-version",
      true, false), bl)
  else if bl.Version < 4 ∧ bl.Majority_v4 ≥ ch.Consensus.RejectBlock then
    ((some "CheckBlock() : Rejected nVersion=3 block - RPC_Result:bad-version",
      true, false), bl)
  else
    ((none, false, false), bl)

/-- The error of `PreCheckBlock` for a block that hooks too deep into the chain. -/
def PreCheckBlock.tooDeep (lib : Lib) (ch : Chain) (bl : Block) : String :=
  "CheckBlock: btc.Block " ++ (lib.HashString bl.Hash
    ++ (" hooks too deep into the chain: " ++ (toString bl.Height ++ ("/"
    ++ (toString (ch.mem ch.BlockTreeEnd).Height ++ (" "
    ++ (lib.HashString bl.ParentHash ++ " - RPC_Result:bad-prevblk")))))))

/-- The part of `PreCheckBlock` that follows `bl.Height = prevblk.Height+1`, for
the parent `prevblk` found in the index. -/
def PreCheckBlock.linked (lib : Lib) (ch : Chain) (prevblk : Nat) (bl : Block) :
    (Option String × Bool × Bool) × Block :=
  -- Reject the block if it reaches into the chain deeper than our unwind buffer
  if prevblk ≠ ch.BlockTreeEnd
      ∧ ((ch.mem ch.BlockTreeEnd).Height : Int) - (bl.Height : Int)
          ≥ lib.MovingCheckopintDepth then
    ((some (PreCheckBlock.tooDeep lib ch bl), false, false), bl)
  -- Check proof of work
  else if bl.Bits ≠ lib.GetNextWorkRequired ch prevblk bl.BlockTime then
    ((some "CheckBlock: incorrect proof of work - RPC_Result:bad-diffbits", true, false), bl)
  -- Check timestamp against prev
  else if bl.BlockTime ≤ GetMedianTimePast ch.mem prevblk then
    ((some "CheckBlock: block's timestamp is too early - RPC_Result:time-too-old",
      true, false), bl)
  else
    -- Count block versions within the Majority Window
    PreCheckBlock.majority ch
      (PreCheckBlock.count ch.mem ch.Consensus.Window (some prevblk) bl)

/-- Method `Chain.PreCheckBlock`; `now` is `time.Now().Unix()`. Returns
`(er, dos, maybelater)` and the block. -/
def PreCheckBlock (lib : Lib) (ch : Chain) (now : Int) (bl : Block) :
    (Option String × Bool × Bool) × Block :=
  -- Size limits
  if bl.Raw.length < 81 ∨ (bl.Raw.length > lib.MAX_BLOCK_SIZE
      ∧ bl.SerializedSize lib > (lib.MAX_BLOCK_SIZE : Int)) then
    ((some "CheckBlock() : size limits failed - RPC_Result:bad-blk-length", true, false), bl)
  else if bl.Version = 0 then
    ((some "CheckBlock() : Block version 0 not allowed - RPC_Result:bad-version", true, false),
      bl)
  -- Check proof-of-work
  else if !lib.CheckProofOfWork bl.Hash bl.Bits then
    ((some "CheckBlock() : proof of work failed - RPC_Result:high-hash", true, false), bl)
  -- Check timestamp (must not be higher than now +2 hours)
  else if (bl.BlockTime : Int) > now + 2 * 60 * 60 then
    ((some "CheckBlock() : block timestamp too far in the future - RPC_Result:time-too-new",
      true, false), bl)
  else
    match ch.BlockIndex (lib.BIdx bl.Hash) with
    | some prv =>
      if (ch.mem prv).Parent = none then
        -- This is genesis block
        ((some "Genesis", false, false), bl)
      else
        ((some ("CheckBlock: " ++ (lib.HashString bl.Hash
          ++ " already in - RPC_Result:duplicate")), false, false), bl)
    | none =>
      match ch.BlockIndex (lib.BIdx bl.ParentHash) with
      | none =>
        ((some ("CheckBlock: " ++ (lib.HashString bl.Hash
          ++ " parent not found - RPC_Result:bad-prevblk")), false, true), bl)
      | some prevblk =>
        PreCheckBlock.linked lib ch prevblk
          { bl with Height := ((ch.mem prevblk).Height + 1) % 2^32 }

/-- The slice `exp` of `PostCheckBlock`: the expected start of the coinbase
script for a block at `Height`. -/
def PostCheckBlock.exp (Height : Nat) : List UInt8 :=
  if Height ≥ 0x800000 then
    if Height ≥ 0x80000000 then
      [5, Height.toUInt8, (Height / 2^8).toUInt8, (Height / 2^16).toUInt8,
        (Height / 2^24).toUInt8, 0]
    else
      [4, Height.toUInt8, (Height / 2^8).toUInt8, (Height / 2^16).toUInt8,
        (Height / 2^24).toUInt8]
  else
    [3, Height.toUInt8, (Height / 2^8).toUInt8, (Height / 2^16).toUInt8]

/-- The loop `for i:=1; i<len(bl.Txs); i++` of `PostCheckBlock` over
`bl.Txs[1:]`: whether it returns the error, or a panic. -/
def PostCheckBlock.multiple (lib : Lib) : List (Option Tx) → Except String Bool
  | [] => .ok false
  | none :: _ => .error "invalid memory address or nil pointer dereference"
  | some t :: rest =>
    if lib.IsCoinBase t then .ok true else PostCheckBlock.multiple lib rest

/-- The statements of `PostCheckBlock` from `if bl.BlockTime()>=BIP16SwitchTime`
on: the value given to `bl.VerifyFlags`. -/
def PostCheckBlock.flags (lib : Lib) (ch : Chain) (bl : Block) : Nat :=
  let f := if bl.BlockTime ≥ lib.BIP16SwitchTime then lib.VER_P2SH else 0
  let f := if bl.Majority_v3 ≥ ch.Consensus.EnforceUpgrade then f ||| lib.VER_DERSIG else f
  if bl.Version ≥ 4 ∧ bl.Majority_v4 ≥ ch.Consensus.EnforceUpgrade then
    f ||| lib.VER_CLTV
  else f

/-- The statement `if bl.Version()>=2 && bl.Majority_v2>=... { ... }` of
`PostCheckBlock`, on the slice `txs` of transactions: the error it returns with
(nil when control goes on), or a panic. -/
def PostCheckBlock.cbHeight (lib : Lib) (ch : Chain) (bl : Block)
    (txs : List (Option Tx)) : Except String (Option String) :=
  if bl.Version ≥ 2 ∧ bl.Majority_v2 ≥ ch.Consensus.EnforceUpgrade then
    match index txs 0 with
    | .error p => .error p
    | .ok t0 =>
      match deref t0 with
      | .error p => .error p
      | .ok t0 =>
        match index t0.TxIn 0 with
        | .error p => .error p
        | .ok in0 =>
          if in0.ScriptSig.length < (PostCheckBlock.exp bl.Height).length
              ∨ PostCheckBlock.exp bl.Height
                ≠ subslice in0.ScriptSig 0 (PostCheckBlock.exp bl.Height).length then
            .ok (some ("CheckBlock() : Unexpected block number in coinbase: "
              ++ (lib.HashString bl.Hash ++ " - RPC_Result:bad-cb-height")))
          else .ok none
  else .ok none

/-- The statements of the block `if !bl.Trusted { ... }` of `PostCheckBlock`
from `if len(bl.Txs)==0 || ...` on: the error it returns with (nil when it runs
to its end), or a panic. -/
def PostCheckBlock.satoshi (lib : Lib) (bl : Block)
    (txs : List (Option Tx)) : Except String (Option String) :=
  -- We need to be satoshi compatible
  match txs with
  | [] =>
    .ok (some ("CheckBlock() : first tx is not coinbase: "
      ++ (lib.HashString bl.Hash ++ " - RPC_Result:bad-cb-missing")))
  | none :: _ => .error "invalid memory address or nil pointer dereference"
  | some t0 :: rest =>
    if !lib.IsCoinBase t0 then
      .ok (some ("CheckBlock() : first tx is not coinbase: "
        ++ (lib.HashString bl.Hash ++ " - RPC_Result:bad-cb-missing")))
    else
      -- And again...
      match PostCheckBlock.multiple lib rest with
      | .error p => .error p
      | .ok true =>
        .ok (some ("CheckBlock() : more than one coinbase: "
          ++ (lib.HashString bl.Hash ++ " - RPC_Result:bad-cb-multiple")))
      | .ok false =>
        -- Check Merkle Root - that's importnant
        if (lib.GetMerkel txs).2 then
          .ok (some "CheckBlock(): duplicate transaction - RPC_Result:bad-txns-duplicate")
        else if (lib.GetMerkel txs).1 ≠ bl.MerkleRoot then
          .ok (some "CheckBlock() : Merkle Root mismatch - RPC_Result:bad-txnmrklroot")
        -- Check transactions - this is the most time consuming task
        else if !lib.CheckTransactions txs bl.Height bl.BlockTime then
          .ok (some "CheckBlock() : CheckTransactions() failed - RPC_Result:bad-tx")
        else .ok none

/-- The block `if !bl.Trusted { ... }` of `PostCheckBlock`, on the slice `txs`
of transactions: the error it returns with (nil when it runs to its end), or
a panic. -/
def PostCheckBlock.untrusted (lib : Lib) (ch : Chain) (bl : Block)
    (txs : List (Option Tx)) : Except String (Option String) :=
  match PostCheckBlock.cbHeight lib ch bl txs with
  | .error p => .error p
  | .ok (some e) => .ok (some e)
  | .ok none => PostCheckBlock.satoshi lib bl txs

/-- The first statement of `PostCheckBlock`: the transaction list is built when
`bl.Txs` is nil. -/
def PostCheckBlock.build (lib : Lib) (bl : Block) : Except String (Option String × Block) :=
  match bl.Txs with
  | none => bl.BuildTxList lib
  | some _ => .ok (none, bl)

/-- Method `Chain.PostCheckBlock`: a panic, or the returned error and the block. -/
def PostCheckBlock (lib : Lib) (ch : Chain) (bl : Block) :
    Except String (Option String × Block) :=
  match PostCheckBlock.build lib bl with
  | .error p => .error p
  | .ok (some e, bl) => .ok (some e, bl)
  | .ok (none, bl) =>
    let checks : Except String (Option String) :=
      if !bl.Trusted then PostCheckBlock.untrusted lib ch bl (bl.Txs.getD []) else .ok none
    match checks with
    | .error p => .error p
    | .ok (some e) => .ok (some e, bl)
    | .ok none => .ok (none, { bl with VerifyFlags := PostCheckBlock.flags lib ch bl })

/-- Method `Chain.CheckBlock`: a panic, or `(er, dos, maybelater)` and the block. -/
def CheckBlock (lib : Lib) (ch : Chain) (now : Int) (bl : Block) :
    Except String ((Option String × Bool × Bool) × Block) :=
  let r := PreCheckBlock lib ch now bl
  if r.1.1 = none then
    match PostCheckBlock lib ch r.2 with
    | .error p => .error p
    | .ok (er, bl) =>
      -- all post-check errors are DoS kind
      .ok ((er, if er ≠ none then true else r.1.2.1, r.1.2.2), bl)
  else
    .ok r

/-! ## Concrete values used to evaluate the chain model -/

/-- A simple stand-in for the double SHA-256, 32 bytes long. -/
def sampleHash (b : List UInt8) : List UInt8 :=
  (List.range 32).map (fun i => b.foldl (fun a v => a + v) 7 + i.toUInt8)

/-- The little-endian value of a byte list. -/
def leValue : List UInt8 → Nat
  | [] => 0
  | b :: rest => b.toNat + 256 * leValue rest

/-- The standard Bitcoin variable-length integer, read without a check that the
encoding is the shortest one; `(0, 0)` when bytes are missing. -/
def sampleVLen : List UInt8 → Int × Int
  | [] => (0, 0)
  | c :: rest =>
    if c < 0xfd then (c.toNat, 1)
    else if c = 0xfd then
      if rest.length < 2 then (0, 0) else (leValue (rest.take 2), 3)
    else if c = 0xfe then
      if rest.length < 4 then (0, 0) else (leValue (rest.take 4), 5)
    else
      if rest.length < 8 then (0, 0) else (leValue (rest.take 8), 9)

/-- The size of the shortest variable-length encoding of a value. -/
def sampleVLenSize (v : Nat) : Int :=
  if v < 0xfd then 1 else if v < 0x10000 then 3 else if v < 0x100000000 then 5 else 9

/-- A toy transaction format: a size byte `n`, a script length byte `k`, the `k`
bytes of the script of the only input, and padding up to `n` bytes. -/
def sampleNewTx : List UInt8 → Option Tx × Int
  | n :: k :: rest =>
    if 2 + k.toNat ≤ n.toNat ∧ n.toNat ≤ rest.length + 2 then
      (some { TxIn := [{ ScriptSig := rest.take k.toNat }],
              TxOut := [{ WasCoinbase := false }], Hash := none, Size := 0 }, n.toNat)
    else (none, 0)
  | _ => (none, 0)

/-- A toy Merkle root: the hash of the concatenated transaction hashes; mutated
when a hash occurs twice. -/
def sampleGetMerkel (txs : List (Option Tx)) : List UInt8 × Bool :=
  let hs := txs.map (fun t => ((t.bind (fun t => t.Hash)).getD []))
  (sampleHash hs.flatten, decide (¬ hs.Nodup))

/-- A concrete instance of the external constants and functions. -/
def sampleLib : Lib :=
  { MAX_BLOCK_SIZE := 1000000,
    VLen := sampleVLen,
    VLenSize := sampleVLenSize,
    NewSha2Hash := sampleHash,
    CheckProofOfWork := fun _ _ => true,
    BIdx := fun h => h.take 8,
    HashString := fun h => String.mk (h.map (fun b => Char.ofNat (97 + b.toNat % 16))),
    NewTx := sampleNewTx,
    IsCoinBase := fun t =>
      decide (t.TxIn.length = 1) && decide (2 ≤ (t.TxIn.map (fun i => i.ScriptSig.length)).sum),
    GetMerkel := sampleGetMerkel,
    VER_P2SH := 1,
    VER_DERSIG := 4,
    VER_CLTV := 512,
    MovingCheckopintDepth := 288,
    BIP16SwitchTime := 1333238400,
    GetNextWorkRequired := fun _ _ _ => 0x1d00ffff,
    CheckTransactions := fun _ _ _ => true }

/-- An 80-byte block header. -/
def sampleHeader (version : Nat) (parent merkle : List UInt8) (time : Nat) : List UInt8 :=
  PutUint32 version ++ parent ++ merkle ++ PutUint32 time ++ PutUint32 0x1d00ffff
    ++ PutUint32 0

/-- The header of the genesis block of the sample chain: version 1, time 1000. -/
def genesisHeader : List UInt8 :=
  sampleHeader 1 (List.replicate 32 0) (List.replicate 32 0) 1000

/-- The sample chain: the genesis block alone, at address 0. -/
def sampleChain : Chain :=
  { mem := fun _ =>
      { BlockHash := sampleHash genesisHeader, Height := 0, Parent := none, Childs := [],
        BlockSize := 81, TxCount := 1, Sigops := 0,
        BlockHeader := fun i => genesisHeader.getD i 0 },
    BlockTreeRoot := 0,
    BlockTreeEnd := 0,
    BlockIndex := fun k => if k = (sampleHash genesisHeader).take 8 then some 0 else none,
    Consensus := { Window := 1000, RejectBlock := 950, EnforceUpgrade := 750 } }

/-- A coinbase transaction in the toy format, with the script `[3, 1, 0, 0]`. -/
def sampleCoinbase : List UInt8 := [6, 4, 3, 1, 0, 0]

/-- The raw bytes of a block of the given version on top of the genesis block,
at time 2000, holding the sample coinbase, with `merkle` as its Merkle root
field. -/
def sampleRaw (version : Nat) (merkle : List UInt8) : List UInt8 :=
  sampleHeader version (sampleHash genesisHeader) merkle 2000 ++ [1] ++ sampleCoinbase

/-- The Merkle root of the sample coinbase under `sampleGetMerkel`. -/
def sampleRoot : List UInt8 := sampleHash (sampleHash sampleCoinbase)

/-- The block made by `NewBlock` from raw bytes (the zero block on failure). -/
def blockOf (raw : List UInt8) : Block := ((NewBlock sampleLib raw).1).getD Block.zero

/-! ## Notions used to state the chain properties -/

/-- The block passes the size, version, proof-of-work and future-timestamp checks
of `PreCheckBlock`. -/
def PassesBasic (lib : Lib) (now : Int) (bl : Block) : Prop :=
  ¬ (bl.Raw.length < 81 ∨ (bl.Raw.length > lib.MAX_BLOCK_SIZE
      ∧ bl.SerializedSize lib > (lib.MAX_BLOCK_SIZE : Int)))
  ∧ bl.Version ≠ 0
  ∧ lib.CheckProofOfWork bl.Hash bl.Bits = true
  ∧ ¬ ((bl.BlockTime : Int) > now + 2 * 60 * 60)

instance (lib : Lib) (now : Int) (bl : Block) : Decidable (PassesBasic lib now bl) := by
  unfold PassesBasic; infer_instance

/-- The error of `PreCheckBlock` for a block that fails the size limits. -/
def errBadBlkLength : String :=
  "CheckBlock() : size limits failed - RPC_Result:bad-blk-length"

/-- The raw bytes of a block of 1000001 bytes whose transaction count 1 is
encoded on three bytes (`fd 01 00`) instead of one. -/
def bigRaw : List UInt8 :=
  List.replicate 80 0 ++ (0xfd :: 1 :: 0 :: List.replicate 999918 0)

/-- The block that `NewBlock` makes of `bigRaw`. -/
def bigBlock : Block :=
  { Block.zero with
    Raw := bigRaw, Hash := sampleHash (subslice bigRaw 0 80), TxCount := 1, TxOffset := 83 }

/-- The raw bytes of a block whose parent hash is not the hash of any block of
`sampleChain`. -/
def orphanRaw : List UInt8 :=
  sampleHeader 1 (List.replicate 32 9) sampleRoot 2000 ++ [1] ++ sampleCoinbase

/-- The nodes met when walking up the parent links from `p`, at most `k` of
them, nearest first. -/
def parentChain (mem : Nat → BlockTreeNode) : Nat → Option Nat → List Nat
  | 0, _ => []
  | _ + 1, none => []
  | k + 1, some n => n :: parentChain mem k (mem n).Parent

/-- The number of nodes of `l` whose header version is at least `v`. -/
def versionCount (mem : Nat → BlockTreeNode) (v : Nat) (l : List Nat) : Nat :=
  l.countP (fun n => decide (v ≤ Uint32 (slice (mem n).BlockHeader 0 4)))

/-- A chain of 301 blocks above each other, the genesis block of `sampleChain`
at the bottom, whose tip is at height 300. -/
def deepChain : Chain :=
  { sampleChain with
    mem := fun n =>
      { BlockHash := sampleHash genesisHeader, Height := n,
        Parent := if n = 0 then none else some (n - 1), Childs := [n + 1],
        BlockSize := 0, TxCount := 0, Sigops := 0,
        BlockHeader := fun i => genesisHeader.getD i 0 },
    BlockTreeEnd := 300 }

/-- The block passes the checks that `PreCheckBlock` makes with its parent
`prevblk` before it counts versions: it does not hook too deep, its difficulty
bits are the required ones and its time is after the median time past. -/
def PassesContext (lib : Lib) (ch : Chain) (prevblk : Nat) (bl : Block) : Prop :=
  ¬ (prevblk ≠ ch.BlockTreeEnd
      ∧ ((ch.mem ch.BlockTreeEnd).Height : Int) - (bl.Height : Int) ≥ lib.MovingCheckopintDepth)
  ∧ bl.Bits = lib.GetNextWorkRequired ch prevblk bl.BlockTime
  ∧ ¬ (bl.BlockTime ≤ GetMedianTimePast ch.mem prevblk)

instance (lib : Lib) (ch : Chain) (prevblk : Nat) (bl : Block) :
    Decidable (PassesContext lib ch prevblk bl) := by
  unfold PassesContext; infer_instance

/-- A chain of six blocks of version 2 above each other with small consensus
parameters: a window of 3 blocks, 2 of which make a majority. The hash that
`sampleRaw` names as parent is the hash of the tip. -/
def upgradedChain : Chain :=
  { mem := fun n =>
      { BlockHash := sampleHash genesisHeader, Height := n,
        Parent := if n = 0 then none else some (n - 1), Childs := [n + 1],
        BlockSize := 0, TxCount := 0, Sigops := 0,
        BlockHeader := fun i =>
          (sampleHeader 2 (List.replicate 32 0) (List.replicate 32 0) 1000).getD i 0 },
    BlockTreeRoot := 0,
    BlockTreeEnd := 5,
    BlockIndex := fun k => if k = (sampleHash genesisHeader).take 8 then some 5 else none,
    Consensus := { Window := 3, RejectBlock := 2, EnforceUpgrade := 2 } }

/-- The value that `PostCheckBlock` is expected to leave in `VerifyFlags`: the
union of the three flags, each under its condition. -/
def expectedFlags (lib : Lib) (ch : Chain) (bl : Block) : Nat :=
  (if bl.BlockTime ≥ lib.BIP16SwitchTime then lib.VER_P2SH else 0)
    ||| (if bl.Majority_v3 ≥ ch.Consensus.EnforceUpgrade then lib.VER_DERSIG else 0)
    ||| (if bl.Version ≥ 4 ∧ bl.Majority_v4 ≥ ch.Consensus.EnforceUpgrade then lib.VER_CLTV
          else 0)

/-- The block returned by a call of `PostCheckBlock` that ends without error and
without panic, the zero block for any other call. -/
def checkedBlock (lib : Lib) (ch : Chain) (bl : Block) : Block :=
  match PostCheckBlock lib ch bl with
  | .ok (none, bl) => bl
  | _ => Block.zero

/-- A block of version 4 and time 1400000000 on the tip of `upgradedChain`, with
the counters that `PreCheckBlock` gives it there. -/
def v4Block : Block :=
  { blockOf (sampleHeader 4 (sampleHash genesisHeader) sampleRoot 1400000000 ++ [1]
      ++ [9, 4, 3, 6, 0, 0, 7, 7, 7]) with
    Height := 6, Majority_v2 := 3, Majority_v3 := 3, Majority_v4 := 2, Trusted := true }

/-- The error of `PostCheckBlock` for a block whose coinbase does not start with
the expected block height. -/
def errBadCbHeight (lib : Lib) (bl : Block) : String :=
  "CheckBlock() : Unexpected block number in coinbase: "
    ++ (lib.HashString bl.Hash ++ " - RPC_Result:bad-cb-height")

/-- The block after the first statement of `PostCheckBlock`, when it goes on
without error; the zero block otherwise. -/
def builtBlock (lib : Lib) (bl : Block) : Block :=
  match PostCheckBlock.build lib bl with
  | .ok (none, bl) => bl
  | _ => Block.zero

/-- The block returned by a call of `CheckBlock` that ends without error and
without panic, the zero block for any other call. -/
def acceptedBlock (lib : Lib) (ch : Chain) (now : Int) (bl : Block) : Block :=
  match CheckBlock lib ch now bl with
  | .ok ((none, _, _), bl) => bl
  | _ => Block.zero

/-- A trusted block on `sampleChain` whose header has 32 zero bytes as merkle
root, which is not the merkle root of its one transaction. -/
def trustedBadRoot : Block :=
  { blockOf (sampleRaw 1 (List.replicate 32 0)) with Trusted := true }

/-- The header timestamps of a node and of its ancestors, at most
`MedianTimeSpan` of them in all, the node first. -/
def lastTimes (mem : Nat → BlockTreeNode) (n : Nat) : List Nat :=
  (parentChain mem MedianTimeSpan (some n)).map (fun p => (mem p).Timestamp)

/-- A list of numbers sorted in ascending order. -/
def sortNats (l : List Nat) : List Nat := l.insertionSort (fun a b => a ≤ b)

/-- Nodes above each other, node 0 without parent, with the timestamps 1000,
1007, 1004, 1001, 1008, ... -/
def timedMem : Nat → BlockTreeNode := fun n =>
  { BlockHash := [], Height := n, Parent := if n = 0 then none else some (n - 1),
    Childs := [n + 1], BlockSize := 0, TxCount := 0, Sigops := 0,
    BlockHeader := fun i =>
      (sampleHeader 1 (List.replicate 32 0) (List.replicate 32 0)
        (1000 + (n * 7) % 10)).getD i 0 }

/-- The node `n` is the root of a finite tree with fewer than `k` levels of
child links below it: every walk down the child links from `n` ends after fewer
than `k` steps. -/
def treeWithin (mem : Nat → BlockTreeNode) : Nat → Nat → Bool
  | 0, _ => false
  | k + 1, n => (mem n).Childs.all (fun c => treeWithin mem k c)

/-- The node reached from `n` by the child links whose positions in `Childs`
are given by `path`, if each position exists. -/
def follow (mem : Nat → BlockTreeNode) : Nat → List Nat → Option Nat
  | n, [] => some n
  | n, i :: rest =>
    match (mem n).Childs[i]? with
    | none => none
    | some c => follow mem c rest

/-- The lexicographic order of paths: at the first position where they differ,
the first path takes the earlier child. -/
def lexLe : List Nat → List Nat → Prop
  | [], _ => True
  | _ :: _, [] => False
  | a :: as, b :: bs => a < b ∨ (a = b ∧ lexLe as bs)

/-- The node `leaf` is the farthest node below `n`, `d` links away: some path of
`d` child links leads from `n` to `leaf`, which has no child; no path from `n`
is longer, and the path to `leaf` is the first of the paths of `d` links in the
order of `Childs` at every level. -/
def Farthest (mem : Nat → BlockTreeNode) (n leaf d : Nat) : Prop :=
  ∃ path, path.length = d ∧ follow mem n path = some leaf ∧ (mem leaf).Childs = []
    ∧ (∀ p q, follow mem n p = some q → p.length ≤ d)
    ∧ (∀ p q, follow mem n p = some q → p.length = d → lexLe path p)

/-- A tree of five nodes: node 0 has the children 1 and 2, node 1 the child 3,
node 2 the child 4. -/
def treeMem : Nat → BlockTreeNode := fun n =>
  { BlockHash := [], Height := 0, Parent := none,
    Childs := if n = 0 then [1, 2] else if n = 1 then [3] else if n = 2 then [4] else [],
    BlockSize := 0, TxCount := 0, Sigops := 0, BlockHeader := fun _ => 0 }


/-! ## client/network/invs.go and client/usif/usif.go -/

/-- Package-level state of `network` and `common`, and the method
`TxInvNotify` of `OneConnection` (all declared outside the modelled files),
as far as `ProcessInv` uses them. -/
structure NetEnv where
  /-- Whether the key is in the map `ReceivedBlocks`. -/
  ReceivedBlocks : List UInt8 → Bool
  /-- The map `BlocksToGet`, a key being mapped to `b2g.Block.Height`. -/
  BlocksToGet : List UInt8 → Option Nat
  /-- The sum `len(BlocksToGet) + len(CachedBlocks) + len(NetBlocks)`. -/
  pendingBlocks : Nat
  /-- Value `common.CFG.TXPool.Enabled`. -/
  TXPoolEnabled : Bool
  /-- Method `c.TxInvNotify(hash)`. -/
  TxInvNotify : OneConnection → List UInt8 → OneConnection

/-- The body of the branch `if typ==2` of the loop of `ProcessInv`, after
`bhash` is made. -/
def ProcessInv.block (lib : Lib) (env : NetEnv) (c : OneConnection) (bhash : List UInt8) :
    OneConnection :=
  if !c.X.AllHeadersReceived then c
  else
    if !env.ReceivedBlocks (lib.BIdx bhash) then
      match env.BlocksToGet (lib.BIdx bhash) with
      | some Height =>
        let c := if c.Node.Height < Height then { c with Node := { c.Node with Height := Height } }
          else c
        { c with X := { c.X with GetBlocksDataNow := true } }
      | none => { c with X := { c.X with AllHeadersReceived := false } }
    else c

/-- The loop `for i:=0; i<cnt; i++` of `ProcessInv`, with `todo` iterations
left. The payload is a slice whose capacity is its length, as `FetchMessage`
makes it, so that a slice expression beyond the length panics. -/
def ProcessInv.loop (lib : Lib) (env : NetEnv) (pl : List UInt8) :
    Nat → Int → OneConnection → Except String OneConnection
  | 0, _, c => .ok c
  | todo + 1, of, c =>
    if of < 0 ∨ of + 4 > pl.length then .error "slice bounds out of range"
    else
      let typ := Uint32 (subslice pl of.toNat (of + 4).toNat)
      if typ = 2 then
        if of + 36 > pl.length then .error "slice bounds out of range"
        else
          let bhash := subslice pl (of + 4).toNat (of + 36).toNat
          ProcessInv.loop lib env pl todo (of + 36) (ProcessInv.block lib env c bhash)
      else if typ = 1 then
        if env.TXPoolEnabled then
          if env.pendingBlocks > 10 then ProcessInv.loop lib env pl todo (of + 36) c
          else if of + 36 > pl.length then .error "slice bounds out of range"
          else
            ProcessInv.loop lib env pl todo (of + 36)
              (env.TxInvNotify c (subslice pl (of + 4).toNat (of + 36).toNat))
        else ProcessInv.loop lib env pl todo (of + 36) c
      else ProcessInv.loop lib env pl todo (of + 36) c

/-- Method `OneConnection.ProcessInv`: a panic, or the connection afterwards. -/
def ProcessInv (lib : Lib) (env : NetEnv) (c : OneConnection) (pl : List UInt8) :
    Except String OneConnection :=
  if pl.length < 37 then .ok (DoS c (str "InvEmpty"))
  else
    let c := { c with X := { c.X with InvsRecieved := (c.X.InvsRecieved + 1) % 2^64 } }
    ProcessInv.loop lib env pl (lib.VLen pl).1.toNat (lib.VLen pl).2 c

/-- The statements `inv := new([36]byte)`, `PutUint32(inv[0:4], typ)` and
`copy(inv[4:36], h.Bytes())`: the 36 bytes of the record. -/
def makeInv (typ : Nat) (h : List UInt8) : List UInt8 :=
  let inv : Nat → UInt8 := fun _ => 0
  let inv := copy inv 0 4 (PutUint32 typ)
  let inv := copy inv 4 36 h
  slice inv 0 36

/-- The loop `for _, v := range OpenCons` of `NetRouteInv`, over the addresses
of the open connections in the order of the iteration; `heap` is the memory in
which the connections live. -/
def NetRouteInv.loop (typ : Nat) (inv : List UInt8) (fromConn : Option Nat) :
    List Nat → (Nat → OneConnection) → Nat → (Nat → OneConnection) × Nat
  | [], heap, cnt => (heap, cnt)
  | v :: rest, heap, cnt =>
    if some v ≠ fromConn then
      if (heap v).Node.DoNotRelayTxs ∧ typ = 1 then
        NetRouteInv.loop typ inv fromConn rest heap cnt
      else
        if fromConn = none ∧ (heap v).X.InvsRecieved = 0 then
          NetRouteInv.loop typ inv fromConn rest heap cnt
        else if (heap v).PendingInvs.length < 500 then
          NetRouteInv.loop typ inv fromConn rest
            (Function.update heap v
              { heap v with PendingInvs := (heap v).PendingInvs ++ [inv] })
            ((cnt + 1) % 2^64)
        else NetRouteInv.loop typ inv fromConn rest heap cnt
    else NetRouteInv.loop typ inv fromConn rest heap cnt

/-- Function `NetRouteInv(typ, h, fromConn)`: the memory of the connections
afterwards, the returned count, and whether the warning is sent to `NetAlerts`.
`OpenCons` gives the addresses of the open connections, `fromConn` is nil or an
address. -/
def NetRouteInv (typ : Nat) (h : List UInt8) (fromConn : Option Nat) (OpenCons : List Nat)
    (heap : Nat → OneConnection) : (Nat → OneConnection) × Nat × Bool :=
  let r := NetRouteInv.loop typ (makeInv typ h) fromConn OpenCons heap 0
  (r.1, r.2, decide (typ = 1 ∧ r.2 = 0))

/-- The loop of `SendInvToRandomPeer`, `cnt` counting the connections passed. -/
def SendInvToRandomPeer.loop (inv : List UInt8) (idx : Nat) :
    List Nat → (Nat → OneConnection) → Nat → (Nat → OneConnection)
  | [], heap, _ => heap
  | v :: rest, heap, cnt =>
    if idx = cnt then
      Function.update heap v { heap v with PendingInvs := (heap v).PendingInvs ++ [inv] }
    else SendInvToRandomPeer.loop inv idx rest heap (cnt + 1)

/-- Function `usif.SendInvToRandomPeer(typ, h)`: a panic, or the memory of the
connections afterwards. `rnd` is the number drawn by `rand.Intn`, used modulo
the number of open connections. -/
def SendInvToRandomPeer (typ : Nat) (h : List UInt8) (rnd : Nat) (OpenCons : List Nat)
    (heap : Nat → OneConnection) : Except String (Nat → OneConnection) :=
  if OpenCons.length = 0 then .error "invalid argument to Intn"
  else
    .ok (SendInvToRandomPeer.loop (makeInv typ h) (rnd % OpenCons.length) OpenCons heap 0)

/-! ## Notions used to state the properties of the inv functions -/

/-- Whether `NetRouteInv(typ, h, fromConn)` appends to the connection at `v`
when it meets it with the memory `heap`: the connection is not the source, it
is not a peer that wants no tx inv while `typ` is 1, it is not a peer that
never sent an inv while the source is nil, and it holds fewer than 500 pending
invs. -/
def routed (typ : Nat) (fromConn : Option Nat) (heap : Nat → OneConnection) (v : Nat) : Bool :=
  decide (some v ≠ fromConn)
    && !(decide ((heap v).Node.DoNotRelayTxs = true ∧ typ = 1))
    && !(decide (fromConn = none ∧ (heap v).X.InvsRecieved = 0))
    && decide ((heap v).PendingInvs.length < 500)

/-- The entries of an inv payload: `cnt` records of 36 bytes from the offset
`of` on, each one a type and a hash. -/
def invEntries (pl : List UInt8) : Nat → Nat → List (Nat × List UInt8)
  | 0, _ => []
  | cnt + 1, of =>
    (Uint32 (subslice pl of (of + 4)), subslice pl (of + 4) (of + 36))
      :: invEntries pl cnt (of + 36)

/-- What one iteration of the loop of `ProcessInv` does with an entry. -/
def processEntry (lib : Lib) (env : NetEnv) (c : OneConnection) (e : Nat × List UInt8) :
    OneConnection :=
  if e.1 = 2 then ProcessInv.block lib env c e.2
  else if e.1 = 1 then
    if env.TXPoolEnabled then
      if env.pendingBlocks > 10 then c else env.TxInvNotify c e.2
    else c
  else c

/-- The entry is a block inv whose hash is neither in `ReceivedBlocks` nor in
`BlocksToGet`. -/
def unknownBlock (lib : Lib) (env : NetEnv) (e : Nat × List UInt8) : Bool :=
  decide (e.1 = 2) && !env.ReceivedBlocks (lib.BIdx e.2)
    && (env.BlocksToGet (lib.BIdx e.2)).isNone

/-- A connection in its initial state that has received one inv message and
holds 500 pending invs. -/
def fullPeer : OneConnection :=
  { NewConnection with
    X := { NewConnection.X with InvsRecieved := 1 },
    PendingInvs := List.replicate 500 (makeInv 2 (List.replicate 32 0)) }

/-- An environment in which every block hash is in `BlocksToGet` at height 5 and
no block has been received. -/
def sampleEnv : NetEnv :=
  { ReceivedBlocks := fun _ => false, BlocksToGet := fun _ => some 5, pendingBlocks := 0,
    TXPoolEnabled := true, TxInvNotify := fun c _ => c }

/-- An inv payload with one entry, of type 2. -/
def oneBlockInv : List UInt8 := [1] ++ PutUint32 2 ++ List.replicate 32 7


/-! ## lib/chain/chain_tree.go: the functions that move the tip -/

/-- The outcome of a function that may panic, run with a bound on the number of
iterations and calls. -/
inductive Run (α : Type) where
  /-- The function returns. -/
  | ret (a : α)
  /-- The function panics. -/
  | panic (msg : String)
  /-- The bound is reached before the function returns. -/
  | more
  deriving DecidableEq, Repr

/-- A call of a method of the block store `ch.Blocks` or of the unspent database
`ch.Unspent`, or of `ch.Save`, that changes the state of the callee. The calls
about a block record the address of the tree node they are made for. -/
inductive Event where
  /-- Call `ch.Blocks.BlockInvalid(hash)`. -/
  | BlockInvalid (hash : List UInt8)
  /-- Call `ch.Blocks.BlockTrusted(hash)`. -/
  | BlockTrusted (hash : List UInt8)
  /-- Call `ch.Blocks.Sync()`. -/
  | BlocksSync
  /-- Call `ch.Unspent.CommitBlockTxs(changes, hash)` for the block of node `nxt`. -/
  | CommitBlockTxs (nxt : Nat) (hash : List UInt8)
  /-- Call `ch.Unspent.UndoBlockTxs(bl, hash)` for the block of node `tip`. -/
  | UndoBlockTxs (tip : Nat) (hash : List UInt8)
  /-- Call `ch.Unspent.Sync()`. -/
  | UnspentSync
  /-- Call `ch.Save()`. -/
  | Save
  deriving DecidableEq, Repr

/-- What the modelled code reads from outside `chain_tree.go`, each reading
given as a function of the calls made so far. -/
structure Store where
  /-- Variable `AbortNow`. -/
  AbortNow : List Event → Bool
  /-- Method `ch.Blocks.BlockGet(hash)`: the bytes, the flag `trusted` and the
  error. -/
  BlockGet : List Event → List UInt8 → List UInt8 × Bool × Option String
  /-- Method `ch.ProcessBlockTransactions(bl, height, lknown)`: the error, and the
  block as the call leaves it. -/
  ProcessBlockTransactions : List Event → Block → Nat → Nat → Option String × Block

/-- The chain together with the calls made so far. -/
structure St where
  ch : Chain
  log : List Event

/-- Assignment to a field of the node at the address `n`. -/
def setNode (s : St) (n : Nat) (f : BlockTreeNode → BlockTreeNode) : St :=
  { s with ch := { s.ch with mem := Function.update s.ch.mem n (f (s.ch.mem n)) } }

/-- One more call in the record. -/
def St.call (s : St) (e : Event) : St := { s with log := s.log ++ [e] }

/-- The loop `for { if end.Parent==n { return end }; end = end.Parent }` of
`FindPathTo`. -/
def FindPathTo.loop (mem : Nat → BlockTreeNode) (n : Nat) : Nat → Option Nat → Run Nat
  | _, none => .panic "invalid memory address or nil pointer dereference"
  | 0, some _ => .more
  | fuel + 1, some e =>
    if (mem e).Parent = some n then .ret e
    else FindPathTo.loop mem n fuel (mem e).Parent

/-- Method `n.FindPathTo(end)`: the returned pointer, nil or the address of a
node. -/
def FindPathTo (lib : Lib) (mem : Nat → BlockTreeNode) (fuel : Nat) (n end_ : Nat) :
    Run (Option Nat) :=
  if n = end_ then .ret none
  else if (mem end_).Height ≤ (mem n).Height then
    .panic "FindPathTo: End block is not higher then current"
  else
    match (mem n).Childs with
    | [] => .panic ("FindPathTo: Unknown path to block " ++ lib.HashString (mem end_).BlockHash)
    | [c] => .ret (some c) -- if there is only one child, do it fast
    | _ :: _ :: _ =>
      -- more then one children: go from the end until you reach the current node
      match FindPathTo.loop mem n fuel (some end_) with
      | .ret e => .ret (some e)
      | .panic msg => .panic msg
      | .more => .more

/-- The loops `for cur.Height > dst.Height { cur = cur.Parent }` and
`for cur.Height < dst.Height { dst = dst.Parent }` of `FirstCommonParent`: the
pointer that walks up, and the height `h` of the other node. -/
def FirstCommonParent.raise (mem : Nat → BlockTreeNode) (h : Nat) : Nat → Option Nat → Run Nat
  | _, none => .panic "invalid memory address or nil pointer dereference"
  | 0, some c => if (mem c).Height > h then .more else .ret c
  | fuel + 1, some c =>
    if (mem c).Height > h then FirstCommonParent.raise mem h fuel (mem c).Parent else .ret c

/-- The loop `for cur != dst { cur = cur.Parent; dst = dst.Parent }` of
`FirstCommonParent`. -/
def FirstCommonParent.lockstep (mem : Nat → BlockTreeNode) :
    Nat → Option Nat → Option Nat → Run (Option Nat)
  | 0, cur, dst => if cur ≠ dst then .more else .ret cur
  | fuel + 1, cur, dst =>
    if cur ≠ dst then
      match cur, dst with
      | none, _ => .panic "invalid memory address or nil pointer dereference"
      | some _, none => .panic "invalid memory address or nil pointer dereference"
      | some c, some d => FirstCommonParent.lockstep mem fuel (mem c).Parent (mem d).Parent
    else .ret cur

/-- Method `cur.FirstCommonParent(dst)`. -/
def FirstCommonParent (mem : Nat → BlockTreeNode) (fuel : Nat) (cur dst : Nat) :
    Run (Option Nat) :=
  if (mem cur).Height > (mem dst).Height then
    match FirstCommonParent.raise mem (mem dst).Height fuel (some cur) with
    | .ret cur => FirstCommonParent.lockstep mem fuel (some cur) (some dst)
    | .panic msg => .panic msg
    | .more => .more
  else
    match FirstCommonParent.raise mem (mem cur).Height fuel (some dst) with
    | .ret dst => FirstCommonParent.lockstep mem fuel (some cur) (some dst)
    | .panic msg => .panic msg
    | .more => .more

/-- The loop of `delChild` over `n.Childs`: `acc` holds the entries of `newChds`
written so far (`xxx` is its length) and `cap` is the length of `newChds`. -/
def delChild.loop (c : Nat) (cap : Nat) : List Nat → List Nat → Except String (List Nat)
  | [], acc => .ok acc
  | x :: rest, acc =>
    if x ≠ c then
      if acc.length < cap then delChild.loop c cap rest (acc ++ [x])
      else .error "index out of range"
    else delChild.loop c cap rest acc

/-- Method `n.delChild(c)`. -/
def delChild (s : St) (n c : Nat) : Run St :=
  if (s.ch.mem n).Childs.length = 0 then .panic "makeslice: len out of range"
  else
    match delChild.loop c ((s.ch.mem n).Childs.length - 1) (s.ch.mem n).Childs [] with
    | .error msg => .panic msg
    | .ok newChds =>
      if newChds.length ≠ (s.ch.mem n).Childs.length - 1 then .panic "Child not found"
      else .ret (setNode s n (fun node => { node with Childs := newChds }))

/-- Go `delete(ch.BlockIndex, key)`. -/
def deleteIndex (s : St) (key : List UInt8) : St :=
  { s with ch := { s.ch with BlockIndex := fun k => if k = key then none else s.ch.BlockIndex k } }

/-- The loop `for i := range cur.Childs` of `delAllChildren`, at the index `i`
with `todo` iterations left; `rec` is the method itself. -/
def delAllChildren.loop (lib : Lib) (rec : St → Nat → Run St) (cur : Nat) :
    Nat → Nat → St → Run St
  | 0, _, s => .ret s
  | todo + 1, i, s =>
    match (s.ch.mem cur).Childs[i]? with
    | none => .panic "index out of range"
    | some c =>
      match rec s c with
      | .ret s =>
        match (s.ch.mem cur).Childs[i]? with
        | none => .panic "index out of range"
        | some c =>
          let s := deleteIndex s (lib.BIdx (s.ch.mem c).BlockHash)
          let s := s.call (Event.BlockInvalid (s.ch.mem cur).BlockHash)
          delAllChildren.loop lib rec cur todo (i + 1) s
      | .panic msg => .panic msg
      | .more => .more

/-- Method `cur.delAllChildren(ch)`. -/
def delAllChildren (lib : Lib) : Nat → St → Nat → Run St
  | 0, _, _ => .more
  | fuel + 1, s, cur =>
    match delAllChildren.loop lib (delAllChildren lib fuel) cur (s.ch.mem cur).Childs.length 0 s
    with
    | .ret s => .ret (setNode s cur (fun node => { node with Childs := [] }))
    | .panic msg => .panic msg
    | .more => .more

/-- Method `ch.DeleteBranch(cur)`. -/
def DeleteBranch (lib : Lib) (fuel : Nat) (s : St) (cur : Nat) : Run St :=
  -- first disconnect it from the Parent
  let s := s.call (Event.BlockInvalid (s.ch.mem cur).BlockHash)
  let s := deleteIndex s (lib.BIdx (s.ch.mem cur).BlockHash)
  match (s.ch.mem cur).Parent with
  | none => .panic "invalid memory address or nil pointer dereference"
  | some p =>
    match delChild s p cur with
    | .ret s =>
      match delAllChildren lib fuel s cur with
      | .ret s => .ret (if !s.ch.DoNotSync then s.call Event.BlocksSync else s)
      | .panic msg => .panic msg
      | .more => .more
    | .panic msg => .panic msg
    | .more => .more

/-- Method `ch.UndoLastBlock()`. -/
def UndoLastBlock (lib : Lib) (env : Store) (s : St) : Run St :=
  let raw := (env.BlockGet s.log (s.ch.mem s.ch.BlockTreeEnd).BlockHash).1
  match (NewBlock lib raw).1 with
  | none => .panic "invalid memory address or nil pointer dereference"
  | some bl =>
    match bl.BuildTxList lib with
    | .error msg => .panic msg
    | .ok _ =>
      match (s.ch.mem s.ch.BlockTreeEnd).Parent with
      | none => .panic "invalid memory address or nil pointer dereference"
      | some p =>
        let s := s.call (Event.UndoBlockTxs s.ch.BlockTreeEnd (s.ch.mem p).BlockHash)
        .ret { s with ch := { s.ch with BlockTreeEnd := p } }

/-- The statements of the loop of `ParseTillBlock` from `bl.BuildTxList()` on,
for the block `bl` of the node `nxt`: the state, and whether the loop goes on. -/
def ParseTillBlock.commit (lib : Lib) (env : Store) (fuel : Nat) (s : St) (end_ nxt : Nat)
    (bl : Block) (trusted : Bool) : Run (St × Bool) :=
  match bl.BuildTxList lib with
  | .error msg => .panic msg
  | .ok (some _, _) =>
    match DeleteBranch lib fuel s nxt with
    | .ret s => .ret (s, false)
    | .panic msg => .panic msg
    | .more => .more
  | .ok (none, bl) =>
    let bl := { bl with Trusted := trusted }
    let r := env.ProcessBlockTransactions s.log bl (s.ch.mem nxt).Height (s.ch.mem end_).Height
    match r.1 with
    | some _ =>
      match DeleteBranch lib fuel s nxt with
      | .ret s => .ret (s, false)
      | .panic msg => .panic msg
      | .more => .more
    | none =>
      let bl := r.2
      let s := setNode s nxt (fun node => { node with Sigops := bl.Sigops })
      let s := if !trusted then s.call (Event.BlockTrusted bl.Hash) else s
      let s := s.call (Event.CommitBlockTxs nxt bl.Hash)
      .ret ({ s with ch := { s.ch with BlockTreeEnd := nxt } }, true)

/-- The body of the loop of `ParseTillBlock`: the state, and whether the loop
goes on. -/
def ParseTillBlock.step (lib : Lib) (env : Store) (fuel : Nat) (s : St) (end_ : Nat) :
    Run (St × Bool) :=
  match FindPathTo lib s.ch.mem fuel s.ch.BlockTreeEnd end_ with
  | .panic msg => .panic msg
  | .more => .more
  | .ret none => .ret (s, false)
  | .ret (some nxt) =>
    if (s.ch.mem nxt).BlockSize = 0 then .ret (s, false)
    else
      let r := env.BlockGet s.log (s.ch.mem nxt).BlockHash
      match r.2.2 with
      | some er => .panic ("Db.BlockGet(): " ++ er)
      | none =>
        match NewBlock lib r.1 with
        | (_, some _) =>
          match DeleteBranch lib fuel s nxt with
          | .ret s => .ret (s, false)
          | .panic msg => .panic msg
          | .more => .more
        | (none, none) => .panic "invalid memory address or nil pointer dereference"
        | (some bl, none) => ParseTillBlock.commit lib env fuel s end_ nxt bl r.2.1

/-- The loop `for !AbortNow && ch.BlockTreeEnd != end` of `ParseTillBlock`. -/
def ParseTillBlock.loop (lib : Lib) (env : Store) (fuel : Nat) (end_ : Nat) : Nat → St → Run St
  | 0, s => if !env.AbortNow s.log ∧ s.ch.BlockTreeEnd ≠ end_ then .more else .ret s
  | todo + 1, s =>
    if !env.AbortNow s.log ∧ s.ch.BlockTreeEnd ≠ end_ then
      match ParseTillBlock.step lib env fuel s end_ with
      | .ret (s, true) => ParseTillBlock.loop lib env fuel end_ todo s
      | .ret (s, false) => .ret s
      | .panic msg => .panic msg
      | .more => .more
    else .ret s

/-- The loop `for cur.Height > ch.BlockTreeEnd.Height` of `MoveToBlock`: the
pointer `cur` at the end of the loop, or nil when the method returns from inside
the loop. -/
def MoveToBlock.descend (mem : Nat → BlockTreeNode) (tipHeight : Nat) :
    Nat → Nat → Run (Option Nat)
  | 0, cur => if (mem cur).Height > tipHeight then .more else .ret (some cur)
  | fuel + 1, cur =>
    if (mem cur).Height > tipHeight then
      match (mem cur).Parent with
      | none => .panic "invalid memory address or nil pointer dereference"
      | some cur =>
        -- if cur.TxCount is zero, it means we dont yet have this block's data
        if (mem cur).TxCount = 0 then .ret none
        else MoveToBlock.descend mem tipHeight fuel cur
    else .ret (some cur)

/-- The loop `for tmp := ch.BlockTreeEnd; tmp != cur; tmp = tmp.Parent` of
`MoveToBlock`: the pointer `cur` at the end of the loop, or nil when the method
returns from inside the loop. -/
def MoveToBlock.meet (mem : Nat → BlockTreeNode) : Nat → Option Nat → Nat → Run (Option Nat)
  | 0, tmp, cur => if tmp ≠ some cur then .more else .ret (some cur)
  | fuel + 1, tmp, cur =>
    if tmp ≠ some cur then
      match (mem cur).Parent with
      | none => .panic "invalid memory address or nil pointer dereference"
      | some p =>
        if (mem p).TxCount = 0 then .ret none
        else
          match tmp with
          | none => .panic "invalid memory address or nil pointer dereference"
          | some t => MoveToBlock.meet mem fuel (mem t).Parent p
    else .ret (some cur)

/-- The loop `for ch.BlockTreeEnd != cur` of `MoveToBlock`: the state, and
whether the method goes on after the loop. -/
def MoveToBlock.undo (lib : Lib) (env : Store) (cur : Nat) : Nat → St → Run (St × Bool)
  | 0, s => if s.ch.BlockTreeEnd ≠ cur then .more else .ret (s, true)
  | fuel + 1, s =>
    if s.ch.BlockTreeEnd ≠ cur then
      if env.AbortNow s.log then .ret (s, false)
      else
        match UndoLastBlock lib env s with
        | .ret s => MoveToBlock.undo lib env cur fuel s
        | .panic msg => .panic msg
        | .more => .more
    else .ret (s, true)

/-- The statements of `ParseTillBlock` after its loop; `move` is the method
`MoveToBlock`. -/
def ParseTillBlock.finish (move : St → Nat → Run St) (env : Store) (fuel : Nat) (s : St)
    (end_ : Nat) : Run St :=
  let r : Run St :=
    if !env.AbortNow s.log ∧ s.ch.BlockTreeEnd ≠ end_ then
      match FindFarthestNode s.ch.mem fuel s.ch.BlockTreeRoot with
      | none => .more
      | some e => move s e.1
    else .ret s
  match r with
  | .ret s => .ret ((s.call Event.UnspentSync).call Event.Save)
  | .panic msg => .panic msg
  | .more => .more

/-- Method `ch.ParseTillBlock(end)`, given the method `MoveToBlock`. -/
def ParseTillBlock.run (move : St → Nat → Run St) (lib : Lib) (env : Store) (fuel : Nat)
    (s : St) (end_ : Nat) : Run St :=
  match ParseTillBlock.loop lib env fuel end_ fuel s with
  | .ret s => ParseTillBlock.finish move env fuel s end_
  | .panic msg => .panic msg
  | .more => .more

/-- Method `ch.MoveToBlock(dst)`; the bound `fuel` limits the iterations of each
loop and the depth of the calls between `MoveToBlock` and `ParseTillBlock`. -/
def MoveToBlock (lib : Lib) (env : Store) : Nat → St → Nat → Run St
  | 0, _, _ => .more
  | fuel + 1, s, dst =>
    match MoveToBlock.descend s.ch.mem (s.ch.mem s.ch.BlockTreeEnd).Height fuel dst with
    | .panic msg => .panic msg
    | .more => .more
    | .ret none => .ret s
    | .ret (some cur) =>
      -- At this point both "ch.BlockTreeEnd" and "cur" should be at the same height
      match MoveToBlock.meet s.ch.mem fuel (some s.ch.BlockTreeEnd) cur with
      | .panic msg => .panic msg
      | .more => .more
      | .ret none => .ret s
      | .ret (some cur) =>
        -- At this point "cur" is at the highest common block
        match MoveToBlock.undo lib env cur fuel s with
        | .panic msg => .panic msg
        | .more => .more
        | .ret (s, false) => .ret s
        | .ret (s, true) => ParseTillBlock.run (MoveToBlock lib env fuel) lib env fuel s dst

/-- Method `ch.ParseTillBlock(end)`. -/
def ParseTillBlock (lib : Lib) (env : Store) (fuel : Nat) (s : St) (end_ : Nat) : Run St :=
  ParseTillBlock.run (MoveToBlock lib env fuel) lib env fuel s end_

/-! ## Notions used to state the properties of the tree functions -/

/-- The node reached from `x` by `k` parent links, if there are that many. -/
def ancestorAt (mem : Nat → BlockTreeNode) : Nat → Nat → Option Nat
  | 0, x => some x
  | k + 1, x =>
    match (mem x).Parent with
    | none => none
    | some p => ancestorAt mem k p

/-- The tree is well formed: each node is in the `Childs` of its `Parent` and is
one higher than its parent. -/
def WellFormed (mem : Nat → BlockTreeNode) : Prop :=
  ∀ x p, (mem x).Parent = some p → x ∈ (mem p).Childs ∧ (mem x).Height = (mem p).Height + 1

/-- A node of the sample trees: the hash is 32 times the byte `n`. -/
def mkNode (n height : Nat) (parent : Option Nat) (childs : List Nat) : BlockTreeNode :=
  { BlockHash := List.replicate 32 n.toUInt8, Height := height, Parent := parent,
    Childs := childs, BlockSize := 100, TxCount := 1, Sigops := 0, BlockHeader := fun _ => 0 }

/-- The nodes of two sample trees, at the addresses 0 to 8. Node 0 is the root of
the first tree and has the children 1 and 2; node 3 is the child of 1; node 4
is the child of 2 and node 5 the child of 4. Node 6 is the root of the second
tree and has the children 7 and 8. -/
def forkTable : List BlockTreeNode :=
  [mkNode 0 0 none [1, 2], mkNode 1 1 (some 0) [3], mkNode 2 1 (some 0) [4],
   mkNode 3 2 (some 1) [], mkNode 4 2 (some 2) [5], mkNode 5 3 (some 4) [],
   mkNode 6 0 none [7, 8], mkNode 7 1 (some 6) [], mkNode 8 1 (some 6) []]

/-- The memory that holds the sample trees; every other address holds a node
without parent and without child. -/
def forkMem : Nat → BlockTreeNode := fun n => forkTable.getD n (mkNode n 0 none [])


/-- The node `d` is `n` or a descendant of `n`: some path of child links leads
from `n` to `d`. -/
def Reach (mem : Nat → BlockTreeNode) (n d : Nat) : Prop :=
  ∃ path, follow mem n path = some d

/-- The node `d` is a descendant of `n`: it is a child of `n`, or a descendant of
a child. -/
def Below (mem : Nat → BlockTreeNode) (n d : Nat) : Prop :=
  ∃ c, c ∈ (mem n).Childs ∧ Reach mem c d

/-- The memory `mem` is `mem0` with the field `Childs` set to nil in the nodes of
`S`. -/
def ClearedOn (mem0 : Nat → BlockTreeNode) (S : Nat → Prop) (mem : Nat → BlockTreeNode) :
    Prop :=
  ∀ x, (S x → mem x = { mem0 x with Childs := [] }) ∧ (¬ S x → mem x = mem0 x)

/-- The calls of the record, for a function that returns; none otherwise. -/
def callsOf (r : Run St) : List Event :=
  match r with
  | .ret s => s.log
  | _ => []

/-- The index of the state after a function that returns; the empty index
otherwise. -/
def indexOf (r : Run St) : List UInt8 → Option Nat :=
  match r with
  | .ret s => s.ch.BlockIndex
  | _ => fun _ => none

/-- The tip after a function that returns. -/
def tipOf (r : Run St) : Option Nat :=
  match r with
  | .ret s => some s.ch.BlockTreeEnd
  | _ => none

/-- The chain of the first sample tree of `forkMem`, with the tip at node 3; the
index holds the nodes 0 to 5. -/
def forkChain : Chain :=
  { mem := forkMem, BlockTreeRoot := 0, BlockTreeEnd := 3,
    BlockIndex := fun k =>
      (List.range 6).find? (fun n => decide (sampleLib.BIdx (forkMem n).BlockHash = k)),
    Consensus := { Window := 1000, RejectBlock := 950, EnforceUpgrade := 750 } }

/-- A store in which every block is present, trusted and accepted. -/
def sampleStore : Store :=
  { AbortNow := fun _ => false,
    BlockGet := fun _ _ => (sampleRaw 1 sampleRoot, true, none),
    ProcessBlockTransactions := fun _ bl _ _ => (none, bl) }

/-- What `delAllChildren` at the node `n` makes of a state `s` in which the
nodes of `S` are cleared already, in terms of the memory `mem0` before any
clearing: the nodes that `n` reaches are cleared too, the index loses entries
only, it has lost the keys of the nodes below `n` (unless they are in `S`) and
no key other than theirs, and the root and the tip stay. -/
def DelSpec (lib : Lib) (mem0 : Nat → BlockTreeNode) (S : Nat → Prop) (n : Nat) (s s1 : St) :
    Prop :=
  ClearedOn mem0 (fun x => S x ∨ Reach mem0 n x) s1.ch.mem
  ∧ (∀ k, s1.ch.BlockIndex k = none ∨ s1.ch.BlockIndex k = s.ch.BlockIndex k)
  ∧ (∀ d, Below mem0 n d → S d ∨ s1.ch.BlockIndex (lib.BIdx (mem0 d).BlockHash) = none)
  ∧ (∀ k, s1.ch.BlockIndex k ≠ s.ch.BlockIndex k →
      ∃ d, Below mem0 n d ∧ lib.BIdx (mem0 d).BlockHash = k)
  ∧ s1.ch.BlockTreeRoot = s.ch.BlockTreeRoot ∧ s1.ch.BlockTreeEnd = s.ch.BlockTreeEnd
  ∧ s1.ch.DoNotSync = s.ch.DoNotSync

/-- The state of the loop of `delAllChildren` at the node `n` before the
iteration `i`: as `DelSpec`, for the children before the position `i`. -/
def DelInv (lib : Lib) (mem0 : Nat → BlockTreeNode) (S : Nat → Prop) (n i : Nat) (s s1 : St) :
    Prop :=
  ClearedOn mem0 (fun x => S x ∨ ∃ c, c ∈ (mem0 n).Childs.take i ∧ Reach mem0 c x) s1.ch.mem
  ∧ (∀ k, s1.ch.BlockIndex k = none ∨ s1.ch.BlockIndex k = s.ch.BlockIndex k)
  ∧ (∀ c d, c ∈ (mem0 n).Childs.take i → Reach mem0 c d →
      S d ∨ s1.ch.BlockIndex (lib.BIdx (mem0 d).BlockHash) = none)
  ∧ (∀ k, s1.ch.BlockIndex k ≠ s.ch.BlockIndex k →
      ∃ d, Below mem0 n d ∧ lib.BIdx (mem0 d).BlockHash = k)
  ∧ s1.ch.BlockTreeRoot = s.ch.BlockTreeRoot ∧ s1.ch.BlockTreeEnd = s.ch.BlockTreeEnd
  ∧ s1.ch.DoNotSync = s.ch.DoNotSync


/-- The calls of `UndoBlockTxs` and `CommitBlockTxs` in a record of calls, in
their order: `(false, n)` for the undo of the block of the node `n`, `(true, n)`
for the commit of the block of the node `n`. -/
def moves : List Event → List (Bool × Nat)
  | [] => []
  | Event.UndoBlockTxs n _ :: rest => (false, n) :: moves rest
  | Event.CommitBlockTxs n _ :: rest => (true, n) :: moves rest
  | _ :: rest => moves rest

/-- The raw bytes are those of a block: `NewBlock` makes a block from them
without an error and `BuildTxList` returns no error on it. -/
def goodRaw (lib : Lib) (raw : List UInt8) : Bool :=
  match NewBlock lib raw with
  | (some bl, none) =>
    match bl.BuildTxList lib with
    | .ok (none, _) => true
    | _ => false
  | _ => false

/-- The node has its block data: `TxCount` and `BlockSize` are not zero, and at
any time `BlockGet` returns, without an error, the raw bytes of a block. -/
def HasData (lib : Lib) (env : Store) (mem : Nat → BlockTreeNode) (x : Nat) : Prop :=
  (mem x).TxCount ≠ 0 ∧ (mem x).BlockSize ≠ 0
    ∧ ∀ log, (env.BlockGet log (mem x).BlockHash).2.2 = none
        ∧ goodRaw lib (env.BlockGet log (mem x).BlockHash).1 = true

/-- Two memories hold the same tree: their nodes differ at most in `Sigops`. -/
def SameTree (mem mem1 : Nat → BlockTreeNode) : Prop :=
  ∀ x, ∃ sig, mem1 x = { mem x with Sigops := sig }


/-- The child links are consistent: every node in the `Childs` of `x` has `x` as
its `Parent` and is one higher than `x`. -/
def Linked (mem : Nat → BlockTreeNode) : Prop :=
  ∀ x c, c ∈ (mem x).Childs → (mem c).Parent = some x ∧ (mem c).Height = (mem x).Height + 1

/-- The nodes met when following `path` from `n`, the node `n` first. -/
def nodesOn (mem : Nat → BlockTreeNode) : Nat → List Nat → List Nat
  | n, [] => [n]
  | n, i :: rest =>
    n :: match (mem n).Childs[i]? with
      | none => []
      | some c => nodesOn mem c rest

/-- The path leads from `n` to `d` by child links, and every node on it, `n` and
`d` included, has `BlockSize > 0`. -/
def Walk (mem : Nat → BlockTreeNode) (n : Nat) (path : List Nat) (d : Nat) : Prop :=
  follow mem n path = some d ∧ ∀ x ∈ nodesOn mem n path, 0 < (mem x).BlockSize

/-- The invariant of the tip: `BlockTreeEnd` is reachable from `BlockTreeRoot` by
child links, and every node on the path has `BlockSize > 0`. -/
def TipInv (ch : Chain) : Prop :=
  ∃ path, Walk ch.mem ch.BlockTreeRoot path ch.BlockTreeEnd

/-- The memory `mem1` comes from `mem` by removing entries of `Childs` lists,
and only at nodes that satisfy `R`. -/
def Shrunk (mem mem1 : Nat → BlockTreeNode) (R : Nat → Prop) : Prop :=
  ∀ x, (∃ l, mem1 x = { mem x with Childs := l } ∧ l.Sublist (mem x).Childs)
    ∧ (¬ R x → mem1 x = mem x)

/-- The state of the tree that the methods of the chain keep: the child links
are consistent, the root has no parent, and the invariant of the tip holds. -/
def Good (ch : Chain) : Prop :=
  Linked ch.mem ∧ (ch.mem ch.BlockTreeRoot).Parent = none ∧ TipInv ch

/-- A store like `sampleStore` in which `ProcessBlockTransactions` fails. -/
def failStore : Store :=
  { sampleStore with ProcessBlockTransactions := fun _ bl _ _ => (some "bad block", bl) }


/-- Function `btc.GetBlockReward(height uint32) uint64`: the constant `50e8`
shifted right by `height/210000`. A shift of a `uint64` by 64 or more gives 0 in
Go, as the shift of a natural number does. -/
def GetBlockReward (height : Nat) : Nat := 5000000000 >>> (height / 210000)

/-- The sum of the rewards of the blocks at the heights below `n`. -/
def totalReward (n : Nat) : Nat := ∑ h ∈ Finset.range n, GetBlockReward h

/-- An inv payload of 37 bytes whose count byte announces two entries. -/
def twoCountInv : List UInt8 := [2] ++ PutUint32 2 ++ List.replicate 32 7

/-- An inv payload of 38 bytes: one announced entry of type 2, and one more
byte. -/
def longInv : List UInt8 := oneBlockInv ++ [0]

/-- A connection in its initial state that has received all headers. -/
def syncedPeer : OneConnection :=
  { NewConnection with X := { NewConnection.X with AllHeadersReceived := true } }

/-- The raw bytes of a block of 81 bytes: a header and the count byte 1, with no
byte of a transaction after it. -/
def noTxRaw : List UInt8 :=
  sampleHeader 1 (sampleHash genesisHeader) (List.replicate 32 0) 2000 ++ [1]

/-- The raw bytes of a block of 81 bytes whose count byte is 0. -/
def zeroCountRaw : List UInt8 :=
  sampleHeader 1 (sampleHash genesisHeader) (List.replicate 32 0) 2000 ++ [0]

/-- A tree of two nodes: the root 0, with its block data, and its child 1, of
which only the header is known (`BlockSize` and `TxCount` are 0). -/
def stubMem : Nat → BlockTreeNode := fun n =>
  if n = 0 then mkNode 0 0 none [1]
  else if n = 1 then { mkNode 1 1 (some 0) [] with BlockSize := 0, TxCount := 0 }
  else mkNode n 0 none []

/-- The chain of `stubMem`, with the tip at the root. -/
def stubChain : Chain := { forkChain with mem := stubMem, BlockTreeEnd := 0 }


/-- The two upward walks of `MoveToBlock(dst)` from the tip `tip`, the loops
`for cur.Height > ch.BlockTreeEnd.Height` and `for tmp := ch.BlockTreeEnd; tmp
!= cur; tmp = tmp.Parent`: the node `cur` at which the undoing stops (nil when
the method returns from inside a loop), or the panic. -/
def MoveToBlock.walks (mem : Nat → BlockTreeNode) (fuel tip dst : Nat) : Run (Option Nat) :=
  match MoveToBlock.descend mem (mem tip).Height fuel dst with
  | .panic msg => .panic msg
  | .more => .more
  | .ret none => .ret none
  | .ret (some cur) => MoveToBlock.meet mem fuel (some tip) cur

/-- The messages that `n` successive calls of `FetchMessage` return, with the
connection and the socket after the last call. -/
def fetchMany (x : Ext) : Nat → OneConnection → Sock → List BCmsg × OneConnection × Sock
  | 0, c, s => ([], c, s)
  | n + 1, c, s =>
    let r := FetchMessage x c s
    let rest := fetchMany x n r.2.1 r.2.2
    (r.1.toList ++ rest.1, rest.2.1, rest.2.2)

/-- The byte stream of one `ping` message with a payload of 8 bytes. -/
def pingStream : List UInt8 :=
  frame sampleExt (str "ping") [1, 2, 3, 4, 5, 6, 7, 8]

/-- A delivery in which the first read hands over the 24 bytes of the header
together with a timeout, and the second read the 8 bytes of the payload. -/
def timeoutScript : List (Nat × Option NetErr) := [(24, some .timeout), (8, none)]


/-! ## client/main.go -/

/-- The fields of `network.BlockRcvd` (declared outside the modelled files) that
the modelled code reads: the height and the hash of the block, and the
connection it came from. -/
structure BlockRcvd where
  Height : Nat
  Hash : List UInt8
  Conn : Nat
  deriving DecidableEq, Repr

/-- What `retry_cached_blocks` and `HandleNetBlock` use besides `CachedBlocks`,
over a state `W` of the rest of the program (the chain, the wallet, the
connections). `LocalAcceptBlock` is in main.go, but all it does is done by
functions outside the modelled files (`CommitBlock`, `TxMined`, the wallet);
neither it nor they name `CachedBlocks`. -/
structure MainEnv (W : Type) where
  /-- The field `common.BlockChain.BlockTreeEnd.Height`. -/
  tipHeight : W → Nat
  /-- Function `LocalAcceptBlock(newbl)`: the returned error and the state. -/
  LocalAcceptBlock : W → BlockRcvd → Option String × W
  /-- The call `newbl.Conn.DoS("LocalAcceptBl")`. -/
  ConnDoS : W → BlockRcvd → W
  /-- The variable `usif.Exit_now`. -/
  Exit_now : W → Bool

/-- The statements `e := LocalAcceptBlock(newbl); if e != nil { ...
newbl.Conn.DoS("LocalAcceptBl") }`: the returned error and the state. -/
def acceptOne {W : Type} (env : MainEnv W) (w : W) (newbl : BlockRcvd) : Option String × W :=
  let r := env.LocalAcceptBlock w newbl
  match r.1 with
  | some e => (some e, env.ConnDoS r.2 newbl)
  | none => (none, r.2)

/-- The loop `for idx < len(network.CachedBlocks)` of `retry_cached_blocks`, with
`todo` iterations left: the returned value, the state and `CachedBlocks`. -/
def retry_cached_blocks.loop {W : Type} (env : MainEnv W) (w : W) (cached : List BlockRcvd) :
    Nat → Nat → Bool × W × List BlockRcvd
  | 0, _ => (false, w, cached)
  | todo + 1, idx =>
    match cached[idx]? with
    | none => (false, w, cached)
    | some newbl =>
      if newbl.Height = (env.tipHeight w + 1) % 2^32 then
        let w := (acceptOne env w newbl).2
        if env.Exit_now w then (false, w, cached)
        else
          -- remove it from cache
          let cached := cached.take idx ++ cached.drop (idx + 1)
          (decide (cached.length > 0), w, cached)
      else retry_cached_blocks.loop env w cached todo (idx + 1)

/-- Function `retry_cached_blocks()`: the returned value, the state and
`CachedBlocks`. -/
def retry_cached_blocks {W : Type} (env : MainEnv W) (w : W) (cached : List BlockRcvd) :
    Bool × W × List BlockRcvd :=
  retry_cached_blocks.loop env w cached cached.length 0

/-- Function `HandleNetBlock(newbl)`: the state, `CachedBlocks` and the variable
`retryCachedBlocks`. -/
def HandleNetBlock {W : Type} (env : MainEnv W) (w : W) (cached : List BlockRcvd)
    (retryCachedBlocks : Bool) (newbl : BlockRcvd) : W × List BlockRcvd × Bool :=
  if (newbl.Height : Int) - (env.tipHeight w : Int) > 1 then
    -- it's not linking - keep it for later
    (w, cached ++ [newbl], retryCachedBlocks)
  else
    let r := acceptOne env w newbl
    match r.1 with
    | some _ => (r.2, cached, retryCachedBlocks)
    | none =>
      let q := retry_cached_blocks env r.2 cached
      (q.2.1, q.2.2, q.1)

/-- A sample state of the rest of the program: the height of the tip, the hashes
of the blocks handed to `LocalAcceptBlock`, in the order of the calls, and the
connections that were banned, in the order of the calls of `DoS`. -/
structure SampleWorld where
  tip : Nat
  tried : List (List UInt8)
  banned : List Nat
  deriving DecidableEq, Repr

/-- A sample of the rest of the program: a block is accepted, and becomes the
tip, when its hash is not empty; every call of `LocalAcceptBlock` and every call
of `DoS` is recorded in the state. -/
def sampleMain : MainEnv SampleWorld :=
  { tipHeight := fun w => w.tip,
    LocalAcceptBlock := fun w b =>
      if b.Hash = [] then (some "bad block", { w with tried := w.tried ++ [b.Hash] })
      else (none, { w with tip := b.Height, tried := w.tried ++ [b.Hash] }),
    ConnDoS := fun w b => { w with banned := w.banned ++ [b.Conn] },
    Exit_now := fun _ => false }

/-- Three cached blocks, at the heights 7, 5 and 5. -/
def sampleCache : List BlockRcvd :=
  [{ Height := 7, Hash := [1], Conn := 0 }, { Height := 5, Hash := [], Conn := 1 },
   { Height := 5, Hash := [2], Conn := 2 }]

/-! ## client/usif/usif.go: the memory pool -/

/-- The fields of `network.OneTxToSend` (declared outside the modelled files)
that the modelled code reads or writes. `Firstseen` is a time in nanoseconds. -/
structure OneTxToSend where
  Tx : Tx
  Data : List UInt8
  Own : Nat := 0
  Firstseen : Int := 0
  Volume : Nat := 0
  Fee : Nat := 0
  Sigops : Nat := 0
  deriving DecidableEq, Repr

/-- Functions of the packages `hex`, `script`, `btc` and `chain` that
`DecodeTxSops` and `LoadRawTx` call and that are defined outside the modelled
files. -/
structure TxLib where
  /-- Function `hex.DecodeString`: the bytes, or nil with an error. -/
  HexDecode : List UInt8 → Option (List UInt8)
  /-- Method `common.BlockChain.Unspent.UnspentGet`: the output, or nil. -/
  UnspentGet : TxPrevOut → Option TxOut
  /-- Function `script.VerifyTxScript(pk_script, i, tx, flags)`. -/
  VerifyTxScript : List UInt8 → Nat → Tx → Nat → Bool
  /-- Function `btc.IsP2SH`. -/
  IsP2SH : List UInt8 → Bool
  /-- Function `btc.GetP2SHSigOpCount`. -/
  GetP2SHSigOpCount : List UInt8 → Nat
  /-- Method `Tx.GetLegacySigOpCount`. -/
  GetLegacySigOpCount : Tx → Nat

/-- What `DecodeTxSops` returns besides the text `s`, which is not modelled. -/
structure Decoded where
  missinginp : Bool
  totinp : Nat
  totout : Nat
  sigops : Nat
  e : Option String
  deriving DecidableEq, Repr

/-- The loop `for i := range tx.TxIn` of `DecodeTxSops` over the inputs from the
index `i` on; `pool` is `network.TransactionsToSend`. The result has `totout`
0, as in the Go code when it returns from inside the loop. -/
def DecodeTxSops.inputs (lib : Lib) (tl : TxLib) (pool : List UInt8 → Option OneTxToSend)
    (tx : Tx) : List TxIn → Nat → Decoded → Decoded
  | [], _, r => r
  | inp :: rest, i, r =>
    let po : Option TxOut :=
      match pool (lib.BIdx inp.Input.Hash) with
      | some txinmem =>
        if inp.Input.Vout ≥ txinmem.Tx.TxOut.length then none
        else txinmem.Tx.TxOut[inp.Input.Vout]?
      | none => tl.UnspentGet inp.Input
    match po with
    | some po =>
      let ok := tl.VerifyTxScript po.Pk_script i tx
        (lib.VER_P2SH ||| lib.VER_DERSIG ||| lib.VER_CLTV)
      if !ok then
        { r with e := some "Invalid signature" }
      else
        let r := { r with totinp := (r.totinp + po.Value) % 2^64 }
        let r :=
          if tl.IsP2SH po.Pk_script then
            { r with sigops := (r.sigops + tl.GetP2SHSigOpCount inp.ScriptSig) % 2^64 }
          else r
        DecodeTxSops.inputs lib tl pool tx rest (i + 1) r
    | none =>
      DecodeTxSops.inputs lib tl pool tx rest (i + 1) { r with missinginp := true }

/-- Function `DecodeTxSops(tx)`, without the text it builds. The sums are those
of `uint64` values. -/
def DecodeTxSops (lib : Lib) (tl : TxLib) (pool : List UInt8 → Option OneTxToSend) (tx : Tx) :
    Decoded :=
  let r : Decoded :=
    { missinginp := false, totinp := 0, totout := 0,
      sigops := tl.GetLegacySigOpCount tx % 2^64, e := none }
  let r := DecodeTxSops.inputs lib tl pool tx tx.TxIn 0 r
  match r.e with
  | some _ => r
  | none => { r with totout := tx.TxOut.foldl (fun a o => (a + o.Value) % 2^64) 0 }

/-- The memory pool: `network.TransactionsToSend` and
`network.TransactionsToSendSize`. -/
structure Pool where
  TransactionsToSend : List UInt8 → Option OneTxToSend
  TransactionsToSendSize : Nat

/-- Function `LoadRawTx(buf)` at the time `now`: the memory pool afterwards. The
returned text is not modelled. -/
def LoadRawTx (lib : Lib) (tl : TxLib) (now : Int) (pool : Pool) (buf : List UInt8) : Pool :=
  let txd := match tl.HexDecode buf with
    | some d => d
    | none => buf
  -- At this place we should have raw transaction in txd
  match lib.NewTx txd with
  | (none, _) => pool
  | (some tx, le) =>
    if le ≠ txd.length then pool
    else
      let tx := { tx with Hash := some (lib.NewSha2Hash txd) }
      let key := lib.BIdx (lib.NewSha2Hash txd)
      if (pool.TransactionsToSend key).isSome then pool
      else
        let r := DecodeTxSops lib tl pool.TransactionsToSend tx
        match r.e with
        | some _ => pool
        | none =>
          let entry : OneTxToSend :=
            if r.missinginp then
              { Tx := tx, Data := txd, Own := 2, Firstseen := now, Volume := r.totout,
                Sigops := r.sigops }
            else
              { Tx := tx, Data := txd, Own := 1, Firstseen := now, Volume := r.totinp,
                Fee := (r.totinp + 2^64 - r.totout) % 2^64, Sigops := r.sigops }
          { TransactionsToSend := fun k => if k = key then some entry else pool.TransactionsToSend k,
            TransactionsToSendSize := (pool.TransactionsToSendSize + txd.length) % 2^64 }

/-- The arithmetic of `float64` that `SortedTxToSend.Less` uses: the conversions
from `uint64` and from `int`, the division and the comparison `<`, which is
false between a value and itself (also for a NaN). -/
structure Floats where
  F : Type
  ofUint64 : Nat → F
  ofInt : Int → F
  div : F → F → F
  lt : F → F → Bool
  lt_irrefl : ∀ x, lt x x = false

/-- The expression `float64(tl[i].Fee)/float64(len(tl[i].Data))`. -/
def spb (fl : Floats) (v : OneTxToSend) : fl.F :=
  fl.div (fl.ofUint64 v.Fee) (fl.ofInt v.Data.length)

/-- Method `SortedTxToSend.Less(i, j)`; an index outside the slice panics. -/
def SortedTxToSend.Less (fl : Floats) (tl : List OneTxToSend) (i j : Nat) : Except String Bool :=
  match tl[i]?, tl[j]? with
  | some vi, some vj =>
    let spb_i := spb fl vi
    let spb_j := spb fl vj
    .ok (fl.lt spb_j spb_i)
  | _, _ => .error "index out of range"

/-- The answers of `Less` on a slice, false where it panics. -/
def lessTable (fl : Floats) (tl : List OneTxToSend) (i j : Nat) : Bool :=
  match SortedTxToSend.Less fl tl i j with
  | .ok b => b
  | .error _ => false

/-- The statements of `MemoryPoolFees` up to `sort.Sort(sorted)`: the slice
`sorted` after the sort. `vals` holds the values of `TransactionsToSend` in the
order in which the `range` loop met them, which Go does not fix.

Modelled from the spec: `sort.Sort` is in the Go standard library; it reads
the data through `Len` and `Less` only and changes it through `Swap` only, so
the arrangement it makes is a function `srt` of the length and of the answers
of `Less` on the initial arrangement, given as the list of the initial
positions in their final order. -/
def MemoryPoolFees.sorted (fl : Floats) (srt : Nat → (Nat → Nat → Bool) → List Nat)
    (vals : List OneTxToSend) : List OneTxToSend :=
  (srt vals.length (lessTable fl vals)).filterMap (fun k => vals[k]?)

/-- A sample of the arithmetic: exact fractions `(numerator, denominator)`,
compared by cross multiplication. -/
def sampleFloats : Floats :=
  { F := Nat × Nat,
    ofUint64 := fun n => (n, 1),
    ofInt := fun n => (n.toNat, 1),
    div := fun a b => (a.1 * b.2, a.2 * b.1),
    lt := fun a b => decide (a.1 * b.2 < b.1 * a.2),
    lt_irrefl := fun x => by simp [Nat.mul_comm] }

/-- A sample of `sort.Sort`: the insertion sort of the positions. -/
def sampleSort (n : Nat) (less : Nat → Nat → Bool) : List Nat :=
  (List.range n).insertionSort (fun i j => less j i = false)

/-- A sample transaction with one input and one output of the value 2. -/
def spendTx : Tx :=
  { TxIn := [{ ScriptSig := [] }], TxOut := [{ WasCoinbase := false, Value := 2 }],
    Hash := none, Size := 0 }

/-- A library like `sampleLib` whose `NewTx` reads `spendTx` from any bytes. -/
def spendLib : Lib := { sampleLib with NewTx := fun raw => (some spendTx, raw.length) }

/-- A sample of the functions outside: every input is an unspent output of the
value 1, and every signature is valid. -/
def sampleTxLib : TxLib :=
  { HexDecode := fun _ => none,
    UnspentGet := fun _ => some { WasCoinbase := false, Value := 1 },
    VerifyTxScript := fun _ _ _ _ => true,
    IsP2SH := fun _ => false,
    GetP2SHSigOpCount := fun _ => 0,
    GetLegacySigOpCount := fun _ => 0 }

/-- The empty memory pool. -/
def emptyPool : Pool := { TransactionsToSend := fun _ => none, TransactionsToSendSize := 0 }

/-- A pool entry with the given fee, `n` bytes of data and time of first
sight. -/
def poolEntry (fee n : Nat) (seen : Int) : OneTxToSend :=
  { Tx := spendTx, Data := List.replicate n 0, Fee := fee, Firstseen := seen }

/-- The connection `ringNearEnd` after it was marked broken. -/
def ringBroken : OneConnection := { ringNearEnd with broken := true }

/-- A stream of 24 bytes that does not start with the magic: the bytes 1, 2, 3, 4
in the place of the magic, the command `ping`, the length 0, and in the checksum
field the first four bytes of the hash of the empty payload. -/
def badMagicStream : List UInt8 :=
  [1, 2, 3, 4] ++ cmdField (str "ping") ++ PutUint32 0 ++ slice (sampleExt.Sha2Sum []) 0 4

/-- A transaction without inputs. -/
def noInputTx : Tx :=
  { TxIn := [], TxOut := [{ WasCoinbase := false }], Hash := none, Size := 0 }

/-- A library like `sampleLib` whose `NewTx` reads `noInputTx` from any bytes. -/
def noInputLib : Lib := { sampleLib with NewTx := fun raw => (some noInputTx, raw.length) }

/-- The raw bytes of a block of version 2 on the tip of `upgradedChain`, at time
2000, with one transaction of 6 bytes. -/
def noInputRaw : List UInt8 :=
  sampleHeader 2 (sampleHash genesisHeader) sampleRoot 2000 ++ [1] ++ [1, 0, 0, 0, 0, 0]

/-! ## Theorems -/

theorem BytesToSent_lt (c : OneConnection)
    (hc : c.SendBufCons < SendBufSize) (hp : c.SendBufProd < SendBufSize) :
    BytesToSent c < SendBufSize := by
  unfold BytesToSent SendBufSize at *
  split <;> omega

/-- C3: for ring indices below `SendBufSize`, `BytesToSent` is
`(SendBufProd - SendBufCons) mod SendBufSize`, a value in `[0, SendBufSize)`. -/
theorem C3_BytesToSent_mod (c : OneConnection)
    (hc : c.SendBufCons < SendBufSize) (hp : c.SendBufProd < SendBufSize) :
    (BytesToSent c : Int) = ((c.SendBufProd : Int) - (c.SendBufCons : Int)) % (SendBufSize : Int)
      ∧ BytesToSent c < SendBufSize := by
  unfold BytesToSent SendBufSize at *
  split <;> constructor <;> omega

theorem C3_BytesToSent_mod_witness :
    (BytesToSent { NewConnection with SendBufProd := 5, SendBufCons := 4194300 } : Int)
      = ((5 : Int) - 4194300) % (SendBufSize : Int)
    ∧ BytesToSent { NewConnection with SendBufProd := 5, SendBufCons := 4194300 } < SendBufSize :=
  C3_BytesToSent_mod { NewConnection with SendBufProd := 5, SendBufCons := 4194300 }
    (by decide) (by decide)

theorem SendBufSize_eq : SendBufSize = 4194304 := rfl

theorem getD_take_lt (d : List UInt8) (r i : Nat) (h : i < r) :
    (d.take r).getD i 0 = d.getD i 0 := by
  simp [List.getD_eq_getElem?_getD, List.getElem?_take, h]

theorem getD_drop_add (d : List UInt8) (r i : Nat) :
    (d.drop r).getD i 0 = d.getD (r + i) 0 := by
  simp [List.getD_eq_getElem?_getD, List.getElem?_drop]

theorem append_sendBuf (c : OneConnection) (d : List UInt8)
    (hp : c.SendBufProd < SendBufSize) (hd : d.length ≤ SendBufSize)
    (k : Nat) (hk : k < SendBufSize) :
    (append_to_send_buffer c d).sendBuf k =
      if (k + SendBufSize - c.SendBufProd) % SendBufSize < d.length then
        d.getD ((k + SendBufSize - c.SendBufProd) % SendBufSize) 0
      else c.sendBuf k := by
  rw [SendBufSize_eq] at *
  unfold append_to_send_buffer
  simp only [SendBufSize_eq, ge_iff_le]
  by_cases h1 : d.length ≤ 4194304 - c.SendBufProd
  · rw [if_pos h1]
    have hbuf : ∀ b : Nat, (if 4194304 ≤ c.SendBufProd + d.length then
        ({ c with sendBuf := copy c.sendBuf c.SendBufProd 4194304 d, SendBufProd := 0 } : OneConnection)
        else { c with sendBuf := copy c.sendBuf c.SendBufProd 4194304 d, SendBufProd := b }).sendBuf
        = copy c.sendBuf c.SendBufProd 4194304 d := by
      intro b; split <;> rfl
    rw [hbuf]
    unfold copy
    by_cases h2 : c.SendBufProd ≤ k
    · have e : (k + 4194304 - c.SendBufProd) % 4194304 = k - c.SendBufProd := by omega
      rw [e]
      by_cases h3 : k - c.SendBufProd < d.length
      · rw [if_pos ⟨h2, hk, h3⟩, if_pos h3]
      · rw [if_neg (fun h => h3 h.2.2), if_neg h3]
    · have e : (k + 4194304 - c.SendBufProd) % 4194304 = k + 4194304 - c.SendBufProd := by omega
      rw [e, if_neg (fun h => h2 h.1), if_neg (by omega)]
  · rw [if_neg h1]
    show copy (copy c.sendBuf c.SendBufProd 4194304 (d.take (4194304 - c.SendBufProd))) 0 4194304
      (d.drop (4194304 - c.SendBufProd)) k = _
    unfold copy
    simp only [List.length_drop, List.length_take, Nat.zero_le, true_and, Nat.sub_zero]
    by_cases h2 : c.SendBufProd ≤ k
    · have e : (k + 4194304 - c.SendBufProd) % 4194304 = k - c.SendBufProd := by omega
      rw [e, if_neg (by omega), if_pos (by omega), if_pos (by omega)]
      exact getD_take_lt d _ _ (by omega)
    · have e : (k + 4194304 - c.SendBufProd) % 4194304 = k + 4194304 - c.SendBufProd := by omega
      rw [e]
      by_cases h3 : k + 4194304 - c.SendBufProd < d.length
      · rw [if_pos (by omega), if_pos h3, getD_drop_add]
        congr 1; omega
      · rw [if_neg (by omega), if_neg (by omega), if_neg h3]

theorem append_SendBufProd (c : OneConnection) (d : List UInt8)
    (hp : c.SendBufProd < SendBufSize) (hd : d.length ≤ SendBufSize) :
    (append_to_send_buffer c d).SendBufProd = (c.SendBufProd + d.length) % SendBufSize := by
  rw [SendBufSize_eq] at *
  unfold append_to_send_buffer
  simp only [SendBufSize_eq, ge_iff_le]
  split
  · split
    · show 0 = _; omega
    · show c.SendBufProd + d.length = _; omega
  · show c.SendBufProd + d.length - 4194304 = _; omega

theorem append_frame (c : OneConnection) (d : List UInt8) :
    (append_to_send_buffer c d).SendBufCons = c.SendBufCons
    ∧ (append_to_send_buffer c d).broken = c.broken
    ∧ (append_to_send_buffer c d).banit = c.banit
    ∧ (append_to_send_buffer c d).misbehave = c.misbehave
    ∧ (append_to_send_buffer c d).recv = c.recv
    ∧ (append_to_send_buffer c d).X = c.X
    ∧ (append_to_send_buffer c d).counters = c.counters := by
  unfold append_to_send_buffer
  simp only
  split
  · split <;> simp
  · simp

theorem append_BytesToSent (c : OneConnection) (d : List UInt8)
    (hp : c.SendBufProd < SendBufSize) (hc : c.SendBufCons < SendBufSize)
    (hd : BytesToSent c + d.length < SendBufSize) :
    BytesToSent (append_to_send_buffer c d) = BytesToSent c + d.length := by
  have h1 := append_SendBufProd c d hp (by omega)
  have h2 := (append_frame c d).1
  unfold BytesToSent at *
  rw [h1, h2]
  rw [SendBufSize_eq] at *
  split at hd <;> split <;> omega

theorem append_pendingBytes (c : OneConnection) (d : List UInt8)
    (hp : c.SendBufProd < SendBufSize) (hc : c.SendBufCons < SendBufSize)
    (hd : BytesToSent c + d.length < SendBufSize) :
    pendingBytes (append_to_send_buffer c d) = pendingBytes c ++ d := by
  unfold pendingBytes
  rw [append_BytesToSent c d hp hc hd, (append_frame c d).1]
  apply List.ext_getElem
  · simp
  · intro i h1 h2
    simp only [List.getElem_map, List.getElem_range]
    have hi : i < BytesToSent c + d.length := by simpa using h1
    rw [append_sendBuf c d hp (by omega) _ (Nat.mod_lt _ (by rw [SendBufSize_eq]; omega))]
    have hbts : BytesToSent c = if c.SendBufProd ≥ c.SendBufCons then
        c.SendBufProd - c.SendBufCons else c.SendBufProd + SendBufSize - c.SendBufCons := rfl
    by_cases hlt : i < BytesToSent c
    · rw [List.getElem_append_left (by simpa using hlt)]
      simp only [List.getElem_map, List.getElem_range]
      rw [if_neg]
      rw [SendBufSize_eq] at *
      split at hbts <;> omega
    · rw [List.getElem_append_right (by simpa using hlt)]
      simp only [List.length_map, List.length_range]
      have e : ((c.SendBufCons + i) % SendBufSize + SendBufSize - c.SendBufProd) % SendBufSize
          = i - BytesToSent c := by
        rw [SendBufSize_eq] at *
        split at hbts <;> omega
      rw [e, if_pos (by omega), List.getD_eq_getElem _ _ (by omega)]

theorem BytesToSent_congr (a b : OneConnection)
    (hp : a.SendBufProd = b.SendBufProd) (hc : a.SendBufCons = b.SendBufCons) :
    BytesToSent a = BytesToSent b := by
  unfold BytesToSent; rw [hp, hc]

theorem pendingBytes_congr (a b : OneConnection) (hs : a.sendBuf = b.sendBuf)
    (hp : a.SendBufProd = b.SendBufProd) (hc : a.SendBufCons = b.SendBufCons) :
    pendingBytes a = pendingBytes b := by
  unfold pendingBytes; rw [BytesToSent_congr a b hp hc, hs, hc]

/-- The shape of an accepted `SendRawMsg`: the two appends run on a state `c1`
that differs from `c` in statistics only, and the result differs from the
appended state in statistics only. -/
theorem SendRawMsg_accepted (x : Ext) (c : OneConnection) (cmd pl : List UInt8)
    (hb : c.broken = false) (hroom : pl.length + 24 < SendBufSize - BytesToSent c) :
    ∃ c1 c4 : OneConnection,
      SendRawMsg x c cmd pl = (none, c4)
      ∧ c1.sendBuf = c.sendBuf ∧ c1.SendBufProd = c.SendBufProd
      ∧ c1.SendBufCons = c.SendBufCons
      ∧ c4.sendBuf = (append_to_send_buffer
            (append_to_send_buffer c1 (slice (sbuf x cmd pl) 0 24)) pl).sendBuf
      ∧ c4.SendBufProd = (append_to_send_buffer
            (append_to_send_buffer c1 (slice (sbuf x cmd pl) 0 24)) pl).SendBufProd
      ∧ c4.SendBufCons = c.SendBufCons
      ∧ c4.broken = false ∧ c4.banit = c.banit ∧ c4.misbehave = c.misbehave
      ∧ c4.recv = c.recv := by
  refine ⟨{ c with
      counters := bump (bump c.counters (str "sent_" ++ cmd) 1) (str "sbts_" ++ cmd) pl.length,
      X := { c.X with LastCmdSent := cmd, LastBtsSent := pl.length % 2^32 } }, ?_⟩
  unfold SendRawMsg
  rw [if_neg (by simp [hb]), if_neg (by omega)]
  refine ⟨_, rfl, rfl, rfl, rfl, ?_⟩
  split <;> simp [(append_frame _ _).1, (append_frame _ _).2, hb]

theorem cmdField_eq (cmd : List UInt8) :
    cmdField cmd = (List.range 12).map (fun j => cmd.getD j 0) := by
  unfold cmdField
  apply List.ext_getElem
  · simp; omega
  · intro i h1 h2
    simp only [List.getElem_map, List.getElem_range]
    by_cases h : i < cmd.length
    · rw [List.getElem_append_left (by simp at h2 ⊢; omega)]
      simp [List.getElem?_eq_getElem h]
    · rw [List.getElem_append_right (by simp; omega)]
      simp [List.getElem?_eq_none (Nat.le_of_not_lt h)]

theorem sbuf_slice (x : Ext) (cmd pl : List UInt8) :
    slice (sbuf x cmd pl) 0 24 =
      slice x.Magic 0 4 ++ cmdField cmd ++ PutUint32 (pl.length % 2^32)
        ++ slice (x.Sha2Sum pl) 0 4 := by
  rw [cmdField_eq]
  simp [slice, sbuf, copy, PutUint32, List.range_succ]
  refine ⟨fun h => by simp [h], ?_⟩
  repeat' constructor
  all_goals (intro h; rw [List.getElem?_eq_none (by omega)]; rfl)

/-- The effect of an accepted `SendRawMsg` on the ring indices. -/
theorem ring_step (x : Ext) (c : OneConnection) (cmd pl : List UInt8)
    (hc : c.SendBufCons < SendBufSize) (hp : c.SendBufProd < SendBufSize)
    (hb : c.broken = false) (hroom : pl.length + 24 < SendBufSize - BytesToSent c) :
    (SendRawMsg x c cmd pl).2.SendBufCons < SendBufSize
    ∧ (SendRawMsg x c cmd pl).2.SendBufProd < SendBufSize
    ∧ BytesToSent (SendRawMsg x c cmd pl).2 = BytesToSent c + (pl.length + 24)
    ∧ BytesToSent (SendRawMsg x c cmd pl).2 ≤ SendBufSize - 1
    ∧ (SendRawMsg x c cmd pl).2.SendBufProd ≠ (SendRawMsg x c cmd pl).2.SendBufCons
    ∧ ((SendRawMsg x c cmd pl).2.SendBufProd = (SendRawMsg x c cmd pl).2.SendBufCons
        → BytesToSent (SendRawMsg x c cmd pl).2 = 0) := by
  obtain ⟨c1, c4, hs, h1s, h1p, h1c, h4s, h4p, h4c, -⟩ := SendRawMsg_accepted x c cmd pl hb hroom
  rw [hs]
  simp only
  have hlen : (slice (sbuf x cmd pl) 0 24).length = 24 := by simp [slice]
  have hb1 : BytesToSent c1 = BytesToSent c := BytesToSent_congr _ _ h1p h1c
  have hbt := BytesToSent_lt c hc hp
  have hA := append_BytesToSent c1 (slice (sbuf x cmd pl) 0 24) (h1p ▸ hp) (h1c ▸ hc)
    (by rw [hb1, hlen]; omega)
  have hAp := append_SendBufProd c1 (slice (sbuf x cmd pl) 0 24) (h1p ▸ hp)
    (by rw [hlen, SendBufSize_eq]; omega)
  have hAc := (append_frame c1 (slice (sbuf x cmd pl) 0 24)).1
  have hAplt : (append_to_send_buffer c1 (slice (sbuf x cmd pl) 0 24)).SendBufProd
      < SendBufSize := by
    rw [hAp]; exact Nat.mod_lt _ (by rw [SendBufSize_eq]; omega)
  have hB := append_BytesToSent (append_to_send_buffer c1 (slice (sbuf x cmd pl) 0 24)) pl
    hAplt (by rw [hAc, h1c]; exact hc) (by rw [hA, hb1, hlen]; omega)
  have hBp := append_SendBufProd (append_to_send_buffer c1 (slice (sbuf x cmd pl) 0 24)) pl
    hAplt (by omega)
  have hBc := (append_frame (append_to_send_buffer c1 (slice (sbuf x cmd pl) 0 24)) pl).1
  have h4 : BytesToSent c4 = BytesToSent c + (pl.length + 24) := by
    rw [BytesToSent_congr c4 _ h4p (by rw [h4c, hBc, hAc, h1c]), hB, hA, hb1, hlen]; omega
  have h4plt : c4.SendBufProd < SendBufSize := by
    rw [h4p, hBp]; exact Nat.mod_lt _ (by rw [SendBufSize_eq]; omega)
  have hne : c4.SendBufProd ≠ c4.SendBufCons := by
    intro he
    have : BytesToSent c4 = 0 := by unfold BytesToSent; rw [he]; simp
    omega
  exact ⟨h4c ▸ hc, h4plt, h4, by omega, hne, fun he => absurd he hne⟩

/-- C2, as stated, fails: on a broken connection whose ring indices are in range
and whose ring has room for the message, `SendRawMsg` reports no overflow and
returns without buffering anything, so `BytesToSent` stays as it was instead of
growing by `len(pl)+24`. -/
theorem C2_counterexample :
    ringBroken.SendBufCons < SendBufSize ∧ ringBroken.SendBufProd < SendBufSize
    ∧ ([1, 2, 3, 4, 5, 6, 7, 8] : List UInt8).length + 24 < SendBufSize - BytesToSent ringBroken
    ∧ (SendRawMsg sampleExt ringBroken (str "ping") [1, 2, 3, 4, 5, 6, 7, 8]).1 = none
    ∧ BytesToSent (SendRawMsg sampleExt ringBroken (str "ping") [1, 2, 3, 4, 5, 6, 7, 8]).2
        = BytesToSent ringBroken
    ∧ BytesToSent (SendRawMsg sampleExt ringBroken (str "ping") [1, 2, 3, 4, 5, 6, 7, 8]).2
        ≠ BytesToSent ringBroken + (([1, 2, 3, 4, 5, 6, 7, 8] : List UInt8).length + 24) := by
  decide

/-- C2 (amended): on ring indices below `SendBufSize`, a `SendRawMsg` call that
reports no overflow leaves both indices below `SendBufSize` and `BytesToSent`
at most `SendBufSize-1`, and the producer index equals the consumer index
afterwards only when no byte is pending. On a connection that is not broken the
call increases `BytesToSent` by exactly `len(pl)+24`, and the two indices differ
afterwards; on a broken connection it changes nothing. -/
theorem C2_SendRawMsg_ring_invariant (x : Ext) (c : OneConnection) (cmd pl : List UInt8)
    (hc : c.SendBufCons < SendBufSize) (hp : c.SendBufProd < SendBufSize)
    (hok : (SendRawMsg x c cmd pl).1 = none) :
    (SendRawMsg x c cmd pl).2.SendBufCons < SendBufSize
    ∧ (SendRawMsg x c cmd pl).2.SendBufProd < SendBufSize
    ∧ BytesToSent (SendRawMsg x c cmd pl).2 ≤ SendBufSize - 1
    ∧ ((SendRawMsg x c cmd pl).2.SendBufProd = (SendRawMsg x c cmd pl).2.SendBufCons
        → BytesToSent (SendRawMsg x c cmd pl).2 = 0)
    ∧ (c.broken = false →
        BytesToSent (SendRawMsg x c cmd pl).2 = BytesToSent c + (pl.length + 24)
        ∧ (SendRawMsg x c cmd pl).2.SendBufProd ≠ (SendRawMsg x c cmd pl).2.SendBufCons)
    ∧ (c.broken = true → (SendRawMsg x c cmd pl).2 = c) := by
  cases hb : c.broken with
  | true =>
    have e : SendRawMsg x c cmd pl = (none, c) := by
      unfold SendRawMsg
      rw [if_pos hb]
    rw [e]
    have hlt := BytesToSent_lt c hc hp
    refine ⟨hc, hp, Nat.le_sub_one_of_lt hlt, fun he => ?_, fun h => absurd h (by simp),
      fun _ => rfl⟩
    have he' : c.SendBufProd = c.SendBufCons := he
    unfold BytesToSent
    rw [he']
    simp
  | false =>
    have hroom : pl.length + 24 < SendBufSize - BytesToSent c := by
      by_contra hcon
      unfold SendRawMsg at hok
      rw [if_neg (by simp [hb]), if_pos (by omega)] at hok
      exact absurd hok (by simp)
    have r := ring_step x c cmd pl hc hp hb hroom
    exact ⟨r.1, r.2.1, r.2.2.2.1, r.2.2.2.2.2, fun _ => ⟨r.2.2.1, r.2.2.2.2.1⟩,
      fun h => absurd h (by simp)⟩

theorem C2_SendRawMsg_ring_invariant_witness :
    (SendRawMsg sampleExt ringNearEnd (str "ping") [1, 2, 3, 4, 5, 6, 7, 8]).2.SendBufCons
        < SendBufSize
    ∧ (SendRawMsg sampleExt ringNearEnd (str "ping") [1, 2, 3, 4, 5, 6, 7, 8]).2.SendBufProd
        < SendBufSize
    ∧ BytesToSent (SendRawMsg sampleExt ringNearEnd (str "ping") [1, 2, 3, 4, 5, 6, 7, 8]).2
        ≤ SendBufSize - 1
    ∧ BytesToSent (SendRawMsg sampleExt ringNearEnd (str "ping") [1, 2, 3, 4, 5, 6, 7, 8]).2
        = BytesToSent ringNearEnd + ([1, 2, 3, 4, 5, 6, 7, 8].length + 24)
    ∧ (SendRawMsg sampleExt ringNearEnd (str "ping") [1, 2, 3, 4, 5, 6, 7, 8]).2.SendBufProd
        ≠ (SendRawMsg sampleExt ringNearEnd (str "ping") [1, 2, 3, 4, 5, 6, 7, 8]).2.SendBufCons
    ∧ (SendRawMsg sampleExt ringBroken (str "ping") [1, 2, 3, 4, 5, 6, 7, 8]).2 = ringBroken :=
  ⟨(C2_SendRawMsg_ring_invariant sampleExt ringNearEnd (str "ping") [1, 2, 3, 4, 5, 6, 7, 8]
      (by decide) (by decide) (by decide)).1,
   (C2_SendRawMsg_ring_invariant sampleExt ringNearEnd (str "ping") [1, 2, 3, 4, 5, 6, 7, 8]
      (by decide) (by decide) (by decide)).2.1,
   (C2_SendRawMsg_ring_invariant sampleExt ringNearEnd (str "ping") [1, 2, 3, 4, 5, 6, 7, 8]
      (by decide) (by decide) (by decide)).2.2.1,
   ((C2_SendRawMsg_ring_invariant sampleExt ringNearEnd (str "ping") [1, 2, 3, 4, 5, 6, 7, 8]
      (by decide) (by decide) (by decide)).2.2.2.2.1 (by decide)).1,
   ((C2_SendRawMsg_ring_invariant sampleExt ringNearEnd (str "ping") [1, 2, 3, 4, 5, 6, 7, 8]
      (by decide) (by decide) (by decide)).2.2.2.2.1 (by decide)).2,
   (C2_SendRawMsg_ring_invariant sampleExt ringBroken (str "ping") [1, 2, 3, 4, 5, 6, 7, 8]
      (by decide) (by decide) (by decide)).2.2.2.2.2 (by decide)⟩

/-- C4, as stated, fails: with exactly 24 bytes free in the ring, an empty
payload needs 24 bytes, which is not more than the 24 that remain, yet
`SendRawMsg` reports the overflow and breaks the connection. -/
theorem C4_counterexample :
    ringAlmostFull.broken = false
    ∧ ringAlmostFull.SendBufCons < SendBufSize ∧ ringAlmostFull.SendBufProd < SendBufSize
    ∧ SendBufSize - BytesToSent ringAlmostFull = 24
    ∧ ¬ (([] : List UInt8).length + 24 > SendBufSize - BytesToSent ringAlmostFull)
    ∧ (SendRawMsg sampleExt ringAlmostFull (str "verack") []).1 = some "Send buffer overflow"
    ∧ (SendRawMsg sampleExt ringAlmostFull (str "verack") []).2.broken = true := by
  decide

/-- C4 (amended): on an unbroken connection `SendRawMsg` returns the
"Send buffer overflow" error and marks the connection broken if and only if
`len(pl)+24 >= SendBufSize - BytesToSent()`, so a write that would fill the
ring completely is refused as well; a write that needs strictly fewer bytes
than remain returns no error, leaves the connection unbroken and adds
`len(pl)+24` bytes to `BytesToSent()`. -/
theorem C4_overflow_iff (x : Ext) (c : OneConnection) (cmd pl : List UInt8)
    (hc : c.SendBufCons < SendBufSize) (hp : c.SendBufProd < SendBufSize)
    (hb : c.broken = false) :
    (((SendRawMsg x c cmd pl).1 = some "Send buffer overflow"
        ∧ (SendRawMsg x c cmd pl).2.broken = true)
      ↔ pl.length + 24 ≥ SendBufSize - BytesToSent c)
    ∧ (pl.length + 24 < SendBufSize - BytesToSent c →
        (SendRawMsg x c cmd pl).1 = none
        ∧ (SendRawMsg x c cmd pl).2.broken = false
        ∧ BytesToSent (SendRawMsg x c cmd pl).2 = BytesToSent c + (pl.length + 24)) := by
  have key : pl.length + 24 < SendBufSize - BytesToSent c →
      (SendRawMsg x c cmd pl).1 = none
        ∧ (SendRawMsg x c cmd pl).2.broken = false
        ∧ BytesToSent (SendRawMsg x c cmd pl).2 = BytesToSent c + (pl.length + 24) := by
    intro hroom
    obtain ⟨c1, c4, hs, -, -, -, -, -, -, h4b, -⟩ := SendRawMsg_accepted x c cmd pl hb hroom
    have h2 := ring_step x c cmd pl hc hp hb hroom
    rw [hs] at h2 ⊢
    exact ⟨rfl, h4b, h2.2.2.1⟩
  refine ⟨⟨fun h => ?_, fun h => ?_⟩, key⟩
  · by_contra hcon
    have := (key (by omega)).1
    rw [h.1] at this
    exact absurd this (by simp)
  · unfold SendRawMsg
    rw [if_neg (by simp [hb]), if_pos (by omega)]
    exact ⟨rfl, rfl⟩

theorem C4_overflow_iff_witness :
    (((SendRawMsg sampleExt ringNearEnd (str "ping") [1, 2, 3]).1 = some "Send buffer overflow"
        ∧ (SendRawMsg sampleExt ringNearEnd (str "ping") [1, 2, 3]).2.broken = true)
      ↔ [1, 2, 3].length + 24 ≥ SendBufSize - BytesToSent ringNearEnd)
    ∧ ([1, 2, 3].length + 24 < SendBufSize - BytesToSent ringNearEnd →
        (SendRawMsg sampleExt ringNearEnd (str "ping") [1, 2, 3]).1 = none
        ∧ (SendRawMsg sampleExt ringNearEnd (str "ping") [1, 2, 3]).2.broken = false
        ∧ BytesToSent (SendRawMsg sampleExt ringNearEnd (str "ping") [1, 2, 3]).2
          = BytesToSent ringNearEnd + ([1, 2, 3].length + 24)) :=
  C4_overflow_iff sampleExt ringNearEnd (str "ping") [1, 2, 3]
    (by decide) (by decide) (by decide)

/-- The pending bytes after an accepted `SendRawMsg`. -/
theorem SendRawMsg_pendingBytes (x : Ext) (c : OneConnection) (cmd pl : List UInt8)
    (hc : c.SendBufCons < SendBufSize) (hp : c.SendBufProd < SendBufSize)
    (hb : c.broken = false) (hroom : pl.length + 24 < SendBufSize - BytesToSent c) :
    (SendRawMsg x c cmd pl).1 = none
    ∧ pendingBytes (SendRawMsg x c cmd pl).2 = pendingBytes c ++ frame x cmd pl := by
  obtain ⟨c1, c4, hs, h1s, h1p, h1c, h4s, h4p, h4c, -⟩ := SendRawMsg_accepted x c cmd pl hb hroom
  rw [hs]
  refine ⟨rfl, ?_⟩
  show pendingBytes c4 = _
  have hlen : (slice (sbuf x cmd pl) 0 24).length = 24 := by simp [slice]
  have hb1 : BytesToSent c1 = BytesToSent c := BytesToSent_congr _ _ h1p h1c
  have hbt := (BytesToSent_lt c hc hp)
  have hA := append_BytesToSent c1 (slice (sbuf x cmd pl) 0 24) (h1p ▸ hp) (h1c ▸ hc)
    (by rw [hb1, hlen]; omega)
  have hAp := append_SendBufProd c1 (slice (sbuf x cmd pl) 0 24) (h1p ▸ hp)
    (by rw [hlen, SendBufSize_eq]; omega)
  have hAc := (append_frame c1 (slice (sbuf x cmd pl) 0 24)).1
  have hAplt : (append_to_send_buffer c1 (slice (sbuf x cmd pl) 0 24)).SendBufProd
      < SendBufSize := by
    rw [hAp]; exact Nat.mod_lt _ (by rw [SendBufSize_eq]; omega)
  have hBc := (append_frame (append_to_send_buffer c1 (slice (sbuf x cmd pl) 0 24)) pl).1
  rw [pendingBytes_congr c4 _ h4s h4p (by rw [h4c, hBc, hAc, h1c]),
    append_pendingBytes _ pl hAplt (by rw [hAc, h1c]; exact hc) (by rw [hA, hb1, hlen]; omega),
    append_pendingBytes c1 _ (h1p ▸ hp) (h1c ▸ hc) (by rw [hb1, hlen]; omega),
    pendingBytes_congr c1 c h1s h1p h1c, sbuf_slice]
  have hmod : pl.length % 2^32 = pl.length :=
    Nat.mod_eq_of_lt (by rw [SendBufSize_eq] at hroom; omega)
  rw [hmod]
  simp [frame]

/-- C5: for every accepted `SendRawMsg` (unbroken connection, ring indices below
`SendBufSize`, `len(pl)+24` strictly below the free space) the pending bytes of
the ring after the call are the pending bytes before it followed by the frame
`magic ++ cmd (12 bytes, truncated or NUL-padded) ++ len(pl) as u32 little
endian ++ first 4 bytes of Sha2Sum(pl) ++ pl`; no pending byte is overwritten,
also when the frame wraps around the end of the buffer. -/
theorem C5_SendRawMsg_appends_frame (x : Ext) (c : OneConnection) (cmd pl : List UInt8)
    (hc : c.SendBufCons < SendBufSize) (hp : c.SendBufProd < SendBufSize)
    (hb : c.broken = false) (hroom : pl.length + 24 < SendBufSize - BytesToSent c) :
    (SendRawMsg x c cmd pl).1 = none
    ∧ pendingBytes (SendRawMsg x c cmd pl).2 = pendingBytes c ++ frame x cmd pl :=
  SendRawMsg_pendingBytes x c cmd pl hc hp hb hroom

theorem C5_SendRawMsg_appends_frame_witness :
    (SendRawMsg sampleExt ringNearEnd (str "ping") [1, 2, 3]).1 = none
    ∧ pendingBytes (SendRawMsg sampleExt ringNearEnd (str "ping") [1, 2, 3]).2
      = pendingBytes ringNearEnd ++ frame sampleExt (str "ping") [1, 2, 3] :=
  C5_SendRawMsg_appends_frame sampleExt ringNearEnd (str "ping") [1, 2, 3]
    (by decide) (by decide) (by decide) (by decide)

theorem FlagsStep.refl (c : OneConnection) : FlagsStep c c := ⟨id, id⟩

theorem FlagsStep.trans {a b c : OneConnection} (h1 : FlagsStep a b) (h2 : FlagsStep b c) :
    FlagsStep a c := ⟨fun h => h2.1 (h1.1 h), fun h => h2.2 (h1.2 h)⟩

theorem FlagsStep.of_eq {c c' : OneConnection} (hb : c'.broken = c.broken)
    (hn : c'.banit = c.banit) : FlagsStep c c' := by
  unfold FlagsStep; rw [hb, hn]; exact ⟨id, id⟩

theorem DoS_flags (c : OneConnection) (why : List UInt8) : FlagsStep c (DoS c why) := by
  simp [FlagsStep, DoS]

theorem Disconnect_flags (c : OneConnection) : FlagsStep c (Disconnect c) := by
  simp [FlagsStep, Disconnect]

theorem HandleError_flags (c : OneConnection) (e : NetErr) :
    FlagsStep c (HandleError c e).2 := by
  cases e
  · exact FlagsStep.refl c
  · simp [FlagsStep, HandleError, Disconnect]

theorem Misbehave_flags (c : OneConnection) (why : List UInt8) (w : Int) :
    FlagsStep c (Misbehave c why w).2 := by
  unfold Misbehave
  simp only
  split
  · split
    · simp [FlagsStep]
    · exact FlagsStep.of_eq rfl rfl
  · exact FlagsStep.refl c

theorem SendRawMsg_flags (x : Ext) (c : OneConnection) (cmd pl : List UInt8) :
    FlagsStep c (SendRawMsg x c cmd pl).2 := by
  by_cases hb : c.broken = true
  · unfold SendRawMsg; rw [if_pos hb]; exact FlagsStep.refl c
  · have hb' : c.broken = false := by simpa using hb
    by_cases hroom : pl.length + 24 < SendBufSize - BytesToSent c
    · obtain ⟨c1, c4, hs, -, -, -, -, -, -, h4b, h4n, -⟩ := SendRawMsg_accepted x c cmd pl hb' hroom
      rw [hs]
      exact FlagsStep.of_eq (by rw [h4b, hb']) h4n
    · unfold SendRawMsg
      rw [if_neg hb, if_pos (by omega)]
      exact Disconnect_flags c

theorem hdrBody_flags (x : Ext) (c : OneConnection) (pending : List UInt8)
    (ev : Nat × Option NetErr) :
    (∀ c' p, FetchMessage.hdrBody x c pending ev = .ret c' p → FlagsStep c c')
    ∧ (∀ c' p, FetchMessage.hdrBody x c pending ev = .cont c' p → FlagsStep c c') := by
  unfold FetchMessage.hdrBody
  simp only
  split
  · refine ⟨fun c' p h => ?_, fun c' p h => by simp at h⟩
    simp only [Step.ret.injEq] at h
    rw [← h.1]
    refine FlagsStep.trans ?_ (HandleError_flags _ _)
    exact FlagsStep.of_eq rfl rfl
  · split
    · refine ⟨fun c' p h => ?_, fun c' p h => by simp at h⟩
      simp only [Step.ret.injEq] at h
      rw [← h.1]
      refine FlagsStep.trans ?_ (Disconnect_flags _)
      exact FlagsStep.of_eq rfl rfl
    · split
      · refine ⟨fun c' p h => ?_, fun c' p h => by simp at h⟩
        simp only [Step.ret.injEq] at h
        rw [← h.1]
        exact FlagsStep.of_eq rfl rfl
      · split
        · refine ⟨fun c' p h => by simp at h, fun c' p h => ?_⟩
          simp only [Step.cont.injEq] at h
          rw [← h.1]
          exact FlagsStep.of_eq rfl rfl
        · refine ⟨fun c' p h => by simp at h, fun c' p h => ?_⟩
          simp only [Step.cont.injEq] at h
          rw [← h.1]
          exact FlagsStep.of_eq rfl rfl

theorem hdrLoop_flags (x : Ext) (script : List (Nat × Option NetErr)) :
    ∀ (c : OneConnection) (pending : List UInt8),
      (∀ c' s, FetchMessage.hdrLoop x c pending script = .ret c' s → FlagsStep c c')
      ∧ (∀ c' s, FetchMessage.hdrLoop x c pending script = .next c' s → FlagsStep c c') := by
  induction script with
  | nil =>
    intro c pending
    unfold FetchMessage.hdrLoop
    split
    · exact ⟨fun c' s h => by simp only [Flow.ret.injEq] at h; rw [← h.1]; exact FlagsStep.refl c,
        fun c' s h => by simp at h⟩
    · exact ⟨fun c' s h => by simp at h,
        fun c' s h => by simp only [Flow.next.injEq] at h; rw [← h.1]; exact FlagsStep.refl c⟩
  | cons ev script ih =>
    intro c pending
    unfold FetchMessage.hdrLoop
    split
    · have hb := hdrBody_flags x c pending ev
      split
      · rename_i c1 p1 heq
        exact ⟨fun c' s h => by
            simp only [Flow.ret.injEq] at h; rw [← h.1]; exact hb.1 _ _ heq,
          fun c' s h => by simp at h⟩
      · rename_i c1 p1 heq
        have h1 := hb.2 _ _ heq
        exact ⟨fun c' s h => FlagsStep.trans h1 ((ih c1 p1).1 c' s h),
          fun c' s h => FlagsStep.trans h1 ((ih c1 p1).2 c' s h)⟩
    · exact ⟨fun c' s h => by simp at h,
        fun c' s h => by simp only [Flow.next.injEq] at h; rw [← h.1]; exact FlagsStep.refl c⟩

theorem step_ret_flags {c X : OneConnection} {p0 : List UInt8} (h : FlagsStep c X) :
    (∀ c' p, Step.ret X p0 = .ret c' p → FlagsStep c c')
    ∧ (∀ c' p, Step.ret X p0 = .cont c' p → FlagsStep c c') :=
  ⟨fun c' p e => by simp only [Step.ret.injEq] at e; rw [← e.1]; exact h,
   fun c' p e => by simp at e⟩

theorem step_cont_flags {c X : OneConnection} {p0 : List UInt8} (h : FlagsStep c X) :
    (∀ c' p, Step.cont X p0 = .ret c' p → FlagsStep c c')
    ∧ (∀ c' p, Step.cont X p0 = .cont c' p → FlagsStep c c') :=
  ⟨fun c' p e => by simp at e,
   fun c' p e => by simp only [Step.cont.injEq] at e; rw [← e.1]; exact h⟩

theorem datBody_flags (c : OneConnection) (pending : List UInt8)
    (ev : Nat × Option NetErr) :
    (∀ c' p, FetchMessage.datBody c pending ev = .ret c' p → FlagsStep c c')
    ∧ (∀ c' p, FetchMessage.datBody c pending ev = .cont c' p → FlagsStep c c') := by
  unfold FetchMessage.datBody
  simp only
  generalize SockRead pending ((c.recv.dat.getD []).length - c.recv.datlen) ev = r
  obtain ⟨got, e, p1⟩ := r
  simp only
  by_cases hpos : got.length > 0
  · simp only [hpos, if_true, true_and]
    split
    · exact step_ret_flags (by simp [FlagsStep, DoS])
    · cases e with
      | some err =>
        refine step_ret_flags ?_
        cases err <;> simp [FlagsStep, HandleError, Disconnect]
      | none =>
        dsimp only
        split
        · exact step_ret_flags (FlagsStep.of_eq rfl rfl)
        · exact step_cont_flags (FlagsStep.of_eq rfl rfl)
  · simp only [hpos, if_false, false_and]
    cases e with
    | some err =>
      refine step_ret_flags ?_
      cases err <;> simp [FlagsStep, HandleError, Disconnect]
    | none =>
      dsimp only
      split
      · exact step_ret_flags (FlagsStep.of_eq rfl rfl)
      · exact step_cont_flags (FlagsStep.of_eq rfl rfl)

theorem datLoop_flags (script : List (Nat × Option NetErr)) :
    ∀ (c : OneConnection) (pending : List UInt8),
      (∀ c' s, FetchMessage.datLoop c pending script = .ret c' s → FlagsStep c c')
      ∧ (∀ c' s, FetchMessage.datLoop c pending script = .next c' s → FlagsStep c c') := by
  induction script with
  | nil =>
    intro c pending
    unfold FetchMessage.datLoop
    split
    · exact ⟨fun c' s h => by simp only [Flow.ret.injEq] at h; rw [← h.1]; exact FlagsStep.refl c,
        fun c' s h => by simp at h⟩
    · exact ⟨fun c' s h => by simp at h,
        fun c' s h => by simp only [Flow.next.injEq] at h; rw [← h.1]; exact FlagsStep.refl c⟩
  | cons ev script ih =>
    intro c pending
    unfold FetchMessage.datLoop
    split
    · have hb := datBody_flags c pending ev
      split
      · rename_i c1 p1 heq
        exact ⟨fun c' s h => by
            simp only [Flow.ret.injEq] at h; rw [← h.1]; exact hb.1 _ _ heq,
          fun c' s h => by simp at h⟩
      · rename_i c1 p1 heq
        have h1 := hb.2 _ _ heq
        exact ⟨fun c' s h => FlagsStep.trans h1 ((ih c1 p1).1 c' s h),
          fun c' s h => FlagsStep.trans h1 ((ih c1 p1).2 c' s h)⟩
    · exact ⟨fun c' s h => by simp at h,
        fun c' s h => by simp only [Flow.next.injEq] at h; rw [← h.1]; exact FlagsStep.refl c⟩

theorem payload_flags (c : OneConnection) (s : Sock) :
    (∀ c' s', FetchMessage.payload c s = .ret c' s' → FlagsStep c c')
    ∧ (∀ c' s', FetchMessage.payload c s = .next c' s' → FlagsStep c c') := by
  unfold FetchMessage.payload
  simp only
  split
  · split
    · split
      · exact ⟨fun c' s' h => by
            simp only [Flow.ret.injEq] at h; rw [← h.1]; exact DoS_flags _ _,
          fun c' s' h => by simp at h⟩
      · have h1 : FlagsStep c { c with recv := { c.recv with
            dat := some (List.replicate c.recv.pl_len 0), datlen := 0 } } :=
          FlagsStep.of_eq rfl rfl
        exact ⟨fun c' s' h => FlagsStep.trans h1 ((datLoop_flags _ _ _).1 c' s' h),
          fun c' s' h => FlagsStep.trans h1 ((datLoop_flags _ _ _).2 c' s' h)⟩
    · exact datLoop_flags _ _ _
  · exact ⟨fun c' s' h => by simp at h,
      fun c' s' h => by simp only [Flow.next.injEq] at h; rw [← h.1]; exact FlagsStep.refl c⟩

theorem FetchMessage_flags (x : Ext) (c : OneConnection) (s : Sock) :
    FlagsStep c (FetchMessage x c s).2.1 := by
  unfold FetchMessage
  split
  · rename_i c1 s1 h1
    exact (hdrLoop_flags x _ _ _).1 _ _ h1
  · rename_i c1 s1 h1
    have f1 := (hdrLoop_flags x _ _ _).2 _ _ h1
    split
    · rename_i c2 s2 h2
      exact FlagsStep.trans f1 ((payload_flags _ _).1 _ _ h2)
    · rename_i c2 s2 h2
      have f2 := FlagsStep.trans f1 ((payload_flags _ _).2 _ _ h2)
      simp only
      split
      · exact FlagsStep.trans f2 (DoS_flags c2 (str "MsgBadChksum"))
      · exact FlagsStep.trans f2 (FlagsStep.of_eq rfl rfl)

theorem Op_run_flags (x : Ext) (c : OneConnection) (op : Op) : FlagsStep c (op.run x c) := by
  cases op with
  | DoS why => exact DoS_flags c why
  | Misbehave why w => exact Misbehave_flags c why w
  | Disconnect => exact Disconnect_flags c
  | HandleError e => exact HandleError_flags c e
  | SendRawMsg cmd pl => exact SendRawMsg_flags x c cmd pl
  | FetchMessage s => exact FetchMessage_flags x c s

theorem runOps_flags (x : Ext) (ops : List Op) :
    ∀ c : OneConnection, FlagsStep c (runOps x c ops) := by
  induction ops with
  | nil => intro c; exact FlagsStep.refl c
  | cons op ops ih =>
    intro c
    exact FlagsStep.trans (Op_run_flags x c op) (ih (op.run x c))

/-- C6: in every state reached from `NewConnection` by any sequence of `DoS`,
`Misbehave`, `Disconnect`, `HandleError`, `SendRawMsg` and `FetchMessage`
calls, `banit = true` implies `broken = true`; and if `broken` is set in such a
state it is still set after any further sequence of these calls. -/
theorem C6_banit_implies_broken (x : Ext) (ops more : List Op) :
    ((runOps x NewConnection ops).banit = true → (runOps x NewConnection ops).broken = true)
    ∧ ((runOps x NewConnection ops).broken = true →
        (runOps x (runOps x NewConnection ops) more).broken = true) :=
  ⟨(runOps_flags x ops NewConnection).2 (by simp [NewConnection]),
   (runOps_flags x more (runOps x NewConnection ops)).1⟩

theorem wrapInt_of_range (v : Int) (h1 : -2^63 ≤ v) (h2 : v < 2^63) : wrapInt v = v := by
  unfold wrapInt; omega

theorem Misbehave_score (c : OneConnection) (why : List UInt8) (w W : Int)
    (hinv : ScoreInv c) (hlo : 0 ≤ c.misbehave) (hhi : c.misbehave ≤ 999 + W)
    (hw0 : 0 ≤ w) (hwW : w ≤ W) (hW : W < 2^63 - 999) :
    ScoreInv (Misbehave c why w).2
    ∧ 0 ≤ (Misbehave c why w).2.misbehave
    ∧ (Misbehave c why w).2.misbehave ≤ 999 + W := by
  unfold ScoreInv at *
  unfold Misbehave
  by_cases hb : c.banit = true
  · simp only [hb, Bool.not_true, Bool.false_eq_true, if_false]
    exact ⟨by simpa [hb] using hinv, hlo, hhi⟩
  · have hb' : c.banit = false := by simpa using hb
    have hlt : c.misbehave < 1000 := by
      by_contra hcon
      exact hb (hinv.2 (by omega))
    have hwr : wrapInt (c.misbehave + w) = c.misbehave + w :=
      wrapInt_of_range _ (by omega) (by omega)
    simp only [hb', Bool.not_false, if_true, hwr]
    split
    · rename_i h; simp only; exact ⟨by simpa using h, by omega, by omega⟩
    · rename_i h; simp only [hb']; exact ⟨by simpa using h, by omega, by omega⟩

theorem MisbehaveAll_score (W : Int) (hW : W < 2^63 - 999) (ws : List Int) :
    ∀ c : OneConnection, ScoreInv c → 0 ≤ c.misbehave → c.misbehave ≤ 999 + W →
      (∀ w ∈ ws, 0 ≤ w ∧ w ≤ W) →
      ScoreInv (MisbehaveAll c ws) ∧ 0 ≤ (MisbehaveAll c ws).misbehave
        ∧ (MisbehaveAll c ws).misbehave ≤ 999 + W := by
  induction ws with
  | nil => intro c h1 h2 h3 _; exact ⟨h1, h2, h3⟩
  | cons w ws ih =>
    intro c h1 h2 h3 hws
    have hw := hws w (List.mem_cons_self _ _)
    have hstep := Misbehave_score c (str "x") w W h1 h2 h3 hw.1 hw.2 hW
    exact ih _ hstep.1 hstep.2.1 hstep.2.2 (fun v hv => hws v (List.mem_cons_of_mem _ hv))

/-- C7, as stated, fails: two `Misbehave` calls of weight 600 on a new
connection leave the score at 1200, above 1000. -/
theorem C7_counterexample :
    (∀ w ∈ [(600 : Int), 600], 0 ≤ w)
    ∧ (MisbehaveAll NewConnection [600, 600]).misbehave = 1200
    ∧ ¬ ((MisbehaveAll NewConnection [600, 600]).misbehave ≤ 1000) := by
  decide

/-- C7 (amended): for every sequence of `Misbehave` calls on a new connection
with weights between 0 and `W` (with `999 + W` within the range of an `int`),
the score stays between 0 and `999 + W`, and it is at least 1000 exactly when
the peer is banned; so it is below 1000 as long as the peer is not banned. -/
theorem C7_score_bound (W : Int) (hW0 : 0 ≤ W) (hW : W < 2^63 - 999) (ws : List Int)
    (hws : ∀ w ∈ ws, 0 ≤ w ∧ w ≤ W) :
    0 ≤ (MisbehaveAll NewConnection ws).misbehave
    ∧ (MisbehaveAll NewConnection ws).misbehave ≤ 999 + W
    ∧ ((MisbehaveAll NewConnection ws).banit = true
        ↔ 1000 ≤ (MisbehaveAll NewConnection ws).misbehave)
    ∧ ((MisbehaveAll NewConnection ws).banit = false
        → (MisbehaveAll NewConnection ws).misbehave < 1000) := by
  have h := MisbehaveAll_score W hW ws NewConnection
    (by simp [ScoreInv, NewConnection]) (by simp [NewConnection])
    (by simp [NewConnection]; omega) hws
  refine ⟨h.2.1, h.2.2, h.1, fun hb => ?_⟩
  by_contra hcon
  have := h.1.2 (by omega)
  rw [hb] at this
  exact absurd this (by simp)

theorem C7_score_bound_witness :
    0 ≤ (MisbehaveAll NewConnection [600, 0, 600, 600]).misbehave
    ∧ (MisbehaveAll NewConnection [600, 0, 600, 600]).misbehave ≤ 999 + 600
    ∧ ((MisbehaveAll NewConnection [600, 0, 600, 600]).banit = true
        ↔ 1000 ≤ (MisbehaveAll NewConnection [600, 0, 600, 600]).misbehave)
    ∧ ((MisbehaveAll NewConnection [600, 0, 600, 600]).banit = false
        → (MisbehaveAll NewConnection [600, 0, 600, 600]).misbehave < 1000) :=
  C7_score_bound 600 (by decide) (by decide) [600, 0, 600, 600] (by decide)

/-- C8: on a connection that is not banned, `Misbehave(why, w)` adds `w` to the
score (Go `int` addition; the exact sum whenever it fits an `int`), and it
returns true with `banit` and `broken` set if and only if the new score is at
least 1000, returning false with both flags unchanged otherwise; on a banned
connection it returns false and changes nothing. -/
theorem C8_Misbehave (c : OneConnection) (why : List UInt8) (w : Int) :
    (c.banit = false →
      (Misbehave c why w).2.misbehave = wrapInt (c.misbehave + w)
      ∧ (-2^63 ≤ c.misbehave + w ∧ c.misbehave + w < 2^63 →
          (Misbehave c why w).2.misbehave = c.misbehave + w)
      ∧ (((Misbehave c why w).1 = true ∧ (Misbehave c why w).2.banit = true
            ∧ (Misbehave c why w).2.broken = true)
          ↔ 1000 ≤ (Misbehave c why w).2.misbehave)
      ∧ ((Misbehave c why w).2.misbehave < 1000 →
          (Misbehave c why w).1 = false ∧ (Misbehave c why w).2.banit = false
            ∧ (Misbehave c why w).2.broken = c.broken))
    ∧ (c.banit = true → Misbehave c why w = (false, c)) := by
  constructor
  · intro hb
    unfold Misbehave
    simp only [hb, Bool.not_false, if_true]
    by_cases h : 1000 ≤ wrapInt (c.misbehave + w)
    · simp only [ge_iff_le, h, if_true]
      exact ⟨trivial, fun hr => wrapInt_of_range _ hr.1 hr.2, by simp, fun hlt => by omega⟩
    · simp only [ge_iff_le, h, if_false]
      exact ⟨trivial, fun hr => wrapInt_of_range _ hr.1 hr.2, by simp, fun _ => by simp [hb]⟩
  · intro hb
    unfold Misbehave
    simp [hb]

theorem C8_Misbehave_witness :
    (NewConnection.banit = false →
      (Misbehave NewConnection (str "x") 1000).2.misbehave
          = wrapInt (NewConnection.misbehave + 1000)
      ∧ (-2^63 ≤ NewConnection.misbehave + 1000 ∧ NewConnection.misbehave + 1000 < 2^63 →
          (Misbehave NewConnection (str "x") 1000).2.misbehave
            = NewConnection.misbehave + 1000)
      ∧ (((Misbehave NewConnection (str "x") 1000).1 = true
            ∧ (Misbehave NewConnection (str "x") 1000).2.banit = true
            ∧ (Misbehave NewConnection (str "x") 1000).2.broken = true)
          ↔ 1000 ≤ (Misbehave NewConnection (str "x") 1000).2.misbehave)
      ∧ ((Misbehave NewConnection (str "x") 1000).2.misbehave < 1000 →
          (Misbehave NewConnection (str "x") 1000).1 = false
            ∧ (Misbehave NewConnection (str "x") 1000).2.banit = false
            ∧ (Misbehave NewConnection (str "x") 1000).2.broken = NewConnection.broken))
    ∧ (NewConnection.banit = true →
        Misbehave NewConnection (str "x") 1000 = (false, NewConnection)) :=
  C8_Misbehave NewConnection (str "x") 1000

theorem slice_of_agree (a : Nat → UInt8) (H : List UInt8) (n lo hi : Nat)
    (hag : ∀ i, i < n → a i = H.getD i 0) (hn : hi ≤ n) (hH : hi ≤ H.length) :
    slice a lo hi = (H.drop lo).take (hi - lo) := by
  unfold slice
  apply List.ext_getElem
  · simp; omega
  · intro i h1 h2
    simp only [List.length_map, List.length_range] at h1
    simp only [List.getElem_map, List.getElem_range, List.getElem_take, List.getElem_drop]
    rw [hag _ (by omega), List.getD_eq_getElem _ _ (by omega)]

theorem hdrLoop_done (x : Ext) (c : OneConnection) (pending : List UInt8)
    (script : List (Nat × Option NetErr)) (h : ¬ c.recv.hdr_len < 24) :
    FetchMessage.hdrLoop x c pending script = .next c ⟨pending, script⟩ := by
  cases script <;> simp [FetchMessage.hdrLoop, h]

/-- One good read of the header loop: it runs to the end of the body, the header
bytes received so far still agree with `H`, and once all 24 have arrived the
length and command are decoded from them. -/
theorem hdrBody_good (x : Ext) (c : OneConnection) (H rest : List UInt8) (n : Nat)
    (hH : H.length = 24) (hmagic : H.take 4 = slice x.Magic 0 4)
    (hlt : c.recv.hdr_len < 24) (hn : 1 ≤ n)
    (hag : ∀ i, i < c.recv.hdr_len → c.recv.hdr i = H.getD i 0)
    (hb : c.broken = false) :
    ∃ c' : OneConnection,
      FetchMessage.hdrBody x c (H.drop c.recv.hdr_len ++ rest) (n, none)
        = .cont c' (H.drop c'.recv.hdr_len ++ rest)
      ∧ c.recv.hdr_len < c'.recv.hdr_len ∧ c'.recv.hdr_len ≤ 24
      ∧ (∀ i, i < c'.recv.hdr_len → c'.recv.hdr i = H.getD i 0)
      ∧ (c'.recv.hdr_len = 24 →
          c'.recv.pl_len = Uint32 ((H.drop 16).take 4)
          ∧ c'.recv.cmd = TrimRight ((H.drop 4).take 12))
      ∧ c'.recv.dat = c.recv.dat ∧ c'.recv.datlen = c.recv.datlen
      ∧ c'.broken = false ∧ c'.banit = c.banit := by
  have hm : min n (24 - c.recv.hdr_len) ≤ (H.drop c.recv.hdr_len).length := by
    simp [hH]
  have hgot : (H.drop c.recv.hdr_len ++ rest).take (min n (24 - c.recv.hdr_len))
      = (H.drop c.recv.hdr_len).take (min n (24 - c.recv.hdr_len)) := by
    rw [List.take_append_of_le_length hm]
  have hrest : (H.drop c.recv.hdr_len ++ rest).drop (min n (24 - c.recv.hdr_len))
      = H.drop (c.recv.hdr_len + min n (24 - c.recv.hdr_len)) ++ rest := by
    rw [List.drop_append_of_le_length hm, List.drop_drop, Nat.add_comm]
  have hlen : ((H.drop c.recv.hdr_len).take (min n (24 - c.recv.hdr_len))).length
      = min n (24 - c.recv.hdr_len) := by
    simp [hH]
  have hag' : ∀ i, i < c.recv.hdr_len + min n (24 - c.recv.hdr_len) →
      copy c.recv.hdr c.recv.hdr_len 24
        ((H.drop c.recv.hdr_len).take (min n (24 - c.recv.hdr_len))) i = H.getD i 0 := by
    intro i hi
    unfold copy
    by_cases h1 : c.recv.hdr_len ≤ i
    · rw [if_pos ⟨h1, by omega, by rw [hlen]; omega⟩, getD_take_lt _ _ _ (by omega),
        List.getD_eq_getElem?_getD, List.getElem?_drop, ← List.getD_eq_getElem?_getD]
      congr 1; omega
    · rw [if_neg (fun h => h1 h.1)]
      exact hag i (by omega)
  unfold FetchMessage.hdrBody SockRead
  simp only [hgot, hrest, hlen]
  have hmag : ¬ (c.recv.hdr_len + min n (24 - c.recv.hdr_len) ≥ 4 ∧
      slice (copy c.recv.hdr c.recv.hdr_len 24
        ((H.drop c.recv.hdr_len).take (min n (24 - c.recv.hdr_len)))) 0 4
        ≠ slice x.Magic 0 4) := by
    rintro ⟨h4, hne⟩
    apply hne
    rw [slice_of_agree _ H _ 0 4 hag' h4 (by omega), ← hmagic]
    simp
  rw [if_neg hmag, if_neg (by simp [hb])]
  by_cases h24 : c.recv.hdr_len + min n (24 - c.recv.hdr_len) ≥ 24
  · rw [if_pos h24]
    refine ⟨_, rfl, ?_, ?_, hag', fun _ => ⟨?_, ?_⟩, rfl, rfl, hb, rfl⟩
    · show c.recv.hdr_len < c.recv.hdr_len + min n (24 - c.recv.hdr_len); omega
    · show c.recv.hdr_len + min n (24 - c.recv.hdr_len) ≤ 24; omega
    · show Uint32 (slice _ 16 20) = _
      rw [slice_of_agree _ H _ 16 20 hag' (by omega) (by omega)]
    · show TrimRight (slice _ 4 16) = _
      rw [slice_of_agree _ H _ 4 16 hag' (by omega) (by omega)]
  · rw [if_neg h24]
    refine ⟨_, rfl, ?_, ?_, hag', fun h => ?_, rfl, rfl, hb, rfl⟩
    · show c.recv.hdr_len < c.recv.hdr_len + min n (24 - c.recv.hdr_len); omega
    · show c.recv.hdr_len + min n (24 - c.recv.hdr_len) ≤ 24; omega
    · exact absurd h (by show ¬ (c.recv.hdr_len + min n (24 - c.recv.hdr_len) = 24); omega)

/-- The header loop on a good script that is long enough: it ends with the
whole header `H` received and decoded, having consumed exactly the bytes of
the header that were still missing. -/
theorem hdrLoop_good (x : Ext) (H rest : List UInt8)
    (hH : H.length = 24) (hmagic : H.take 4 = slice x.Magic 0 4)
    (script : List (Nat × Option NetErr)) :
    ∀ c : OneConnection, GoodScript script → c.recv.hdr_len < 24 →
      24 - c.recv.hdr_len ≤ script.length →
      (∀ i, i < c.recv.hdr_len → c.recv.hdr i = H.getD i 0) → c.broken = false →
      ∃ (c' : OneConnection) (script' : List (Nat × Option NetErr)),
        FetchMessage.hdrLoop x c (H.drop c.recv.hdr_len ++ rest) script
          = .next c' ⟨rest, script'⟩
        ∧ slice c'.recv.hdr 0 24 = H ∧ c'.recv.hdr_len = 24
        ∧ c'.recv.pl_len = Uint32 ((H.drop 16).take 4)
        ∧ c'.recv.cmd = TrimRight ((H.drop 4).take 12)
        ∧ c'.recv.dat = c.recv.dat ∧ c'.recv.datlen = c.recv.datlen
        ∧ c'.broken = false ∧ c'.banit = c.banit
        ∧ GoodScript script'
        ∧ script.length ≤ script'.length + (24 - c.recv.hdr_len) := by
  induction script with
  | nil =>
    intro c _ hlt hlen
    simp at hlen
    omega
  | cons ev script ih =>
    intro c hgood hlt hlen hag hb
    obtain ⟨n, e⟩ := ev
    have hev := hgood (n, e) (List.mem_cons_self _ _)
    simp only at hev
    obtain ⟨hn, he⟩ := hev
    subst he
    have hgood' : GoodScript script := fun v hv => hgood v (List.mem_cons_of_mem _ hv)
    obtain ⟨c1, hbody, hgrow, hle, hag1, hdec, hdat, hdl, hb1, hban1⟩ :=
      hdrBody_good x c H rest n hH hmagic hlt hn hag hb
    unfold FetchMessage.hdrLoop
    rw [if_pos hlt, hbody]
    simp only
    by_cases h24 : c1.recv.hdr_len < 24
    · obtain ⟨c', script', hloop, h1, h2, h3, h4, h5, h6, h7, h8, h9, h10⟩ :=
        ih c1 hgood' h24 (by simp only [List.length_cons] at hlen; omega) hag1 hb1
      refine ⟨c', script', hloop, h1, h2, h3, h4, by rw [h5, hdat], by rw [h6, hdl], h7,
        by rw [h8, hban1], h9, ?_⟩
      simp only [List.length_cons]; omega
    · have h24' : c1.recv.hdr_len = 24 := by omega
      rw [hdrLoop_done x c1 _ script h24]
      have hd : H.drop c1.recv.hdr_len = [] := by
        rw [h24']; exact List.drop_of_length_le (by omega)
      rw [hd, List.nil_append]
      refine ⟨c1, script, rfl, ?_, h24', (hdec h24').1, (hdec h24').2, hdat, hdl, hb1, hban1,
        hgood', ?_⟩
      · rw [slice_of_agree _ H _ 0 24 hag1 (by omega) (by omega)]
        simp [hH]
      · simp only [List.length_cons]; omega

theorem datLoop_done (c : OneConnection) (pending : List UInt8)
    (script : List (Nat × Option NetErr)) (h : ¬ c.recv.datlen < c.recv.pl_len) :
    FetchMessage.datLoop c pending script = .next c ⟨pending, script⟩ := by
  cases script <;> simp [FetchMessage.datLoop, h]

/-- One good read of the payload loop. -/
theorem datBody_good (c : OneConnection) (P rest d : List UInt8) (n : Nat)
    (hdat : c.recv.dat = some d) (hd : d.length = P.length)
    (hpl : c.recv.pl_len = P.length) (h32 : P.length < 2^32)
    (hlt : c.recv.datlen < c.recv.pl_len) (hn : 1 ≤ n)
    (hag : d.take c.recv.datlen = P.take c.recv.datlen)
    (hb : c.broken = false) :
    ∃ (c' : OneConnection) (d' : List UInt8),
      FetchMessage.datBody c (P.drop c.recv.datlen ++ rest) (n, none)
        = .cont c' (P.drop c'.recv.datlen ++ rest)
      ∧ c.recv.datlen < c'.recv.datlen ∧ c'.recv.datlen ≤ c'.recv.pl_len
      ∧ c'.recv.dat = some d' ∧ d'.length = P.length
      ∧ d'.take c'.recv.datlen = P.take c'.recv.datlen
      ∧ c'.recv.pl_len = c.recv.pl_len ∧ c'.recv.hdr = c.recv.hdr
      ∧ c'.recv.hdr_len = c.recv.hdr_len ∧ c'.recv.cmd = c.recv.cmd
      ∧ c'.broken = false ∧ c'.banit = c.banit := by
  have hm : min n (d.length - c.recv.datlen) ≤ (P.drop c.recv.datlen).length := by
    simp [hd]
  have hgot : (P.drop c.recv.datlen ++ rest).take (min n (d.length - c.recv.datlen))
      = (P.drop c.recv.datlen).take (min n (d.length - c.recv.datlen)) := by
    rw [List.take_append_of_le_length hm]
  have hrest : (P.drop c.recv.datlen ++ rest).drop (min n (d.length - c.recv.datlen))
      = P.drop (c.recv.datlen + min n (d.length - c.recv.datlen)) ++ rest := by
    rw [List.drop_append_of_le_length hm, List.drop_drop, Nat.add_comm]
  have hlen : ((P.drop c.recv.datlen).take (min n (d.length - c.recv.datlen))).length
      = min n (d.length - c.recv.datlen) := by
    simp [hd]
  have hpos : min n (d.length - c.recv.datlen) > 0 := by omega
  have hmod : (c.recv.datlen + min n (d.length - c.recv.datlen)) % 2^32
      = c.recv.datlen + min n (d.length - c.recv.datlen) := Nat.mod_eq_of_lt (by omega)
  unfold FetchMessage.datBody SockRead
  simp only [hdat, Option.getD_some, hgot, hrest, hlen, hpos, if_true, true_and, hmod]
  rw [if_neg (by omega), if_neg (by simp [hb])]
  refine ⟨_, _, rfl, ?_, ?_, rfl, ?_, ?_, rfl, rfl, rfl, rfl, hb, rfl⟩
  · show c.recv.datlen < c.recv.datlen + min n (d.length - c.recv.datlen); omega
  · show c.recv.datlen + min n (d.length - c.recv.datlen) ≤ c.recv.pl_len; omega
  · simp [copySlice, hd]; omega
  · show (copySlice d c.recv.datlen _).take (c.recv.datlen + min n (d.length - c.recv.datlen))
      = P.take (c.recv.datlen + min n (d.length - c.recv.datlen))
    unfold copySlice
    have hl1 : (d.take c.recv.datlen).length = c.recv.datlen := by simp; omega
    rw [List.take_append_eq_append_take, hl1, List.take_of_length_le (by omega),
      List.take_add, hag]
    congr 1
    rw [Nat.add_sub_cancel_left, List.take_append_eq_append_take,
      List.take_of_length_le (by simp), List.take_of_length_le (by simp)]
    rw [hlen, Nat.sub_self, List.take_zero, List.append_nil]

/-- The payload loop on a good script that is long enough: it ends with the
whole payload `P` in `dat`. -/
theorem datLoop_good (P rest : List UInt8) (h32 : P.length < 2^32)
    (script : List (Nat × Option NetErr)) :
    ∀ (c : OneConnection) (d : List UInt8), GoodScript script →
      c.recv.dat = some d → d.length = P.length → c.recv.pl_len = P.length →
      c.recv.datlen ≤ c.recv.pl_len →
      c.recv.pl_len - c.recv.datlen ≤ script.length →
      d.take c.recv.datlen = P.take c.recv.datlen → c.broken = false →
      ∃ (c' : OneConnection) (script' : List (Nat × Option NetErr)),
        FetchMessage.datLoop c (P.drop c.recv.datlen ++ rest) script
          = .next c' ⟨rest, script'⟩
        ∧ c'.recv.dat = some P
        ∧ c'.recv.pl_len = c.recv.pl_len ∧ c'.recv.hdr = c.recv.hdr
        ∧ c'.recv.hdr_len = c.recv.hdr_len ∧ c'.recv.cmd = c.recv.cmd
        ∧ c'.broken = false ∧ c'.banit = c.banit
        ∧ GoodScript script' := by
  have fin : ∀ (c : OneConnection) (d : List UInt8) (script : List (Nat × Option NetErr)),
      GoodScript script → c.recv.dat = some d → d.length = P.length →
      c.recv.pl_len = P.length → ¬ c.recv.datlen < c.recv.pl_len →
      c.recv.datlen ≤ c.recv.pl_len →
      d.take c.recv.datlen = P.take c.recv.datlen → c.broken = false →
      ∃ (c' : OneConnection) (script' : List (Nat × Option NetErr)),
        FetchMessage.datLoop c (P.drop c.recv.datlen ++ rest) script
          = .next c' ⟨rest, script'⟩
        ∧ c'.recv.dat = some P
        ∧ c'.recv.pl_len = c.recv.pl_len ∧ c'.recv.hdr = c.recv.hdr
        ∧ c'.recv.hdr_len = c.recv.hdr_len ∧ c'.recv.cmd = c.recv.cmd
        ∧ c'.broken = false ∧ c'.banit = c.banit
        ∧ GoodScript script' := by
    intro c d script hgood hdat hd hpl hnlt hle hag hb
    have heq : c.recv.datlen = P.length := by omega
    rw [datLoop_done c _ script hnlt, heq, List.drop_of_length_le (Nat.le_refl _),
      List.nil_append]
    refine ⟨c, script, rfl, ?_, rfl, rfl, rfl, rfl, hb, rfl, hgood⟩
    rw [hdat]
    congr 1
    rw [heq, List.take_of_length_le (by omega), List.take_of_length_le (Nat.le_refl _)] at hag
    exact hag
  induction script with
  | nil =>
    intro c d hgood hdat hd hpl hle hlen hag hb
    simp only [List.length_nil] at hlen
    exact fin c d [] hgood hdat hd hpl (by omega) hle hag hb
  | cons ev script ih =>
    intro c d hgood hdat hd hpl hle hlen hag hb
    by_cases hlt : c.recv.datlen < c.recv.pl_len
    · obtain ⟨n, e⟩ := ev
      have hev := hgood (n, e) (List.mem_cons_self _ _)
      simp only at hev
      obtain ⟨hn, he⟩ := hev
      subst he
      have hgood' : GoodScript script := fun v hv => hgood v (List.mem_cons_of_mem _ hv)
      obtain ⟨c1, d1, hbody, hgrow, hle1, hdat1, hd1, hag1, hpl1, hh1, hhl1, hcmd1, hb1, hban1⟩ :=
        datBody_good c P rest d n hdat hd hpl h32 hlt hn hag hb
      unfold FetchMessage.datLoop
      rw [if_pos hlt, hbody]
      simp only
      obtain ⟨c', script', hloop, h1, h2, h3, h4, h5, h6, h7, h8⟩ :=
        ih c1 d1 hgood' hdat1 hd1 (by rw [hpl1, hpl]) hle1
          (by simp only [List.length_cons] at hlen; omega) hag1 hb1
      exact ⟨c', script', hloop, h1, by rw [h2, hpl1], by rw [h3, hh1], by rw [h4, hhl1],
        by rw [h5, hcmd1], h6, by rw [h7, hban1], h8⟩
    · exact fin c d _ hgood hdat hd hpl hlt hle hag hb

theorem maxmsgsize_le (cmd : List UInt8) : maxmsgsize cmd ≤ 1800003 := by
  unfold maxmsgsize
  repeat' split
  all_goals omega

/-- A frame whose declared payload length exceeds the maximum of its command is
rejected as soon as its header is complete: no message, peer banned and broken,
no payload byte read. -/
theorem FetchMessage_oversize (x : Ext) (c : OneConnection) (H rest : List UInt8)
    (script : List (Nat × Option NetErr))
    (hidle : c.recv.hdr_len = 0) (hdat : c.recv.dat = none) (hb : c.broken = false)
    (hH : H.length = 24) (hmagic : H.take 4 = slice x.Magic 0 4)
    (hgood : GoodScript script) (hlen : 24 ≤ script.length)
    (hbig : Uint32 ((H.drop 16).take 4) > maxmsgsize (TrimRight ((H.drop 4).take 12))) :
    (FetchMessage x c ⟨H ++ rest, script⟩).1 = none
    ∧ (FetchMessage x c ⟨H ++ rest, script⟩).2.1.banit = true
    ∧ (FetchMessage x c ⟨H ++ rest, script⟩).2.1.broken = true
    ∧ (FetchMessage x c ⟨H ++ rest, script⟩).2.2.pending = rest := by
  obtain ⟨c1, script1, hloop, h1, h2, h3, h4, h5, h6, h7, h8, h9, h10⟩ :=
    hdrLoop_good x H rest hH hmagic script c hgood (by omega) (by omega)
      (fun i hi => by omega) hb
  rw [hidle, List.drop_zero] at hloop
  have hpay : FetchMessage.payload c1 ⟨rest, script1⟩
      = .ret (DoS c1 (str "Big-" ++ c1.recv.cmd)) ⟨rest, script1⟩ := by
    unfold FetchMessage.payload
    rw [if_pos (by rw [h3]; omega), if_pos (by rw [h5, hdat]; rfl)]
    simp only
    rw [if_pos (by rw [h3, h4]; exact hbig)]
  unfold FetchMessage
  simp only [hloop, hpay]
  simp [DoS]

/-- A complete frame whose declared payload length is within the maximum of its
command: the message is returned when the checksum matches, and the peer is
banned and broken when it does not. -/
theorem FetchMessage_frame (x : Ext) (c : OneConnection) (H P rest : List UInt8)
    (script : List (Nat × Option NetErr))
    (hidle : c.recv.hdr_len = 0) (hdat : c.recv.dat = none) (hb : c.broken = false)
    (hH : H.length = 24) (hmagic : H.take 4 = slice x.Magic 0 4)
    (hgood : GoodScript script) (hlen : 24 + P.length ≤ script.length)
    (hP : Uint32 ((H.drop 16).take 4) = P.length)
    (hsz : P.length ≤ maxmsgsize (TrimRight ((H.drop 4).take 12))) :
    ((H.drop 20).take 4 = slice (x.Sha2Sum P) 0 4 →
      (FetchMessage x c ⟨H ++ (P ++ rest), script⟩).1
          = some ⟨TrimRight ((H.drop 4).take 12), P⟩
      ∧ (FetchMessage x c ⟨H ++ (P ++ rest), script⟩).2.1.broken = false
      ∧ (FetchMessage x c ⟨H ++ (P ++ rest), script⟩).2.1.banit = c.banit
      ∧ (FetchMessage x c ⟨H ++ (P ++ rest), script⟩).2.1.recv.hdr_len = 0
      ∧ (FetchMessage x c ⟨H ++ (P ++ rest), script⟩).2.1.recv.dat = none
      ∧ (FetchMessage x c ⟨H ++ (P ++ rest), script⟩).2.2.pending = rest)
    ∧ ((H.drop 20).take 4 ≠ slice (x.Sha2Sum P) 0 4 →
      (FetchMessage x c ⟨H ++ (P ++ rest), script⟩).1 = none
      ∧ (FetchMessage x c ⟨H ++ (P ++ rest), script⟩).2.1.banit = true
      ∧ (FetchMessage x c ⟨H ++ (P ++ rest), script⟩).2.1.broken = true) := by
  obtain ⟨c1, script1, hloop, h1, h2, h3, h4, h5, h6, h7, h8, h9, h10⟩ :=
    hdrLoop_good x H (P ++ rest) hH hmagic script c hgood (by omega) (by omega)
      (fun i hi => by omega) hb
  rw [hidle, List.drop_zero] at hloop
  have h32 : P.length < 2^32 := by
    have := maxmsgsize_le (TrimRight ((H.drop 4).take 12))
    omega
  have hsum : slice c1.recv.hdr 20 24 = (H.drop 20).take 4 := by
    have hag : ∀ i, i < 24 → c1.recv.hdr i = H.getD i 0 := by
      intro i hi
      have : (slice c1.recv.hdr 0 24).getD i 0 = H.getD i 0 := by rw [h1]
      rw [← this]
      simp [slice, List.getD_eq_getElem?_getD, hi]
    exact slice_of_agree _ H 24 20 24 hag (by omega) (by omega)
  -- the payload block ends with the whole payload in `dat`
  have hpay : ∃ (c2 : OneConnection) (script2 : List (Nat × Option NetErr)),
      FetchMessage.payload c1 ⟨P ++ rest, script1⟩ = .next c2 ⟨rest, script2⟩
      ∧ c2.recv.dat.getD [] = P ∧ c2.recv.hdr = c1.recv.hdr ∧ c2.recv.cmd = c1.recv.cmd
      ∧ c2.broken = false ∧ c2.banit = c1.banit := by
    unfold FetchMessage.payload
    by_cases h0 : c1.recv.pl_len > 0
    · rw [if_pos h0, if_pos (by rw [h5, hdat]; rfl)]
      simp only
      rw [if_neg (by rw [h3, h4, hP]; omega)]
      obtain ⟨c2, script2, hl, g1, g2, g3, g4, g5, g6, g7, g8⟩ :=
        datLoop_good P rest h32 script1
          { c1 with recv := { c1.recv with
              dat := some (List.replicate c1.recv.pl_len 0), datlen := 0 } }
          (List.replicate c1.recv.pl_len 0) h9 rfl
          (by simp [h3, hP]) (by show c1.recv.pl_len = P.length; rw [h3, hP])
          (Nat.zero_le _)
          (by show c1.recv.pl_len - 0 ≤ script1.length; rw [h3, hP]; omega)
          (by simp) h7
      refine ⟨c2, script2, hl, by rw [g1]; rfl, g3, g5, g6, g7⟩
    · rw [if_neg h0]
      have hP0 : P = [] := by
        apply List.eq_nil_of_length_eq_zero
        rw [h3, hP] at h0
        omega
      subst hP0
      exact ⟨c1, script1, rfl, by rw [h5, hdat]; rfl, rfl, rfl, h7, rfl⟩
  obtain ⟨c2, script2, hpay, k1, k2, k3, k4, k5⟩ := hpay
  unfold FetchMessage
  simp only [hloop, hpay, k1, k2, hsum, k3, h4]
  constructor
  · intro hck
    rw [if_neg (by simp [hck])]
    simp [k4, k5, h8]
  · intro hck
    rw [if_pos hck]
    simp [DoS]

theorem toUInt8_toNat (n : Nat) : (n.toUInt8).toNat = n % 256 := by
  simp [Nat.toUInt8, UInt8.ofNat, UInt8.toNat, Fin.ofNat]

theorem Uint32_PutUint32 (n : Nat) (h : n < 2^32) : Uint32 (PutUint32 n) = n := by
  simp only [Uint32, PutUint32, List.getD_cons_zero, List.getD_cons_succ, toUInt8_toNat]
  omega

theorem dropWhile_replicate_append (k : Nat) (r : List UInt8) :
    (List.replicate k (0 : UInt8) ++ r).dropWhile (fun b => b == 0)
      = r.dropWhile (fun b => b == 0) := by
  induction k with
  | zero => simp
  | succ k ih => simp [List.replicate_succ, ih]

theorem TrimRight_cmdField (cmd : List UInt8) (h12 : cmd.length ≤ 12)
    (hnul : cmd.getLast? ≠ some 0) : TrimRight (cmdField cmd) = cmd := by
  unfold TrimRight cmdField
  rw [List.take_of_length_le h12, List.reverse_append, List.reverse_replicate,
    dropWhile_replicate_append]
  have : cmd.reverse.dropWhile (fun b => b == 0) = cmd.reverse := by
    cases hr : cmd.reverse with
    | nil => rfl
    | cons a r =>
      have hl : cmd.getLast? = some a := by
        rw [List.getLast?_eq_head?_reverse, hr]; rfl
      have ha : a ≠ 0 := by
        intro h0; apply hnul; rw [hl, h0]
      simp [List.dropWhile_cons, ha]
  rw [this, List.reverse_reverse]

theorem frame_eq (x : Ext) (cmd pl : List UInt8) :
    frame x cmd pl = frameHeader x cmd pl ++ pl := rfl

theorem cmdField_length (cmd : List UInt8) : (cmdField cmd).length = 12 := by
  simp [cmdField]; omega

theorem four_parts (a b e f : List UInt8) (h1 : a.length = 4) (h2 : b.length = 12)
    (h3 : e.length = 4) (h4 : f.length = 4) :
    (a ++ b ++ e ++ f).length = 24
    ∧ (a ++ b ++ e ++ f).take 4 = a
    ∧ ((a ++ b ++ e ++ f).drop 4).take 12 = b
    ∧ ((a ++ b ++ e ++ f).drop 16).take 4 = e
    ∧ ((a ++ b ++ e ++ f).drop 20).take 4 = f := by
  refine ⟨by simp [h1, h2, h3, h4], ?_, ?_, ?_, ?_⟩
  · simp [List.take_append_eq_append_take, h1]
  · simp [List.take_append_eq_append_take, List.drop_append_eq_append_drop, h1, h2]
  · simp [List.take_append_eq_append_take, List.drop_append_eq_append_drop, h1, h2, h3]
  · have ha : List.drop 20 a = [] := List.drop_of_length_le (by omega)
    have hb : List.drop 16 b = [] := List.drop_of_length_le (by omega)
    have hf : List.take 4 f = f := List.take_of_length_le (by omega)
    simp [List.take_append_eq_append_take, List.drop_append_eq_append_drop, h1, h2, h3, h4,
      ha, hb, hf]

theorem frameHeader_parts (x : Ext) (cmd pl : List UInt8) :
    (frameHeader x cmd pl).length = 24
    ∧ (frameHeader x cmd pl).take 4 = slice x.Magic 0 4
    ∧ ((frameHeader x cmd pl).drop 4).take 12 = cmdField cmd
    ∧ ((frameHeader x cmd pl).drop 16).take 4 = PutUint32 pl.length
    ∧ ((frameHeader x cmd pl).drop 20).take 4 = slice (x.Sha2Sum pl) 0 4 :=
  four_parts _ _ _ _ (by simp [slice]) (cmdField_length cmd) rfl (by simp [slice])

theorem pendingBytes_length (c : OneConnection) : (pendingBytes c).length = BytesToSent c := by
  simp [pendingBytes]

/-- C1: for a command of at most 12 bytes that does not end in a NUL byte and a
payload within `maxmsgsize cmd` that fits the free space of the send ring of an
unbroken connection, the bytes that `SendRawMsg` appends to the ring, read by
`FetchMessage` on an unbroken connection that is between two messages (a new
connection in particular) through any sequence of error-free non-empty reads,
yield the message with the same command and payload, and the receiving
connection stays unbroken. -/
theorem C1_send_fetch_roundtrip (x : Ext) (c rc : OneConnection) (cmd pl rest : List UInt8)
    (script : List (Nat × Option NetErr))
    (hc : c.SendBufCons < SendBufSize) (hp : c.SendBufProd < SendBufSize)
    (hb : c.broken = false)
    (hcmd12 : cmd.length ≤ 12) (hnul : cmd.getLast? ≠ some 0)
    (hmax : pl.length ≤ maxmsgsize cmd)
    (hroom : pl.length + 24 < SendBufSize - BytesToSent c)
    (hidle : rc.recv.hdr_len = 0) (hdat : rc.recv.dat = none) (hrb : rc.broken = false)
    (hgood : GoodScript script) (hlen : 24 + pl.length ≤ script.length) :
    (FetchMessage x rc ⟨sentBytes x c cmd pl ++ rest, script⟩).1 = some ⟨cmd, pl⟩
    ∧ (FetchMessage x rc ⟨sentBytes x c cmd pl ++ rest, script⟩).2.1.broken = false := by
  have hsent : sentBytes x c cmd pl = frameHeader x cmd pl ++ pl := by
    unfold sentBytes
    rw [(SendRawMsg_pendingBytes x c cmd pl hc hp hb hroom).2,
      List.drop_append_of_le_length (by rw [pendingBytes_length]),
      List.drop_of_length_le (by rw [pendingBytes_length]), List.nil_append, frame_eq]
  obtain ⟨p1, p2, p3, p4, p5⟩ := frameHeader_parts x cmd pl
  have h32 : pl.length < 2^32 := by
    have := maxmsgsize_le cmd
    omega
  have htrim : TrimRight (((frameHeader x cmd pl).drop 4).take 12) = cmd := by
    rw [p3]; exact TrimRight_cmdField cmd hcmd12 hnul
  have hfr := FetchMessage_frame x rc (frameHeader x cmd pl) pl rest script hidle hdat hrb
    p1 p2 hgood hlen (by rw [p4]; exact Uint32_PutUint32 _ h32) (by rw [htrim]; exact hmax)
  rw [hsent, List.append_assoc]
  have h := hfr.1 p5
  rw [htrim] at h
  exact ⟨h.1, h.2.1⟩

theorem C1_send_fetch_roundtrip_witness :
    (FetchMessage sampleExt NewConnection
        ⟨sentBytes sampleExt ringNearEnd (str "ping") [1, 2, 3, 4, 5, 6, 7, 8] ++ [9, 9],
          script40⟩).1 = some ⟨str "ping", [1, 2, 3, 4, 5, 6, 7, 8]⟩
    ∧ (FetchMessage sampleExt NewConnection
        ⟨sentBytes sampleExt ringNearEnd (str "ping") [1, 2, 3, 4, 5, 6, 7, 8] ++ [9, 9],
          script40⟩).2.1.broken = false :=
  C1_send_fetch_roundtrip sampleExt ringNearEnd NewConnection (str "ping")
    [1, 2, 3, 4, 5, 6, 7, 8] [9, 9] script40
    (by decide) (by decide) (by decide) (by decide) (by decide) (by decide)
    (by decide) (by decide) (by decide) (by decide) (by decide) (by decide)

/-- The header loop on a stream `S` whose first four bytes are not the magic:
it always ends in `return nil`; and when no read hands over bytes together with
an error, the connection is broken as soon as four bytes of `S` were read. -/
theorem hdrLoop_badmagic (x : Ext) (S : List UInt8)
    (hbad : S.take 4 ≠ slice x.Magic 0 4) (script : List (Nat × Option NetErr)) :
    ∀ c : OneConnection, c.recv.hdr_len < 4 → c.recv.hdr_len ≤ S.length →
      (∀ i, i < c.recv.hdr_len → c.recv.hdr i = S.getD i 0) →
      ∃ (c' : OneConnection) (s' : Sock),
        FetchMessage.hdrLoop x c (S.drop c.recv.hdr_len) script = .ret c' s'
        ∧ (ErrorsCarryNoData script → s'.pending.length + 4 ≤ S.length → c'.broken = true) := by
  induction script with
  | nil =>
    intro c hlt hle hag
    unfold FetchMessage.hdrLoop
    rw [if_pos (by omega)]
    refine ⟨c, _, rfl, fun _ h => ?_⟩
    simp only [List.length_drop] at h
    omega
  | cons ev script ih =>
    intro c hlt hle hag
    obtain ⟨n, e⟩ := ev
    unfold FetchMessage.hdrLoop
    rw [if_pos (by omega)]
    have hgotlen : ((S.drop c.recv.hdr_len).take (min n (24 - c.recv.hdr_len))).length
        = min (min n (24 - c.recv.hdr_len)) (S.length - c.recv.hdr_len) := by
      simp
    have hrest : (S.drop c.recv.hdr_len).drop (min n (24 - c.recv.hdr_len))
        = S.drop (c.recv.hdr_len
            + ((S.drop c.recv.hdr_len).take (min n (24 - c.recv.hdr_len))).length) := by
      rw [List.drop_drop, hgotlen]
      by_cases hm : min n (24 - c.recv.hdr_len) ≤ S.length - c.recv.hdr_len
      · rw [Nat.min_eq_left hm, Nat.add_comm]
      · have e : min (min n (24 - c.recv.hdr_len)) (S.length - c.recv.hdr_len)
            = S.length - c.recv.hdr_len := Nat.min_eq_right (by omega)
        rw [e, List.drop_of_length_le (by omega), List.drop_of_length_le (by omega)]
    have hag' : ∀ i, i < c.recv.hdr_len
          + ((S.drop c.recv.hdr_len).take (min n (24 - c.recv.hdr_len))).length →
        copy c.recv.hdr c.recv.hdr_len 24
          ((S.drop c.recv.hdr_len).take (min n (24 - c.recv.hdr_len))) i = S.getD i 0 := by
      intro i hi
      unfold copy
      by_cases h1 : c.recv.hdr_len ≤ i
      · rw [if_pos ⟨h1, by rw [hgotlen] at hi; omega, by omega⟩,
          getD_take_lt _ _ _ (by rw [hgotlen] at hi; omega),
          List.getD_eq_getElem?_getD, List.getElem?_drop, ← List.getD_eq_getElem?_getD]
        congr 1; omega
      · rw [if_neg (fun h => h1 h.1)]
        exact hag i (by omega)
    unfold FetchMessage.hdrBody SockRead
    simp only [hrest]
    generalize hg : (S.drop c.recv.hdr_len).take (min n (24 - c.recv.hdr_len)) = got at *
    cases e with
    | some err =>
      refine ⟨_, _, rfl, fun hnd h => ?_⟩
      have hn0 := hnd (n, some err) (List.mem_cons_self _ _) (by simp)
      simp only at hn0
      subst hn0
      simp only [List.length_drop] at h
      simp only [Nat.zero_min] at hgotlen
      omega
    | none =>
      simp only
      by_cases h4 : c.recv.hdr_len + got.length ≥ 4
      · have hmag : slice (copy c.recv.hdr c.recv.hdr_len 24 got) 0 4 ≠ slice x.Magic 0 4 := by
          rw [slice_of_agree _ S _ 0 4 hag' h4 (by rw [hgotlen] at h4; omega)]
          simpa using hbad
        rw [if_pos ⟨h4, hmag⟩]
        exact ⟨_, _, rfl, fun _ _ => rfl⟩
      · rw [if_neg (fun h => h4 h.1)]
        by_cases hbr : c.broken = true
        · rw [if_pos hbr]
          exact ⟨_, _, rfl, fun _ _ => hbr⟩
        · rw [if_neg hbr, if_neg (by omega)]
          simp only
          obtain ⟨c', s', hl, hbroken⟩ := ih
            { c with recv := { c.recv with
                hdr := copy c.recv.hdr c.recv.hdr_len 24 got,
                hdr_len := c.recv.hdr_len + got.length } }
            (by show c.recv.hdr_len + got.length < 4; omega)
            (by show c.recv.hdr_len + got.length ≤ S.length; rw [hgotlen]; omega)
            hag'
          exact ⟨c', s', hl, fun hnd h => hbroken
            (fun v hv => hnd v (List.mem_cons_of_mem _ hv)) h⟩

theorem maxmsgsize_other (cmd : List UInt8) (h : cmd ∉ sizedCommands) :
    maxmsgsize cmd = 1024 := by
  simp only [sizedCommands, List.mem_cons, List.mem_singleton, not_or, List.mem_nil_iff,
    or_false] at h
  obtain ⟨h1, h2, h3, h4, h5, h6, h7, h8⟩ := h
  unfold maxmsgsize
  rw [if_neg h1, if_neg h6, if_neg h8, if_neg h7, if_neg h4, if_neg h2, if_neg h3, if_neg h5]

/-- C9, as stated, fails: a `ping` frame that declares 8 payload bytes, within
the maximum of 1024, and carries a checksum that is not that of its payload is
rejected all the same: `FetchMessage` returns no message and sets `banit` and
`broken`. -/
theorem C9_counterexample :
    TrimRight ((badSumHeader.drop 4).take 12) = str "ping"
    ∧ Uint32 ((badSumHeader.drop 16).take 4) = ([1, 2, 3, 4, 5, 6, 7, 8] : List UInt8).length
    ∧ ¬ (([1, 2, 3, 4, 5, 6, 7, 8] : List UInt8).length > maxmsgsize (str "ping"))
    ∧ (FetchMessage sampleExt NewConnection
        ⟨badSumHeader ++ ([1, 2, 3, 4, 5, 6, 7, 8] ++ []), script40⟩).1 = none
    ∧ (FetchMessage sampleExt NewConnection
        ⟨badSumHeader ++ ([1, 2, 3, 4, 5, 6, 7, 8] ++ []), script40⟩).2.1.banit = true
    ∧ (FetchMessage sampleExt NewConnection
        ⟨badSumHeader ++ ([1, 2, 3, 4, 5, 6, 7, 8] ++ []), script40⟩).2.1.broken = true :=
  ⟨by decide, by decide, by decide,
    (FetchMessage_frame sampleExt NewConnection badSumHeader [1, 2, 3, 4, 5, 6, 7, 8] [] script40
      (by decide) (by decide) (by decide) (by decide) (by decide) (by decide) (by decide)
      (by decide) (by decide)).2 (by decide)⟩

/-- C9 (amended): for a complete frame that reaches an unbroken, unbanned
connection between two messages through error-free non-empty reads,
`FetchMessage` rejects the frame, returning no message and setting `banit` and
`broken`, exactly when the payload length declared in the header exceeds
`maxmsgsize cmd` or the checksum of the header is not that of the payload. So a
frame whose length exceeds the maximum is rejected whatever its checksum, and a
frame with the right checksum whose length does not exceed the maximum, also
one of exactly the maximum length, is returned as a message and the peer is
neither banned nor broken. The maxima are those of the table, 1024 for every
command not named in it. -/
theorem C9_size_limit (x : Ext) (c : OneConnection) (H P rest other : List UInt8)
    (script : List (Nat × Option NetErr))
    (hidle : c.recv.hdr_len = 0) (hdat : c.recv.dat = none) (hb : c.broken = false)
    (hban : c.banit = false)
    (hH : H.length = 24) (hmagic : H.take 4 = slice x.Magic 0 4)
    (hgood : GoodScript script) (hlen : 24 + P.length ≤ script.length)
    (hP : Uint32 ((H.drop 16).take 4) = P.length) :
    (((FetchMessage x c ⟨H ++ (P ++ rest), script⟩).1 = none
        ∧ (FetchMessage x c ⟨H ++ (P ++ rest), script⟩).2.1.banit = true
        ∧ (FetchMessage x c ⟨H ++ (P ++ rest), script⟩).2.1.broken = true)
      ↔ (P.length > maxmsgsize (TrimRight ((H.drop 4).take 12))
          ∨ (H.drop 20).take 4 ≠ slice (x.Sha2Sum P) 0 4))
    ∧ (P.length > maxmsgsize (TrimRight ((H.drop 4).take 12)) →
      (FetchMessage x c ⟨H ++ (P ++ rest), script⟩).1 = none
      ∧ (FetchMessage x c ⟨H ++ (P ++ rest), script⟩).2.1.banit = true
      ∧ (FetchMessage x c ⟨H ++ (P ++ rest), script⟩).2.1.broken = true)
    ∧ (P.length ≤ maxmsgsize (TrimRight ((H.drop 4).take 12)) →
      (H.drop 20).take 4 = slice (x.Sha2Sum P) 0 4 →
      (FetchMessage x c ⟨H ++ (P ++ rest), script⟩).1
          = some ⟨TrimRight ((H.drop 4).take 12), P⟩
      ∧ (FetchMessage x c ⟨H ++ (P ++ rest), script⟩).2.1.banit = false
      ∧ (FetchMessage x c ⟨H ++ (P ++ rest), script⟩).2.1.broken = false)
    ∧ maxmsgsize (str "inv") = 3+50000*36
    ∧ maxmsgsize (str "getdata") = 3+50000*36
    ∧ maxmsgsize (str "headers") = 3+50000*36
    ∧ maxmsgsize (str "getblocks") = 4+3+500*32+32
    ∧ maxmsgsize (str "getheaders") = 4+3+500*32+32
    ∧ maxmsgsize (str "tx") = 100000
    ∧ maxmsgsize (str "block") = 1000000
    ∧ maxmsgsize (str "addr") = 3+1000*30
    ∧ (other ∉ sizedCommands → maxmsgsize other = 1024) := by
  have hbig : P.length > maxmsgsize (TrimRight ((H.drop 4).take 12)) →
      (FetchMessage x c ⟨H ++ (P ++ rest), script⟩).1 = none
      ∧ (FetchMessage x c ⟨H ++ (P ++ rest), script⟩).2.1.banit = true
      ∧ (FetchMessage x c ⟨H ++ (P ++ rest), script⟩).2.1.broken = true := by
    intro h
    have := FetchMessage_oversize x c H (P ++ rest) script hidle hdat hb hH hmagic hgood
      (by omega) (by rw [hP]; exact h)
    exact ⟨this.1, this.2.1, this.2.2.1⟩
  have hok : P.length ≤ maxmsgsize (TrimRight ((H.drop 4).take 12)) →
      (H.drop 20).take 4 = slice (x.Sha2Sum P) 0 4 →
      (FetchMessage x c ⟨H ++ (P ++ rest), script⟩).1
          = some ⟨TrimRight ((H.drop 4).take 12), P⟩
      ∧ (FetchMessage x c ⟨H ++ (P ++ rest), script⟩).2.1.banit = false
      ∧ (FetchMessage x c ⟨H ++ (P ++ rest), script⟩).2.1.broken = false := by
    intro h hck
    have := (FetchMessage_frame x c H P rest script hidle hdat hb hH hmagic hgood hlen hP h).1
      hck
    exact ⟨this.1, by rw [this.2.2.1, hban], this.2.1⟩
  refine ⟨⟨fun hrej => ?_, fun hor => ?_⟩, hbig, hok, by decide, by decide, by decide,
    by decide, by decide, by decide, by decide, by decide, maxmsgsize_other other⟩
  · by_contra hcon
    rw [not_or, not_not] at hcon
    have := (hok (by omega) hcon.2).1
    rw [hrej.1] at this
    exact absurd this (by simp)
  · by_cases hsz : P.length ≤ maxmsgsize (TrimRight ((H.drop 4).take 12))
    · rcases hor with h | h
      · omega
      · exact (FetchMessage_frame x c H P rest script hidle hdat hb hH hmagic hgood hlen hP
          hsz).2 h
    · exact hbig (by omega)

theorem C9_size_limit_witness :
    ((FetchMessage sampleExt NewConnection
        ⟨bigPingHeader ++ (List.replicate 1025 1 ++ []), List.replicate 1049 (9, none)⟩).1 = none
      ∧ (FetchMessage sampleExt NewConnection
        ⟨bigPingHeader ++ (List.replicate 1025 1 ++ []),
          List.replicate 1049 (9, none)⟩).2.1.banit = true
      ∧ (FetchMessage sampleExt NewConnection
        ⟨bigPingHeader ++ (List.replicate 1025 1 ++ []),
          List.replicate 1049 (9, none)⟩).2.1.broken = true)
    ∧ ((FetchMessage sampleExt NewConnection
        ⟨frameHeader sampleExt (str "ping") [1, 2, 3, 4, 5, 6, 7, 8]
          ++ ([1, 2, 3, 4, 5, 6, 7, 8] ++ [9]), script40⟩).1
          = some ⟨str "ping", [1, 2, 3, 4, 5, 6, 7, 8]⟩
      ∧ (FetchMessage sampleExt NewConnection
        ⟨frameHeader sampleExt (str "ping") [1, 2, 3, 4, 5, 6, 7, 8]
          ++ ([1, 2, 3, 4, 5, 6, 7, 8] ++ [9]), script40⟩).2.1.banit = false
      ∧ (FetchMessage sampleExt NewConnection
        ⟨frameHeader sampleExt (str "ping") [1, 2, 3, 4, 5, 6, 7, 8]
          ++ ([1, 2, 3, 4, 5, 6, 7, 8] ++ [9]), script40⟩).2.1.broken = false)
    ∧ ((FetchMessage sampleExt NewConnection
        ⟨badSumHeader ++ ([1, 2, 3, 4, 5, 6, 7, 8] ++ [9]), script40⟩).1 = none
      ∧ (FetchMessage sampleExt NewConnection
        ⟨badSumHeader ++ ([1, 2, 3, 4, 5, 6, 7, 8] ++ [9]), script40⟩).2.1.banit = true
      ∧ (FetchMessage sampleExt NewConnection
        ⟨badSumHeader ++ ([1, 2, 3, 4, 5, 6, 7, 8] ++ [9]), script40⟩).2.1.broken = true)
    ∧ maxmsgsize (str "verack") = 1024 :=
  ⟨(C9_size_limit sampleExt NewConnection bigPingHeader (List.replicate 1025 1) []
      (str "verack") (List.replicate 1049 (9, none)) (by decide) (by decide) (by decide)
      (by decide) (by decide) (by decide)
      (fun ev hev => by rw [List.eq_of_mem_replicate hev]; decide)
      (by rw [List.length_replicate, List.length_replicate])
      (by rw [List.length_replicate]; decide)).2.1
      (by rw [List.length_replicate]; decide),
   (C9_size_limit sampleExt NewConnection
      (frameHeader sampleExt (str "ping") [1, 2, 3, 4, 5, 6, 7, 8]) [1, 2, 3, 4, 5, 6, 7, 8] [9]
      (str "verack") script40 (by decide) (by decide) (by decide)
      (by decide) (by decide) (by decide) (by decide) (by decide) (by decide)).2.2.1
      (by decide) (by decide),
   (C9_size_limit sampleExt NewConnection badSumHeader [1, 2, 3, 4, 5, 6, 7, 8] [9]
      (str "verack") script40 (by decide) (by decide) (by decide)
      (by decide) (by decide) (by decide) (by decide) (by decide) (by decide)).1.mpr
      (Or.inr (by decide)),
   (C9_size_limit sampleExt NewConnection bigPingHeader (List.replicate 1025 1) []
      (str "verack") (List.replicate 1049 (9, none)) (by decide) (by decide) (by decide)
      (by decide) (by decide) (by decide)
      (fun ev hev => by rw [List.eq_of_mem_replicate hev]; decide)
      (by rw [List.length_replicate, List.length_replicate])
      (by rw [List.length_replicate]; decide)).2.2.2.2.2.2.2.2.2.2.2 (by decide)⟩

/-- The two rejections of `FetchMessage` other than the size limit, under reads
that hand over no byte when they report an error. On a connection that is
between two messages, a stream whose first four bytes differ from the magic
yields no message in the call that reads them, and the connection is broken once
that call has read four bytes of it. A complete frame with the right magic whose
checksum field differs from the first four bytes of `Sha2Sum(payload)`, read
through error-free non-empty reads, yields no message and leaves the connection
broken and banned. -/
theorem FetchMessage_bad_magic_or_checksum (x : Ext) (c c2 : OneConnection) (s : Sock)
    (H P rest : List UInt8) (script : List (Nat × Option NetErr)) :
    (c.recv.hdr_len = 0 → s.pending.take 4 ≠ slice x.Magic 0 4 →
      (FetchMessage x c s).1 = none
      ∧ (ErrorsCarryNoData s.script →
          (FetchMessage x c s).2.2.pending.length + 4 ≤ s.pending.length →
          (FetchMessage x c s).2.1.broken = true))
    ∧ (c2.recv.hdr_len = 0 → c2.recv.dat = none → c2.broken = false →
      H.length = 24 → H.take 4 = slice x.Magic 0 4 →
      GoodScript script → 24 + P.length ≤ script.length →
      Uint32 ((H.drop 16).take 4) = P.length →
      (H.drop 20).take 4 ≠ slice (x.Sha2Sum P) 0 4 →
      (FetchMessage x c2 ⟨H ++ (P ++ rest), script⟩).1 = none
      ∧ (FetchMessage x c2 ⟨H ++ (P ++ rest), script⟩).2.1.broken = true
      ∧ (FetchMessage x c2 ⟨H ++ (P ++ rest), script⟩).2.1.banit = true) := by
  constructor
  · intro hidle hbad
    obtain ⟨c', s', hl, hbr⟩ := hdrLoop_badmagic x s.pending hbad s.script c
      (by omega) (by omega) (fun i hi => by omega)
    rw [hidle, List.drop_zero] at hl
    unfold FetchMessage
    simp only [hl]
    exact ⟨trivial, hbr⟩
  · intro hidle hdat hb hH hmagic hgood hlen hP hck
    by_cases hsz : P.length ≤ maxmsgsize (TrimRight ((H.drop 4).take 12))
    · have := (FetchMessage_frame x c2 H P rest script hidle hdat hb hH hmagic hgood hlen hP
        hsz).2 hck
      exact ⟨this.1, this.2.2, this.2.1⟩
    · have := FetchMessage_oversize x c2 H (P ++ rest) script hidle hdat hb hH hmagic hgood
        (by omega) (by rw [hP]; omega)
      exact ⟨this.1, this.2.2.1, this.2.1⟩

theorem FetchMessage_bad_magic_or_checksum_example :
    ((FetchMessage sampleExt NewConnection ⟨[1, 2, 3, 4, 5], [(2, none), (3, none)]⟩).1 = none
      ∧ (FetchMessage sampleExt NewConnection
          ⟨[1, 2, 3, 4, 5], [(2, none), (3, none)]⟩).2.1.broken = true)
    ∧ ((FetchMessage sampleExt NewConnection
          ⟨badSumHeader ++ ([1, 2, 3, 4, 5, 6, 7, 8] ++ [9]), script40⟩).1 = none
      ∧ (FetchMessage sampleExt NewConnection
          ⟨badSumHeader ++ ([1, 2, 3, 4, 5, 6, 7, 8] ++ [9]), script40⟩).2.1.broken = true
      ∧ (FetchMessage sampleExt NewConnection
          ⟨badSumHeader ++ ([1, 2, 3, 4, 5, 6, 7, 8] ++ [9]), script40⟩).2.1.banit = true) :=
  ⟨⟨((FetchMessage_bad_magic_or_checksum sampleExt NewConnection NewConnection
        ⟨[1, 2, 3, 4, 5], [(2, none), (3, none)]⟩ badSumHeader [1, 2, 3, 4, 5, 6, 7, 8] [9]
        script40).1 (by decide) (by decide)).1,
     ((FetchMessage_bad_magic_or_checksum sampleExt NewConnection NewConnection
        ⟨[1, 2, 3, 4, 5], [(2, none), (3, none)]⟩ badSumHeader [1, 2, 3, 4, 5, 6, 7, 8] [9]
        script40).1 (by decide) (by decide)).2 (by decide) (by decide)⟩,
   (FetchMessage_bad_magic_or_checksum sampleExt NewConnection NewConnection
        ⟨[1, 2, 3, 4, 5], [(2, none), (3, none)]⟩ badSumHeader [1, 2, 3, 4, 5, 6, 7, 8] [9]
        script40).2 (by decide) (by decide) (by decide) (by decide) (by decide) (by decide)
        (by decide) (by decide) (by decide)⟩

/-! ## Theorems about lib/btc and lib/chain -/

theorem append_ne_of_take_ne (p t s : String) (h : s.data.take p.length ≠ p.data) :
    p ++ t ≠ s := by
  intro e
  apply h
  rw [← e, String.data_append, String.length, List.take_left']
  rfl

theorem append_ne_append (n : Nat) (p1 t1 p2 t2 : String)
    (h : p1.data.take n ≠ p2.data.take n) (h1 : n ≤ p1.length) (h2 : n ≤ p2.length) :
    p1 ++ t1 ≠ p2 ++ t2 := by
  intro e
  apply h
  have e' := congrArg (fun s => s.data.take n) e
  simp only [String.data_append] at e'
  rw [List.take_append_of_le_length (by simpa using h1),
    List.take_append_of_le_length (by simpa using h2)] at e'
  exact e'

/-- C18: `NewBlock(data)` fails with the too-short error exactly when
`len(data) < 81`, fails with the corrupt txn_count error exactly when
`len(data) >= 81` and `VLen` reports size 0 for `data[80:]`, and otherwise
returns a block with `Raw = data`, `Hash = NewSha2Hash(data[:80])`, `TxCount`
the decoded count and `TxOffset` 80 plus the size of its encoding. -/
theorem C18_NewBlock (lib : Lib) (data : List UInt8) :
    (NewBlock lib data = (none, some "Block too short") ↔ data.length < 81)
    ∧ (NewBlock lib data
          = (none, some "Block's txn_count field corrupt - RPC_Result:bad-blk-length")
        ↔ data.length ≥ 81 ∧ (lib.VLen (data.drop 80)).2 = 0)
    ∧ (data.length ≥ 81 → (lib.VLen (data.drop 80)).2 ≠ 0 →
        ∃ bl : Block, NewBlock lib data = (some bl, none)
          ∧ bl.Raw = data
          ∧ bl.Hash = lib.NewSha2Hash (subslice data 0 80)
          ∧ bl.TxCount = (lib.VLen (data.drop 80)).1
          ∧ bl.TxOffset = 80 + (lib.VLen (data.drop 80)).2) := by
  unfold NewBlock
  by_cases h1 : data.length < 81
  · rw [if_pos h1]
    refine ⟨⟨fun _ => h1, fun _ => rfl⟩, ⟨fun h => absurd h (by decide), fun h => ?_⟩,
      fun h => ?_⟩
    · omega
    · omega
  · rw [if_neg h1]
    by_cases h2 : (lib.VLen (data.drop 80)).2 = 0
    · rw [if_pos h2]
      exact ⟨⟨fun h => absurd h (by decide), fun h => absurd h h1⟩,
        ⟨fun _ => ⟨by omega, h2⟩, fun _ => rfl⟩, fun _ h => absurd h2 h⟩
    · rw [if_neg h2]
      refine ⟨⟨fun h => absurd h (by simp), fun h => absurd h h1⟩,
        ⟨fun h => absurd h (by simp), fun h => absurd h.2 h2⟩,
        fun _ _ => ⟨_, rfl, rfl, rfl, rfl, ?_⟩⟩
      show (lib.VLen (data.drop 80)).2 + 80 = _
      omega

set_option maxRecDepth 8000 in
theorem C18_NewBlock_witness :
    ∃ bl : Block, NewBlock sampleLib (sampleRaw 1 sampleRoot) = (some bl, none)
      ∧ bl.Raw = sampleRaw 1 sampleRoot
      ∧ bl.Hash = sampleLib.NewSha2Hash (subslice (sampleRaw 1 sampleRoot) 0 80)
      ∧ bl.TxCount = 1 ∧ bl.TxOffset = 81 :=
  (C18_NewBlock sampleLib (sampleRaw 1 sampleRoot)).2.2 (by decide) (by decide)

theorem majority_er (ch : Chain) (bl : Block) (s : String)
    (h1 : s ≠ "CheckBlock() : Rejected nVersion=1 block - RPC_Result:bad-version")
    (h2 : s ≠ "CheckBlock() : Rejected nVersion=2 block - RPC_Result:bad-version")
    (h3 : s ≠ "CheckBlock() : Rejected nVersion=3 block - RPC_Result:bad-version") :
    (PreCheckBlock.majority ch bl).1.1 ≠ some s := by
  unfold PreCheckBlock.majority
  split
  · simpa using Ne.symm h1
  · split
    · simpa using Ne.symm h2
    · split
      · simpa using Ne.symm h3
      · simp

theorem tooDeep_ne (lib : Lib) (ch : Chain) (bl : Block) (s : String)
    (h : s.data.take 22 ≠ "CheckBlock: btc.Block ".data) :
    PreCheckBlock.tooDeep lib ch bl ≠ s :=
  append_ne_of_take_ne _ _ _ h

theorem linked_size_ok (lib : Lib) (ch : Chain) (prevblk : Nat) (bl : Block) :
    (PreCheckBlock.linked lib ch prevblk bl).1.1 ≠ some errBadBlkLength := by
  unfold PreCheckBlock.linked
  split
  · simp only [ne_eq, Option.some.injEq]
    exact tooDeep_ne lib ch bl _ (by decide)
  · split
    · dsimp only; decide
    · split
      · dsimp only; decide
      · exact majority_er ch _ _ (by decide) (by decide) (by decide)

/-- The error of `PreCheckBlock` is the size-limits error only when the size
check fails. -/
theorem PreCheckBlock_size_ok (lib : Lib) (ch : Chain) (now : Int) (bl : Block)
    (h : ¬ (bl.Raw.length < 81 ∨ (bl.Raw.length > lib.MAX_BLOCK_SIZE
      ∧ bl.SerializedSize lib > (lib.MAX_BLOCK_SIZE : Int)))) :
    (PreCheckBlock lib ch now bl).1.1 ≠ some errBadBlkLength := by
  unfold PreCheckBlock
  rw [if_neg h]
  split
  · dsimp only; decide
  · split
    · dsimp only; decide
    · split
      · dsimp only; decide
      · split
        · split
          · dsimp only; decide
          · simp only [ne_eq, Option.some.injEq]
            exact append_ne_of_take_ne _ _ _ (by decide)
        · split
          · simp only [ne_eq, Option.some.injEq]
            exact append_ne_of_take_ne _ _ _ (by decide)
          · exact linked_size_ok lib ch _ _

theorem bigRaw_length : bigRaw.length = 1000001 := by
  unfold bigRaw
  rw [List.length_append, List.length_replicate, List.length_cons, List.length_cons,
    List.length_cons, List.length_replicate]

theorem bigRaw_drop : bigRaw.drop 80 = 0xfd :: 1 :: 0 :: List.replicate 999918 0 := by
  unfold bigRaw
  rw [List.drop_append_of_le_length (by rw [List.length_replicate]),
    List.drop_of_length_le (by rw [List.length_replicate])]
  rfl

theorem bigRaw_VLen : sampleVLen (bigRaw.drop 80) = (1, 3) := by
  rw [bigRaw_drop]
  simp only [sampleVLen]
  rw [if_neg (by decide), if_pos (by decide),
    if_neg (by rw [List.length_cons, List.length_cons, List.length_replicate]; omega)]
  rfl

theorem SerializedSize_eq (lib : Lib) (bl : Block) :
    bl.SerializedSize lib = 80 + lib.VLenSize (toUint64 (lib.VLen (bl.Raw.drop 80)).1)
      + bl.Raw.length - 80 - (lib.VLen (bl.Raw.drop 80)).2 := rfl

theorem NewBlock_eq (lib : Lib) (data : List UInt8) (h1 : ¬ data.length < 81)
    (h2 : (lib.VLen (data.drop 80)).2 ≠ 0) :
    NewBlock lib data
      = (some { Block.zero with
            Hash := lib.NewSha2Hash (subslice data 0 80), Raw := data,
            TxCount := (lib.VLen (data.drop 80)).1,
            TxOffset := (lib.VLen (data.drop 80)).2 + 80 }, none) := by
  unfold NewBlock
  rw [if_neg h1]
  dsimp only
  rw [if_neg h2]

theorem bigRaw_Version : bigBlock.Version = 0 := by
  unfold Block.Version subslice bigBlock bigRaw
  simp only [List.drop_zero]
  rw [List.take_append_of_le_length (by rw [List.length_replicate]; omega),
    List.take_replicate]
  decide

/-- C12, as stated, fails: a block of 1000001 raw bytes, more than
`MAX_BLOCK_SIZE`, whose transaction count is encoded on three bytes instead of
one has a serialized size of 999999 and is not rejected for its size (the
version check is the one that fails). -/
theorem C12_counterexample :
    NewBlock sampleLib bigRaw = (some bigBlock, none)
    ∧ bigBlock.Raw.length = 1000001
    ∧ bigBlock.Raw.length > sampleLib.MAX_BLOCK_SIZE
    ∧ bigBlock.SerializedSize sampleLib = 999999
    ∧ (PreCheckBlock sampleLib sampleChain 3000 bigBlock).1
        = (some "CheckBlock() : Block version 0 not allowed - RPC_Result:bad-version",
            true, false)
    ∧ (PreCheckBlock sampleLib sampleChain 3000 bigBlock).1.1 ≠ some errBadBlkLength := by
  have hlen : bigBlock.Raw.length = 1000001 := bigRaw_length
  have hser : bigBlock.SerializedSize sampleLib = 999999 := by
    have e1 : bigBlock.Raw = bigRaw := rfl
    have e2 : sampleLib.VLen = sampleVLen := rfl
    have e3 : sampleLib.VLenSize = sampleVLenSize := rfl
    rw [SerializedSize_eq, e1, e2, e3, bigRaw_VLen, bigRaw_length]
    norm_num [sampleVLenSize, toUint64]
  have hsize : ¬ (bigBlock.Raw.length < 81 ∨ (bigBlock.Raw.length > sampleLib.MAX_BLOCK_SIZE
      ∧ bigBlock.SerializedSize sampleLib > (sampleLib.MAX_BLOCK_SIZE : Int))) := by
    rw [hlen, hser]
    have e4 : sampleLib.MAX_BLOCK_SIZE = 1000000 := rfl
    rw [e4]
    norm_num
  have hpre : (PreCheckBlock sampleLib sampleChain 3000 bigBlock).1
      = (some "CheckBlock() : Block version 0 not allowed - RPC_Result:bad-version",
          true, false) := by
    unfold PreCheckBlock
    rw [if_neg hsize, if_pos bigRaw_Version]
  have hmax : bigBlock.Raw.length > sampleLib.MAX_BLOCK_SIZE := by
    have e4 : sampleLib.MAX_BLOCK_SIZE = 1000000 := rfl
    rw [hlen, e4]
    omega
  have hne : (PreCheckBlock sampleLib sampleChain 3000 bigBlock).1.1 ≠ some errBadBlkLength := by
    rw [hpre]
    decide
  have hnew : NewBlock sampleLib bigRaw = (some bigBlock, none) := by
    have e0 : sampleLib.VLen = sampleVLen := rfl
    have e2 : sampleLib.VLen (bigRaw.drop 80) = (1, 3) := by
      rw [e0]
      exact bigRaw_VLen
    have hl : ¬ bigRaw.length < 81 := by
      have := bigRaw_length
      omega
    have ho : (sampleLib.VLen (bigRaw.drop 80)).2 ≠ 0 := by
      rw [e2]
      decide
    rw [NewBlock_eq sampleLib bigRaw hl ho, e2]
    rfl
  exact ⟨hnew, hlen, hmax, hser, hpre, hne⟩

/-- C12 (amended): `PreCheckBlock` rejects with the bad-blk-length error and
`dos = true` every block whose raw size is smaller than 81, and every block
whose raw size and whose `SerializedSize()` (the size with the transaction
count in its shortest encoding) are both larger than `MAX_BLOCK_SIZE`; a block
of at least 81 bytes whose raw size or serialized size is at most
`MAX_BLOCK_SIZE` is not rejected because of its size. -/
theorem C12_size_limits (lib : Lib) (ch : Chain) (now : Int) (bl : Block) :
    (bl.Raw.length < 81 →
      PreCheckBlock lib ch now bl = ((some errBadBlkLength, true, false), bl))
    ∧ (bl.Raw.length > lib.MAX_BLOCK_SIZE →
        bl.SerializedSize lib > (lib.MAX_BLOCK_SIZE : Int) →
        PreCheckBlock lib ch now bl = ((some errBadBlkLength, true, false), bl))
    ∧ (81 ≤ bl.Raw.length →
        (bl.Raw.length ≤ lib.MAX_BLOCK_SIZE
          ∨ bl.SerializedSize lib ≤ (lib.MAX_BLOCK_SIZE : Int)) →
        (PreCheckBlock lib ch now bl).1.1 ≠ some errBadBlkLength) := by
  refine ⟨fun h => ?_, fun h1 h2 => ?_, fun h1 h2 => ?_⟩
  · unfold PreCheckBlock
    rw [if_pos (Or.inl h)]
    rfl
  · unfold PreCheckBlock
    rw [if_pos (Or.inr ⟨h1, h2⟩)]
    rfl
  · apply PreCheckBlock_size_ok
    rintro (h | ⟨h3, h4⟩)
    · omega
    · rcases h2 with h2 | h2 <;> omega

theorem C12_size_limits_witness :
    (PreCheckBlock sampleLib sampleChain 3000 (blockOf (sampleRaw 1 sampleRoot))).1.1
      ≠ some errBadBlkLength :=
  (C12_size_limits sampleLib sampleChain 3000 (blockOf (sampleRaw 1 sampleRoot))).2.2
    (by decide) (Or.inl (by decide))

/-! ### `PreCheckBlock` after the context-free checks -/

theorem PreCheckBlock_indexed (lib : Lib) (ch : Chain) (now : Int) (bl : Block) (prv : Nat)
    (h : PassesBasic lib now bl) (hi : ch.BlockIndex (lib.BIdx bl.Hash) = some prv) :
    PreCheckBlock lib ch now bl
      = if (ch.mem prv).Parent = none then ((some "Genesis", false, false), bl)
        else ((some ("CheckBlock: " ++ (lib.HashString bl.Hash
          ++ " already in - RPC_Result:duplicate")), false, false), bl) := by
  unfold PreCheckBlock
  rw [if_neg h.1, if_neg h.2.1, if_neg (by simp [h.2.2.1]), if_neg h.2.2.2, hi]

theorem PreCheckBlock_orphan (lib : Lib) (ch : Chain) (now : Int) (bl : Block)
    (h : PassesBasic lib now bl) (hi : ch.BlockIndex (lib.BIdx bl.Hash) = none)
    (hp : ch.BlockIndex (lib.BIdx bl.ParentHash) = none) :
    PreCheckBlock lib ch now bl
      = ((some ("CheckBlock: " ++ (lib.HashString bl.Hash
          ++ " parent not found - RPC_Result:bad-prevblk")), false, true), bl) := by
  unfold PreCheckBlock
  rw [if_neg h.1, if_neg h.2.1, if_neg (by simp [h.2.2.1]), if_neg h.2.2.2, hi]
  dsimp only
  rw [hp]

theorem PreCheckBlock_linked (lib : Lib) (ch : Chain) (now : Int) (bl : Block) (prevblk : Nat)
    (h : PassesBasic lib now bl) (hi : ch.BlockIndex (lib.BIdx bl.Hash) = none)
    (hp : ch.BlockIndex (lib.BIdx bl.ParentHash) = some prevblk) :
    PreCheckBlock lib ch now bl
      = PreCheckBlock.linked lib ch prevblk
          { bl with Height := ((ch.mem prevblk).Height + 1) % 2^32 } := by
  unfold PreCheckBlock
  rw [if_neg h.1, if_neg h.2.1, if_neg (by simp [h.2.2.1]), if_neg h.2.2.2, hi]
  dsimp only
  rw [hp]

theorem majority_later (ch : Chain) (bl : Block) :
    (PreCheckBlock.majority ch bl).1.2.2 = false := by
  unfold PreCheckBlock.majority
  split
  · rfl
  · split
    · rfl
    · split <;> rfl

theorem linked_later (lib : Lib) (ch : Chain) (prevblk : Nat) (bl : Block) :
    (PreCheckBlock.linked lib ch prevblk bl).1.2.2 = false := by
  unfold PreCheckBlock.linked
  split
  · rfl
  · split
    · rfl
    · split
      · rfl
      · exact majority_later ch _

/-- The flag `maybelater` of `PreCheckBlock` is set only for a block that passes
the context-free checks, is not indexed and whose parent is not indexed; then
`dos` is not set. -/
theorem PreCheckBlock_later (lib : Lib) (ch : Chain) (now : Int) (bl : Block)
    (h : (PreCheckBlock lib ch now bl).1.2.2 = true) :
    PassesBasic lib now bl ∧ ch.BlockIndex (lib.BIdx bl.Hash) = none
      ∧ ch.BlockIndex (lib.BIdx bl.ParentHash) = none
      ∧ (PreCheckBlock lib ch now bl).1.2.1 = false := by
  by_cases hb : PassesBasic lib now bl
  · cases hi : ch.BlockIndex (lib.BIdx bl.Hash) with
    | some prv =>
      rw [PreCheckBlock_indexed lib ch now bl prv hb hi] at h
      split at h <;> simp at h
    | none =>
      cases hp : ch.BlockIndex (lib.BIdx bl.ParentHash) with
      | none =>
        rw [PreCheckBlock_orphan lib ch now bl hb hi hp]
        exact ⟨hb, rfl, rfl, rfl⟩
      | some prevblk =>
        rw [PreCheckBlock_linked lib ch now bl prevblk hb hi hp, linked_later] at h
        cases h
  · exfalso
    apply hb
    unfold PreCheckBlock at h
    refine ⟨fun h1 => ?_, fun h2 => ?_, ?_, fun h4 => ?_⟩
    · rw [if_pos h1] at h
      cases h
    · by_cases h1 : bl.Raw.length < 81 ∨ (bl.Raw.length > lib.MAX_BLOCK_SIZE
          ∧ bl.SerializedSize lib > (lib.MAX_BLOCK_SIZE : Int))
      · rw [if_pos h1] at h
        cases h
      · rw [if_neg h1, if_pos h2] at h
        cases h
    · by_contra h3
      by_cases h1 : bl.Raw.length < 81 ∨ (bl.Raw.length > lib.MAX_BLOCK_SIZE
          ∧ bl.SerializedSize lib > (lib.MAX_BLOCK_SIZE : Int))
      · rw [if_pos h1] at h
        cases h
      · by_cases h2 : bl.Version = 0
        · rw [if_neg h1, if_pos h2] at h
          cases h
        · rw [if_neg h1, if_neg h2, if_pos (by simp [h3])] at h
          cases h
    · by_cases h1 : bl.Raw.length < 81 ∨ (bl.Raw.length > lib.MAX_BLOCK_SIZE
          ∧ bl.SerializedSize lib > (lib.MAX_BLOCK_SIZE : Int))
      · rw [if_pos h1] at h
        cases h
      · by_cases h2 : bl.Version = 0
        · rw [if_neg h1, if_pos h2] at h
          cases h
        · by_cases h3 : (!lib.CheckProofOfWork bl.Hash bl.Bits) = true
          · rw [if_neg h1, if_neg h2, if_pos h3] at h
            cases h
          · rw [if_neg h1, if_neg h2, if_neg h3, if_pos h4] at h
            cases h

/-- C13: for a block that passes the size, version, proof-of-work and
future-timestamp checks, `PreCheckBlock` returns, when the block hash is in
`BlockIndex`, the error "Genesis" (indexed node without parent) or the
duplicate error (otherwise) with `dos = false` and `maybelater = false`, and,
when neither the hash nor the parent hash is in `BlockIndex`, the
parent-not-found error with `dos = false` and `maybelater = true`. For every
block, `maybelater = true` is returned only in the latter case, so `dos` and
`maybelater` are never both true. -/
theorem C13_index_checks (lib : Lib) (ch : Chain) (now : Int) (bl : Block) :
    (PassesBasic lib now bl →
      (∀ prv, ch.BlockIndex (lib.BIdx bl.Hash) = some prv → (ch.mem prv).Parent = none →
        PreCheckBlock lib ch now bl = ((some "Genesis", false, false), bl))
      ∧ (∀ prv, ch.BlockIndex (lib.BIdx bl.Hash) = some prv → (ch.mem prv).Parent ≠ none →
        PreCheckBlock lib ch now bl
          = ((some ("CheckBlock: " ++ (lib.HashString bl.Hash
              ++ " already in - RPC_Result:duplicate")), false, false), bl))
      ∧ (ch.BlockIndex (lib.BIdx bl.Hash) = none →
        ch.BlockIndex (lib.BIdx bl.ParentHash) = none →
        PreCheckBlock lib ch now bl
          = ((some ("CheckBlock: " ++ (lib.HashString bl.Hash
              ++ " parent not found - RPC_Result:bad-prevblk")), false, true), bl)))
    ∧ ((PreCheckBlock lib ch now bl).1.2.2 = true →
        PassesBasic lib now bl ∧ ch.BlockIndex (lib.BIdx bl.Hash) = none
          ∧ ch.BlockIndex (lib.BIdx bl.ParentHash) = none)
    ∧ ¬ ((PreCheckBlock lib ch now bl).1.2.1 = true
        ∧ (PreCheckBlock lib ch now bl).1.2.2 = true) := by
  refine ⟨fun h => ⟨fun prv hi hp => ?_, fun prv hi hp => ?_, fun hi hp => ?_⟩,
    fun h => ?_, fun h => ?_⟩
  · rw [PreCheckBlock_indexed lib ch now bl prv h hi, if_pos hp]
  · rw [PreCheckBlock_indexed lib ch now bl prv h hi, if_neg hp]
  · exact PreCheckBlock_orphan lib ch now bl h hi hp
  · have := PreCheckBlock_later lib ch now bl h
    exact ⟨this.1, this.2.1, this.2.2.1⟩
  · have := (PreCheckBlock_later lib ch now bl h.2).2.2.2
    rw [h.1] at this
    cases this

set_option maxRecDepth 8000 in
theorem C13_index_checks_witness :
    PreCheckBlock sampleLib sampleChain 3000 (blockOf orphanRaw)
      = ((some ("CheckBlock: " ++ (sampleLib.HashString (blockOf orphanRaw).Hash
            ++ " parent not found - RPC_Result:bad-prevblk")), false, true), blockOf orphanRaw) :=
  ((C13_index_checks sampleLib sampleChain 3000 (blockOf orphanRaw)).1 (by decide)).2.2
    (by decide) (by decide)

/-! ### The version counters and the blocks returned by `PreCheckBlock` -/

/-- The loop of `PreCheckBlock` adds to the three counters the numbers of nodes,
among the `k` nearest ancestors starting at `p`, of version at least 2, 3 and 4;
it changes no other field of the block. -/
theorem count_eq (mem : Nat → BlockTreeNode) (k : Nat) (p : Option Nat) (bl : Block) :
    PreCheckBlock.count mem k p bl
      = { bl with
          Majority_v2 := bl.Majority_v2 + versionCount mem 2 (parentChain mem k p),
          Majority_v3 := bl.Majority_v3 + versionCount mem 3 (parentChain mem k p),
          Majority_v4 := bl.Majority_v4 + versionCount mem 4 (parentChain mem k p) } := by
  induction k generalizing p bl with
  | zero => simp [PreCheckBlock.count, parentChain, versionCount]
  | succ k ih =>
    cases p with
    | none => simp [PreCheckBlock.count, parentChain, versionCount]
    | some n =>
      rw [PreCheckBlock.count, ih]
      simp only [parentChain, versionCount, List.countP_cons]
      by_cases h2 : Uint32 (slice (mem n).BlockHeader 0 4) ≥ 2
      · by_cases h3 : Uint32 (slice (mem n).BlockHeader 0 4) ≥ 3
        · by_cases h4 : Uint32 (slice (mem n).BlockHeader 0 4) ≥ 4
          · simp [h2, h3, h4, Nat.add_assoc, Nat.add_comm]
          · simp [h2, h3, h4, Nat.add_assoc, Nat.add_comm]
        · have h4 : ¬ Uint32 (slice (mem n).BlockHeader 0 4) ≥ 4 := by omega
          simp [h2, h3, h4, Nat.add_assoc, Nat.add_comm]
      · have h3 : ¬ Uint32 (slice (mem n).BlockHeader 0 4) ≥ 3 := by omega
        have h4 : ¬ Uint32 (slice (mem n).BlockHeader 0 4) ≥ 4 := by omega
        simp [h2, h3, h4]

theorem majority_snd (ch : Chain) (bl : Block) : (PreCheckBlock.majority ch bl).2 = bl := by
  unfold PreCheckBlock.majority
  split
  · rfl
  · split
    · rfl
    · split <;> rfl

/-- The block that the context checks return differs from the block they are
given in the three counters only. -/
theorem linked_snd (lib : Lib) (ch : Chain) (prevblk : Nat) (bl : Block) :
    ∃ a b c, (PreCheckBlock.linked lib ch prevblk bl).2
      = { bl with Majority_v2 := a, Majority_v3 := b, Majority_v4 := c } := by
  unfold PreCheckBlock.linked
  split
  · exact ⟨_, _, _, rfl⟩
  · split
    · exact ⟨_, _, _, rfl⟩
    · split
      · exact ⟨_, _, _, rfl⟩
      · rw [majority_snd, count_eq]
        exact ⟨_, _, _, rfl⟩

theorem tooDeep_congr (lib : Lib) (ch : Chain) (bl : Block) (a b c : Nat) :
    PreCheckBlock.tooDeep lib ch { bl with Majority_v2 := a, Majority_v3 := b, Majority_v4 := c }
      = PreCheckBlock.tooDeep lib ch bl := rfl

/-- The context checks reject a block as hooking too deep exactly when its
parent is not the tip and the tip is `MovingCheckopintDepth` or more above it. -/
theorem linked_tooDeep (lib : Lib) (ch : Chain) (prevblk : Nat) (bl : Block) :
    ((PreCheckBlock.linked lib ch prevblk bl).1.1 = some (PreCheckBlock.tooDeep lib ch bl)
      ↔ prevblk ≠ ch.BlockTreeEnd
        ∧ ((ch.mem ch.BlockTreeEnd).Height : Int) - (bl.Height : Int)
            ≥ lib.MovingCheckopintDepth)
    ∧ (prevblk ≠ ch.BlockTreeEnd
        ∧ ((ch.mem ch.BlockTreeEnd).Height : Int) - (bl.Height : Int)
            ≥ lib.MovingCheckopintDepth →
        (PreCheckBlock.linked lib ch prevblk bl).1.2 = (false, false)) := by
  unfold PreCheckBlock.linked
  split
  · rename_i h
    exact ⟨⟨fun _ => h, fun _ => rfl⟩, fun _ => rfl⟩
  · rename_i h
    refine ⟨⟨fun e => ?_, fun c => absurd c h⟩, fun c => absurd c h⟩
    exfalso
    revert e
    split
    · simp only [Option.some.injEq]
      exact Ne.symm (tooDeep_ne lib ch bl _ (by decide))
    · split
      · simp only [Option.some.injEq]
        exact Ne.symm (tooDeep_ne lib ch bl _ (by decide))
      · exact majority_er ch _ _ (tooDeep_ne lib ch bl _ (by decide))
          (tooDeep_ne lib ch bl _ (by decide)) (tooDeep_ne lib ch bl _ (by decide))

set_option maxRecDepth 8000 in
/-- C14, as stated, fails: a new block of version 0 whose parent, the genesis
block at height 0, is in `BlockIndex` leaves `PreCheckBlock` with the version
error and `dos = true` before its height is set: `Height` stays 0, not 1. The
parent is not the tip, which is at height 300, and 300 - 1 is at least the
depth of 288, yet the block is not rejected as hooking too deep. -/
theorem C14_counterexample :
    deepChain.BlockIndex (sampleLib.BIdx (blockOf (sampleRaw 0 sampleRoot)).Hash) = none
    ∧ deepChain.BlockIndex (sampleLib.BIdx (blockOf (sampleRaw 0 sampleRoot)).ParentHash)
        = some 0
    ∧ (deepChain.mem 0).Height + 1 = 1
    ∧ (PreCheckBlock sampleLib deepChain 3000 (blockOf (sampleRaw 0 sampleRoot))).2.Height = 0
    ∧ (0 ≠ deepChain.BlockTreeEnd
        ∧ ((deepChain.mem deepChain.BlockTreeEnd).Height : Int)
            - ((((deepChain.mem 0).Height + 1 : Nat)) : Int) ≥ sampleLib.MovingCheckopintDepth)
    ∧ (PreCheckBlock sampleLib deepChain 3000 (blockOf (sampleRaw 0 sampleRoot))).1
        = (some "CheckBlock() : Block version 0 not allowed - RPC_Result:bad-version",
            true, false)
    ∧ (PreCheckBlock sampleLib deepChain 3000 (blockOf (sampleRaw 0 sampleRoot))).1.1
        ≠ some (PreCheckBlock.tooDeep sampleLib deepChain
            { blockOf (sampleRaw 0 sampleRoot) with Height := 1 }) := by
  decide

/-- C14 (amended): for a new block (hash not indexed) that passes the context-free checks
and whose parent `prevblk` is in `BlockIndex`, `PreCheckBlock` sets `Height` to
the parent's height plus one (a uint32, so modulo 2^32), and returns the
hooks-too-deep error, then with `dos = false` and `maybelater = false`, if and
only if the parent is not `BlockTreeEnd` and `BlockTreeEnd.Height - Height`, in
signed arithmetic, is at least `MovingCheckopintDepth`. A block that extends the
tip is never rejected by this rule, nor is, the depth being non-negative, a
block higher than the tip. -/
theorem C14_hooks_too_deep (lib : Lib) (ch : Chain) (now : Int) (bl : Block) (prevblk : Nat)
    (h : PassesBasic lib now bl) (hi : ch.BlockIndex (lib.BIdx bl.Hash) = none)
    (hp : ch.BlockIndex (lib.BIdx bl.ParentHash) = some prevblk) :
    (PreCheckBlock lib ch now bl).2.Height = ((ch.mem prevblk).Height + 1) % 2^32
    ∧ ((ch.mem prevblk).Height + 1 < 2^32 →
        (PreCheckBlock lib ch now bl).2.Height = (ch.mem prevblk).Height + 1)
    ∧ ((PreCheckBlock lib ch now bl).1.1
          = some (PreCheckBlock.tooDeep lib ch (PreCheckBlock lib ch now bl).2)
        ↔ prevblk ≠ ch.BlockTreeEnd
          ∧ ((ch.mem ch.BlockTreeEnd).Height : Int)
              - ((PreCheckBlock lib ch now bl).2.Height : Int) ≥ lib.MovingCheckopintDepth)
    ∧ ((PreCheckBlock lib ch now bl).1.1
          = some (PreCheckBlock.tooDeep lib ch (PreCheckBlock lib ch now bl).2) →
        (PreCheckBlock lib ch now bl).1.2 = (false, false))
    ∧ (prevblk = ch.BlockTreeEnd →
        (PreCheckBlock lib ch now bl).1.1
          ≠ some (PreCheckBlock.tooDeep lib ch (PreCheckBlock lib ch now bl).2))
    ∧ (0 ≤ lib.MovingCheckopintDepth →
        (PreCheckBlock lib ch now bl).2.Height > (ch.mem ch.BlockTreeEnd).Height →
        (PreCheckBlock lib ch now bl).1.1
          ≠ some (PreCheckBlock.tooDeep lib ch (PreCheckBlock lib ch now bl).2)) := by
  rw [PreCheckBlock_linked lib ch now bl prevblk h hi hp]
  obtain ⟨a, b, c, e⟩ := linked_snd lib ch prevblk
    { bl with Height := ((ch.mem prevblk).Height + 1) % 2^32 }
  have t := linked_tooDeep lib ch prevblk
    { bl with Height := ((ch.mem prevblk).Height + 1) % 2^32 }
  rw [e, tooDeep_congr]
  refine ⟨rfl, fun hlt => Nat.mod_eq_of_lt hlt, t.1, fun r => t.2 (t.1.mp r),
    fun r1 r2 => (t.1.mp r2).1 r1, fun r0 r1 r2 => ?_⟩
  have r3 := (t.1.mp r2).2
  have r4 : (ch.mem ch.BlockTreeEnd).Height < ((ch.mem prevblk).Height + 1) % 2^32 := r1
  have r5 : ((ch.mem ch.BlockTreeEnd).Height : Int)
      - ((((ch.mem prevblk).Height + 1) % 2^32 : Nat) : Int) ≥ lib.MovingCheckopintDepth := r3
  omega

set_option maxRecDepth 8000 in
theorem C14_hooks_too_deep_witness :
    (PreCheckBlock sampleLib deepChain 3000 (blockOf (sampleRaw 1 sampleRoot))).2.Height = 1
    ∧ (PreCheckBlock sampleLib deepChain 3000 (blockOf (sampleRaw 1 sampleRoot))).1.1
        = some (PreCheckBlock.tooDeep sampleLib deepChain
            (PreCheckBlock sampleLib deepChain 3000 (blockOf (sampleRaw 1 sampleRoot))).2) :=
  ⟨(C14_hooks_too_deep sampleLib deepChain 3000 (blockOf (sampleRaw 1 sampleRoot)) 0
      (by decide) (by decide) (by decide)).1,
    (C14_hooks_too_deep sampleLib deepChain 3000 (blockOf (sampleRaw 1 sampleRoot)) 0
      (by decide) (by decide) (by decide)).2.2.1.mpr (by decide)⟩

/-! ### The version rule of `PreCheckBlock` -/

theorem PreCheckBlock_majority (lib : Lib) (ch : Chain) (now : Int) (bl : Block) (prevblk : Nat)
    (h : PassesBasic lib now bl) (hi : ch.BlockIndex (lib.BIdx bl.Hash) = none)
    (hp : ch.BlockIndex (lib.BIdx bl.ParentHash) = some prevblk)
    (hc : PassesContext lib ch prevblk
      { bl with Height := ((ch.mem prevblk).Height + 1) % 2^32 }) :
    PreCheckBlock lib ch now bl
      = PreCheckBlock.majority ch
          (PreCheckBlock.count ch.mem ch.Consensus.Window (some prevblk)
            { bl with Height := ((ch.mem prevblk).Height + 1) % 2^32 }) := by
  rw [PreCheckBlock_linked lib ch now bl prevblk h hi hp]
  unfold PreCheckBlock.linked
  rw [if_neg hc.1, if_neg (not_not.mpr hc.2.1), if_neg hc.2.2]

set_option maxRecDepth 8000 in
/-- C15, as stated, fails: a block of version 1 on the one-block chain passes
`PreCheckBlock`, although only one of its ancestors, fewer than the threshold
`RejectBlock` = 950, reports a version at least this block's version. -/
theorem C15_counterexample :
    PassesBasic sampleLib 3000 (blockOf (sampleRaw 1 sampleRoot))
    ∧ (blockOf (sampleRaw 1 sampleRoot)).Version = 1
    ∧ versionCount sampleChain.mem (blockOf (sampleRaw 1 sampleRoot)).Version
        (parentChain sampleChain.mem sampleChain.Consensus.Window (some 0)) = 1
    ∧ sampleChain.Consensus.RejectBlock = 950
    ∧ (PreCheckBlock sampleLib sampleChain 3000 (blockOf (sampleRaw 1 sampleRoot))).1
        = (none, false, false) := by
  decide

/-- C15 (amended): for a block with zeroed counters that passes the earlier
checks, `PreCheckBlock` leaves in `Majority_v2`, `Majority_v3` and `Majority_v4`
the numbers of nodes, among the last `Window` ancestors starting at the parent,
whose header version is at least 2, 3 and 4, and it fails, with a bad-version
error and `dos = true`, exactly when for some `v` in 2, 3, 4 the version of the
block is smaller than `v` while `RejectBlock` or more of those ancestors have a
version of at least `v`; otherwise it returns no error. -/
theorem C15_version_majority (lib : Lib) (ch : Chain) (now : Int) (bl : Block) (prevblk : Nat)
    (h : PassesBasic lib now bl) (hi : ch.BlockIndex (lib.BIdx bl.Hash) = none)
    (hp : ch.BlockIndex (lib.BIdx bl.ParentHash) = some prevblk)
    (hc : PassesContext lib ch prevblk
      { bl with Height := ((ch.mem prevblk).Height + 1) % 2^32 })
    (hz : bl.Majority_v2 = 0 ∧ bl.Majority_v3 = 0 ∧ bl.Majority_v4 = 0) :
    ((PreCheckBlock lib ch now bl).2.Majority_v2
        = versionCount ch.mem 2 (parentChain ch.mem ch.Consensus.Window (some prevblk))
      ∧ (PreCheckBlock lib ch now bl).2.Majority_v3
        = versionCount ch.mem 3 (parentChain ch.mem ch.Consensus.Window (some prevblk))
      ∧ (PreCheckBlock lib ch now bl).2.Majority_v4
        = versionCount ch.mem 4 (parentChain ch.mem ch.Consensus.Window (some prevblk)))
    ∧ (PreCheckBlock lib ch now bl).1
        = (if bl.Version < 2 ∧ versionCount ch.mem 2
              (parentChain ch.mem ch.Consensus.Window (some prevblk)) ≥ ch.Consensus.RejectBlock
          then (some "CheckBlock() : Rejected nVersion=1 block - RPC_Result:bad-version",
            true, false)
          else if bl.Version < 3 ∧ versionCount ch.mem 3
              (parentChain ch.mem ch.Consensus.Window (some prevblk)) ≥ ch.Consensus.RejectBlock
          then (some "CheckBlock() : Rejected nVersion=2 block - RPC_Result:bad-version",
            true, false)
          else if bl.Version < 4 ∧ versionCount ch.mem 4
              (parentChain ch.mem ch.Consensus.Window (some prevblk)) ≥ ch.Consensus.RejectBlock
          then (some "CheckBlock() : Rejected nVersion=3 block - RPC_Result:bad-version",
            true, false)
          else (none, false, false))
    ∧ ((PreCheckBlock lib ch now bl).1.1 ≠ none
        ↔ ∃ v, (v = 2 ∨ v = 3 ∨ v = 4) ∧ bl.Version < v
            ∧ versionCount ch.mem v (parentChain ch.mem ch.Consensus.Window (some prevblk))
                ≥ ch.Consensus.RejectBlock) := by
  have hm := PreCheckBlock_majority lib ch now bl prevblk h hi hp hc
  rw [count_eq] at hm
  have e1 : (PreCheckBlock lib ch now bl).2
      = { bl with
          Height := ((ch.mem prevblk).Height + 1) % 2^32,
          Majority_v2 := versionCount ch.mem 2
            (parentChain ch.mem ch.Consensus.Window (some prevblk)),
          Majority_v3 := versionCount ch.mem 3
            (parentChain ch.mem ch.Consensus.Window (some prevblk)),
          Majority_v4 := versionCount ch.mem 4
            (parentChain ch.mem ch.Consensus.Window (some prevblk)) } := by
    rw [hm, majority_snd]
    simp [hz.1, hz.2.1, hz.2.2]
  have e2 : (PreCheckBlock lib ch now bl).1
        = (if bl.Version < 2 ∧ versionCount ch.mem 2
              (parentChain ch.mem ch.Consensus.Window (some prevblk)) ≥ ch.Consensus.RejectBlock
          then (some "CheckBlock() : Rejected nVersion=1 block - RPC_Result:bad-version",
            true, false)
          else if bl.Version < 3 ∧ versionCount ch.mem 3
              (parentChain ch.mem ch.Consensus.Window (some prevblk)) ≥ ch.Consensus.RejectBlock
          then (some "CheckBlock() : Rejected nVersion=2 block - RPC_Result:bad-version",
            true, false)
          else if bl.Version < 4 ∧ versionCount ch.mem 4
              (parentChain ch.mem ch.Consensus.Window (some prevblk)) ≥ ch.Consensus.RejectBlock
          then (some "CheckBlock() : Rejected nVersion=3 block - RPC_Result:bad-version",
            true, false)
          else (none, false, false)) := by
    rw [hm]
    unfold PreCheckBlock.majority
    simp only [hz.1, hz.2.1, hz.2.2, Nat.zero_add, Block.Version]
    split
    · rfl
    · split
      · rfl
      · split <;> rfl
  refine ⟨⟨by rw [e1], by rw [e1], by rw [e1]⟩, e2, ?_⟩
  rw [e2]
  constructor
  · intro hne
    split at hne
    · exact ⟨2, Or.inl rfl, by assumption⟩
    · split at hne
      · exact ⟨3, Or.inr (Or.inl rfl), by assumption⟩
      · split at hne
        · exact ⟨4, Or.inr (Or.inr rfl), by assumption⟩
        · exact absurd rfl hne
  · rintro ⟨v, hv, hlt, hge⟩
    rcases hv with rfl | rfl | rfl
    · rw [if_pos ⟨hlt, hge⟩]
      simp
    · split
      · simp
      · rw [if_pos ⟨hlt, hge⟩]
        simp
    · split
      · simp
      · split
        · simp
        · rw [if_pos ⟨hlt, hge⟩]
          simp

set_option maxRecDepth 8000 in
theorem C15_version_majority_witness :
    (PreCheckBlock sampleLib upgradedChain 3000 (blockOf (sampleRaw 1 sampleRoot))).2.Majority_v2
        = 3
    ∧ (PreCheckBlock sampleLib upgradedChain 3000 (blockOf (sampleRaw 1 sampleRoot))).1.1
        ≠ none :=
  ⟨(C15_version_majority sampleLib upgradedChain 3000 (blockOf (sampleRaw 1 sampleRoot)) 5
      (by decide) (by decide) (by decide) (by decide) (by decide)).1.1,
    (C15_version_majority sampleLib upgradedChain 3000 (blockOf (sampleRaw 1 sampleRoot)) 5
      (by decide) (by decide) (by decide) (by decide) (by decide)).2.2.mpr
        ⟨2, Or.inl rfl, by decide, by decide⟩⟩

/-! ### `BuildTxList` and `PostCheckBlock` -/

theorem BuildTxList_build_frame (lib : Lib) (bl bl1 : Block) (e : Option String)
    (h : BuildTxList.build lib bl = .ok (e, bl1)) : ∃ txs, bl1 = { bl with Txs := txs } := by
  unfold BuildTxList.build at h
  split at h
  · cases h
  · dsimp only at h
    split at h
    · cases h
    · split at h
      · cases h
      · cases h
      · injection h with h
        injection h with h1 h2
        exact ⟨_, h2.symm⟩

/-- Method `BuildTxList` changes only the fields `Txs`, `TxCount` and `TxOffset`. -/
theorem BuildTxList_frame (lib : Lib) (bl bl1 : Block) (e : Option String)
    (h : bl.BuildTxList lib = .ok (e, bl1)) :
    ∃ txs cnt off, bl1 = { bl with Txs := txs, TxCount := cnt, TxOffset := off } := by
  unfold Block.BuildTxList at h
  split at h
  · dsimp only at h
    split at h
    · injection h with h
      injection h with h1 h2
      exact ⟨_, _, _, h2.symm⟩
    · obtain ⟨txs, e1⟩ := BuildTxList_build_frame lib _ bl1 e h
      exact ⟨txs, _, _, e1⟩
  · obtain ⟨txs, e1⟩ := BuildTxList_build_frame lib _ bl1 e h
    exact ⟨txs, _, _, e1⟩

theorem build_frame (lib : Lib) (bl bl1 : Block) (e : Option String)
    (h : PostCheckBlock.build lib bl = .ok (e, bl1)) :
    ∃ txs cnt off, bl1 = { bl with Txs := txs, TxCount := cnt, TxOffset := off } := by
  unfold PostCheckBlock.build at h
  split at h
  · exact BuildTxList_frame lib bl bl1 e h
  · injection h with h
    injection h with h1 h2
    exact ⟨_, _, _, h2.symm⟩

/-- A call of `PostCheckBlock` that returns no error has built the transaction
list without error, has passed the checks of an untrusted block if the block is
not trusted, and has set `VerifyFlags`. -/
theorem PostCheckBlock_ok (lib : Lib) (ch : Chain) (bl bl2 : Block)
    (h : PostCheckBlock lib ch bl = .ok (none, bl2)) :
    ∃ bl1, PostCheckBlock.build lib bl = .ok (none, bl1)
      ∧ (bl1.Trusted = false →
          PostCheckBlock.untrusted lib ch bl1 (bl1.Txs.getD []) = .ok none)
      ∧ bl2 = { bl1 with VerifyFlags := PostCheckBlock.flags lib ch bl1 } := by
  unfold PostCheckBlock at h
  split at h
  · cases h
  · cases h
  · rename_i bl1 hb
    refine ⟨bl1, hb, ?_⟩
    dsimp only at h
    split at h
    · cases h
    · cases h
    · rename_i hc
      injection h with h
      injection h with h1 h2
      refine ⟨fun ht => ?_, h2.symm⟩
      rw [if_pos (by simp [ht])] at hc
      exact hc

theorem flags_eq (lib : Lib) (ch : Chain) (bl : Block) :
    PostCheckBlock.flags lib ch bl = expectedFlags lib ch bl := by
  unfold PostCheckBlock.flags expectedFlags
  dsimp only
  by_cases h1 : bl.Majority_v3 ≥ ch.Consensus.EnforceUpgrade
  · by_cases h2 : bl.Version ≥ 4 ∧ bl.Majority_v4 ≥ ch.Consensus.EnforceUpgrade
    · rw [if_pos h1, if_pos h2, if_pos h1, if_pos h2]
    · rw [if_pos h1, if_neg h2, if_pos h1, if_neg h2, Nat.or_zero]
  · by_cases h2 : bl.Version ≥ 4 ∧ bl.Majority_v4 ≥ ch.Consensus.EnforceUpgrade
    · rw [if_neg h1, if_pos h2, if_neg h1, if_pos h2, Nat.or_zero]
    · rw [if_neg h1, if_neg h2, if_neg h1, if_neg h2, Nat.or_zero, Nat.or_zero]

theorem PostCheckBlock_flags (lib : Lib) (ch : Chain) (bl bl2 : Block)
    (h : PostCheckBlock lib ch bl = .ok (none, bl2)) :
    bl2.VerifyFlags = expectedFlags lib ch bl := by
  obtain ⟨bl1, hb, -, e2⟩ := PostCheckBlock_ok lib ch bl bl2 h
  obtain ⟨txs, cnt, off, e1⟩ := build_frame lib bl bl1 none hb
  rw [e2, e1]
  exact flags_eq lib ch _

/-- With flags that are not zero and have no bit in common, each flag is in the
union exactly under its condition. -/
theorem expectedFlags_bits (lib : Lib) (ch : Chain) (bl : Block)
    (hp : lib.VER_P2SH ≠ 0) (hd : lib.VER_DERSIG ≠ 0) (hc : lib.VER_CLTV ≠ 0)
    (hpd : lib.VER_P2SH &&& lib.VER_DERSIG = 0) (hpc : lib.VER_P2SH &&& lib.VER_CLTV = 0)
    (hdc : lib.VER_DERSIG &&& lib.VER_CLTV = 0) :
    (expectedFlags lib ch bl &&& lib.VER_P2SH ≠ 0 ↔ bl.BlockTime ≥ lib.BIP16SwitchTime)
    ∧ (expectedFlags lib ch bl &&& lib.VER_DERSIG ≠ 0
        ↔ bl.Majority_v3 ≥ ch.Consensus.EnforceUpgrade)
    ∧ (expectedFlags lib ch bl &&& lib.VER_CLTV ≠ 0
        ↔ bl.Version ≥ 4 ∧ bl.Majority_v4 ≥ ch.Consensus.EnforceUpgrade) := by
  have hdp : lib.VER_DERSIG &&& lib.VER_P2SH = 0 := by rw [Nat.and_comm]; exact hpd
  have hcp : lib.VER_CLTV &&& lib.VER_P2SH = 0 := by rw [Nat.and_comm]; exact hpc
  have hcd : lib.VER_CLTV &&& lib.VER_DERSIG = 0 := by rw [Nat.and_comm]; exact hdc
  unfold expectedFlags
  by_cases h1 : bl.BlockTime ≥ lib.BIP16SwitchTime <;>
  by_cases h2 : bl.Majority_v3 ≥ ch.Consensus.EnforceUpgrade <;>
  by_cases h3 : bl.Version ≥ 4 ∧ bl.Majority_v4 ≥ ch.Consensus.EnforceUpgrade <;>
  simp [h1, h2, h3, Nat.and_distrib_right, hpd, hpc, hdc, hdp, hcp, hcd, hp, hd, hc]

theorem expectedFlags_other (lib : Lib) (ch : Chain) (bl : Block) (m : Nat)
    (hp : lib.VER_P2SH &&& m = 0) (hd : lib.VER_DERSIG &&& m = 0)
    (hc : lib.VER_CLTV &&& m = 0) : expectedFlags lib ch bl &&& m = 0 := by
  unfold expectedFlags
  rw [Nat.and_distrib_right, Nat.and_distrib_right]
  split <;> split <;> split <;> simp [hp, hd, hc]

/-- C16: on every call of `PostCheckBlock` that returns no error, for a trusted
block or not, `VerifyFlags` is the union of `VER_P2SH` if and only if
`BlockTime() >= BIP16SwitchTime`, of `VER_DERSIG` if and only if
`Majority_v3 >= Consensus.EnforceUpgrade` and of `VER_CLTV` if and only if
`Version() >= 4` and `Majority_v4 >= Consensus.EnforceUpgrade`. It has no bit
outside the three flags, and the value of `VerifyFlags` before the call has no
influence: a call that differs in that value only leaves the same flags. For
flags that are not zero and share no bit, each flag is set exactly under its
condition. -/
theorem C16_VerifyFlags (lib : Lib) (ch : Chain) (bl bl2 : Block)
    (h : PostCheckBlock lib ch bl = .ok (none, bl2)) :
    bl2.VerifyFlags
      = (if bl.BlockTime ≥ lib.BIP16SwitchTime then lib.VER_P2SH else 0)
        ||| (if bl.Majority_v3 ≥ ch.Consensus.EnforceUpgrade then lib.VER_DERSIG else 0)
        ||| (if bl.Version ≥ 4 ∧ bl.Majority_v4 ≥ ch.Consensus.EnforceUpgrade
              then lib.VER_CLTV else 0)
    ∧ (∀ m, lib.VER_P2SH &&& m = 0 → lib.VER_DERSIG &&& m = 0 → lib.VER_CLTV &&& m = 0 →
        bl2.VerifyFlags &&& m = 0)
    ∧ (∀ x bl3, PostCheckBlock lib ch { bl with VerifyFlags := x } = .ok (none, bl3) →
        bl3.VerifyFlags = bl2.VerifyFlags)
    ∧ (lib.VER_P2SH ≠ 0 → lib.VER_DERSIG ≠ 0 → lib.VER_CLTV ≠ 0 →
        lib.VER_P2SH &&& lib.VER_DERSIG = 0 → lib.VER_P2SH &&& lib.VER_CLTV = 0 →
        lib.VER_DERSIG &&& lib.VER_CLTV = 0 →
        (bl2.VerifyFlags &&& lib.VER_P2SH ≠ 0 ↔ bl.BlockTime ≥ lib.BIP16SwitchTime)
        ∧ (bl2.VerifyFlags &&& lib.VER_DERSIG ≠ 0
            ↔ bl.Majority_v3 ≥ ch.Consensus.EnforceUpgrade)
        ∧ (bl2.VerifyFlags &&& lib.VER_CLTV ≠ 0
            ↔ bl.Version ≥ 4 ∧ bl.Majority_v4 ≥ ch.Consensus.EnforceUpgrade)) := by
  have e := PostCheckBlock_flags lib ch bl bl2 h
  refine ⟨e, fun m hp hd hc => ?_, fun x bl3 h3 => ?_, fun hp hd hc hpd hpc hdc => ?_⟩
  · rw [e]
    exact expectedFlags_other lib ch bl m hp hd hc
  · rw [e, PostCheckBlock_flags lib ch _ bl3 h3]
    rfl
  · rw [e]
    exact expectedFlags_bits lib ch bl hp hd hc hpd hpc hdc

set_option maxRecDepth 8000 in
theorem C16_VerifyFlags_witness :
    (checkedBlock sampleLib upgradedChain v4Block).VerifyFlags = 517
    ∧ (checkedBlock sampleLib sampleChain (blockOf (sampleRaw 1 sampleRoot))).VerifyFlags = 0 :=
  ⟨(C16_VerifyFlags sampleLib upgradedChain v4Block
      (checkedBlock sampleLib upgradedChain v4Block) (by rfl)).1,
    (C16_VerifyFlags sampleLib sampleChain (blockOf (sampleRaw 1 sampleRoot))
      (checkedBlock sampleLib sampleChain (blockOf (sampleRaw 1 sampleRoot))) (by rfl)).1⟩

/-! ### The block height in the coinbase -/

theorem exp_prefix_iff (e s : List UInt8) :
    (s.length < e.length ∨ e ≠ subslice s 0 e.length) ↔ ¬ e <+: s := by
  rw [List.prefix_iff_eq_take]
  unfold subslice
  rw [List.drop_zero, Nat.sub_zero]
  constructor
  · rintro (h | h)
    · intro e1
      have := congrArg List.length e1
      rw [List.length_take] at this
      omega
    · exact h
  · intro h
    exact Or.inr h

/-- The expected bytes are a length byte `L`, 3, 4 or 5 by the size of the
height, and `L` bytes that are the height in little-endian order with the top
bit of the last byte clear. -/
theorem exp_spec (H : Nat) (h : H < 2^32) :
    ∃ L bytes last, PostCheckBlock.exp H = L :: bytes
      ∧ bytes.length = L.toNat
      ∧ L.toNat = (if H < 0x800000 then 3 else if H < 0x80000000 then 4 else 5)
      ∧ leValue bytes = H
      ∧ bytes.getLast? = some last ∧ last.toNat < 128 := by
  unfold PostCheckBlock.exp
  by_cases h1 : H ≥ 0x800000
  · by_cases h2 : H ≥ 0x80000000
    · rw [if_pos h1, if_pos h2]
      refine ⟨_, _, 0, rfl, rfl, ?_, ?_, rfl, by decide⟩
      · rw [if_neg (by omega), if_neg (by omega)]
        rfl
      · simp only [leValue, toUInt8_toNat]
        have : (0 : UInt8).toNat = 0 := rfl
        omega
    · rw [if_pos h1, if_neg h2]
      refine ⟨_, _, Nat.toUInt8 (H / 2^24), rfl, rfl, ?_, ?_, ?_, ?_⟩
      · rw [if_neg (by omega), if_pos (by omega)]
        rfl
      · simp only [leValue, toUInt8_toNat]
        omega
      · rfl
      · rw [toUInt8_toNat]
        omega
  · rw [if_neg h1]
    refine ⟨_, _, Nat.toUInt8 (H / 2^16), rfl, rfl, ?_, ?_, ?_, ?_⟩
    · rw [if_pos (by omega)]
      rfl
    · simp only [leValue, toUInt8_toNat]
      omega
    · rfl
    · rw [toUInt8_toNat]
      omega

theorem cbHeight_bad (lib : Lib) (ch : Chain) (bl : Block) (txs : List (Option Tx))
    (t0 : Tx) (in0 : TxIn)
    (hv : bl.Version ≥ 2) (hm : bl.Majority_v2 ≥ ch.Consensus.EnforceUpgrade)
    (h0 : txs[0]? = some (some t0)) (hin : t0.TxIn[0]? = some in0)
    (hp : ¬ PostCheckBlock.exp bl.Height <+: in0.ScriptSig) :
    PostCheckBlock.cbHeight lib ch bl txs = .ok (some (errBadCbHeight lib bl)) := by
  unfold PostCheckBlock.cbHeight index
  rw [if_pos ⟨hv, hm⟩, h0]
  dsimp only [deref]
  rw [hin]
  dsimp only
  rw [if_pos ((exp_prefix_iff _ _).mpr hp)]
  rfl

theorem cbHeight_good (lib : Lib) (ch : Chain) (bl : Block) (txs : List (Option Tx))
    (t0 : Tx) (in0 : TxIn)
    (hv : bl.Version ≥ 2) (hm : bl.Majority_v2 ≥ ch.Consensus.EnforceUpgrade)
    (h0 : txs[0]? = some (some t0)) (hin : t0.TxIn[0]? = some in0)
    (hp : PostCheckBlock.exp bl.Height <+: in0.ScriptSig) :
    PostCheckBlock.cbHeight lib ch bl txs = .ok none := by
  unfold PostCheckBlock.cbHeight index
  rw [if_pos ⟨hv, hm⟩, h0]
  dsimp only [deref]
  rw [hin]
  dsimp only
  rw [if_neg (fun c => (exp_prefix_iff _ _).mp c hp)]

/-- The checks after the coinbase-height check never return the bad-cb-height
error. -/
theorem satoshi_ne (lib : Lib) (bl : Block) (txs : List (Option Tx)) :
    PostCheckBlock.satoshi lib bl txs ≠ .ok (some (errBadCbHeight lib bl)) := by
  have k1 : ("CheckBlock() : first tx is not coinbase: "
      ++ (lib.HashString bl.Hash ++ " - RPC_Result:bad-cb-missing")) ≠ errBadCbHeight lib bl :=
    append_ne_append 16 _ _ _ _ (by decide) (by decide) (by decide)
  have k2 : ("CheckBlock() : more than one coinbase: "
      ++ (lib.HashString bl.Hash ++ " - RPC_Result:bad-cb-multiple")) ≠ errBadCbHeight lib bl :=
    append_ne_append 16 _ _ _ _ (by decide) (by decide) (by decide)
  have k3 : ∀ s : String, s.data.take 52
      ≠ "CheckBlock() : Unexpected block number in coinbase: ".data →
      s ≠ errBadCbHeight lib bl := fun s hs => Ne.symm (append_ne_of_take_ne _ _ _ hs)
  unfold PostCheckBlock.satoshi
  split
  · simp only [ne_eq, Except.ok.injEq, Option.some.injEq]
    exact k1
  · simp
  · split
    · simp only [ne_eq, Except.ok.injEq, Option.some.injEq]
      exact k1
    · split
      · simp
      · simp only [ne_eq, Except.ok.injEq, Option.some.injEq]
        exact k2
      · split
        · simp only [ne_eq, Except.ok.injEq, Option.some.injEq]
          exact k3 _ (by decide)
        · split
          · simp only [ne_eq, Except.ok.injEq, Option.some.injEq]
            exact k3 _ (by decide)
          · split
            · simp only [ne_eq, Except.ok.injEq, Option.some.injEq]
              exact k3 _ (by decide)
            · simp

/-- The coinbase height rule where the first input exists: for an untrusted
block with `Version() >= 2` and `Majority_v2 >= Consensus.EnforceUpgrade` whose
transaction list is built without error and has a first transaction with a
first input, `PostCheckBlock`
returns the bad-cb-height error when the `ScriptSig` of that input does not
start with the expected bytes, and does not return that error when it does.
For a height below 2^32 the expected bytes are a length byte `L` followed by
`L` bytes that are the block height in little-endian order, with the top bit of
the last byte clear; `L` is 3 for a height below 0x800000, 4 for a height below
0x80000000 and 5 otherwise. -/
theorem PostCheckBlock_coinbase_height (lib : Lib) (ch : Chain) (bl bl1 : Block) (t0 : Tx)
    (in0 : TxIn)
    (hb : PostCheckBlock.build lib bl = .ok (none, bl1))
    (ht : bl.Trusted = false) (hv : bl.Version ≥ 2)
    (hm : bl.Majority_v2 ≥ ch.Consensus.EnforceUpgrade)
    (h0 : (bl1.Txs.getD [])[0]? = some (some t0)) (hin : t0.TxIn[0]? = some in0) :
    (¬ PostCheckBlock.exp bl.Height <+: in0.ScriptSig →
      PostCheckBlock lib ch bl = .ok (some (errBadCbHeight lib bl), bl1))
    ∧ (PostCheckBlock.exp bl.Height <+: in0.ScriptSig →
      ∀ b, PostCheckBlock lib ch bl ≠ .ok (some (errBadCbHeight lib bl), b))
    ∧ (bl.Height < 2^32 →
      ∃ L bytes last, PostCheckBlock.exp bl.Height = L :: bytes
        ∧ bytes.length = L.toNat
        ∧ L.toNat = (if bl.Height < 0x800000 then 3 else if bl.Height < 0x80000000 then 4
            else 5)
        ∧ leValue bytes = bl.Height
        ∧ bytes.getLast? = some last ∧ last.toNat < 128) := by
  obtain ⟨txs, cnt, off, e1⟩ := build_frame lib bl bl1 none hb
  have ht1 : bl1.Trusted = false := by rw [e1]; exact ht
  have hv1 : bl1.Version ≥ 2 := by rw [e1]; exact hv
  have hm1 : bl1.Majority_v2 ≥ ch.Consensus.EnforceUpgrade := by rw [e1]; exact hm
  have hh1 : bl1.Height = bl.Height := by rw [e1]
  have he1 : errBadCbHeight lib bl1 = errBadCbHeight lib bl := by rw [e1]; rfl
  refine ⟨fun hp => ?_, fun hp b => ?_, fun hlt => exp_spec bl.Height hlt⟩
  · have c := cbHeight_bad lib ch bl1 (bl1.Txs.getD []) t0 in0 hv1 hm1 h0 hin
      (by rw [hh1]; exact hp)
    unfold PostCheckBlock
    rw [hb]
    dsimp only
    rw [if_pos (by simp [ht1])]
    unfold PostCheckBlock.untrusted
    rw [c, he1]
  · have c := cbHeight_good lib ch bl1 (bl1.Txs.getD []) t0 in0 hv1 hm1 h0 hin
      (by rw [hh1]; exact hp)
    have s := satoshi_ne lib bl1 (bl1.Txs.getD [])
    rw [he1] at s
    unfold PostCheckBlock
    rw [hb]
    dsimp only
    rw [if_pos (by simp [ht1])]
    unfold PostCheckBlock.untrusted
    rw [c]
    dsimp only
    intro hc
    split at hc
    · cases hc
    · rename_i e he
      apply s
      rw [he]
      injection hc with hc
      injection hc with hc1 hc2
      rw [hc1]
    · cases hc

set_option maxRecDepth 8000 in
theorem PostCheckBlock_coinbase_height_example :
    PostCheckBlock sampleLib upgradedChain { v4Block with Trusted := false, Height := 7 }
      = .ok (some (errBadCbHeight sampleLib { v4Block with Trusted := false, Height := 7 }),
          builtBlock sampleLib { v4Block with Trusted := false, Height := 7 }) :=
  (PostCheckBlock_coinbase_height sampleLib upgradedChain { v4Block with Trusted := false, Height := 7 }
    (builtBlock sampleLib { v4Block with Trusted := false, Height := 7 })
    { TxIn := [{ ScriptSig := [3, 6, 0, 0] }], TxOut := [{ WasCoinbase := true }],
      Hash := some (sampleHash [9, 4, 3, 6, 0, 0, 7, 7, 7]), Size := 9 }
    { ScriptSig := [3, 6, 0, 0] }
    (by rfl) (by rfl) (by decide) (by decide) (by rfl) (by rfl)).1 (by decide)

/-- An untrusted block of version 2 or more with `Majority_v2` at or above
`EnforceUpgrade`, whose transaction list is built and starts with a transaction
without inputs, makes `PostCheckBlock` panic on `bl.Txs[0].TxIn[0]`. -/
theorem PostCheckBlock_no_input_panics (lib : Lib) (ch : Chain) (bl : Block) (t0 : Tx)
    (rest : List (Option Tx)) (hx : bl.Txs = some (some t0 :: rest)) (h0 : t0.TxIn = [])
    (ht : bl.Trusted = false) (hv : bl.Version ≥ 2)
    (hm : bl.Majority_v2 ≥ ch.Consensus.EnforceUpgrade) :
    PostCheckBlock lib ch bl = .error "index out of range" := by
  have hb : PostCheckBlock.build lib bl = .ok (none, bl) := by
    unfold PostCheckBlock.build
    rw [hx]
  have hc : PostCheckBlock.cbHeight lib ch bl (bl.Txs.getD [])
      = .error "index out of range" := by
    unfold PostCheckBlock.cbHeight
    rw [if_pos ⟨hv, hm⟩, hx]
    simp only [Option.getD_some, index, deref, List.getElem?_cons_zero, h0,
      List.getElem?_nil]
  unfold PostCheckBlock
  rw [hb]
  dsimp only
  rw [if_pos (by simp [ht])]
  unfold PostCheckBlock.untrusted
  rw [hc]

set_option maxRecDepth 8000 in
/-- C17 fails for a block whose first transaction has no input. The block of
`noInputRaw` is untrusted and of version 2; `PreCheckBlock` accepts it on
`upgradedChain` and counts `Majority_v2` = 3, at least `EnforceUpgrade` = 2; its
transaction list is built without error and its one transaction has no input.
`PostCheckBlock` then indexes `bl.Txs[0].TxIn[0]` and panics instead of
returning the bad-cb-height error, and so does `CheckBlock`. -/
theorem C17_first_tx_without_input_panics :
    NewBlock noInputLib noInputRaw = (some (blockOf noInputRaw), none)
    ∧ (blockOf noInputRaw).Trusted = false
    ∧ (blockOf noInputRaw).Version = 2
    ∧ (PreCheckBlock noInputLib upgradedChain 3000 (blockOf noInputRaw)).1
        = (none, false, false)
    ∧ (PreCheckBlock noInputLib upgradedChain 3000 (blockOf noInputRaw)).2.Majority_v2 = 3
    ∧ upgradedChain.Consensus.EnforceUpgrade = 2
    ∧ ((builtBlock noInputLib
          (PreCheckBlock noInputLib upgradedChain 3000 (blockOf noInputRaw)).2).Txs.getD []).map
        (fun t => t.map (fun t => t.TxIn)) = [some []]
    ∧ PostCheckBlock noInputLib upgradedChain
        (PreCheckBlock noInputLib upgradedChain 3000 (blockOf noInputRaw)).2
        = .error "index out of range"
    ∧ CheckBlock noInputLib upgradedChain 3000 (blockOf noInputRaw)
        = .error "index out of range" := by
  refine ⟨by rfl, by rfl, by decide, by decide, by decide, by rfl, by decide, by rfl, by rfl⟩

/-! ### The merkle root of an accepted block -/

/-- Method `PreCheckBlock` changes only the height and the three counters. -/
theorem PreCheckBlock_snd (lib : Lib) (ch : Chain) (now : Int) (bl : Block) :
    ∃ h a b c, (PreCheckBlock lib ch now bl).2
      = { bl with Height := h, Majority_v2 := a, Majority_v3 := b, Majority_v4 := c } := by
  unfold PreCheckBlock
  split
  · exact ⟨_, _, _, _, rfl⟩
  · split
    · exact ⟨_, _, _, _, rfl⟩
    · split
      · exact ⟨_, _, _, _, rfl⟩
      · split
        · exact ⟨_, _, _, _, rfl⟩
        · split
          · split
            · exact ⟨_, _, _, _, rfl⟩
            · exact ⟨_, _, _, _, rfl⟩
          · split
            · exact ⟨_, _, _, _, rfl⟩
            · rename_i prevblk _
              obtain ⟨a, b, c, e⟩ := linked_snd lib ch prevblk
                { bl with Height := ((ch.mem prevblk).Height + 1) % 2^32 }
              exact ⟨_, a, b, c, e⟩

/-- The checks of an untrusted block end without error only if the merkle root
computed over the transactions is the one of the header and the construction is
not mutated. -/
theorem satoshi_ok (lib : Lib) (bl : Block) (txs : List (Option Tx))
    (h : PostCheckBlock.satoshi lib bl txs = .ok none) :
    (lib.GetMerkel txs).1 = bl.MerkleRoot ∧ (lib.GetMerkel txs).2 = false := by
  unfold PostCheckBlock.satoshi at h
  split at h
  · cases h
  · cases h
  · split at h
    · cases h
    · split at h
      · cases h
      · cases h
      · split at h
        · cases h
        · rename_i hm
          split at h
          · cases h
          · rename_i hr
            exact ⟨not_not.mp hr, by simpa using hm⟩

theorem untrusted_ok (lib : Lib) (ch : Chain) (bl : Block) (txs : List (Option Tx))
    (h : PostCheckBlock.untrusted lib ch bl txs = .ok none) :
    (lib.GetMerkel txs).1 = bl.MerkleRoot ∧ (lib.GetMerkel txs).2 = false := by
  unfold PostCheckBlock.untrusted at h
  split at h
  · cases h
  · cases h
  · exact satoshi_ok lib bl txs h

/-- A call of `CheckBlock` that returns no error is a call of `PreCheckBlock`
without error followed by a call of `PostCheckBlock` without error. -/
theorem CheckBlock_ok (lib : Lib) (ch : Chain) (now : Int) (bl bl2 : Block) (dos ml : Bool)
    (h : CheckBlock lib ch now bl = .ok ((none, dos, ml), bl2)) :
    (PreCheckBlock lib ch now bl).1.1 = none
      ∧ PostCheckBlock lib ch (PreCheckBlock lib ch now bl).2 = .ok (none, bl2) := by
  unfold CheckBlock at h
  dsimp only at h
  split at h
  · rename_i h1
    refine ⟨h1, ?_⟩
    split at h
    · cases h
    · rename_i er b hp
      injection h with h
      injection h with h2 h3
      injection h2 with h4 h5
      rw [hp, h4, h3]
  · rename_i h1
    injection h with h
    exfalso
    apply h1
    rw [h]

/-- C11 (amended): for every block that is not trusted and on which
`CheckBlock` returns no error, the merkle root that `GetMerkel` computes over
the transactions of the block equals the merkle-root field `Raw[36:68]` of the
header, which the call leaves as it was, and the construction is not reported
as mutated. -/
theorem C11_merkle_root (lib : Lib) (ch : Chain) (now : Int) (bl bl2 : Block) (dos ml : Bool)
    (h : CheckBlock lib ch now bl = .ok ((none, dos, ml), bl2)) (ht : bl.Trusted = false) :
    lib.GetMerkel (bl2.Txs.getD []) = (subslice bl2.Raw 36 68, false)
    ∧ bl2.Raw = bl.Raw := by
  obtain ⟨-, hpost⟩ := CheckBlock_ok lib ch now bl bl2 dos ml h
  obtain ⟨hh, a, b, c, e0⟩ := PreCheckBlock_snd lib ch now bl
  obtain ⟨bl1, hb, hu, e2⟩ := PostCheckBlock_ok lib ch _ bl2 hpost
  obtain ⟨txs, cnt, off, e1⟩ := build_frame lib _ bl1 none hb
  have ht1 : bl1.Trusted = false := by rw [e1, e0]; exact ht
  have hr1 : bl1.Raw = bl.Raw := by rw [e1, e0]
  have hm := untrusted_ok lib ch bl1 _ (hu ht1)
  have e3 : bl2.Txs = bl1.Txs := by rw [e2]
  have e4 : bl2.Raw = bl1.Raw := by rw [e2]
  rw [e3, e4]
  refine ⟨?_, hr1⟩
  exact Prod.ext hm.1 hm.2

set_option maxRecDepth 8000 in
/-- C11, as stated, fails: `CheckBlock` returns no error on a trusted block
whose header has a merkle root that differs from the one `GetMerkel` computes
over its transactions. -/
theorem C11_counterexample :
    CheckBlock sampleLib sampleChain 3000 trustedBadRoot
      = .ok ((none, false, false), acceptedBlock sampleLib sampleChain 3000 trustedBadRoot)
    ∧ (sampleLib.GetMerkel
        ((acceptedBlock sampleLib sampleChain 3000 trustedBadRoot).Txs.getD [])).1
      ≠ (acceptedBlock sampleLib sampleChain 3000 trustedBadRoot).MerkleRoot := by
  refine ⟨by rfl, by decide⟩

set_option maxRecDepth 8000 in
theorem C11_merkle_root_witness :
    sampleLib.GetMerkel
        ((acceptedBlock sampleLib sampleChain 3000 (blockOf (sampleRaw 1 sampleRoot))).Txs.getD [])
      = (sampleRoot, false) :=
  (C11_merkle_root sampleLib sampleChain 3000 (blockOf (sampleRaw 1 sampleRoot))
    (acceptedBlock sampleLib sampleChain 3000 (blockOf (sampleRaw 1 sampleRoot)))
    false false (by rfl) (by decide)).1

/-! ### `GetMedianTimePast` -/

theorem Uint32_lt (b : List UInt8) : Uint32 b < 2^32 := by
  unfold Uint32
  have h0 := (b.getD 0 0).toNat_lt
  have h1 := (b.getD 1 0).toNat_lt
  have h2 := (b.getD 2 0).toNat_lt
  have h3 := (b.getD 3 0).toNat_lt
  omega

theorem parentChain_length_le (mem : Nat → BlockTreeNode) (k : Nat) (p : Option Nat) :
    (parentChain mem k p).length ≤ k := by
  induction k generalizing p with
  | zero => simp [parentChain]
  | succ k ih =>
    cases p with
    | none => simp [parentChain]
    | some n =>
      simp only [parentChain, List.length_cons]
      have := ih (mem n).Parent
      omega

/-- When the walk of at most `b` steps ends before the step `b`, it has met all
the nodes up to the root, and a walk of at most `a` steps meets `a` nodes or all
of them. -/
theorem parentChain_length_min (mem : Nat → BlockTreeNode) (a b : Nat) (p : Option Nat)
    (h : (parentChain mem b p).length < b) :
    (parentChain mem a p).length = min a (parentChain mem b p).length := by
  induction b generalizing a p with
  | zero => omega
  | succ b ih =>
    cases p with
    | none => cases a <;> simp [parentChain]
    | some n =>
      cases a with
      | zero => simp [parentChain]
      | succ a =>
        simp only [parentChain, List.length_cons] at h ⊢
        rw [ih a (mem n).Parent (by omega)]
        omega

theorem loop_slice (mem : Nat → BlockTreeNode) (pend : Nat) (todo : Nat) (p : Option Nat)
    (pmedian : Nat → Int) (pbegin : Nat) (h1 : todo ≤ pbegin) (h2 : pbegin ≤ pend) :
    (GetMedianTimePast.loop mem todo p pmedian pbegin).2
        = pbegin - (parentChain mem todo p).length
    ∧ (List.range (pend - (GetMedianTimePast.loop mem todo p pmedian pbegin).2)).map
        (fun i => (GetMedianTimePast.loop mem todo p pmedian pbegin).1
          ((GetMedianTimePast.loop mem todo p pmedian pbegin).2 + i))
      = ((parentChain mem todo p).map (fun x => ((mem x).Timestamp : Int))).reverse
          ++ (List.range (pend - pbegin)).map (fun i => pmedian (pbegin + i)) := by
  induction todo generalizing p pmedian pbegin with
  | zero => simp [GetMedianTimePast.loop, parentChain]
  | succ todo ih =>
    cases p with
    | none => simp [GetMedianTimePast.loop, parentChain]
    | some x =>
      have ih1 := ih (mem x).Parent
        (Function.update pmedian (pbegin - 1) ((mem x).Timestamp : Int)) (pbegin - 1)
        (by omega) (by omega)
      have hl := parentChain_length_le mem todo (mem x).Parent
      simp only [GetMedianTimePast.loop, parentChain, List.length_cons, List.map_cons,
        List.reverse_cons, List.append_assoc, List.singleton_append]
      refine ⟨by rw [ih1.1]; omega, ?_⟩
      rw [ih1.2]
      congr 1
      have e : pend - (pbegin - 1) = (pend - pbegin) + 1 := by omega
      rw [e, List.range_succ_eq_map, List.map_cons, List.map_map]
      congr 1
      · rw [Nat.add_zero, Function.update_same]
      · apply List.map_congr_left
        intro i _
        have e2 : pbegin - 1 + (i + 1) = pbegin + i := by omega
        simp only [Function.comp, Nat.succ_eq_add_one]
        rw [e2, Function.update_noteq (by omega)]

theorem sortInts_perm (l1 l2 : List Int) (h : l1.Perm l2) : sortInts l1 = sortInts l2 := by
  unfold sortInts
  apply List.eq_of_perm_of_sorted (r := fun a b : Int => a ≤ b)
  · exact ((List.perm_insertionSort _ l1).trans h).trans (List.perm_insertionSort _ l2).symm
  · exact List.sorted_insertionSort _ l1
  · exact List.sorted_insertionSort _ l2

theorem sortInts_cast (l : List Nat) :
    sortInts (List.map (fun a : Nat => (a : Int)) l)
      = List.map (fun a : Nat => (a : Int)) (sortNats l) := by
  unfold sortInts sortNats
  apply List.eq_of_perm_of_sorted (r := fun a b : Int => a ≤ b)
  · exact (List.perm_insertionSort _ _).trans
      ((List.perm_insertionSort _ l).symm.map _)
  · exact List.sorted_insertionSort _ _
  · have s := List.sorted_insertionSort (fun a b : Nat => a ≤ b) l
    unfold List.Sorted at s ⊢
    rw [List.pairwise_map]
    exact s.imp (fun h => Int.ofNat_le.mpr h)

/-- The value of `GetMedianTimePast` is the element at index `k / 2` of the
sorted list of the last `k` timestamps. -/
theorem GetMedianTimePast_eq (mem : Nat → BlockTreeNode) (n : Nat) :
    GetMedianTimePast mem n
      = (sortNats (lastTimes mem n)).getD ((lastTimes mem n).length / 2) 0 := by
  have hl := parentChain_length_le mem MedianTimeSpan (some n)
  have s := loop_slice mem MedianTimeSpan MedianTimeSpan (some n) (fun _ => 0) MedianTimeSpan
    (Nat.le_refl _) (Nat.le_refl _)
  unfold GetMedianTimePast
  dsimp only
  rw [s.2, s.1, Nat.sub_self, List.range_zero, List.map_nil, List.append_nil]
  have e : MedianTimeSpan - (MedianTimeSpan - (parentChain mem MedianTimeSpan (some n)).length)
      = (lastTimes mem n).length := by
    unfold lastTimes
    rw [List.length_map]
    omega
  rw [e, sortInts_perm _ _ (List.reverse_perm _)]
  have e2 : (parentChain mem MedianTimeSpan (some n)).map (fun x => ((mem x).Timestamp : Int))
      = List.map (fun a : Nat => (a : Int)) (lastTimes mem n) := by
    unfold lastTimes
    rw [List.map_map]
    rfl
  rw [e2, sortInts_cast]
  have e3 : (List.map (fun a : Nat => (a : Int)) (sortNats (lastTimes mem n))).getD
      ((lastTimes mem n).length / 2) 0
      = (((sortNats (lastTimes mem n)).getD ((lastTimes mem n).length / 2) 0 : Nat) : Int) :=
    List.getD_map (sortNats (lastTimes mem n)) 0 (fun a : Nat => (a : Int))
  rw [e3]
  have hlt : (sortNats (lastTimes mem n)).getD ((lastTimes mem n).length / 2) 0 < 2^32 := by
    rw [List.getD_eq_getElem?_getD]
    cases hg : (sortNats (lastTimes mem n))[(lastTimes mem n).length / 2]? with
    | none => simp
    | some v =>
      have hm : v ∈ sortNats (lastTimes mem n) := List.getElem?_mem hg
      unfold sortNats at hm
      rw [List.mem_insertionSort] at hm
      unfold lastTimes at hm
      rw [List.mem_map] at hm
      obtain ⟨x, -, rfl⟩ := hm
      exact Uint32_lt _
  omega

/-- C19: with `k` the number of nodes of the parent chain of a node, the node
itself included, limited to 11, `GetMedianTimePast` returns the element at
index `k / 2` of their header timestamps sorted in ascending order. `k` is at
least 1 and is the minimum of 11 and the number of nodes up to the root; the
result is one of those timestamps, and for a node without parent it is the
timestamp of the node. -/
theorem C19_GetMedianTimePast (mem : Nat → BlockTreeNode) (n : Nat) :
    GetMedianTimePast mem n
      = (sortNats (lastTimes mem n)).getD ((lastTimes mem n).length / 2) 0
    ∧ GetMedianTimePast mem n ∈ lastTimes mem n
    ∧ ((mem n).Parent = none → GetMedianTimePast mem n = (mem n).Timestamp)
    ∧ 1 ≤ (lastTimes mem n).length
    ∧ (∀ N m, (parentChain mem N (some n)).length = m → m < N →
        (lastTimes mem n).length = min 11 m) := by
  have e := GetMedianTimePast_eq mem n
  have hk : 1 ≤ (lastTimes mem n).length := by
    simp [lastTimes, MedianTimeSpan, parentChain]
  refine ⟨e, ?_, fun hp => ?_, hk, fun N m hm hlt => ?_⟩
  · rw [e]
    have hlen : (sortNats (lastTimes mem n)).length = (lastTimes mem n).length :=
      List.length_insertionSort _ _
    have hi : (lastTimes mem n).length / 2 < (sortNats (lastTimes mem n)).length := by
      rw [hlen]
      omega
    rw [List.getD_eq_getElem _ _ hi]
    have hm := List.getElem_mem hi
    unfold sortNats at hm
    rw [List.mem_insertionSort] at hm
    exact hm
  · rw [e]
    have : lastTimes mem n = [(mem n).Timestamp] := by
      simp [lastTimes, MedianTimeSpan, parentChain, hp]
    rw [this]
    simp [sortNats]
  · unfold lastTimes
    rw [List.length_map]
    subst hm
    exact parentChain_length_min mem MedianTimeSpan N (some n) hlt

theorem C19_GetMedianTimePast_witness :
    GetMedianTimePast timedMem 3 = 1004 ∧ GetMedianTimePast timedMem 0 = 1000 :=
  ⟨(C19_GetMedianTimePast timedMem 3).1,
    (C19_GetMedianTimePast timedMem 0).2.2.1 (by rfl)⟩

/-! ### `FindFarthestNode` -/

/-- The loop of `FindFarthestNode` over the children from position `m` on, when
`acc` is the farthest node below the children before position `m`. -/
theorem FindFarthestNode_loop (mem : Nat → BlockTreeNode) (rec : Nat → Option (Nat × Nat))
    (ch : List Nat)
    (hrec : ∀ c ∈ ch, ∃ leaf d, rec c = some (leaf, d) ∧ Farthest mem c leaf d)
    (t m : Nat) (acc : Nat × Nat) (ht : m + t = ch.length)
    (inv : ∃ i ci path, i < m ∧ ch[i]? = some ci ∧ follow mem ci path = some acc.1
      ∧ path.length = acc.2 ∧ (mem acc.1).Childs = []
      ∧ (∀ j cj, j < m → ch[j]? = some cj → ∀ p q, follow mem cj p = some q →
          p.length ≤ acc.2 ∧ (p.length = acc.2 → lexLe (i :: path) (j :: p)))) :
    ∃ r, FindFarthestNode.loop rec (ch.drop m) acc = some r
      ∧ ∃ i ci path, ch[i]? = some ci ∧ follow mem ci path = some r.1
        ∧ path.length = r.2 ∧ (mem r.1).Childs = []
        ∧ (∀ j cj, ch[j]? = some cj → ∀ p q, follow mem cj p = some q →
            p.length ≤ r.2 ∧ (p.length = r.2 → lexLe (i :: path) (j :: p))) := by
  induction t generalizing m acc with
  | zero =>
    obtain ⟨i, ci, path, hi, hci, hf, hl, hc, hall⟩ := inv
    have hm : m = ch.length := by omega
    rw [hm, List.drop_length]
    refine ⟨acc, rfl, i, ci, path, hci, hf, hl, hc, fun j cj hj => ?_⟩
    have hjl : j < ch.length := by
      rcases Nat.lt_or_ge j ch.length with h | h
      · exact h
      · rw [List.getElem?_eq_none h] at hj
        cases hj
    exact hall j cj (by omega) hj
  | succ t ih =>
    obtain ⟨i, ci, path, hi, hci, hf, hl, hc, hall⟩ := inv
    have hm : m < ch.length := by omega
    rw [List.drop_eq_getElem_cons hm]
    obtain ⟨leaf, d, hr, pc, hpl, hpf, hpc, hpmax, hplex⟩ := hrec ch[m] (List.getElem_mem hm)
    have hcm : ch[m]? = some ch[m] := List.getElem?_eq_getElem hm
    simp only [FindFarthestNode.loop, hr]
    by_cases hgt : d > acc.2
    · rw [if_pos hgt]
      apply ih (m + 1) (leaf, d) (by omega)
      refine ⟨m, ch[m], pc, by omega, hcm, hpf, hpl, hpc, fun j cj hj hcj p q hp => ?_⟩
      rcases Nat.lt_or_ge j m with hjm | hjm
      · have := (hall j cj hjm hcj p q hp).1
        dsimp only
        exact ⟨by omega, fun he => by omega⟩
      · have hjeq : j = m := by omega
        subst hjeq
        rw [hcm] at hcj
        injection hcj with hcj
        subst hcj
        exact ⟨hpmax p q hp, fun he => Or.inr ⟨rfl, hplex p q hp he⟩⟩
    · rw [if_neg hgt]
      apply ih (m + 1) acc (by omega)
      refine ⟨i, ci, path, by omega, hci, hf, hl, hc, fun j cj hj hcj p q hp => ?_⟩
      rcases Nat.lt_or_ge j m with hjm | hjm
      · exact hall j cj hjm hcj p q hp
      · have hjeq : j = m := by omega
        subst hjeq
        rw [hcm] at hcj
        injection hcj with hcj
        subst hcj
        have := hpmax p q hp
        exact ⟨by omega, fun _ => Or.inl hi⟩

/-- On a finite tree and with enough fuel, `FindFarthestNode` returns the
farthest node and its distance. -/
theorem FindFarthestNode_spec (mem : Nat → BlockTreeNode) (k : Nat) :
    ∀ (fuel n : Nat), treeWithin mem k n = true → k ≤ fuel →
      ∃ leaf d, FindFarthestNode mem fuel n = some (leaf, d) ∧ Farthest mem n leaf d := by
  induction k with
  | zero =>
    intro fuel n h
    simp [treeWithin] at h
  | succ k ih =>
    intro fuel n hT hf
    obtain ⟨f, rfl⟩ : ∃ f, fuel = f + 1 := ⟨fuel - 1, by omega⟩
    rw [treeWithin, List.all_eq_true] at hT
    rw [FindFarthestNode]
    cases hch : (mem n).Childs with
    | nil =>
      refine ⟨n, 0, rfl, [], rfl, rfl, hch, fun p q hp => ?_, fun p q hp _ => trivial⟩
      cases p with
      | nil => exact Nat.le_refl _
      | cons j p =>
        rw [follow, hch] at hp
        simp at hp
    | cons c0 cs =>
      have hrec : ∀ c ∈ c0 :: cs, ∃ leaf d, FindFarthestNode mem f c = some (leaf, d)
          ∧ Farthest mem c leaf d := by
        intro c hc
        rw [hch] at hT
        exact ih f c (hT c hc) (by omega)
      obtain ⟨leaf0, d0, hr0, p0, hp0l, hp0f, hp0c, hp0max, hp0lex⟩ :=
        hrec c0 (List.mem_cons_self _ _)
      have hloop := FindFarthestNode_loop mem (fun c => FindFarthestNode mem f c) (c0 :: cs)
        hrec cs.length 1 (leaf0, d0) (by simp [Nat.add_comm])
        ⟨0, c0, p0, by omega, List.getElem?_cons_zero, hp0f, hp0l, hp0c,
          fun j cj hj hcj p q hp => by
          have hj0 : j = 0 := by omega
          subst hj0
          rw [List.getElem?_cons_zero] at hcj
          injection hcj with hcj
          subst hcj
          exact ⟨hp0max p q hp, fun he => Or.inr ⟨rfl, hp0lex p q hp he⟩⟩⟩
      obtain ⟨r, hr, i, ci, path, hci, hfo, hl, hc, hall⟩ := hloop
      rw [List.drop_one, List.tail_cons] at hr
      simp only [hr0, hr]
      refine ⟨r.1, r.2 + 1, rfl, i :: path, by rw [List.length_cons, hl], ?_, hc,
        fun p q hp => ?_, fun p q hp he => ?_⟩
      · rw [follow, hch, hci]
        exact hfo
      · cases p with
        | nil => simp
        | cons j p =>
          rw [follow, hch] at hp
          cases hj : (c0 :: cs)[j]? with
          | none => rw [hj] at hp; cases hp
          | some cj =>
            rw [hj] at hp
            have := (hall j cj hj p q hp).1
            rw [List.length_cons]
            omega
      · cases p with
        | nil => simp at he
        | cons j p =>
          rw [follow, hch] at hp
          cases hj : (c0 :: cs)[j]? with
          | none => rw [hj] at hp; cases hp
          | some cj =>
            rw [hj] at hp
            rw [List.length_cons] at he
            exact (hall j cj hj p q hp).2 (by omega)

/-- C20: for every node `n` that is the root of a finite tree, `FindFarthestNode`
returns, given enough fuel, a pair `(leaf, d)` where some path of `d` child
links leads from `n` to `leaf`, `leaf` has no child, no path of child links from
`n` is longer than `d`, and the path to `leaf` is the first one, in the order of
`Childs` at every level, among the paths of `d` links: a later sibling is taken
only when it leads strictly deeper. -/
theorem C20_FindFarthestNode (mem : Nat → BlockTreeNode) (k fuel n : Nat)
    (hT : treeWithin mem k n = true) (hf : k ≤ fuel) :
    ∃ leaf d path, FindFarthestNode mem fuel n = some (leaf, d)
      ∧ path.length = d ∧ follow mem n path = some leaf ∧ (mem leaf).Childs = []
      ∧ (∀ p q, follow mem n p = some q → p.length ≤ d)
      ∧ (∀ p q, follow mem n p = some q → p.length = d → lexLe path p) := by
  obtain ⟨leaf, d, h, path, hp⟩ := FindFarthestNode_spec mem k fuel n hT hf
  exact ⟨leaf, d, path, h, hp⟩

theorem C20_FindFarthestNode_witness :
    FindFarthestNode treeMem 3 0 = some (3, 2)
    ∧ ∃ leaf d path, FindFarthestNode treeMem 3 0 = some (leaf, d)
      ∧ path.length = d ∧ follow treeMem 0 path = some leaf ∧ (treeMem leaf).Childs = []
      ∧ (∀ p q, follow treeMem 0 p = some q → p.length ≤ d)
      ∧ (∀ p q, follow treeMem 0 p = some q → p.length = d → lexLe path p) :=
  ⟨by decide, C20_FindFarthestNode treeMem 3 3 0 (by decide) (by decide)⟩

/-! ## Theorems about client/network/invs.go and client/usif/usif.go -/

theorem PutUint32_length (v : Nat) : (PutUint32 v).length = 4 := rfl

/-- The record is the type in little-endian order followed by the hash. -/
theorem makeInv_eq (typ : Nat) (h : List UInt8) (hh : h.length = 32) :
    makeInv typ h = PutUint32 typ ++ h := by
  unfold makeInv
  dsimp only
  have e := slice_of_agree (copy (copy (fun _ => 0) 0 4 (PutUint32 typ)) 4 36 h)
    (PutUint32 typ ++ h) 36 0 36 ?_ (Nat.le_refl _)
    (by rw [List.length_append, PutUint32_length, hh])
  · rw [e, List.drop_zero, Nat.sub_zero, List.take_of_length_le]
    rw [List.length_append, PutUint32_length, hh]
  · intro i hi
    unfold copy
    by_cases h4 : 4 ≤ i
    · rw [if_pos ⟨h4, hi, by omega⟩, List.getD_append_right _ _ _ _ (by
        rw [PutUint32_length]; exact h4), PutUint32_length]
    · rw [if_neg (fun c => h4 c.1), if_pos ⟨Nat.zero_le _, by omega, by
        rw [PutUint32_length]; omega⟩, Nat.sub_zero,
        List.getD_append _ _ _ _ (by rw [PutUint32_length]; omega)]

theorem makeInv_length (typ : Nat) (h : List UInt8) : (makeInv typ h).length = 36 := by
  simp [makeInv, slice]

/-- One iteration of the loop of `NetRouteInv`. -/
theorem NetRouteInv_loop_cons (typ : Nat) (inv : List UInt8) (fromConn : Option Nat)
    (v : Nat) (rest : List Nat) (heap : Nat → OneConnection) (cnt : Nat) :
    NetRouteInv.loop typ inv fromConn (v :: rest) heap cnt
      = if routed typ fromConn heap v = true then
          NetRouteInv.loop typ inv fromConn rest
            (Function.update heap v
              { heap v with PendingInvs := (heap v).PendingInvs ++ [inv] })
            ((cnt + 1) % 2^64)
        else NetRouteInv.loop typ inv fromConn rest heap cnt := by
  rw [NetRouteInv.loop]
  unfold routed
  by_cases h1 : some v ≠ fromConn
  · rw [if_pos h1]
    by_cases h2 : (heap v).Node.DoNotRelayTxs = true ∧ typ = 1
    · rw [if_pos h2]
      simp [h1, h2]
    · rw [if_neg h2]
      by_cases h3 : fromConn = none ∧ (heap v).X.InvsRecieved = 0
      · rw [if_pos h3]
        simp [h1, h2, h3]
      · rw [if_neg h3]
        by_cases h4 : (heap v).PendingInvs.length < 500
        · rw [if_pos h4, if_pos (by simp [h1, h2, h3, h4])]
        · rw [if_neg h4, if_neg (by simp [h4])]
  · rw [if_neg h1, if_neg (by simp [h1])]

/-- The loop of `NetRouteInv` over distinct connections appends the record to
the connections that `routed` selects, and counts them. -/
theorem NetRouteInv_loop (typ : Nat) (inv : List UInt8) (fromConn : Option Nat)
    (l : List Nat) (hnd : l.Nodup) (heap : Nat → OneConnection) (cnt : Nat)
    (hc : cnt < 2^64) :
    (∀ u, (NetRouteInv.loop typ inv fromConn l heap cnt).1 u
        = if u ∈ l ∧ routed typ fromConn heap u = true then
            { heap u with PendingInvs := (heap u).PendingInvs ++ [inv] }
          else heap u)
    ∧ (NetRouteInv.loop typ inv fromConn l heap cnt).2
        = (cnt + l.countP (routed typ fromConn heap)) % 2^64 := by
  induction l generalizing heap cnt with
  | nil =>
    refine ⟨fun u => by simp [NetRouteInv.loop], ?_⟩
    simp only [NetRouteInv.loop, List.countP_nil, Nat.add_zero]
    exact (Nat.mod_eq_of_lt hc).symm
  | cons v rest ih =>
    have hv : v ∉ rest := (List.nodup_cons.mp hnd).1
    have hr : rest.Nodup := (List.nodup_cons.mp hnd).2
    rw [NetRouteInv_loop_cons]
    by_cases hrt : routed typ fromConn heap v = true
    · rw [if_pos hrt]
      have hcongr : ∀ u, u ≠ v →
          routed typ fromConn (Function.update heap v
            { heap v with PendingInvs := (heap v).PendingInvs ++ [inv] }) u
          = routed typ fromConn heap u := by
        intro u hu
        unfold routed
        rw [Function.update_noteq hu]
      obtain ⟨ih1, ih2⟩ := ih hr (Function.update heap v
        { heap v with PendingInvs := (heap v).PendingInvs ++ [inv] }) ((cnt + 1) % 2^64)
        (Nat.mod_lt _ (by norm_num))
      refine ⟨fun u => ?_, ?_⟩
      · rw [ih1]
        by_cases huv : u = v
        · subst huv
          rw [if_neg (fun c => hv c.1), Function.update_same,
            if_pos ⟨List.mem_cons_self _ _, hrt⟩]
        · rw [hcongr u huv, Function.update_noteq huv]
          simp only [List.mem_cons, huv, false_or]
      · rw [ih2, List.countP_cons_of_pos _ _ hrt]
        have e : rest.countP (routed typ fromConn (Function.update heap v
            { heap v with PendingInvs := (heap v).PendingInvs ++ [inv] }))
            = rest.countP (routed typ fromConn heap) := by
          apply List.countP_congr
          intro u hu
          rw [hcongr u (fun c => hv (c ▸ hu))]
        rw [e]
        omega
    · rw [if_neg hrt]
      obtain ⟨ih1, ih2⟩ := ih hr heap cnt hc
      refine ⟨fun u => ?_, ?_⟩
      · rw [ih1]
        by_cases huv : u = v
        · subst huv
          rw [if_neg (fun c => hv c.1), if_neg (fun c => hrt c.2)]
        · simp only [List.mem_cons, huv, false_or]
      · rw [ih2, List.countP_cons_of_neg _ _ hrt]

/-- For a block inv the wish of a peer to get no tx inv plays no role. -/
theorem routed_block (fromConn : Option Nat) (heap : Nat → OneConnection) (v : Nat) :
    routed 2 fromConn heap v = true
      ↔ some v ≠ fromConn ∧ ¬ (fromConn = none ∧ (heap v).X.InvsRecieved = 0)
          ∧ (heap v).PendingInvs.length < 500 := by
  unfold routed
  simp
  tauto

/-- Function `NetRouteInv` leaves at most 500 pending invs in every connection
that had at most 500. -/
theorem NetRouteInv_cap (typ : Nat) (h : List UInt8) (fromConn : Option Nat)
    (OpenCons : List Nat) (heap : Nat → OneConnection)
    (hcap : ∀ v, (heap v).PendingInvs.length ≤ 500) (v : Nat) :
    ((NetRouteInv typ h fromConn OpenCons heap).1 v).PendingInvs.length ≤ 500 := by
  unfold NetRouteInv
  dsimp only
  generalize (0 : Nat) = cnt
  induction OpenCons generalizing heap cnt with
  | nil => exact hcap v
  | cons w rest ih =>
    rw [NetRouteInv_loop_cons]
    by_cases hrt : routed typ fromConn heap w = true
    · rw [if_pos hrt]
      apply ih
      intro u
      by_cases huw : u = w
      · subst huw
        rw [Function.update_same]
        have hlt : (heap u).PendingInvs.length < 500 := by
          unfold routed at hrt
          simp at hrt
          exact hrt.2
        rw [List.length_append]
        simp only [List.length_singleton]
        omega
      · rw [Function.update_noteq huw]
        exact hcap u
    · rw [if_neg hrt]
      exact ih heap hcap cnt

/-- C28 fails for a block of our own: `NetRouteInv` is called with a nil source
and the type 2, the one open connection is not the source and holds no pending
inv, and its peer has never sent an inv. The test of `InvsRecieved`, meant for
own transactions, is made for every type, so nothing is appended to
`PendingInvs` and the returned count is 0. The same call appends the inv, and
returns 1, when the peer has sent one inv before. -/
theorem C28_own_block_not_announced :
    1 ∈ [1] ∧ some 1 ≠ (none : Option Nat)
    ∧ (NewConnection.PendingInvs.length < 500)
    ∧ ((NetRouteInv 2 (List.replicate 32 7) none [1] (fun _ => NewConnection)).1 1).PendingInvs
        = []
    ∧ (NetRouteInv 2 (List.replicate 32 7) none [1] (fun _ => NewConnection)).2.1 = 0
    ∧ ((NetRouteInv 2 (List.replicate 32 7) none [1]
        (fun _ => { NewConnection with X := { NewConnection.X with InvsRecieved := 1 } })).1
          1).PendingInvs = [makeInv 2 (List.replicate 32 7)]
    ∧ (NetRouteInv 2 (List.replicate 32 7) none [1]
        (fun _ => { NewConnection with X := { NewConnection.X with InvsRecieved := 1 } })).2.1
        = 1 := by
  decide

/-- What `NetRouteInv` does with a block inv: for `typ` = 2 and distinct open
connections, it appends the 36-byte record, the type in 32-bit little-endian
order followed by the 32 hash bytes, to `PendingInvs` of every open connection
other than `fromConn` that holds fewer than 500 pending invs, except, when
`fromConn` is nil, the connections of peers that never sent an inv
(`InvsRecieved` = 0). It changes nothing else, returns the number of
connections it appended to and sends no warning; whether a peer wants no tx
inv plays no role. -/
theorem NetRouteInv_block_spec (h : List UInt8) (fromConn : Option Nat) (OpenCons : List Nat)
    (heap : Nat → OneConnection) (hnd : OpenCons.Nodup) :
    (∀ v, (NetRouteInv 2 h fromConn OpenCons heap).1 v
        = if v ∈ OpenCons ∧ some v ≠ fromConn
              ∧ ¬ (fromConn = none ∧ (heap v).X.InvsRecieved = 0)
              ∧ (heap v).PendingInvs.length < 500 then
            { heap v with PendingInvs := (heap v).PendingInvs ++ [makeInv 2 h] }
          else heap v)
    ∧ (NetRouteInv 2 h fromConn OpenCons heap).2.1
        = (OpenCons.countP (fun v => decide (some v ≠ fromConn
              ∧ ¬ (fromConn = none ∧ (heap v).X.InvsRecieved = 0)
              ∧ (heap v).PendingInvs.length < 500))) % 2^64
    ∧ (NetRouteInv 2 h fromConn OpenCons heap).2.2 = false
    ∧ (makeInv 2 h).length = 36
    ∧ (h.length = 32 → makeInv 2 h = PutUint32 2 ++ h) := by
  obtain ⟨l1, l2⟩ := NetRouteInv_loop 2 (makeInv 2 h) fromConn OpenCons hnd heap 0
    (by norm_num)
  refine ⟨fun v => ?_, ?_, ?_, makeInv_length 2 h, makeInv_eq 2 h⟩
  · unfold NetRouteInv
    dsimp only
    rw [l1 v]
    by_cases hc : v ∈ OpenCons ∧ routed 2 fromConn heap v = true
    · rw [if_pos hc, if_pos ⟨hc.1, (routed_block fromConn heap v).mp hc.2⟩]
    · rw [if_neg hc, if_neg (fun c => hc ⟨c.1, (routed_block fromConn heap v).mpr c.2⟩)]
  · unfold NetRouteInv
    dsimp only
    rw [l2, Nat.zero_add]
    congr 1
    apply List.countP_congr
    intro v _
    rw [routed_block fromConn heap v, decide_eq_true_eq]
  · unfold NetRouteInv
    simp

theorem NetRouteInv_block_example :
    (NetRouteInv 2 (List.replicate 32 7) (some 2) [1, 2] (fun _ => NewConnection)).2.1 = 1 :=
  (NetRouteInv_block_spec (List.replicate 32 7) (some 2) [1, 2] (fun _ => NewConnection)
    (by decide)).2.1

/-- C29 fails for `SendInvToRandomPeer`: the function appends without looking at
the number of pending invs, so a connection that holds 500 pending invs holds
501 afterwards. -/
theorem C29_SendInvToRandomPeer_exceeds_cap :
    fullPeer.PendingInvs.length = 500
    ∧ ∃ heap, SendInvToRandomPeer 2 (List.replicate 32 7) 0 [1] (fun _ => fullPeer) = .ok heap
        ∧ (heap 1).PendingInvs.length = 501 := by
  refine ⟨List.length_replicate _ _, _, rfl, ?_⟩
  show (List.replicate 500 (makeInv 2 (List.replicate 32 0))
    ++ [makeInv 2 (List.replicate 32 7)]).length = 501
  rw [List.length_append, List.length_replicate]
  rfl

/-! ### `ProcessInv` -/

/-- On a payload that holds `cnt` records from the offset `of` on, the loop of
`ProcessInv` does not panic and handles the entries one after the other. -/
theorem ProcessInv_loop_eq (lib : Lib) (env : NetEnv) (pl : List UInt8) (cnt : Nat) (of : Nat)
    (c : OneConnection) (h : of + 36 * cnt ≤ pl.length) :
    ProcessInv.loop lib env pl cnt (of : Int) c
      = .ok ((invEntries pl cnt of).foldl (processEntry lib env) c) := by
  induction cnt generalizing of c with
  | zero => rfl
  | succ cnt ih =>
    have e4 : ((of : Int) + 4).toNat = of + 4 := by omega
    have e36 : ((of : Int) + 36).toNat = of + 36 := by omega
    have e0 : ((of : Int)).toNat = of := by omega
    have c36 : ((of : Int) + 36) = ((of + 36 : Nat) : Int) := by omega
    have ih1 := fun c => ih (of + 36) c (by omega)
    rw [ProcessInv.loop, if_neg (by omega)]
    simp only [e4, e36, e0, invEntries, List.foldl_cons]
    rw [c36]
    unfold processEntry
    dsimp only
    by_cases h2 : Uint32 (subslice pl of (of + 4)) = 2
    · rw [if_pos h2, if_neg (by omega), ih1, if_pos h2]
      rfl
    · rw [if_neg h2, if_neg h2]
      by_cases h1 : Uint32 (subslice pl of (of + 4)) = 1
      · rw [if_pos h1, if_pos h1]
        by_cases ht : env.TXPoolEnabled = true
        · rw [if_pos ht, if_pos ht]
          by_cases hp : env.pendingBlocks > 10
          · rw [if_pos hp, if_pos hp, ih1]
            rfl
          · rw [if_neg hp, if_neg hp, if_neg (by omega), ih1]
            rfl
        · rw [if_neg ht, if_neg ht, ih1]
          rfl
      · rw [if_neg h1, if_neg h1, ih1]
        rfl

theorem block_AHR_false (lib : Lib) (env : NetEnv) (c : OneConnection) (h : List UInt8)
    (hc : c.X.AllHeadersReceived = false) :
    ProcessInv.block lib env c h = c := by
  unfold ProcessInv.block
  rw [if_pos (by simp [hc])]

theorem block_GBDN (lib : Lib) (env : NetEnv) (c : OneConnection) (h : List UInt8)
    (hc : c.X.GetBlocksDataNow = true) :
    (ProcessInv.block lib env c h).X.GetBlocksDataNow = true := by
  unfold ProcessInv.block
  split
  · exact hc
  · split
    · split
      · rfl
      · exact hc
    · exact hc

theorem block_unknown (lib : Lib) (env : NetEnv) (c : OneConnection) (h : List UInt8)
    (hr : env.ReceivedBlocks (lib.BIdx h) = false) (hb : env.BlocksToGet (lib.BIdx h) = none) :
    (ProcessInv.block lib env c h).X.AllHeadersReceived = false := by
  unfold ProcessInv.block
  split
  · rename_i hc
    simpa using hc
  · rw [if_pos (by simp [hr]), hb]

theorem block_known (lib : Lib) (env : NetEnv) (c : OneConnection) (h : List UInt8)
    (hc : c.X.AllHeadersReceived = true)
    (hk : env.ReceivedBlocks (lib.BIdx h) = true ∨ env.BlocksToGet (lib.BIdx h) ≠ none) :
    (ProcessInv.block lib env c h).X.AllHeadersReceived = true := by
  unfold ProcessInv.block
  rw [if_neg (by simp [hc])]
  split
  · rename_i hr
    rcases hk with hk | hk
    · simp [hk] at hr
    · split
      · dsimp only
        split <;> exact hc
      · rename_i hb
        exact absurd hb hk
  · exact hc

theorem block_match (lib : Lib) (env : NetEnv) (c : OneConnection) (h : List UInt8)
    (hc : c.X.AllHeadersReceived = true)
    (hr : env.ReceivedBlocks (lib.BIdx h) = false) (hb : env.BlocksToGet (lib.BIdx h) ≠ none) :
    (ProcessInv.block lib env c h).X.GetBlocksDataNow = true := by
  unfold ProcessInv.block
  rw [if_neg (by simp [hc]), if_pos (by simp [hr])]
  split
  · rfl
  · rename_i hn
    exact absurd hn hb

/-- What one entry does to the two flags, `TxInvNotify` leaving them alone. -/
theorem processEntry_flags (lib : Lib) (env : NetEnv)
    (hT : ∀ c h, (env.TxInvNotify c h).X.AllHeadersReceived = c.X.AllHeadersReceived
      ∧ (env.TxInvNotify c h).X.GetBlocksDataNow = c.X.GetBlocksDataNow)
    (c : OneConnection) (e : Nat × List UInt8) :
    (c.X.AllHeadersReceived = false →
      (processEntry lib env c e).X.AllHeadersReceived = false)
    ∧ (c.X.GetBlocksDataNow = true → (processEntry lib env c e).X.GetBlocksDataNow = true)
    ∧ (c.X.AllHeadersReceived = true → unknownBlock lib env e = false →
      (processEntry lib env c e).X.AllHeadersReceived = true) := by
  unfold processEntry
  by_cases h2 : e.1 = 2
  · rw [if_pos h2]
    refine ⟨fun hc => ?_, fun hc => block_GBDN lib env c e.2 hc, fun hc hu => ?_⟩
    · rw [block_AHR_false lib env c e.2 hc]
      exact hc
    · apply block_known lib env c e.2 hc
      unfold unknownBlock at hu
      simp only [h2, decide_True, Bool.true_and, Bool.and_eq_false_imp, Bool.not_eq_true',
        Option.isNone_eq_false_iff, Option.isSome_iff_ne_none] at hu
      by_cases hr : env.ReceivedBlocks (lib.BIdx e.2) = true
      · exact Or.inl hr
      · exact Or.inr (hu (by simpa using hr))
  · rw [if_neg h2]
    by_cases h1 : e.1 = 1
    · rw [if_pos h1]
      by_cases ht : env.TXPoolEnabled = true
      · rw [if_pos ht]
        by_cases hp : env.pendingBlocks > 10
        · rw [if_pos hp]
          exact ⟨id, id, fun hc _ => hc⟩
        · rw [if_neg hp, (hT c e.2).1, (hT c e.2).2]
          exact ⟨id, id, fun hc _ => hc⟩
      · rw [if_neg ht]
        exact ⟨id, id, fun hc _ => hc⟩
    · rw [if_neg h1]
      exact ⟨id, id, fun hc _ => hc⟩

theorem foldl_flags (lib : Lib) (env : NetEnv)
    (hT : ∀ c h, (env.TxInvNotify c h).X.AllHeadersReceived = c.X.AllHeadersReceived
      ∧ (env.TxInvNotify c h).X.GetBlocksDataNow = c.X.GetBlocksDataNow)
    (l : List (Nat × List UInt8)) (c : OneConnection) :
    (c.X.AllHeadersReceived = false →
      (l.foldl (processEntry lib env) c).X.AllHeadersReceived = false)
    ∧ (c.X.GetBlocksDataNow = true →
      (l.foldl (processEntry lib env) c).X.GetBlocksDataNow = true)
    ∧ (c.X.AllHeadersReceived = true → (∀ e ∈ l, unknownBlock lib env e = false) →
      (l.foldl (processEntry lib env) c).X.AllHeadersReceived = true) := by
  induction l generalizing c with
  | nil => exact ⟨id, id, fun hc _ => hc⟩
  | cons e l ih =>
    have s := processEntry_flags lib env hT c e
    have i := ih (processEntry lib env c e)
    rw [List.foldl_cons]
    refine ⟨fun hc => i.1 (s.1 hc), fun hc => i.2.1 (s.2.1 hc), fun hc hu => ?_⟩
    exact i.2.2 (s.2.2 hc (hu e (List.mem_cons_self _ _)))
      (fun e1 he1 => hu e1 (List.mem_cons_of_mem _ he1))

/-- The flags after a list of entries that holds a block entry. -/
theorem foldl_block_entry (lib : Lib) (env : NetEnv)
    (hT : ∀ c h, (env.TxInvNotify c h).X.AllHeadersReceived = c.X.AllHeadersReceived
      ∧ (env.TxInvNotify c h).X.GetBlocksDataNow = c.X.GetBlocksDataNow)
    (pre post : List (Nat × List UInt8)) (h : List UInt8) (c : OneConnection) :
    (env.ReceivedBlocks (lib.BIdx h) = false → env.BlocksToGet (lib.BIdx h) = none →
      ((pre ++ (2, h) :: post).foldl (processEntry lib env) c).X.AllHeadersReceived = false)
    ∧ (env.BlocksToGet (lib.BIdx h) ≠ none → env.ReceivedBlocks (lib.BIdx h) = false →
        c.X.AllHeadersReceived = true → (∀ e ∈ pre, unknownBlock lib env e = false) →
        ((pre ++ (2, h) :: post).foldl (processEntry lib env) c).X.GetBlocksDataNow = true) := by
  rw [List.foldl_append, List.foldl_cons]
  have e2 : ∀ c1, processEntry lib env c1 (2, h) = ProcessInv.block lib env c1 h := by
    intro c1
    unfold processEntry
    rw [if_pos rfl]
  rw [e2]
  refine ⟨fun hr hb => ?_, fun hb hr hc hu => ?_⟩
  · exact (foldl_flags lib env hT post _).1 (block_unknown lib env _ h hr hb)
  · apply (foldl_flags lib env hT post _).2.1
    apply block_match lib env _ h _ hr hb
    exact (foldl_flags lib env hT pre c).2.2 hc hu

theorem ProcessInv_eq (lib : Lib) (env : NetEnv) (c : OneConnection) (pl : List UInt8)
    (hlen : 37 ≤ pl.length) (hcnt : 0 ≤ (lib.VLen pl).1) (hof : 0 ≤ (lib.VLen pl).2)
    (hwf : (pl.length : Int) = (lib.VLen pl).2 + 36 * (lib.VLen pl).1) :
    ProcessInv lib env c pl
      = .ok ((invEntries pl (lib.VLen pl).1.toNat (lib.VLen pl).2.toNat).foldl
          (processEntry lib env)
          { c with X := { c.X with InvsRecieved := (c.X.InvsRecieved + 1) % 2^64 } }) := by
  unfold ProcessInv
  rw [if_neg (by omega)]
  dsimp only
  have e : (lib.VLen pl).2 = (((lib.VLen pl).2.toNat : Nat) : Int) := by omega
  rw [← ProcessInv_loop_eq lib env pl _ _ _ (by omega), ← e]

/-- C30, as stated, fails: a connection with `AllHeadersReceived` false gets an
inv payload whose one entry is a block inv with a hash in `BlocksToGet` (and
not in `ReceivedBlocks`); `GetBlocksDataNow` is false afterwards. -/
theorem C30_counterexample :
    invEntries oneBlockInv (sampleLib.VLen oneBlockInv).1.toNat
        (sampleLib.VLen oneBlockInv).2.toNat = [(2, List.replicate 32 7)]
    ∧ (oneBlockInv.length : Int)
        = (sampleLib.VLen oneBlockInv).2 + 36 * (sampleLib.VLen oneBlockInv).1
    ∧ sampleEnv.BlocksToGet (sampleLib.BIdx (List.replicate 32 7)) = some 5
    ∧ sampleEnv.ReceivedBlocks (sampleLib.BIdx (List.replicate 32 7)) = false
    ∧ (ProcessInv sampleLib sampleEnv NewConnection oneBlockInv).toOption.map
        (fun c => c.X.GetBlocksDataNow) = some false := by
  decide

/-- C30 (amended): `ProcessInv` handles an inv payload of at least 37 bytes that
holds exactly the announced entries without panic, and for every entry of type
2 in it: if the hash is neither in `ReceivedBlocks` nor in `BlocksToGet`,
`AllHeadersReceived` is false afterwards; if the hash is in `BlocksToGet` and
not in `ReceivedBlocks`, and `AllHeadersReceived` was true before the call and
no earlier entry of the payload is a block inv with an unknown hash (so that
the flag is still true when the entry is handled), `GetBlocksDataNow` is true
afterwards. `TxInvNotify` is taken to leave the two flags alone. -/
theorem C30_ProcessInv (lib : Lib) (env : NetEnv) (c : OneConnection) (pl : List UInt8)
    (hlen : 37 ≤ pl.length) (hcnt : 0 ≤ (lib.VLen pl).1) (hof : 0 ≤ (lib.VLen pl).2)
    (hwf : (pl.length : Int) = (lib.VLen pl).2 + 36 * (lib.VLen pl).1)
    (hT : ∀ c h, (env.TxInvNotify c h).X.AllHeadersReceived = c.X.AllHeadersReceived
      ∧ (env.TxInvNotify c h).X.GetBlocksDataNow = c.X.GetBlocksDataNow) :
    ∃ c1, ProcessInv lib env c pl = .ok c1
      ∧ ∀ pre h post,
        invEntries pl (lib.VLen pl).1.toNat (lib.VLen pl).2.toNat = pre ++ (2, h) :: post →
        (env.ReceivedBlocks (lib.BIdx h) = false → env.BlocksToGet (lib.BIdx h) = none →
          c1.X.AllHeadersReceived = false)
        ∧ (env.BlocksToGet (lib.BIdx h) ≠ none → env.ReceivedBlocks (lib.BIdx h) = false →
            c.X.AllHeadersReceived = true → (∀ e ∈ pre, unknownBlock lib env e = false) →
            c1.X.GetBlocksDataNow = true) := by
  refine ⟨_, ProcessInv_eq lib env c pl hlen hcnt hof hwf, fun pre h post he => ?_⟩
  rw [he]
  exact foldl_block_entry lib env hT pre post h _

set_option maxRecDepth 8000 in
theorem C30_ProcessInv_witness :
    ∃ c1, ProcessInv sampleLib sampleEnv
          { NewConnection with X := { NewConnection.X with AllHeadersReceived := true } }
          oneBlockInv = .ok c1
      ∧ c1.X.GetBlocksDataNow = true := by
  obtain ⟨c1, h1, h2⟩ := C30_ProcessInv sampleLib sampleEnv
    { NewConnection with X := { NewConnection.X with AllHeadersReceived := true } }
    oneBlockInv (by decide) (by decide) (by decide) (by decide) (fun _ _ => ⟨rfl, rfl⟩)
  exact ⟨c1, h1, (h2 [] (List.replicate 32 7) [] (by decide)).2 (by decide) (by decide) rfl
    (fun _ he => absurd he (List.not_mem_nil _))⟩

/-! ## Theorems about the tree functions of lib/chain/chain_tree.go -/

theorem ancestorAt_succ (mem : Nat → BlockTreeNode) (k x y : Nat)
    (h : ancestorAt mem (k + 1) x = some y) :
    ∃ p, (mem x).Parent = some p ∧ ancestorAt mem k p = some y := by
  rw [ancestorAt] at h
  cases hp : (mem x).Parent with
  | none => rw [hp] at h; cases h
  | some p => rw [hp] at h; exact ⟨p, rfl, h⟩

/-- The node `k + 1` links above `x` is the parent of the node `k` links above. -/
theorem ancestorAt_last (mem : Nat → BlockTreeNode) (k x y : Nat)
    (h : ancestorAt mem (k + 1) x = some y) :
    ∃ c, ancestorAt mem k x = some c ∧ (mem c).Parent = some y := by
  induction k generalizing x with
  | zero =>
    obtain ⟨p, hp, h1⟩ := ancestorAt_succ mem 0 x y h
    rw [ancestorAt] at h1
    injection h1 with h1
    subst h1
    exact ⟨x, rfl, hp⟩
  | succ k ih =>
    obtain ⟨p, hp, h1⟩ := ancestorAt_succ mem (k + 1) x y h
    obtain ⟨c, hc, hcp⟩ := ih p h1
    refine ⟨c, ?_, hcp⟩
    rw [ancestorAt, hp]
    exact hc

theorem ancestorAt_add (mem : Nat → BlockTreeNode) (a b x y : Nat)
    (h : ancestorAt mem a x = some y) :
    ancestorAt mem (a + b) x = ancestorAt mem b y := by
  induction a generalizing x with
  | zero =>
    rw [ancestorAt] at h
    injection h with h
    rw [h, Nat.zero_add]
  | succ a ih =>
    obtain ⟨p, hp, h1⟩ := ancestorAt_succ mem a x y h
    rw [Nat.add_right_comm, ancestorAt, hp]
    exact ih p h1

/-- A walk of `a + b` parent links passes the node `a` links up. -/
theorem ancestorAt_split (mem : Nat → BlockTreeNode) (a b x y : Nat)
    (h : ancestorAt mem (a + b) x = some y) :
    ∃ z, ancestorAt mem a x = some z ∧ ancestorAt mem b z = some y := by
  induction a generalizing x with
  | zero =>
    rw [Nat.zero_add] at h
    exact ⟨x, rfl, h⟩
  | succ a ih =>
    rw [Nat.add_right_comm] at h
    obtain ⟨p, hp, h1⟩ := ancestorAt_succ mem (a + b) x y h
    obtain ⟨z, hz, hzy⟩ := ih p h1
    refine ⟨z, ?_, hzy⟩
    rw [ancestorAt, hp]
    exact hz

/-- In a tree with the heights of a well-formed tree, the node `k` links up is
`k` lower. -/
theorem ancestorAt_height (mem : Nat → BlockTreeNode)
    (hh : ∀ x p, (mem x).Parent = some p → (mem x).Height = (mem p).Height + 1)
    (k x y : Nat) (h : ancestorAt mem k x = some y) :
    (mem x).Height = (mem y).Height + k := by
  induction k generalizing x with
  | zero =>
    rw [ancestorAt] at h
    injection h with h
    rw [h]
    rfl
  | succ k ih =>
    obtain ⟨p, hp, h1⟩ := ancestorAt_succ mem k x y h
    rw [hh x p hp, ih p h1]
    omega

/-- The loop of `FindPathTo` returns the first node on the way up from `e`
whose parent is `n`. -/
theorem FindPathTo_loop_ret (mem : Nat → BlockTreeNode) (n c : Nat) (m : Nat) :
    ∀ (e fuel : Nat), ancestorAt mem m e = some c → (mem c).Parent = some n →
      (∀ i y, i < m → ancestorAt mem i e = some y → (mem y).Parent ≠ some n) → m < fuel →
      FindPathTo.loop mem n fuel (some e) = .ret c := by
  induction m with
  | zero =>
    intro e fuel ha hc _ hf
    obtain ⟨f, rfl⟩ : ∃ f, fuel = f + 1 := ⟨fuel - 1, by omega⟩
    rw [ancestorAt] at ha
    injection ha with ha
    subst ha
    rw [FindPathTo.loop, if_pos hc]
  | succ m ih =>
    intro e fuel ha hc hn hf
    obtain ⟨f, rfl⟩ : ∃ f, fuel = f + 1 := ⟨fuel - 1, by omega⟩
    obtain ⟨p, hp, h1⟩ := ancestorAt_succ mem m e c ha
    rw [FindPathTo.loop, if_neg (hn 0 e (by omega) rfl), hp]
    apply ih p f h1 hc _ (by omega)
    intro i y hi hy
    apply hn (i + 1) y (by omega)
    rw [ancestorAt, hp]
    exact hy

/-- The loop of `FindPathTo` panics when the way up from `e` ends at a node
without parent and passes no node whose parent is `n`. -/
theorem FindPathTo_loop_panic (mem : Nat → BlockTreeNode) (n r : Nat) (m : Nat) :
    ∀ (e fuel : Nat), ancestorAt mem m e = some r → (mem r).Parent = none →
      (∀ i y, ancestorAt mem i e = some y → (mem y).Parent ≠ some n) → m < fuel →
      FindPathTo.loop mem n fuel (some e)
        = .panic "invalid memory address or nil pointer dereference" := by
  induction m with
  | zero =>
    intro e fuel ha hr hn hf
    obtain ⟨f, rfl⟩ : ∃ f, fuel = f + 1 := ⟨fuel - 1, by omega⟩
    rw [ancestorAt] at ha
    injection ha with ha
    subst ha
    rw [FindPathTo.loop, if_neg (by rw [hr]; exact fun c => nomatch c), hr]
    cases f <;> rfl
  | succ m ih =>
    intro e fuel ha hr hn hf
    obtain ⟨f, rfl⟩ : ∃ f, fuel = f + 1 := ⟨fuel - 1, by omega⟩
    obtain ⟨p, hp, h1⟩ := ancestorAt_succ mem m e r ha
    rw [FindPathTo.loop, if_neg (hn 0 e rfl), hp]
    apply ih p f h1 hr _ (by omega)
    intro i y hy
    apply hn (i + 1) y
    rw [ancestorAt, hp]
    exact hy

/-- Method `FindPathTo` returns the node `c` on the way up from `end_` whose
parent is `n`, when `c` is among the children of `n`, `end_` is higher than
`n`, and no node below `c` on the way has `n` as parent. -/
theorem FindPathTo_ret (lib : Lib) (mem : Nat → BlockTreeNode) (n end_ c m fuel : Nat)
    (hne : n ≠ end_) (hh : (mem n).Height < (mem end_).Height)
    (ha : ancestorAt mem m end_ = some c) (hc : (mem c).Parent = some n)
    (hin : c ∈ (mem n).Childs)
    (hn : ∀ i y, i < m → ancestorAt mem i end_ = some y → (mem y).Parent ≠ some n)
    (hf : m < fuel) :
    FindPathTo lib mem fuel n end_ = .ret (some c) := by
  unfold FindPathTo
  rw [if_neg hne, if_neg (by omega)]
  cases hch : (mem n).Childs with
  | nil => rw [hch] at hin; cases hin
  | cons a rest =>
    cases rest with
    | nil =>
      rw [hch] at hin
      rw [List.mem_singleton] at hin
      rw [hin]
    | cons b rest =>
      dsimp only
      rw [FindPathTo_loop_ret mem n c m end_ fuel ha hc hn hf]

theorem forkMem_none (x : Nat) (hx : 9 ≤ x) : (forkMem x).Parent = none := by
  unfold forkMem
  rw [List.getD_eq_default _ _ (by simpa [forkTable] using hx)]
  rfl

theorem forkMem_WellFormed : WellFormed forkMem := by
  intro x p h
  by_cases hx : x < 9
  · interval_cases x <;> simp [forkMem, forkTable, mkNode] at h <;> subst h <;> decide
  · rw [forkMem_none x (by omega)] at h
    cases h

/-- C21: in every well-formed tree (each node is in the `Childs` of its `Parent`
and is one higher than its parent), for a node `n` and a node `end_` that is
`k >= 1` parent links below `n`, `n.FindPathTo(end_)` returns, without panic
and for every bound of at least `k` iterations, the node `c` that is `k - 1`
links above `end_`: the parent of `c` is `n`, `c` is among the `Childs` of `n`,
and `c` is the only node with parent `n` among `end_` and its ancestors. And
`n.FindPathTo(n)` returns nil. -/
theorem C21_FindPathTo (lib : Lib) (mem : Nat → BlockTreeNode) (hwf : WellFormed mem)
    (n end_ k fuel : Nat) (hk : 1 ≤ k) (ha : ancestorAt mem k end_ = some n)
    (hf : k ≤ fuel) :
    (∃ c, FindPathTo lib mem fuel n end_ = .ret (some c)
      ∧ ancestorAt mem (k - 1) end_ = some c ∧ (mem c).Parent = some n
      ∧ c ∈ (mem n).Childs
      ∧ (∀ j d, ancestorAt mem j end_ = some d → (mem d).Parent = some n → d = c))
    ∧ FindPathTo lib mem fuel n n = .ret none := by
  have hh := fun x p h => (hwf x p h).2
  obtain ⟨m, rfl⟩ : ∃ m, k = m + 1 := ⟨k - 1, by omega⟩
  obtain ⟨c, hc, hcp⟩ := ancestorAt_last mem m end_ n ha
  have hHe := ancestorAt_height mem hh _ _ _ ha
  have hHc := ancestorAt_height mem hh _ _ _ hc
  have huniq : ∀ j d, ancestorAt mem j end_ = some d → (mem d).Parent = some n →
      j = m ∧ d = c := by
    intro j d hd hdp
    have h1 := ancestorAt_height mem hh _ _ _ hd
    have h2 := hh d n hdp
    have hj : j = m := by omega
    subst hj
    rw [hc] at hd
    injection hd with hd
    exact ⟨rfl, hd.symm⟩
  refine ⟨⟨c, ?_, ?_, hcp, (hwf c n hcp).1, fun j d hd hdp => (huniq j d hd hdp).2⟩, ?_⟩
  · apply FindPathTo_ret lib mem n end_ c m fuel _ (by omega) hc hcp (hwf c n hcp).1 _ (by omega)
    · intro e
      rw [e] at hHe
      omega
    · intro i y hi hy hyp
      have := (huniq i y hy hyp).1
      omega
  · rw [Nat.add_sub_cancel]
    exact hc
  · unfold FindPathTo
    rw [if_pos rfl]

theorem C21_FindPathTo_witness :
    ∃ c, FindPathTo sampleLib forkMem 3 0 5 = .ret (some c)
      ∧ ancestorAt forkMem (3 - 1) 5 = some c ∧ (forkMem c).Parent = some 0
      ∧ c ∈ (forkMem 0).Childs
      ∧ (∀ j d, ancestorAt forkMem j 5 = some d → (forkMem d).Parent = some 0 → d = c) :=
  (C21_FindPathTo sampleLib forkMem forkMem_WellFormed 0 5 3 3 (by decide) (by decide)
    (by decide)).1

/-- C22, as stated, fails: node 1 has one child, node 3; node 5 is higher than
node 1 and is not a descendant of it (its ancestors are 4, 2 and 0), and
`FindPathTo` returns node 3 instead of panicking. -/
theorem C22_counterexample :
    (1 : Nat) ≠ 5 ∧ (∀ k, ancestorAt forkMem k 5 ≠ some 1)
    ∧ FindPathTo sampleLib forkMem 10 1 5 = .ret (some 3) := by
  refine ⟨by decide, fun k => ?_, by decide⟩
  match k with
  | 0 => decide
  | 1 => decide
  | 2 => decide
  | 3 => decide
  | k + 4 => simp [ancestorAt, forkMem, forkTable, mkNode]

/-- C22 (amended): for a node `n` and a target `end_` different from `n`,
`n.FindPathTo(end_)` panics when `end_` is not higher than `n`, when `n` has
no child, and when `n` has two or more children while the parent links of
`end_` lead to a node without parent and never to `n` (`end_` is not a
descendant of `n`). When `n` has exactly one child and `end_` is higher than
`n`, it returns that child, whether `end_` is a descendant of `n` or not. -/
theorem C22_FindPathTo_misuse (lib : Lib) (mem : Nat → BlockTreeNode) (n end_ fuel : Nat)
    (hne : n ≠ end_) :
    ((mem end_).Height ≤ (mem n).Height →
      FindPathTo lib mem fuel n end_
        = .panic "FindPathTo: End block is not higher then current")
    ∧ ((mem n).Height < (mem end_).Height → (mem n).Childs = [] →
      FindPathTo lib mem fuel n end_
        = .panic ("FindPathTo: Unknown path to block " ++ lib.HashString (mem end_).BlockHash))
    ∧ (∀ c, (mem n).Height < (mem end_).Height → (mem n).Childs = [c] →
      FindPathTo lib mem fuel n end_ = .ret (some c))
    ∧ (∀ m r, (mem n).Height < (mem end_).Height → 2 ≤ (mem n).Childs.length →
      ancestorAt mem m end_ = some r → (mem r).Parent = none →
      (∀ k, ancestorAt mem (k + 1) end_ ≠ some n) → m < fuel →
      FindPathTo lib mem fuel n end_
        = .panic "invalid memory address or nil pointer dereference") := by
  refine ⟨fun h => ?_, fun h hc => ?_, fun c h hc => ?_, fun m r h hc ha hr hnd hf => ?_⟩
  · unfold FindPathTo
    rw [if_neg hne, if_pos h]
  · unfold FindPathTo
    rw [if_neg hne, if_neg (by omega), hc]
  · unfold FindPathTo
    rw [if_neg hne, if_neg (by omega), hc]
  · unfold FindPathTo
    rw [if_neg hne, if_neg (by omega)]
    cases hch : (mem n).Childs with
    | nil => rw [hch] at hc; simp at hc
    | cons a rest =>
      cases rest with
      | nil => rw [hch] at hc; simp at hc
      | cons b rest =>
        dsimp only
        rw [FindPathTo_loop_panic mem n r m end_ fuel ha hr _ hf]
        intro i y hy hyp
        apply hnd i
        rw [ancestorAt_add mem i 1 end_ y hy, ancestorAt, hyp]
        rfl

theorem C22_FindPathTo_misuse_witness :
    FindPathTo sampleLib forkMem 10 6 5
      = .panic "invalid memory address or nil pointer dereference" :=
  (C22_FindPathTo_misuse sampleLib forkMem 6 5 10 (by decide)).2.2.2 3 0 (by decide)
    (by decide) (by decide) (by decide)
    (fun k => by
      match k with
      | 0 => decide
      | 1 => decide
      | 2 => decide
      | k + 3 => simp [ancestorAt, forkMem, forkTable, mkNode])
    (by decide)

/-! ### `FirstCommonParent` -/

/-- The first loops of `FirstCommonParent` stop at the node that is at the
height `h`. -/
theorem raise_ret (mem : Nat → BlockTreeNode)
    (hh : ∀ x p, (mem x).Parent = some p → (mem x).Height = (mem p).Height + 1)
    (k : Nat) : ∀ (x y fuel : Nat), ancestorAt mem k x = some y → k ≤ fuel →
      FirstCommonParent.raise mem (mem y).Height fuel (some x) = .ret y := by
  induction k with
  | zero =>
    intro x y fuel ha _
    rw [ancestorAt] at ha
    injection ha with ha
    subst ha
    cases fuel <;> rw [FirstCommonParent.raise, if_neg (by omega)]
  | succ k ih =>
    intro x y fuel ha hf
    obtain ⟨f, rfl⟩ : ∃ f, fuel = f + 1 := ⟨fuel - 1, by omega⟩
    obtain ⟨p, hp, h1⟩ := ancestorAt_succ mem k x y ha
    have h2 := ancestorAt_height mem hh _ _ _ ha
    rw [FirstCommonParent.raise, if_pos (by omega), hp]
    exact ih p y f h1 (by omega)

/-- The last loop of `FirstCommonParent`, started at two nodes that have a
common ancestor the same number of links up, returns the first node at which
the two ways up meet. -/
theorem lockstep_ret (mem : Nat → BlockTreeNode) (m : Nat) :
    ∀ (x y r fuel : Nat), ancestorAt mem m x = some r → ancestorAt mem m y = some r →
      m < fuel →
      ∃ c t, FirstCommonParent.lockstep mem fuel (some x) (some y) = .ret (some c)
        ∧ ancestorAt mem t x = some c ∧ ancestorAt mem t y = some c
        ∧ ∀ t1, t1 < t → ancestorAt mem t1 x ≠ ancestorAt mem t1 y := by
  induction m with
  | zero =>
    intro x y r fuel hx hy hf
    rw [ancestorAt] at hx hy
    injection hx with hx
    injection hy with hy
    have hxy : x = y := hx.trans hy.symm
    obtain ⟨f, rfl⟩ : ∃ f, fuel = f + 1 := ⟨fuel - 1, by omega⟩
    refine ⟨x, 0, ?_, rfl, by rw [hxy]; rfl, fun t1 h => by omega⟩
    rw [FirstCommonParent.lockstep, if_neg (by simp [hxy])]
  | succ m ih =>
    intro x y r fuel hx hy hf
    obtain ⟨f, rfl⟩ : ∃ f, fuel = f + 1 := ⟨fuel - 1, by omega⟩
    by_cases hxy : x = y
    · subst hxy
      refine ⟨x, 0, ?_, rfl, rfl, fun t1 h => by omega⟩
      rw [FirstCommonParent.lockstep, if_neg (by simp)]
    · obtain ⟨px, hpx, h1⟩ := ancestorAt_succ mem m x r hx
      obtain ⟨py, hpy, h2⟩ := ancestorAt_succ mem m y r hy
      obtain ⟨c, t, hl, hcx, hcy, hmin⟩ := ih px py r f h1 h2 (by omega)
      refine ⟨c, t + 1, ?_, ?_, ?_, fun t1 ht1 => ?_⟩
      · rw [FirstCommonParent.lockstep, if_pos (by simpa using hxy)]
        rw [hpx, hpy]
        exact hl
      · rw [ancestorAt, hpx]
        exact hcx
      · rw [ancestorAt, hpy]
        exact hcy
      · cases t1 with
        | zero =>
          rw [ancestorAt, ancestorAt]
          simpa using hxy
        | succ t1 =>
          rw [ancestorAt, ancestorAt, hpx, hpy]
          exact hmin t1 (by omega)

/-- Two ancestors (or self) of `a` of the same height are the same node. -/
theorem lca_unique (mem : Nat → BlockTreeNode)
    (hh : ∀ x p, (mem x).Parent = some p → (mem x).Height = (mem p).Height + 1)
    (a c d i i1 : Nat)
    (hca : ancestorAt mem i a = some c) (hda : ancestorAt mem i1 a = some d)
    (hc : (mem d).Height ≤ (mem c).Height) (hd : (mem c).Height ≤ (mem d).Height) :
    c = d := by
  have h1 := ancestorAt_height mem hh _ _ _ hca
  have h2 := ancestorAt_height mem hh _ _ _ hda
  have e : i = i1 := by omega
  subst e
  rw [hca] at hda
  injection hda

/-- With `a` not lower than `b`: the result of `FirstCommonParent`, in either
order of the arguments. -/
theorem FirstCommonParent_ge (mem : Nat → BlockTreeNode)
    (hh : ∀ x p, (mem x).Parent = some p → (mem x).Height = (mem p).Height + 1)
    (a b r ka kb fuel : Nat)
    (ha : ancestorAt mem ka a = some r) (hb : ancestorAt mem kb b = some r)
    (hge : kb ≤ ka) (hf : ka < fuel) :
    ∃ c i j, FirstCommonParent mem fuel a b = .ret (some c)
      ∧ FirstCommonParent mem fuel b a = .ret (some c)
      ∧ ancestorAt mem i a = some c ∧ ancestorAt mem j b = some c
      ∧ (∀ d i1 j1, ancestorAt mem i1 a = some d → ancestorAt mem j1 b = some d →
          (mem d).Height ≤ (mem c).Height) := by
  have hHa := ancestorAt_height mem hh _ _ _ ha
  have hHb := ancestorAt_height mem hh _ _ _ hb
  obtain ⟨z, hz, hzr⟩ := ancestorAt_split mem (ka - kb) kb a r (by
    rw [Nat.sub_add_cancel hge]; exact ha)
  have hHz := ancestorAt_height mem hh _ _ _ hzr
  have hzb : (mem z).Height = (mem b).Height := by omega
  have hr := raise_ret mem hh (ka - kb) a z fuel hz (by omega)
  rw [hzb] at hr
  obtain ⟨c, t, hl, hcz, hcb, hmin⟩ := lockstep_ret mem kb z b r fuel hzr hb (by omega)
  obtain ⟨c2, t2, hl2, hcb2, hcz2, hmin2⟩ := lockstep_ret mem kb b z r fuel hb hzr (by omega)
  have ht : t = t2 := by
    rcases Nat.lt_trichotomy t t2 with h | h | h
    · exact absurd (hcb.trans hcz.symm) (hmin2 t h)
    · exact h
    · exact absurd (hcz2.trans hcb2.symm) (hmin t2 h)
  subst ht
  have hc2 : c2 = c := by
    rw [hcb] at hcb2
    injection hcb2 with e
    exact e.symm
  subst hc2
  have hca : ancestorAt mem ((ka - kb) + t) a = some c2 := by
    rw [ancestorAt_add mem _ t a z hz]
    exact hcz
  refine ⟨c2, (ka - kb) + t, t, ?_, ?_, hca, hcb, fun d i1 j1 hda hdb => ?_⟩
  · unfold FirstCommonParent
    by_cases hgt : (mem a).Height > (mem b).Height
    · rw [if_pos hgt, hr]
      exact hl
    · have hab : (mem a).Height = (mem b).Height := by omega
      have hk : ka - kb = 0 := by omega
      rw [hk, ancestorAt] at hz
      injection hz with hz
      subst hz
      rw [if_neg hgt]
      have hr0 := raise_ret mem hh 0 b b fuel rfl (Nat.zero_le _)
      rw [← hab] at hr0
      rw [hr0]
      exact hl
  · unfold FirstCommonParent
    rw [if_neg (by omega), hr]
    exact hl2
  · have h1 := ancestorAt_height mem hh _ _ _ hda
    have h2 := ancestorAt_height mem hh _ _ _ hdb
    have h3 := ancestorAt_height mem hh _ _ _ hcb
    by_contra hlt
    have hj : j1 < t := by omega
    have hi : i1 = (ka - kb) + j1 := by omega
    rw [hi, ancestorAt_add mem _ j1 a z hz] at hda
    exact hmin j1 hj (hda.trans hdb.symm)

/-- C23: for two nodes `a` and `b` with a common ancestor in a tree where every
node is one higher than its parent, `a.FirstCommonParent(b)` returns, for every
bound above the distances to that ancestor, their lowest common ancestor `c`:
`c` is an ancestor or self of both, and no node that is an ancestor or self of
both is higher. The result is the same for `(b, a)`, and it is `a` when `a` is
an ancestor or self of `b`. -/
theorem C23_FirstCommonParent (mem : Nat → BlockTreeNode)
    (hh : ∀ x p, (mem x).Parent = some p → (mem x).Height = (mem p).Height + 1)
    (a b r ka kb fuel : Nat)
    (ha : ancestorAt mem ka a = some r) (hb : ancestorAt mem kb b = some r)
    (hf : ka + kb < fuel) :
    ∃ c i j, FirstCommonParent mem fuel a b = .ret (some c)
      ∧ ancestorAt mem i a = some c ∧ ancestorAt mem j b = some c
      ∧ (∀ d i1 j1, ancestorAt mem i1 a = some d → ancestorAt mem j1 b = some d →
          (mem d).Height ≤ (mem c).Height)
      ∧ FirstCommonParent mem fuel b a = .ret (some c)
      ∧ (∀ k, ancestorAt mem k b = some a → c = a) := by
  have key : ∃ c i j, FirstCommonParent mem fuel a b = .ret (some c)
      ∧ FirstCommonParent mem fuel b a = .ret (some c)
      ∧ ancestorAt mem i a = some c ∧ ancestorAt mem j b = some c
      ∧ (∀ d i1 j1, ancestorAt mem i1 a = some d → ancestorAt mem j1 b = some d →
          (mem d).Height ≤ (mem c).Height) := by
    by_cases hge : kb ≤ ka
    · exact FirstCommonParent_ge mem hh a b r ka kb fuel ha hb hge (by omega)
    · obtain ⟨c, i, j, h1, h2, h3, h4, h5⟩ :=
        FirstCommonParent_ge mem hh b a r kb ka fuel hb ha (by omega) (by omega)
      exact ⟨c, j, i, h2, h1, h4, h3, fun d i1 j1 hda hdb => h5 d j1 i1 hdb hda⟩
  obtain ⟨c, i, j, h1, h2, h3, h4, h5⟩ := key
  refine ⟨c, i, j, h1, h3, h4, h5, h2, fun k hk => ?_⟩
  have hle := h5 a 0 k rfl hk
  have hH := ancestorAt_height mem hh _ _ _ h3
  exact lca_unique mem hh a c a i 0 h3 rfl hle (by omega)

theorem C23_FirstCommonParent_witness :
    ∃ c i j, FirstCommonParent forkMem 6 3 5 = .ret (some c)
      ∧ ancestorAt forkMem i 3 = some c ∧ ancestorAt forkMem j 5 = some c
      ∧ (∀ d i1 j1, ancestorAt forkMem i1 3 = some d → ancestorAt forkMem j1 5 = some d →
          (forkMem d).Height ≤ (forkMem c).Height)
      ∧ FirstCommonParent forkMem 6 5 3 = .ret (some c)
      ∧ (∀ k, ancestorAt forkMem k 5 = some 3 → c = 3) :=
  C23_FirstCommonParent forkMem (fun x p h => (forkMem_WellFormed x p h).2) 3 5 0 2 3 6
    (by decide) (by decide) (by decide)

/-! ### Finite trees -/

theorem treeWithin_child (mem : Nat → BlockTreeNode) (k n c : Nat)
    (h : treeWithin mem (k + 1) n = true) (hc : c ∈ (mem n).Childs) :
    treeWithin mem k c = true := by
  rw [treeWithin, List.all_eq_true] at h
  exact h c hc

theorem treeWithin_succ (mem : Nat → BlockTreeNode) (k : Nat) :
    ∀ n, treeWithin mem k n = true → treeWithin mem (k + 1) n = true := by
  induction k with
  | zero =>
    intro n h
    simp [treeWithin] at h
  | succ k ih =>
    intro n h
    rw [treeWithin, List.all_eq_true]
    intro c hc
    exact ih c (treeWithin_child mem k n c h hc)

theorem treeWithin_mono (mem : Nat → BlockTreeNode) (k k1 n : Nat)
    (h : treeWithin mem k n = true) (hk : k ≤ k1) : treeWithin mem k1 n = true := by
  induction k1 with
  | zero =>
    have : k = 0 := by omega
    subst this
    exact h
  | succ k1 ih =>
    by_cases e : k = k1 + 1
    · subst e
      exact h
    · exact treeWithin_succ mem k1 n (ih (by omega))

/-- A tree with fewer edges is within the same bound. -/
theorem treeWithin_sub (mem mem1 : Nat → BlockTreeNode)
    (hs : ∀ x c, c ∈ (mem1 x).Childs → c ∈ (mem x).Childs) (k : Nat) :
    ∀ n, treeWithin mem k n = true → treeWithin mem1 k n = true := by
  induction k with
  | zero =>
    intro n h
    simp [treeWithin] at h
  | succ k ih =>
    intro n h
    rw [treeWithin, List.all_eq_true]
    intro c hc
    exact ih c (treeWithin_child mem k n c h (hs n c hc))

theorem follow_cons (mem : Nat → BlockTreeNode) (n i c : Nat) (rest : List Nat)
    (hc : (mem n).Childs[i]? = some c) :
    follow mem n (i :: rest) = follow mem c rest := by
  rw [follow, hc]

theorem follow_cons_inv (mem : Nat → BlockTreeNode) (n i d : Nat) (rest : List Nat)
    (h : follow mem n (i :: rest) = some d) :
    ∃ c, (mem n).Childs[i]? = some c ∧ follow mem c rest = some d := by
  rw [follow] at h
  cases hc : (mem n).Childs[i]? with
  | none => rw [hc] at h; cases h
  | some c => rw [hc] at h; exact ⟨c, rfl, h⟩

theorem follow_append (mem : Nat → BlockTreeNode) (p q : List Nat) :
    ∀ n m d, follow mem n p = some m → follow mem m q = some d →
      follow mem n (p ++ q) = some d := by
  induction p with
  | nil =>
    intro n m d h1 h2
    rw [follow] at h1
    injection h1 with h1
    subst h1
    exact h2
  | cons i p ih =>
    intro n m d h1 h2
    obtain ⟨c, hc, h3⟩ := follow_cons_inv mem n i m p h1
    rw [List.cons_append, follow_cons mem n i c _ hc]
    exact ih c m d h3 h2

/-- A path in a tree within the bound `k` has fewer than `k` links, and ends at
a node within the rest of the bound. -/
theorem treeWithin_follow (mem : Nat → BlockTreeNode) (path : List Nat) :
    ∀ k n d, treeWithin mem k n = true → follow mem n path = some d →
      path.length < k ∧ treeWithin mem (k - path.length) d = true := by
  induction path with
  | nil =>
    intro k n d h hf
    rw [follow] at hf
    injection hf with hf
    subst hf
    refine ⟨?_, h⟩
    cases k with
    | zero => simp [treeWithin] at h
    | succ k => simp
  | cons i path ih =>
    intro k n d h hf
    cases k with
    | zero => simp [treeWithin] at h
    | succ k =>
      obtain ⟨c, hc, h3⟩ := follow_cons_inv mem n i d path hf
      have := ih k c d (treeWithin_child mem k n c h (List.getElem?_mem hc)) h3
      rw [List.length_cons]
      refine ⟨by omega, ?_⟩
      rw [Nat.add_sub_add_right]
      exact this.2

/-- A finite tree has no cycle. -/
theorem treeWithin_acyclic (mem : Nat → BlockTreeNode) (k : Nat) :
    ∀ n path, treeWithin mem k n = true → follow mem n path = some n → path = [] := by
  induction k using Nat.strong_induction_on with
  | _ k ih =>
    intro n path h hf
    cases path with
    | nil => rfl
    | cons i path =>
      exfalso
      have h1 := treeWithin_follow mem (i :: path) k n n h hf
      rw [List.length_cons] at h1
      have h2 := ih (k - (path.length + 1)) (by omega) n (i :: path) h1.2 hf
      cases h2

theorem Reach_refl (mem : Nat → BlockTreeNode) (n : Nat) : Reach mem n n := ⟨[], rfl⟩

theorem Reach.child (mem : Nat → BlockTreeNode) (n d c : Nat) (h : Reach mem n d)
    (hc : c ∈ (mem d).Childs) : Reach mem n c := by
  obtain ⟨path, hp⟩ := h
  obtain ⟨i, hi⟩ := List.mem_iff_getElem?.mp hc
  refine ⟨path ++ [i], follow_append mem path [i] n d c hp ?_⟩
  rw [follow_cons mem d i c [] hi]
  rfl

theorem Reach_trans (mem : Nat → BlockTreeNode) (a b c : Nat) (h1 : Reach mem a b)
    (h2 : Reach mem b c) : Reach mem a c := by
  obtain ⟨p, hp⟩ := h1
  obtain ⟨q, hq⟩ := h2
  exact ⟨p ++ q, follow_append mem p q a b c hp hq⟩

theorem Below.reach (mem : Nat → BlockTreeNode) (n d : Nat) (h : Below mem n d) :
    Reach mem n d := by
  obtain ⟨c, hc, hr⟩ := h
  exact Reach_trans mem n c d (Reach.child mem n n c (Reach_refl mem n) hc) hr

/-- A node is itself or below. -/
theorem Reach.cases (mem : Nat → BlockTreeNode) (n d : Nat) (h : Reach mem n d) :
    d = n ∨ Below mem n d := by
  obtain ⟨path, hp⟩ := h
  cases path with
  | nil =>
    rw [follow] at hp
    injection hp with hp
    exact Or.inl hp.symm
  | cons i path =>
    obtain ⟨c, hc, h3⟩ := follow_cons_inv mem n i d path hp
    exact Or.inr ⟨c, List.getElem?_mem hc, path, h3⟩

/-- In a finite tree no node is below itself. -/
theorem not_Below_self (mem : Nat → BlockTreeNode) (k n : Nat)
    (h : treeWithin mem k n = true) : ¬ Below mem n n := by
  rintro ⟨c, hc, path, hp⟩
  obtain ⟨i, hi⟩ := List.mem_iff_getElem?.mp hc
  have := treeWithin_acyclic mem k n (i :: path) h (by
    rw [follow_cons mem n i c path hi]; exact hp)
  cases this

/-- A set that holds a node and is closed under the child links holds whatever
the node reaches. -/
theorem closed_Reach (mem : Nat → BlockTreeNode) (S : Nat → Prop)
    (hcl : ∀ x c, S x → c ∈ (mem x).Childs → S c) (path : List Nat) :
    ∀ n d, S n → follow mem n path = some d → S d := by
  induction path with
  | nil =>
    intro n d hn hp
    rw [follow] at hp
    injection hp with hp
    subst hp
    exact hn
  | cons i path ih =>
    intro n d hn hp
    obtain ⟨c, hc, h3⟩ := follow_cons_inv mem n i d path hp
    exact ih c d (hcl n c hn (List.getElem?_mem hc)) h3

/-! ### `delAllChildren` -/

theorem ClearedOn.congr (mem0 mem : Nat → BlockTreeNode) (S T : Nat → Prop)
    (h : ClearedOn mem0 S mem) (hST : ∀ x, S x ↔ T x) : ClearedOn mem0 T mem :=
  fun x => ⟨fun hx => (h x).1 ((hST x).mpr hx), fun hx => (h x).2 (fun c => hx ((hST x).mp c))⟩

theorem ClearedOn.hash (mem0 mem : Nat → BlockTreeNode) (S : Nat → Prop)
    (h : ClearedOn mem0 S mem) (x : Nat) : (mem x).BlockHash = (mem0 x).BlockHash := by
  by_cases hx : S x
  · rw [(h x).1 hx]
  · rw [(h x).2 hx]

/-- The loop of `delAllChildren` at a node `n` that is not cleared, from the
iteration `i` on. -/
theorem delAllChildren_loop (lib : Lib) (mem0 : Nat → BlockTreeNode) (S : Nat → Prop)
    (rec : St → Nat → Run St) (n : Nat) (s : St)
    (hcl : ∀ x c, S x → c ∈ (mem0 x).Childs → S c) (hn : ¬ S n)
    (hacyc : ∀ c, c ∈ (mem0 n).Childs → ¬ Reach mem0 c n)
    (hrec : ∀ c, c ∈ (mem0 n).Childs → ∀ (S1 : Nat → Prop) (s1 : St),
      (∀ x c, S1 x → c ∈ (mem0 x).Childs → S1 c) → ClearedOn mem0 S1 s1.ch.mem →
      ∃ s2, rec s1 c = .ret s2 ∧ DelSpec lib mem0 S1 c s1 s2)
    (todo : Nat) :
    ∀ (i : Nat) (s1 : St), i + todo = (mem0 n).Childs.length → DelInv lib mem0 S n i s s1 →
      ∃ s2, delAllChildren.loop lib rec n todo i s1 = .ret s2
        ∧ DelInv lib mem0 S n (mem0 n).Childs.length s s2 := by
  induction todo with
  | zero =>
    intro i s1 hi hinv
    have e : i = (mem0 n).Childs.length := by omega
    subst e
    exact ⟨s1, rfl, hinv⟩
  | succ todo ih =>
    intro i s1 hi hinv
    obtain ⟨hclr, hdel, hgone, honly, hroot, htip, hsync⟩ := hinv
    have hlt : i < (mem0 n).Childs.length := by omega
    have hci : (mem0 n).Childs[i]? = some ((mem0 n).Childs[i]) := List.getElem?_eq_getElem hlt
    have hcm : (mem0 n).Childs[i] ∈ (mem0 n).Childs := List.getElem_mem hlt
    -- the node `n` is not cleared before the iteration
    have hn1 : ¬ (S n ∨ ∃ c, c ∈ (mem0 n).Childs.take i ∧ Reach mem0 c n) := by
      rintro (h | ⟨c, hc, hr⟩)
      · exact hn h
      · exact hacyc c (List.mem_of_mem_take hc) hr
    have hm1 : s1.ch.mem n = mem0 n := (hclr n).2 hn1
    -- the set of the cleared nodes is closed
    have hcl1 : ∀ x c, (S x ∨ ∃ c1, c1 ∈ (mem0 n).Childs.take i ∧ Reach mem0 c1 x) →
        c ∈ (mem0 x).Childs →
        (S c ∨ ∃ c1, c1 ∈ (mem0 n).Childs.take i ∧ Reach mem0 c1 c) := by
      rintro x c (h | ⟨c1, hc1, hr⟩) hc
      · exact Or.inl (hcl x c h hc)
      · exact Or.inr ⟨c1, hc1, Reach.child mem0 c1 x c hr hc⟩
    obtain ⟨s2, hr2, hclr2, hdel2, hgone2, honly2, hroot2, htip2, hsync2⟩ :=
      hrec _ hcm _ s1 hcl1 hclr
    have htake : ∀ x, ((S x ∨ ∃ c, c ∈ (mem0 n).Childs.take i ∧ Reach mem0 c x)
          ∨ Reach mem0 ((mem0 n).Childs[i]) x)
        ↔ (S x ∨ ∃ c, c ∈ (mem0 n).Childs.take (i + 1) ∧ Reach mem0 c x) := by
      intro x
      rw [List.take_succ, hci]
      simp only [Option.toList_some, List.mem_append, List.mem_singleton]
      constructor
      · rintro ((h | ⟨c, hc, hr⟩) | h)
        · exact Or.inl h
        · exact Or.inr ⟨c, Or.inl hc, hr⟩
        · exact Or.inr ⟨_, Or.inr rfl, h⟩
      · rintro (h | ⟨c, hc | hc, hr⟩)
        · exact Or.inl (Or.inl h)
        · exact Or.inl (Or.inr ⟨c, hc, hr⟩)
        · subst hc
          exact Or.inr hr
    have hclr3 := ClearedOn.congr mem0 s2.ch.mem _ _ hclr2 htake
    have hn2 : ¬ (S n ∨ ∃ c, c ∈ (mem0 n).Childs.take (i + 1) ∧ Reach mem0 c n) := by
      rintro (h | ⟨c, hc, hr⟩)
      · exact hn h
      · exact hacyc c (List.mem_of_mem_take hc) hr
    have hm2 : s2.ch.mem n = mem0 n := (hclr3 n).2 hn2
    have hh2 : (s2.ch.mem ((mem0 n).Childs[i])).BlockHash
        = (mem0 ((mem0 n).Childs[i])).BlockHash := ClearedOn.hash mem0 _ _ hclr3 _
    rw [delAllChildren.loop, hm1, hci]
    dsimp only
    rw [hr2]
    dsimp only
    rw [hm2, hci]
    dsimp only
    rw [hh2]
    apply ih (i + 1) _ (by omega)
    refine ⟨hclr3, fun k => ?_, fun c d hc hr => ?_, fun k hk => ?_, hroot2.trans hroot,
      htip2.trans htip, hsync2.trans hsync⟩
    · show (if k = _ then none else s2.ch.BlockIndex k) = none
        ∨ (if k = _ then none else s2.ch.BlockIndex k) = s.ch.BlockIndex k
      split
      · exact Or.inl rfl
      · rcases hdel2 k with h | h
        · exact Or.inl h
        · rw [h]
          exact hdel k
    · show S d ∨ (if _ = _ then none else s2.ch.BlockIndex _) = none
      split
      · exact Or.inr rfl
      · rw [List.take_succ, hci] at hc
        simp only [Option.toList_some, List.mem_append, List.mem_singleton] at hc
        have hstay : s1.ch.BlockIndex (lib.BIdx (mem0 d).BlockHash) = none →
            s2.ch.BlockIndex (lib.BIdx (mem0 d).BlockHash) = none := by
          intro h
          rcases hdel2 (lib.BIdx (mem0 d).BlockHash) with h1 | h1
          · exact h1
          · rw [h1]
            exact h
        rcases hc with hc | hc
        · rcases hgone c d hc hr with h | h
          · exact Or.inl h
          · exact Or.inr (hstay h)
        · subst hc
          rcases Reach.cases mem0 _ d hr with h | h
          · subst h
            rename_i hne
            exact absurd rfl hne
          · rcases hgone2 d h with (h1 | ⟨c1, hc1, hr1⟩) | h1
            · exact Or.inl h1
            · rcases hgone c1 d hc1 hr1 with h2 | h2
              · exact Or.inl h2
              · exact Or.inr (hstay h2)
            · exact Or.inr h1
    · have hk1 : (if k = lib.BIdx (mem0 ((mem0 n).Childs[i])).BlockHash then none
          else s2.ch.BlockIndex k) ≠ s.ch.BlockIndex k := hk
      by_cases hkc : k = lib.BIdx (mem0 ((mem0 n).Childs[i])).BlockHash
      · exact ⟨_, ⟨_, hcm, Reach_refl mem0 _⟩, hkc.symm⟩
      · rw [if_neg hkc] at hk1
        by_cases h2 : s2.ch.BlockIndex k = s1.ch.BlockIndex k
        · rw [h2] at hk1
          exact honly k hk1
        · obtain ⟨d, hd, hkd⟩ := honly2 k h2
          obtain ⟨c1, hc1, hr1⟩ := hd
          exact ⟨d, ⟨_, hcm, Reach_trans mem0 _ c1 d
            (Reach.child mem0 _ _ c1 (Reach_refl mem0 _) hc1) hr1⟩, hkd⟩

/-- Method `delAllChildren` on a finite tree, with the nodes of a closed set `S`
cleared before. -/
theorem delAllChildren_spec (lib : Lib) (mem0 : Nat → BlockTreeNode) (k : Nat) :
    ∀ (fuel n : Nat) (S : Nat → Prop) (s : St), treeWithin mem0 k n = true → k ≤ fuel →
      (∀ x c, S x → c ∈ (mem0 x).Childs → S c) → ClearedOn mem0 S s.ch.mem →
      ∃ s1, delAllChildren lib fuel s n = .ret s1 ∧ DelSpec lib mem0 S n s s1 := by
  induction k with
  | zero =>
    intro fuel n S s h
    simp [treeWithin] at h
  | succ k ih =>
    intro fuel n S s hT hf hcl hclr
    obtain ⟨f, rfl⟩ : ∃ f, fuel = f + 1 := ⟨fuel - 1, by omega⟩
    rw [delAllChildren]
    by_cases hn : S n
    · -- the node is cleared already
      have hm : s.ch.mem n = { mem0 n with Childs := [] } := (hclr n).1 hn
      have hlen : (s.ch.mem n).Childs.length = 0 := by rw [hm]; rfl
      rw [hlen, delAllChildren.loop]
      refine ⟨_, rfl, fun x => ⟨fun hx => ?_, fun hx => ?_⟩, fun k => Or.inr rfl,
        fun d hd => Or.inl ?_, fun k hk => absurd rfl hk, rfl, rfl, rfl⟩
      · have hSx : S x := by
          rcases hx with h | ⟨path, hp⟩
          · exact h
          · exact closed_Reach mem0 S hcl path n x hn hp
        show Function.update s.ch.mem n _ x = _
        by_cases hxn : x = n
        · subst hxn
          rw [Function.update_same, hm]
        · rw [Function.update_noteq hxn]
          exact (hclr x).1 hSx
      · have hxn : x ≠ n := fun c => hx (Or.inl (c ▸ hn))
        show Function.update s.ch.mem n _ x = _
        rw [Function.update_noteq hxn]
        exact (hclr x).2 (fun c => hx (Or.inl c))
      · obtain ⟨path, hp⟩ := Below.reach mem0 n d hd
        exact closed_Reach mem0 S hcl path n d hn hp
    · have hm : s.ch.mem n = mem0 n := (hclr n).2 hn
      have hacyc : ∀ c, c ∈ (mem0 n).Childs → ¬ Reach mem0 c n :=
        fun c hc hr => not_Below_self mem0 (k + 1) n hT ⟨c, hc, hr⟩
      have hrec : ∀ c, c ∈ (mem0 n).Childs → ∀ (S1 : Nat → Prop) (s1 : St),
          (∀ x c, S1 x → c ∈ (mem0 x).Childs → S1 c) → ClearedOn mem0 S1 s1.ch.mem →
          ∃ s2, delAllChildren lib f s1 c = .ret s2 ∧ DelSpec lib mem0 S1 c s1 s2 :=
        fun c hc S1 s1 h1 h2 =>
          ih f c S1 s1 (treeWithin_child mem0 k n c hT hc) (by omega) h1 h2
      have hinv0 : DelInv lib mem0 S n 0 s s := by
        refine ⟨ClearedOn.congr mem0 _ _ _ hclr (fun x => ?_), fun k => Or.inr rfl,
          fun c d hc => ?_, fun k hk => absurd rfl hk, rfl, rfl, rfl⟩
        · simp
        · simp at hc
      obtain ⟨s2, hl, hclr2, hdel2, hgone2, honly2, hroot2, htip2, hsync2⟩ :=
        delAllChildren_loop lib mem0 S (delAllChildren lib f) n s hcl hn hacyc hrec
          (mem0 n).Childs.length 0 s (by omega) hinv0
      rw [hm, hl]
      rw [List.take_length] at hclr2 hgone2
      have hn2 : ¬ (S n ∨ ∃ c, c ∈ (mem0 n).Childs ∧ Reach mem0 c n) := by
        rintro (h | ⟨c, hc, hr⟩)
        · exact hn h
        · exact hacyc c hc hr
      have hm2 : s2.ch.mem n = mem0 n := (hclr2 n).2 hn2
      refine ⟨_, rfl, fun x => ⟨fun hx => ?_, fun hx => ?_⟩, hdel2,
        fun d hd => ?_, honly2, hroot2, htip2, hsync2⟩
      · show Function.update s2.ch.mem n _ x = _
        by_cases hxn : x = n
        · subst hxn
          rw [Function.update_same, hm2]
        · rw [Function.update_noteq hxn]
          apply (hclr2 x).1
          rcases hx with h | h
          · exact Or.inl h
          · rcases Reach.cases mem0 n x h with h1 | h1
            · exact absurd h1 hxn
            · exact Or.inr h1
      · have hxn : x ≠ n := fun c => hx (Or.inr (c ▸ Reach_refl mem0 n))
        show Function.update s2.ch.mem n _ x = _
        rw [Function.update_noteq hxn]
        apply (hclr2 x).2
        rintro (h | ⟨c, hc, hr⟩)
        · exact hx (Or.inl h)
        · exact hx (Or.inr (Below.reach mem0 n x ⟨c, hc, hr⟩))
      · obtain ⟨c, hc, hr⟩ := hd
        exact hgone2 c d hc hr

/-! ### `delChild` and `DeleteBranch` -/

theorem delChild_loop_ok (c cap : Nat) (l : List Nat) :
    ∀ acc : List Nat, acc.length + (l.filter (fun x => decide (x ≠ c))).length ≤ cap →
      delChild.loop c cap l acc = .ok (acc ++ l.filter (fun x => decide (x ≠ c))) := by
  induction l with
  | nil =>
    intro acc _
    rw [delChild.loop, List.filter_nil, List.append_nil]
  | cons x rest ih =>
    intro acc h
    by_cases hx : x ≠ c
    · rw [List.filter_cons_of_pos (by simpa using hx)] at h ⊢
      rw [List.length_cons] at h
      rw [delChild.loop, if_pos hx, if_pos (by omega), ih (acc ++ [x]) (by
        rw [List.length_append, List.length_singleton]; omega), List.append_assoc]
      rfl
    · rw [List.filter_cons_of_neg (by simpa using hx)] at h ⊢
      rw [delChild.loop, if_neg hx, ih acc h]

theorem filter_ne_length (c : Nat) (l : List Nat) :
    (l.filter (fun x => decide (x ≠ c))).length + l.count c = l.length := by
  induction l with
  | nil => rfl
  | cons x rest ih =>
    by_cases hx : x = c
    · subst hx
      rw [List.filter_cons_of_neg (by simp), List.count_cons_self, List.length_cons]
      omega
    · rw [List.filter_cons_of_pos (by simpa using hx), List.count_cons_of_ne (by
        exact fun e => hx e.symm), List.length_cons, List.length_cons]
      omega

theorem filter_ne_eq_erase (c : Nat) (l : List Nat) (h : l.count c = 1) :
    l.filter (fun x => decide (x ≠ c)) = l.erase c := by
  induction l with
  | nil => rfl
  | cons x rest ih =>
    by_cases hx : x = c
    · subst hx
      rw [List.count_cons_self] at h
      have h0 : rest.count x = 0 := by omega
      rw [List.filter_cons_of_neg (by simp), List.erase_cons_head]
      apply List.filter_eq_self.mpr
      intro a ha
      have : a ≠ x := fun e => by
        subst e
        exact (List.count_eq_zero.mp h0) ha
      simpa using this
    · rw [List.count_cons_of_ne (fun e => hx e.symm)] at h
      rw [List.filter_cons_of_pos (by simpa using hx), List.erase_cons_tail (by
        simpa using hx), ih h]

/-- Method `delChild` removes a child that occurs once, and keeps the order of
the others. -/
theorem delChild_ok (s : St) (n c : Nat) (h : (s.ch.mem n).Childs.count c = 1) :
    delChild s n c
      = .ret (setNode s n (fun node => { node with Childs := (s.ch.mem n).Childs.erase c })) := by
  have hlen := filter_ne_length c (s.ch.mem n).Childs
  unfold delChild
  rw [if_neg (by omega), delChild_loop_ok c _ _ [] (by
    rw [List.length_nil]; omega)]
  dsimp only
  rw [List.nil_append, if_neg (fun hne => hne (by omega)),
    filter_ne_eq_erase c _ h]

/-- A path that does not meet the node `p` is a path in the memory changed at
`p`. -/
theorem follow_update (mem : Nat → BlockTreeNode) (p : Nat) (v : BlockTreeNode)
    (path : List Nat) :
    ∀ n d, (∀ x, Reach mem n x → x ≠ p) → follow mem n path = some d →
      follow (Function.update mem p v) n path = some d := by
  induction path with
  | nil =>
    intro n d _ h
    exact h
  | cons i path ih =>
    intro n d hn h
    obtain ⟨c, hc, h3⟩ := follow_cons_inv mem n i d path h
    have hnp : n ≠ p := hn n (Reach_refl mem n)
    rw [follow, Function.update_noteq hnp, hc]
    apply ih c d _ h3
    intro x hx
    exact hn x (Reach_trans mem n c x
      (Reach.child mem n n c (Reach_refl mem n) (List.getElem?_mem hc)) hx)

/-- What is reached in a memory with fewer child links is reached in the
memory with more. -/
theorem Reach.sub (mem mem1 : Nat → BlockTreeNode)
    (hs : ∀ x c, c ∈ (mem1 x).Childs → c ∈ (mem x).Childs) (n d : Nat)
    (h : Reach mem1 n d) : Reach mem n d := by
  obtain ⟨path, hp⟩ := h
  induction path generalizing n with
  | nil =>
    rw [follow] at hp
    injection hp with hp
    subst hp
    exact Reach_refl mem n
  | cons i path ih =>
    obtain ⟨c, hc, h3⟩ := follow_cons_inv mem1 n i d path hp
    exact Reach_trans mem n c d
      (Reach.child mem n n c (Reach_refl mem n) (hs n c (List.getElem?_mem hc))) (ih c h3)

/-- Method `DeleteBranch` at a node `cur` that occurs once among the children of
its parent `p` and has a finite tree below it: the call returns; the index
loses the keys of `cur` and of its descendants and no other key; the children
of `p` are the former ones without `cur`; `cur` and its descendants have no
child any more and no other node changes; the root and the tip stay. -/
theorem DeleteBranch_spec (lib : Lib) (s : St) (cur p k fuel : Nat)
    (hp : (s.ch.mem cur).Parent = some p) (hcount : (s.ch.mem p).Childs.count cur = 1)
    (hT : treeWithin s.ch.mem k cur = true) (hf : k ≤ fuel) :
    ∃ s1, DeleteBranch lib fuel s cur = .ret s1
      ∧ (∀ d, Reach s.ch.mem cur d →
          s1.ch.BlockIndex (lib.BIdx (s.ch.mem d).BlockHash) = none)
      ∧ (∀ key, (∀ d, Reach s.ch.mem cur d → lib.BIdx (s.ch.mem d).BlockHash ≠ key) →
          s1.ch.BlockIndex key = s.ch.BlockIndex key)
      ∧ ¬ Reach s.ch.mem cur p
      ∧ s1.ch.mem p = { s.ch.mem p with Childs := (s.ch.mem p).Childs.erase cur }
      ∧ (∀ d, Reach s.ch.mem cur d → s1.ch.mem d = { s.ch.mem d with Childs := [] })
      ∧ (∀ x, x ≠ p → ¬ Reach s.ch.mem cur x → s1.ch.mem x = s.ch.mem x)
      ∧ s1.ch.BlockTreeRoot = s.ch.BlockTreeRoot ∧ s1.ch.BlockTreeEnd = s.ch.BlockTreeEnd := by
  have hin : cur ∈ (s.ch.mem p).Childs := List.count_pos_iff.mp (by omega)
  have hnp : ¬ Reach s.ch.mem cur p := by
    intro hr
    exact not_Below_self s.ch.mem k cur hT
      (Reach.cases s.ch.mem cur cur (Reach.child s.ch.mem cur p cur hr hin) |>.resolve_left
        (fun _ => by
          obtain ⟨path, hpath⟩ := hr
          obtain ⟨i, hi⟩ := List.mem_iff_getElem?.mp hin
          have := treeWithin_acyclic s.ch.mem k cur (path ++ [i]) hT
            (follow_append s.ch.mem path [i] cur p cur hpath (by
              rw [follow_cons s.ch.mem p i cur [] hi]; rfl))
          simp at this))
  -- the memory after `delChild`
  let mem1 := Function.update s.ch.mem p
    { s.ch.mem p with Childs := (s.ch.mem p).Childs.erase cur }
  have hsub : ∀ x c, c ∈ (mem1 x).Childs → c ∈ (s.ch.mem x).Childs := by
    intro x c hc
    by_cases hxp : x = p
    · subst hxp
      simp only [mem1, Function.update_same] at hc
      exact List.mem_of_mem_erase hc
    · simp only [mem1, Function.update_noteq hxp] at hc
      exact hc
  have hhash : ∀ x, (mem1 x).BlockHash = (s.ch.mem x).BlockHash := by
    intro x
    by_cases hxp : x = p
    · subst hxp
      simp only [mem1, Function.update_same]
    · simp only [mem1, Function.update_noteq hxp]
  have hT1 : treeWithin mem1 k cur = true := treeWithin_sub s.ch.mem mem1 hsub k cur hT
  have hto : ∀ d, Reach s.ch.mem cur d → Reach mem1 cur d := by
    rintro d ⟨path, hpath⟩
    exact ⟨path, follow_update s.ch.mem p _ path cur d
      (fun x hx e => hnp (e ▸ hx)) hpath⟩
  have hcp : cur ≠ p := fun e => hnp (e ▸ Reach_refl s.ch.mem cur)
  obtain ⟨s2, hr2, hclr, hdel, hgone, honly, hroot, htip, hsync⟩ :=
    delAllChildren_spec lib mem1 k fuel cur (fun _ => False)
      (setNode (deleteIndex (s.call (Event.BlockInvalid (s.ch.mem cur).BlockHash))
        (lib.BIdx (s.ch.mem cur).BlockHash)) p
        (fun node => { node with Childs := (s.ch.mem p).Childs.erase cur }))
      hT1 hf (fun x c h _ => h) (fun x => ⟨fun h => h.elim, fun _ => rfl⟩)
  have hrun : DeleteBranch lib fuel s cur
      = .ret (if !s2.ch.DoNotSync then s2.call Event.BlocksSync else s2) := by
    have e1 : delChild (deleteIndex (s.call (Event.BlockInvalid (s.ch.mem cur).BlockHash))
        (lib.BIdx (s.ch.mem cur).BlockHash)) p cur = .ret _ := delChild_ok _ p cur hcount
    unfold DeleteBranch
    dsimp only
    split
    · rename_i heq
      exact absurd (heq.symm.trans hp) (by simp)
    · rename_i q heq
      have hq : q = p := Option.some.inj (heq.symm.trans hp)
      subst hq
      split
      · rename_i sc heq2
        have hsc := Run.ret.inj (heq2.symm.trans e1)
        subst hsc
        split
        · rename_i sd heq3
          have hsd := Run.ret.inj (heq3.symm.trans hr2)
          subst hsd
          rfl
        · rename_i msg heq3
          cases heq3.symm.trans hr2
        · rename_i heq3
          cases heq3.symm.trans hr2
      · rename_i msg heq2
        cases heq2.symm.trans e1
      · rename_i heq2
        cases heq2.symm.trans e1
  have hmem : ∀ t : St, (if !s2.ch.DoNotSync then s2.call Event.BlocksSync else s2) = t →
      t.ch = s2.ch := by
    intro t ht
    rw [← ht]
    split <;> rfl
  have hch := hmem _ rfl
  refine ⟨_, hrun, fun d hd => ?_, fun key hkey => ?_, hnp, ?_, fun d hd => ?_,
    fun x hxp hx => ?_, ?_, ?_⟩
  · rw [hch]
    rcases Reach.cases s.ch.mem cur d hd with h | h
    · subst h
      rcases hdel (lib.BIdx (s.ch.mem d).BlockHash) with h1 | h1
      · exact h1
      · rw [h1]
        show (if _ = _ then none else _) = none
        rw [if_pos rfl]
    · obtain ⟨c, hc, hr⟩ := h
      have hb : Below mem1 cur d := by
        refine ⟨c, ?_, ?_⟩
        · simp only [mem1, Function.update_noteq hcp]
          exact hc
        · obtain ⟨path, hpath⟩ := hr
          refine ⟨path, follow_update s.ch.mem p _ path c d (fun x hx e => ?_) hpath⟩
          exact hnp (e ▸ Reach_trans s.ch.mem cur c x
            (Reach.child s.ch.mem cur cur c (Reach_refl _ _) hc) hx)
      rcases hgone d hb with h1 | h1
      · exact h1.elim
      · rw [hhash] at h1
        exact h1
  · rw [hch]
    have h1 : s2.ch.BlockIndex key
        = (if key = lib.BIdx (s.ch.mem cur).BlockHash then none else s.ch.BlockIndex key) := by
      by_contra hne
      obtain ⟨d, hd, hk⟩ := honly key hne
      rw [hhash] at hk
      exact hkey d (Reach.sub s.ch.mem mem1 hsub cur d (Below.reach mem1 cur d hd)) hk
    rw [h1, if_neg (fun e => hkey cur (Reach_refl _ _) e.symm)]
  · rw [hch]
    have := (hclr p).2 (by
      rintro (h | h)
      · exact h
      · exact hnp (Reach.sub s.ch.mem mem1 hsub cur p h))
    rw [this]
    simp only [mem1, Function.update_same]
  · rw [hch]
    have := (hclr d).1 (Or.inr (hto d hd))
    rw [this]
    have hdp : d ≠ p := fun e => hnp (e ▸ hd)
    simp only [mem1, Function.update_noteq hdp]
  · rw [hch]
    have := (hclr x).2 (by
      rintro (h | h)
      · exact h
      · exact hx (Reach.sub s.ch.mem mem1 hsub cur x h))
    rw [this]
    simp only [mem1, Function.update_noteq hxp]
  · rw [hch]
    exact hroot
  · rw [hch]
    exact htip

/-- C24: for every node `cur` that has a parent `p`, occurs exactly once in the
`Childs` of `p` and has a finite tree below it, `DeleteBranch(cur)` returns
and afterwards the `BlockIndex` has no entry under the key of `cur` or of a
descendant of `cur`, every entry under another key is unchanged (so, the keys
of distinct nodes being distinct, the entry of every other node), and the
`Childs` of `p` are the former ones with `cur` removed, the others in their
order. -/
theorem C24_DeleteBranch (lib : Lib) (s : St) (cur p k fuel : Nat)
    (hp : (s.ch.mem cur).Parent = some p) (hcount : (s.ch.mem p).Childs.count cur = 1)
    (hT : treeWithin s.ch.mem k cur = true) (hf : k ≤ fuel) :
    ∃ s1, DeleteBranch lib fuel s cur = .ret s1
      ∧ (∀ d, Reach s.ch.mem cur d →
          s1.ch.BlockIndex (lib.BIdx (s.ch.mem d).BlockHash) = none)
      ∧ (∀ key, (∀ d, Reach s.ch.mem cur d → lib.BIdx (s.ch.mem d).BlockHash ≠ key) →
          s1.ch.BlockIndex key = s.ch.BlockIndex key)
      ∧ ((∀ x y, lib.BIdx (s.ch.mem x).BlockHash = lib.BIdx (s.ch.mem y).BlockHash → x = y) →
          ∀ x, ¬ Reach s.ch.mem cur x →
            s1.ch.BlockIndex (lib.BIdx (s.ch.mem x).BlockHash)
              = s.ch.BlockIndex (lib.BIdx (s.ch.mem x).BlockHash))
      ∧ (s1.ch.mem p).Childs = (s.ch.mem p).Childs.erase cur
      ∧ (s1.ch.mem p).Childs = (s.ch.mem p).Childs.filter (fun x => decide (x ≠ cur)) := by
  obtain ⟨s1, h1, h2, h3, -, h5, -⟩ := DeleteBranch_spec lib s cur p k fuel hp hcount hT hf
  refine ⟨s1, h1, h2, h3, fun hinj x hx => ?_, by rw [h5], ?_⟩
  · apply h3
    intro d hd e
    exact hx (hinj d x e ▸ hd)
  · rw [h5, filter_ne_eq_erase cur _ hcount]

set_option maxRecDepth 8000 in
theorem C24_DeleteBranch_witness :
    ∃ s1, DeleteBranch sampleLib 3 { ch := forkChain, log := [] } 2 = .ret s1
      ∧ (s1.ch.mem 0).Childs = [1] :=
  (C24_DeleteBranch sampleLib { ch := forkChain, log := [] } 2 0 3 3 (by decide) (by decide)
    (by decide) (by decide)).imp (fun _ h => ⟨h.1, h.2.2.2.2.1⟩)

set_option maxRecDepth 8000 in
/-- C25 fails: `DeleteBranch` at node 2, whose child is node 4 and whose
grandchild is the childless node 5, removes the three nodes from the index, and
calls `BlockInvalid` with the hash of node 2, of node 4 and of node 2 again:
the hash of node 5 is never marked invalid. -/
theorem C25_leaf_not_invalidated :
    callsOf (DeleteBranch sampleLib 3 { ch := forkChain, log := [] } 2)
      = [Event.BlockInvalid (forkMem 2).BlockHash, Event.BlockInvalid (forkMem 4).BlockHash,
          Event.BlockInvalid (forkMem 2).BlockHash, Event.BlocksSync]
    ∧ forkChain.BlockIndex (sampleLib.BIdx (forkMem 5).BlockHash) = some 5
    ∧ indexOf (DeleteBranch sampleLib 3 { ch := forkChain, log := [] } 2)
        (sampleLib.BIdx (forkMem 5).BlockHash) = none
    ∧ Event.BlockInvalid (forkMem 5).BlockHash
        ∉ callsOf (DeleteBranch sampleLib 3 { ch := forkChain, log := [] } 2) := by
  decide

/-! ### `MoveToBlock` -/

theorem moves_append (l1 l2 : List Event) : moves (l1 ++ l2) = moves l1 ++ moves l2 := by
  induction l1 with
  | nil => rfl
  | cons e rest ih =>
    cases e <;> simp only [List.cons_append, moves, ih, List.append_eq]

theorem ancestorAt_parent (mem : Nat → BlockTreeNode) (k x p : Nat)
    (hp : (mem x).Parent = some p) : ancestorAt mem (k + 1) x = ancestorAt mem k p := by
  rw [ancestorAt, hp]

theorem parentChain_succ_last (mem : Nat → BlockTreeNode) (k : Nat) :
    ∀ x z, ancestorAt mem k x = some z →
      parentChain mem (k + 1) (some x) = parentChain mem k (some x) ++ [z] := by
  induction k with
  | zero =>
    intro x z h
    rw [ancestorAt] at h
    injection h with h
    subst h
    rfl
  | succ k ih =>
    intro x z h
    obtain ⟨p, hp, h1⟩ := ancestorAt_succ mem k x z h
    rw [parentChain, hp, ih p z h1, parentChain, hp]
    rfl

/-- The heights along a branch: read from the top, they go up one by one. -/
theorem parentChain_heights (mem : Nat → BlockTreeNode)
    (hh : ∀ x p, (mem x).Parent = some p → (mem x).Height = (mem p).Height + 1) (k : Nat) :
    ∀ x y, ancestorAt mem k x = some y →
      ((parentChain mem k (some x)).reverse).map (fun n => (mem n).Height)
        = List.range' ((mem y).Height + 1) k := by
  induction k with
  | zero =>
    intro x y _
    rfl
  | succ k ih =>
    intro x y h
    obtain ⟨z, hz, hzp⟩ := ancestorAt_last mem k x y h
    rw [parentChain_succ_last mem k x z hz, List.reverse_append, List.reverse_singleton,
      List.singleton_append, List.map_cons, ih x z hz, hh z y hzp, List.range'_succ]

theorem SameTree_refl (mem : Nat → BlockTreeNode) : SameTree mem mem :=
  fun x => ⟨(mem x).Sigops, rfl⟩

theorem SameTree_trans (m1 m2 m3 : Nat → BlockTreeNode) (h12 : SameTree m1 m2)
    (h23 : SameTree m2 m3) : SameTree m1 m3 := by
  intro x
  obtain ⟨a, ha⟩ := h12 x
  obtain ⟨b, hb⟩ := h23 x
  exact ⟨b, by rw [hb, ha]⟩

theorem SameTree_update (mem : Nat → BlockTreeNode) (n sig : Nat) :
    SameTree mem (Function.update mem n { mem n with Sigops := sig }) := by
  intro x
  by_cases hx : x = n
  · subst hx
    exact ⟨sig, by rw [Function.update_same]⟩
  · exact ⟨(mem x).Sigops, by rw [Function.update_noteq hx]⟩

theorem SameTree_ancestorAt (m1 m2 : Nat → BlockTreeNode) (h : SameTree m1 m2) (k : Nat) :
    ∀ x, ancestorAt m2 k x = ancestorAt m1 k x := by
  induction k with
  | zero => intro x; rfl
  | succ k ih =>
    intro x
    obtain ⟨a, ha⟩ := h x
    rw [ancestorAt, ancestorAt, ha]
    dsimp only
    cases (m1 x).Parent with
    | none => rfl
    | some p => exact ih p

theorem SameTree_parentChain (m1 m2 : Nat → BlockTreeNode) (h : SameTree m1 m2) (k : Nat) :
    ∀ x, parentChain m2 k x = parentChain m1 k x := by
  induction k with
  | zero => intro x; rfl
  | succ k ih =>
    intro x
    cases x with
    | none => rfl
    | some n =>
      obtain ⟨a, ha⟩ := h n
      rw [parentChain, parentChain, ha]
      dsimp only
      rw [ih]

theorem SameTree_wellFormed (m1 m2 : Nat → BlockTreeNode) (h : SameTree m1 m2)
    (hwf : WellFormed m1) : WellFormed m2 := by
  intro x p hp
  obtain ⟨a, ha⟩ := h x
  obtain ⟨b, hb⟩ := h p
  rw [ha] at hp ⊢
  rw [hb]
  exact hwf x p hp

theorem SameTree_hasData (lib : Lib) (env : Store) (m1 m2 : Nat → BlockTreeNode)
    (h : SameTree m1 m2) (x : Nat) (hd : HasData lib env m1 x) : HasData lib env m2 x := by
  obtain ⟨a, ha⟩ := h x
  unfold HasData
  rw [ha]
  exact hd

/-- In a well-formed tree `FindPathTo` returns the node below `n` on the branch
of `end_`. -/
theorem FindPathTo_next (lib : Lib) (mem : Nat → BlockTreeNode) (hwf : WellFormed mem)
    (n end_ c m fuel : Nat) (hc : ancestorAt mem m end_ = some c)
    (hcp : (mem c).Parent = some n) (hf : m < fuel) :
    FindPathTo lib mem fuel n end_ = .ret (some c) := by
  have hh := fun x p h => (hwf x p h).2
  have hHc := ancestorAt_height mem hh _ _ _ hc
  have hcn := hh c n hcp
  apply FindPathTo_ret lib mem n end_ c m fuel _ (by omega) hc hcp (hwf c n hcp).1 _ hf
  · intro e
    rw [e] at hcn
    omega
  · intro i y hi hy hyp
    have h1 := ancestorAt_height mem hh _ _ _ hy
    have h2 := hh y n hyp
    omega

theorem descend_ret (mem : Nat → BlockTreeNode)
    (hh : ∀ x p, (mem x).Parent = some p → (mem x).Height = (mem p).Height + 1)
    (tipH : Nat) (d : Nat) :
    ∀ fuel cur y, d ≤ fuel → ancestorAt mem d cur = some y → (mem y).Height = tipH →
      (∀ b x, 1 ≤ b → b ≤ d → ancestorAt mem b cur = some x → (mem x).TxCount ≠ 0) →
      MoveToBlock.descend mem tipH fuel cur = .ret (some y) := by
  induction d with
  | zero =>
    intro fuel cur y _ hy hH _
    rw [ancestorAt] at hy
    injection hy with hy
    subst hy
    cases fuel <;> rw [MoveToBlock.descend, if_neg (by omega)]
  | succ d ih =>
    intro fuel cur y hf hy hH htx
    obtain ⟨f, rfl⟩ : ∃ f, fuel = f + 1 := ⟨fuel - 1, by omega⟩
    obtain ⟨p, hp, h1⟩ := ancestorAt_succ mem d cur y hy
    have hHc := ancestorAt_height mem hh _ _ _ hy
    rw [MoveToBlock.descend, if_pos (by omega), hp]
    dsimp only
    rw [if_neg (htx 1 p (le_refl 1) (by omega) (by rw [ancestorAt_parent mem 0 cur p hp]; rfl))]
    apply ih f p y (by omega) h1 hH
    intro b x hb1 hbd hx
    exact htx (b + 1) x (by omega) (by omega) (by rw [ancestorAt_parent mem b cur p hp]; exact hx)

theorem meet_ret (mem : Nat → BlockTreeNode) (c : Nat) (i : Nat) :
    ∀ fuel t cur, i ≤ fuel → ancestorAt mem i t = some c → ancestorAt mem i cur = some c →
      (∀ a, a < i → ancestorAt mem a t ≠ ancestorAt mem a cur) →
      (∀ b x, 1 ≤ b → b ≤ i → ancestorAt mem b cur = some x → (mem x).TxCount ≠ 0) →
      MoveToBlock.meet mem fuel (some t) cur = .ret (some c) := by
  induction i with
  | zero =>
    intro fuel t cur _ ht hcur _ _
    rw [ancestorAt] at ht hcur
    injection ht with ht
    injection hcur with hcur
    subst ht
    subst hcur
    cases fuel <;> rw [MoveToBlock.meet, if_neg (fun h => h rfl)]
  | succ i ih =>
    intro fuel t cur hf ht hcur hne htx
    obtain ⟨f, rfl⟩ : ∃ f, fuel = f + 1 := ⟨fuel - 1, by omega⟩
    obtain ⟨p, hp, h1⟩ := ancestorAt_succ mem i cur c hcur
    obtain ⟨tp, htp, h2⟩ := ancestorAt_succ mem i t c ht
    have h0 : some t ≠ some cur := hne 0 (by omega)
    rw [MoveToBlock.meet, if_pos h0, hp]
    dsimp only
    rw [if_neg (htx 1 p (le_refl 1) (by omega) (by rw [ancestorAt_parent mem 0 cur p hp]; rfl)),
      htp]
    apply ih f tp p (by omega) h2 h1
    · intro a ha
      have := hne (a + 1) (by omega)
      rw [ancestorAt_parent mem a t tp htp, ancestorAt_parent mem a cur p hp] at this
      exact this
    · intro b x hb1 hbd hx
      exact htx (b + 1) x (by omega) (by omega) (by rw [ancestorAt_parent mem b cur p hp]; exact hx)

theorem UndoLastBlock_ret (lib : Lib) (env : Store) (s : St) (p : Nat)
    (hp : (s.ch.mem s.ch.BlockTreeEnd).Parent = some p)
    (hg : goodRaw lib (env.BlockGet s.log (s.ch.mem s.ch.BlockTreeEnd).BlockHash).1 = true) :
    UndoLastBlock lib env s
      = .ret { s.call (Event.UndoBlockTxs s.ch.BlockTreeEnd (s.ch.mem p).BlockHash) with
          ch := { s.ch with BlockTreeEnd := p } } := by
  unfold goodRaw at hg
  split at hg
  · rename_i bl hnb
    split at hg
    · rename_i bl2 hb
      unfold UndoLastBlock
      simp only [hnb, hb, hp]
      rfl
    · cases hg
  · cases hg

/-- The loop of `MoveToBlock` that undoes blocks: from a tip `i` links below `c`
it undoes the `i` blocks of the branch, the tip first, and stops at `c`. -/
theorem undo_ret (lib : Lib) (env : Store) (c : Nat) (habort : ∀ log, env.AbortNow log = false)
    (i : Nat) :
    ∀ fuel (s : St), i ≤ fuel → ancestorAt s.ch.mem i s.ch.BlockTreeEnd = some c →
      (∀ a, a < i → ancestorAt s.ch.mem a s.ch.BlockTreeEnd ≠ some c) →
      (∀ a x log, a < i → ancestorAt s.ch.mem a s.ch.BlockTreeEnd = some x →
        goodRaw lib (env.BlockGet log (s.ch.mem x).BlockHash).1 = true) →
      ∃ s1, MoveToBlock.undo lib env c fuel s = .ret (s1, true)
        ∧ s1.ch.mem = s.ch.mem ∧ s1.ch.BlockTreeEnd = c
        ∧ s1.ch.BlockTreeRoot = s.ch.BlockTreeRoot
        ∧ moves s1.log = moves s.log
            ++ (parentChain s.ch.mem i (some s.ch.BlockTreeEnd)).map (fun n => (false, n)) := by
  induction i with
  | zero =>
    intro fuel s _ hc _ _
    rw [ancestorAt] at hc
    injection hc with hc
    refine ⟨s, ?_, rfl, hc, rfl, ?_⟩
    · cases fuel <;> rw [MoveToBlock.undo, if_neg (fun h => h hc)]
    · rw [parentChain, List.map_nil, List.append_nil]
  | succ i ih =>
    intro fuel s hf hc hne hg
    obtain ⟨f, rfl⟩ : ∃ f, fuel = f + 1 := ⟨fuel - 1, by omega⟩
    obtain ⟨p, hp, h1⟩ := ancestorAt_succ s.ch.mem i s.ch.BlockTreeEnd c hc
    have h0 : s.ch.BlockTreeEnd ≠ c := fun e => hne 0 (by omega) (by rw [ancestorAt, e])
    obtain ⟨s1, hr, hmem, htip, hroot, hlog⟩ := ih f
      { s.call (Event.UndoBlockTxs s.ch.BlockTreeEnd (s.ch.mem p).BlockHash) with
          ch := { s.ch with BlockTreeEnd := p } } (by omega) h1
      (fun a ha => by
        have := hne (a + 1) (by omega)
        rw [ancestorAt_parent s.ch.mem a _ p hp] at this
        exact this)
      (fun a x log ha hx => hg (a + 1) x log (by omega) (by
        rw [ancestorAt_parent s.ch.mem a _ p hp]
        exact hx))
    refine ⟨s1, ?_, hmem, htip, hroot, ?_⟩
    · rw [MoveToBlock.undo, if_pos h0, habort]
      simp only [Bool.false_eq_true, if_false]
      rw [UndoLastBlock_ret lib env s p hp (hg 0 _ s.log (by omega) rfl)]
      exact hr
    · rw [hlog, parentChain, hp]
      show moves (s.log ++ [_]) ++ _ = _
      rw [moves_append, List.map_cons, List.append_assoc]
      rfl

/-- One iteration of the loop of `ParseTillBlock` on a node that has its data
and whose block commits: the tip advances to the node. -/
theorem step_commit (lib : Lib) (env : Store) (fuel : Nat) (s : St) (end_ nxt : Nat)
    (hfp : FindPathTo lib s.ch.mem fuel s.ch.BlockTreeEnd end_ = .ret (some nxt))
    (hd : HasData lib env s.ch.mem nxt)
    (hcommit : ∀ log bl h1 h2, (env.ProcessBlockTransactions log bl h1 h2).1 = none) :
    ∃ s2 sig, ParseTillBlock.step lib env fuel s end_ = .ret (s2, true)
      ∧ s2.ch.mem = Function.update s.ch.mem nxt { s.ch.mem nxt with Sigops := sig }
      ∧ s2.ch.BlockTreeEnd = nxt ∧ s2.ch.BlockTreeRoot = s.ch.BlockTreeRoot
      ∧ moves s2.log = moves s.log ++ [(true, nxt)] := by
  obtain ⟨_, hbs, hlog⟩ := hd
  obtain ⟨her, hg⟩ := hlog s.log
  unfold goodRaw at hg
  split at hg
  · rename_i bl hnb
    split at hg
    · rename_i bl2 hb
      unfold ParseTillBlock.step
      rw [hfp]
      dsimp only
      rw [if_neg hbs]
      simp only [her, hnb]
      unfold ParseTillBlock.commit
      simp only [hb, hcommit]
      cases (env.BlockGet s.log (s.ch.mem nxt).BlockHash).2.1
      · simp only [Bool.not_false, if_true]
        refine ⟨_, _, rfl, rfl, rfl, rfl, ?_⟩
        show moves ((s.log ++ [_]) ++ [_]) = _
        rw [moves_append, moves_append]
        simp only [moves, List.append_nil]
      · simp only [Bool.not_true, Bool.false_eq_true, if_false]
        refine ⟨_, _, rfl, rfl, rfl, rfl, ?_⟩
        show moves (s.log ++ [_]) = _
        rw [moves_append]
        rfl
    · cases hg
  · cases hg

/-- The loop of `ParseTillBlock` from a tip `j` links above `end_`, when the
nodes of the branch have their data and every block commits: it commits the
`j` blocks of the branch, the lowest first, and stops at `end_`. -/
theorem ParseTillBlock_loop_ret (lib : Lib) (env : Store) (fuel end_ : Nat)
    (habort : ∀ log, env.AbortNow log = false)
    (hcommit : ∀ log bl h1 h2, (env.ProcessBlockTransactions log bl h1 h2).1 = none)
    (j : Nat) :
    ∀ todo (s : St), j ≤ todo → j ≤ fuel → WellFormed s.ch.mem →
      ancestorAt s.ch.mem j end_ = some s.ch.BlockTreeEnd →
      (∀ b x, b < j → ancestorAt s.ch.mem b end_ = some x → HasData lib env s.ch.mem x) →
      ∃ s1, ParseTillBlock.loop lib env fuel end_ todo s = .ret s1
        ∧ s1.ch.BlockTreeEnd = end_ ∧ SameTree s.ch.mem s1.ch.mem
        ∧ s1.ch.BlockTreeRoot = s.ch.BlockTreeRoot
        ∧ moves s1.log = moves s.log
            ++ ((parentChain s.ch.mem j (some end_)).reverse).map (fun n => (true, n)) := by
  induction j with
  | zero =>
    intro todo s _ _ _ hc _
    rw [ancestorAt] at hc
    injection hc with hc
    refine ⟨s, ?_, hc.symm, SameTree_refl _, rfl, ?_⟩
    · cases todo <;> rw [ParseTillBlock.loop, if_neg (fun h => h.2 hc.symm)]
    · rw [parentChain, List.reverse_nil, List.map_nil, List.append_nil]
  | succ j ih =>
    intro todo s ht hf hwf hc hd
    obtain ⟨t, rfl⟩ : ∃ t, todo = t + 1 := ⟨todo - 1, by omega⟩
    have hh := fun x p h => (hwf x p h).2
    obtain ⟨nxt, hn, hnp⟩ := ancestorAt_last s.ch.mem j end_ _ hc
    have hH := ancestorAt_height s.ch.mem hh _ _ _ hc
    have hne : s.ch.BlockTreeEnd ≠ end_ := fun e => by
      rw [e] at hH
      omega
    obtain ⟨s2, sig, hstep, hmem2, htip2, hroot2, hlog2⟩ := step_commit lib env fuel s end_ nxt
      (FindPathTo_next lib s.ch.mem hwf _ end_ nxt j fuel hn hnp (by omega))
      (hd j nxt (by omega) hn) hcommit
    have hst : SameTree s.ch.mem s2.ch.mem := by
      rw [hmem2]
      exact SameTree_update _ _ _
    obtain ⟨s1, hr, htip, hsame, hroot, hlog⟩ := ih t s2 (by omega) (by omega)
      (SameTree_wellFormed _ _ hst hwf)
      (by rw [SameTree_ancestorAt _ _ hst, htip2]; exact hn)
      (fun b x hb hx => SameTree_hasData lib env _ _ hst x
        (hd b x (by omega) (by rw [← SameTree_ancestorAt _ _ hst]; exact hx)))
    refine ⟨s1, ?_, htip, SameTree_trans _ _ _ hst hsame, hroot.trans hroot2, ?_⟩
    · rw [ParseTillBlock.loop, if_pos ⟨by rw [habort]; rfl, hne⟩, hstep]
      exact hr
    · rw [hlog, hlog2, SameTree_parentChain _ _ hst, parentChain_succ_last s.ch.mem j end_ nxt hn,
        List.reverse_append, List.reverse_singleton, List.singleton_append, List.map_cons,
        List.append_assoc]
      rfl

/-- Method `MoveToBlock` from a tip `i` links below the lowest common ancestor
`c` to a node `dst` `j` links below `c` and not lower than the tip, when the
nodes of both branches have their data and every block commits. -/
theorem MoveToBlock_ret (lib : Lib) (env : Store) (s : St) (dst c i j fuel : Nat)
    (hwf : WellFormed s.ch.mem)
    (hi : ancestorAt s.ch.mem i s.ch.BlockTreeEnd = some c)
    (hj : ancestorAt s.ch.mem j dst = some c)
    (hlca : ∀ d a b, ancestorAt s.ch.mem a s.ch.BlockTreeEnd = some d →
      ancestorAt s.ch.mem b dst = some d → (s.ch.mem d).Height ≤ (s.ch.mem c).Height)
    (hge : (s.ch.mem s.ch.BlockTreeEnd).Height ≤ (s.ch.mem dst).Height)
    (hdata : ∀ x, ((∃ a, a ≤ i ∧ ancestorAt s.ch.mem a s.ch.BlockTreeEnd = some x)
      ∨ ∃ b, b ≤ j ∧ ancestorAt s.ch.mem b dst = some x) → HasData lib env s.ch.mem x)
    (hcommit : ∀ log bl h1 h2, (env.ProcessBlockTransactions log bl h1 h2).1 = none)
    (habort : ∀ log, env.AbortNow log = false)
    (hf : j < fuel) :
    ∃ s1, MoveToBlock lib env fuel s dst = .ret s1
      ∧ s1.ch.BlockTreeEnd = dst ∧ SameTree s.ch.mem s1.ch.mem
      ∧ s1.ch.BlockTreeRoot = s.ch.BlockTreeRoot
      ∧ moves s1.log = moves s.log
          ++ (parentChain s.ch.mem i (some s.ch.BlockTreeEnd)).map (fun n => (false, n))
          ++ ((parentChain s.ch.mem j (some dst)).reverse).map (fun n => (true, n)) := by
  obtain ⟨f, rfl⟩ : ∃ f, fuel = f + 1 := ⟨fuel - 1, by omega⟩
  have hh := fun x p h => (hwf x p h).2
  have hHi := ancestorAt_height s.ch.mem hh _ _ _ hi
  have hHj := ancestorAt_height s.ch.mem hh _ _ _ hj
  have hij : i ≤ j := by omega
  obtain ⟨y, hy, hyc⟩ := ancestorAt_split s.ch.mem (j - i) i dst c (by
    rw [Nat.sub_add_cancel hij]; exact hj)
  have hHy := ancestorAt_height s.ch.mem hh _ _ _ hyc
  have htx : ∀ b x, b ≤ j → ancestorAt s.ch.mem b dst = some x → (s.ch.mem x).TxCount ≠ 0 :=
    fun b x hb hx => (hdata x (Or.inr ⟨b, hb, hx⟩)).1
  have h1 : MoveToBlock.descend s.ch.mem (s.ch.mem s.ch.BlockTreeEnd).Height f dst
      = .ret (some y) :=
    descend_ret s.ch.mem hh _ (j - i) f dst y (by omega) hy (by omega)
      (fun b x _ hb hx => htx b x (by omega) hx)
  have h2 : MoveToBlock.meet s.ch.mem f (some s.ch.BlockTreeEnd) y = .ret (some c) := by
    apply meet_ret s.ch.mem c i f _ y (by omega) hi hyc
    · intro a ha e
      obtain ⟨x, hx, hxc⟩ := ancestorAt_split s.ch.mem a (i - a) s.ch.BlockTreeEnd c (by
        rw [Nat.add_sub_cancel' (le_of_lt ha)]; exact hi)
      have hx2 : ancestorAt s.ch.mem ((j - i) + a) dst = some x := by
        rw [ancestorAt_add s.ch.mem _ a dst y hy, ← e]
        exact hx
      have h3 := ancestorAt_height s.ch.mem hh _ _ _ hxc
      have := hlca x a _ hx hx2
      omega
    · intro b x _ hb hx
      exact htx ((j - i) + b) x (by omega) (by
        rw [ancestorAt_add s.ch.mem _ b dst y hy]; exact hx)
  obtain ⟨s1, hr1, hmem1, htip1, hroot1, hlog1⟩ := undo_ret lib env c habort i f s (by omega) hi
    (fun a ha e => by
      have := ancestorAt_height s.ch.mem hh _ _ _ e
      omega)
    (fun a x log ha hx => ((hdata x (Or.inl ⟨a, le_of_lt ha, hx⟩)).2.2 log).2)
  obtain ⟨s2, hr2, htip2, hsame2, hroot2, hlog2⟩ := ParseTillBlock_loop_ret lib env f dst habort
    hcommit j f s1 (by omega) (by omega) (by rw [hmem1]; exact hwf)
    (by rw [hmem1, htip1]; exact hj)
    (fun b x hb hx => by
      rw [hmem1] at hx ⊢
      exact hdata x (Or.inr ⟨b, le_of_lt hb, hx⟩))
  refine ⟨(s2.call Event.UnspentSync).call Event.Save, ?_, htip2, ?_, hroot2.trans hroot1, ?_⟩
  · rw [MoveToBlock, h1]
    dsimp only
    rw [h2]
    dsimp only
    rw [hr1]
    dsimp only
    unfold ParseTillBlock.run
    rw [hr2]
    dsimp only
    unfold ParseTillBlock.finish
    dsimp only
    rw [if_neg (fun h => h.2 htip2)]
  · rw [← hmem1]
    exact hsame2
  · show moves ((s2.log ++ [_]) ++ [_]) = _
    rw [moves_append, moves_append, hlog2, hlog1, hmem1]
    simp only [moves, List.append_nil]

theorem forkMem_anc3 (a d : Nat) (h : ancestorAt forkMem a 3 = some d) :
    d = 3 ∨ d = 1 ∨ d = 0 := by
  match a with
  | 0 => exact Or.inl (Option.some.inj h).symm
  | 1 => exact Or.inr (Or.inl (Option.some.inj h).symm)
  | 2 => exact Or.inr (Or.inr (Option.some.inj h).symm)
  | a + 3 => simp [ancestorAt, forkMem, forkTable, mkNode] at h

theorem forkMem_anc5 (b d : Nat) (h : ancestorAt forkMem b 5 = some d) :
    d = 5 ∨ d = 4 ∨ d = 2 ∨ d = 0 := by
  match b with
  | 0 => exact Or.inl (Option.some.inj h).symm
  | 1 => exact Or.inr (Or.inl (Option.some.inj h).symm)
  | 2 => exact Or.inr (Or.inr (Or.inl (Option.some.inj h).symm))
  | 3 => exact Or.inr (Or.inr (Or.inr (Option.some.inj h).symm))
  | b + 4 => simp [ancestorAt, forkMem, forkTable, mkNode] at h

set_option maxRecDepth 8000 in
theorem sampleRaw_good : goodRaw sampleLib (sampleRaw 1 sampleRoot) = true := by
  decide

theorem forkMem_hasData (x : Nat) : HasData sampleLib sampleStore forkMem x := by
  refine ⟨?_, ?_, fun log => ⟨rfl, sampleRaw_good⟩⟩
  · by_cases hx : x < 9
    · interval_cases x <;> decide
    · unfold forkMem
      rw [List.getD_eq_default _ _ (by simpa [forkTable] using hx)]
      exact Nat.one_ne_zero
  · by_cases hx : x < 9
    · interval_cases x <;> decide
    · unfold forkMem
      rw [List.getD_eq_default _ _ (by simpa [forkTable] using hx)]
      exact Nat.succ_ne_zero 99

/-- C26: in a well-formed tree, let the tip be `i` parent links below `c` and
`dst` be `j` links below `c`, `c` being their lowest common ancestor, with `dst`
not lower than the tip; let every node of both branches have its block data
(`TxCount` and `BlockSize` not zero, `BlockGet` returns at any time, without an
error, raw bytes from which `NewBlock` and `BuildTxList` make a block), let
every `ProcessBlockTransactions` succeed and `AbortNow` be false. Then
`MoveToBlock(dst)` returns, for every bound above `j`, with `BlockTreeEnd = dst`,
and its calls of `UndoBlockTxs` and `CommitBlockTxs` are, in this order: one
undo for each of the `i` nodes of the old branch from the tip up to the child
of `c`, then one commit for each of the `j` nodes of the new branch from the
child of `c` down to `dst`. Here `i` is the height of the tip minus that of
`c`, `j` is the height of `dst` minus that of `c`, the heights of the undone
nodes go down one by one to one above `c`, and the heights of the committed
nodes go up one by one from one above `c`. -/
theorem C26_MoveToBlock (lib : Lib) (env : Store) (s : St) (dst c i j fuel : Nat)
    (hwf : WellFormed s.ch.mem)
    (hi : ancestorAt s.ch.mem i s.ch.BlockTreeEnd = some c)
    (hj : ancestorAt s.ch.mem j dst = some c)
    (hlca : ∀ d a b, ancestorAt s.ch.mem a s.ch.BlockTreeEnd = some d →
      ancestorAt s.ch.mem b dst = some d → (s.ch.mem d).Height ≤ (s.ch.mem c).Height)
    (hge : (s.ch.mem s.ch.BlockTreeEnd).Height ≤ (s.ch.mem dst).Height)
    (hdata : ∀ x, ((∃ a, a ≤ i ∧ ancestorAt s.ch.mem a s.ch.BlockTreeEnd = some x)
      ∨ ∃ b, b ≤ j ∧ ancestorAt s.ch.mem b dst = some x) → HasData lib env s.ch.mem x)
    (hcommit : ∀ log bl h1 h2, (env.ProcessBlockTransactions log bl h1 h2).1 = none)
    (habort : ∀ log, env.AbortNow log = false)
    (hf : j < fuel) :
    ∃ s1, MoveToBlock lib env fuel s dst = .ret s1
      ∧ s1.ch.BlockTreeEnd = dst
      ∧ moves s1.log = moves s.log
          ++ (parentChain s.ch.mem i (some s.ch.BlockTreeEnd)).map (fun n => (false, n))
          ++ ((parentChain s.ch.mem j (some dst)).reverse).map (fun n => (true, n))
      ∧ (parentChain s.ch.mem i (some s.ch.BlockTreeEnd)).length
          = (s.ch.mem s.ch.BlockTreeEnd).Height - (s.ch.mem c).Height
      ∧ (parentChain s.ch.mem j (some dst)).length
          = (s.ch.mem dst).Height - (s.ch.mem c).Height
      ∧ (parentChain s.ch.mem i (some s.ch.BlockTreeEnd)).map (fun n => (s.ch.mem n).Height)
          = (List.range' ((s.ch.mem c).Height + 1) i).reverse
      ∧ ((parentChain s.ch.mem j (some dst)).reverse).map (fun n => (s.ch.mem n).Height)
          = List.range' ((s.ch.mem c).Height + 1) j := by
  have hh := fun x p h => (hwf x p h).2
  have hHi := ancestorAt_height s.ch.mem hh _ _ _ hi
  have hHj := ancestorAt_height s.ch.mem hh _ _ _ hj
  have h1 := parentChain_heights s.ch.mem hh i _ c hi
  have h2 := parentChain_heights s.ch.mem hh j _ c hj
  have l1 := congrArg List.length h1
  have l2 := congrArg List.length h2
  rw [List.length_map, List.length_reverse, List.length_range'] at l1 l2
  obtain ⟨s1, hr, htip, -, -, hlog⟩ :=
    MoveToBlock_ret lib env s dst c i j fuel hwf hi hj hlca hge hdata hcommit habort hf
  refine ⟨s1, hr, htip, hlog, by omega, by omega, ?_, h2⟩
  rw [← h1, List.map_reverse, List.reverse_reverse]

set_option maxRecDepth 8000 in
theorem C26_MoveToBlock_witness :
    ∃ s1, MoveToBlock sampleLib sampleStore 4 { ch := forkChain, log := [] } 5 = .ret s1
      ∧ s1.ch.BlockTreeEnd = 5
      ∧ moves s1.log = [(false, 3), (false, 1), (true, 2), (true, 4), (true, 5)] :=
  (C26_MoveToBlock sampleLib sampleStore { ch := forkChain, log := [] } 5 0 2 3 4
    forkMem_WellFormed (by decide) (by decide)
    (fun d a b ha hb => by
      rcases forkMem_anc3 a d ha with h | h | h <;>
        rcases forkMem_anc5 b d hb with h1 | h1 | h1 | h1 <;> first | omega | (subst h; decide))
    (by decide) (fun x _ => forkMem_hasData x) (fun _ _ _ _ => rfl) (fun _ => rfl)
    (by decide)).imp (fun _ h => ⟨h.1, h.2.1, h.2.2.1⟩)

/-! ### What a returning `DeleteBranch` leaves unchanged -/

theorem delChild_loop_inv (c cap : Nat) (l : List Nat) :
    ∀ acc r, delChild.loop c cap l acc = .ok r →
      r = acc ++ l.filter (fun x => decide (x ≠ c)) := by
  induction l with
  | nil =>
    intro acc r h
    rw [delChild.loop] at h
    injection h with h
    rw [← h, List.filter_nil, List.append_nil]
  | cons x rest ih =>
    intro acc r h
    rw [delChild.loop] at h
    by_cases hx : x ≠ c
    · rw [if_pos hx] at h
      by_cases hl : acc.length < cap
      · rw [if_pos hl] at h
        rw [ih _ _ h, List.filter_cons_of_pos (by simpa using hx), List.append_assoc]
        rfl
      · rw [if_neg hl] at h
        cases h
    · rw [if_neg hx] at h
      rw [ih _ _ h, List.filter_cons_of_neg (by simpa using hx)]

theorem delChild_inv (s s1 : St) (n c : Nat) (h : delChild s n c = .ret s1) :
    s1 = setNode s n (fun node =>
      { node with Childs := (s.ch.mem n).Childs.filter (fun x => decide (x ≠ c)) }) := by
  unfold delChild at h
  split at h
  · cases h
  · split at h
    · cases h
    · rename_i newChds hl
      split at h
      · cases h
      · injection h with h
        rw [← h, delChild_loop_inv _ _ _ _ _ hl, List.nil_append]

theorem Shrunk_refl (mem : Nat → BlockTreeNode) (R : Nat → Prop) : Shrunk mem mem R :=
  fun x => ⟨⟨(mem x).Childs, rfl, List.Sublist.refl _⟩, fun _ => rfl⟩

theorem Shrunk_trans (m0 m1 m2 : Nat → BlockTreeNode) (R : Nat → Prop)
    (h1 : Shrunk m0 m1 R) (h2 : Shrunk m1 m2 R) : Shrunk m0 m2 R := by
  intro x
  obtain ⟨⟨l1, e1, s1⟩, f1⟩ := h1 x
  obtain ⟨⟨l2, e2, s2⟩, f2⟩ := h2 x
  refine ⟨⟨l2, by rw [e2, e1], ?_⟩, fun hx => by rw [f2 hx, f1 hx]⟩
  rw [e1] at s2
  exact s2.trans s1

theorem Shrunk_mono (m0 m1 : Nat → BlockTreeNode) (R Q : Nat → Prop)
    (hRQ : ∀ x, R x → Q x) (h : Shrunk m0 m1 R) : Shrunk m0 m1 Q :=
  fun x => ⟨(h x).1, fun hx => (h x).2 (fun hr => hx (hRQ x hr))⟩

theorem Shrunk_update (mem : Nat → BlockTreeNode) (n : Nat) (l : List Nat)
    (hl : l.Sublist (mem n).Childs) :
    Shrunk mem (Function.update mem n { mem n with Childs := l }) (fun x => x = n) := by
  intro x
  by_cases hx : x = n
  · subst hx
    exact ⟨⟨l, by rw [Function.update_same], hl⟩, fun h => (h rfl).elim⟩
  · rw [Function.update_noteq hx]
    exact ⟨⟨(mem x).Childs, rfl, List.Sublist.refl _⟩, fun _ => rfl⟩

theorem Shrunk_childs (m0 m1 : Nat → BlockTreeNode) (R : Nat → Prop) (h : Shrunk m0 m1 R)
    (x c : Nat) (hc : c ∈ (m1 x).Childs) : c ∈ (m0 x).Childs := by
  obtain ⟨⟨l, e, s⟩, _⟩ := h x
  rw [e] at hc
  exact s.subset hc

theorem Shrunk_reach (m0 m1 : Nat → BlockTreeNode) (R : Nat → Prop) (h : Shrunk m0 m1 R)
    (n d : Nat) (hr : Reach m1 n d) : Reach m0 n d :=
  Reach.sub m0 m1 (Shrunk_childs m0 m1 R h) n d hr

theorem delAllChildren_loop_frame (lib : Lib) (rec : St → Nat → Run St) (cur : Nat)
    (hrec : ∀ (s : St) c s1, rec s c = .ret s1 →
      Shrunk s.ch.mem s1.ch.mem (Reach s.ch.mem c)
        ∧ s1.ch.BlockTreeRoot = s.ch.BlockTreeRoot ∧ s1.ch.BlockTreeEnd = s.ch.BlockTreeEnd)
    (todo : Nat) :
    ∀ i (s s1 : St), delAllChildren.loop lib rec cur todo i s = .ret s1 →
      Shrunk s.ch.mem s1.ch.mem (Below s.ch.mem cur)
        ∧ s1.ch.BlockTreeRoot = s.ch.BlockTreeRoot ∧ s1.ch.BlockTreeEnd = s.ch.BlockTreeEnd := by
  induction todo with
  | zero =>
    intro i s s1 h
    rw [delAllChildren.loop] at h
    injection h with h
    subst h
    exact ⟨Shrunk_refl _ _, rfl, rfl⟩
  | succ todo ih =>
    intro i s s1 h
    rw [delAllChildren.loop] at h
    split at h
    · cases h
    · rename_i c hc
      split at h
      · rename_i s2 hr
        obtain ⟨hs2, hroot2, htip2⟩ := hrec s c s2 hr
        split at h
        · cases h
        · rename_i c2 hc2
          obtain ⟨hs1, hroot1, htip1⟩ := ih _ _ _ h
          refine ⟨Shrunk_trans _ s2.ch.mem _ _ ?_ ?_, hroot1.trans hroot2, htip1.trans htip2⟩
          · apply Shrunk_mono _ _ _ _ _ hs2
            intro x hx
            exact ⟨c, List.getElem?_mem hc, hx⟩
          · apply Shrunk_mono _ _ _ _ _ hs1
            rintro x ⟨c3, hc3, hx⟩
            exact ⟨c3, Shrunk_childs _ _ _ hs2 cur c3 hc3, Shrunk_reach _ _ _ hs2 c3 x hx⟩
      · cases h
      · cases h

/-- A returning `delAllChildren` removes entries of `Childs` lists only, and only
at the node and at its descendants; the root and the tip stay. -/
theorem delAllChildren_frame (lib : Lib) (fuel : Nat) :
    ∀ (s : St) n s1, delAllChildren lib fuel s n = .ret s1 →
      Shrunk s.ch.mem s1.ch.mem (Reach s.ch.mem n)
        ∧ s1.ch.BlockTreeRoot = s.ch.BlockTreeRoot ∧ s1.ch.BlockTreeEnd = s.ch.BlockTreeEnd := by
  induction fuel with
  | zero =>
    intro s n s1 h
    rw [delAllChildren] at h
    cases h
  | succ fuel ih =>
    intro s n s1 h
    rw [delAllChildren] at h
    split at h
    · rename_i s2 hl
      injection h with h
      subst h
      obtain ⟨hs2, hroot2, htip2⟩ := delAllChildren_loop_frame lib _ n ih _ _ _ _ hl
      refine ⟨Shrunk_trans _ s2.ch.mem _ _ ?_ ?_, hroot2, htip2⟩
      · exact Shrunk_mono _ _ _ _ (fun x hx => Below.reach _ n x hx) hs2
      · apply Shrunk_mono _ _ (fun x => x = n) _ _
          (Shrunk_update s2.ch.mem n [] (List.nil_sublist _))
        intro x hx
        rw [hx]
        exact Reach_refl _ n
    · cases h
    · cases h

/-- A returning `DeleteBranch` removes entries of `Childs` lists only, and only
at the parent of the node, at the node and at its descendants; the root and the
tip stay. -/
theorem DeleteBranch_frame (lib : Lib) (fuel : Nat) (s s1 : St) (cur : Nat)
    (h : DeleteBranch lib fuel s cur = .ret s1) :
    ∃ p, (s.ch.mem cur).Parent = some p
      ∧ Shrunk s.ch.mem s1.ch.mem (fun x => x = p ∨ Reach s.ch.mem cur x)
      ∧ s1.ch.BlockTreeRoot = s.ch.BlockTreeRoot ∧ s1.ch.BlockTreeEnd = s.ch.BlockTreeEnd := by
  unfold DeleteBranch at h
  dsimp only at h
  split at h
  · cases h
  · rename_i p hp
    split at h
    · rename_i s2 hd
      split at h
      · rename_i s3 hall
        injection h with h
        have e2 := delChild_inv _ _ _ _ hd
        obtain ⟨hs3, hroot3, htip3⟩ := delAllChildren_frame lib fuel _ _ _ hall
        have hs2 : Shrunk s.ch.mem s2.ch.mem (fun x => x = p) := by
          rw [e2]
          exact Shrunk_update s.ch.mem p _ (List.filter_sublist _)
        have hch : s1.ch = s3.ch := by
          rw [← h]
          split <;> rfl
        rw [hch]
        refine ⟨p, hp, Shrunk_trans _ s2.ch.mem _ _ ?_ ?_, ?_, ?_⟩
        · exact Shrunk_mono _ _ _ _ (fun x hx => Or.inl hx) hs2
        · exact Shrunk_mono _ _ _ _
            (fun x hx => Or.inr (Shrunk_reach _ _ _ hs2 cur x hx)) hs3
        · rw [hroot3, e2]
          rfl
        · rw [htip3, e2]
          rfl
      · cases h
      · cases h
    · cases h
    · cases h

/-! ### Walks from the root -/

theorem Walk_nil_iff (mem : Nat → BlockTreeNode) (n d : Nat) :
    Walk mem n [] d ↔ n = d ∧ 0 < (mem n).BlockSize := by
  unfold Walk
  rw [follow, nodesOn]
  constructor
  · rintro ⟨h1, h2⟩
    exact ⟨Option.some.inj h1, h2 n (List.mem_singleton.mpr rfl)⟩
  · rintro ⟨h1, h2⟩
    refine ⟨by rw [h1], fun x hx => ?_⟩
    rw [List.mem_singleton.mp hx]
    exact h2

theorem Walk_cons_iff (mem : Nat → BlockTreeNode) (n i d : Nat) (rest : List Nat) :
    Walk mem n (i :: rest) d
      ↔ 0 < (mem n).BlockSize ∧ ∃ c, (mem n).Childs[i]? = some c ∧ Walk mem c rest d := by
  unfold Walk
  constructor
  · rintro ⟨h1, h2⟩
    obtain ⟨c, hc, h3⟩ := follow_cons_inv mem n i d rest h1
    rw [nodesOn, hc] at h2
    exact ⟨h2 n (List.mem_cons_self _ _), c, hc, h3, fun x hx => h2 x (List.mem_cons_of_mem _ hx)⟩
  · rintro ⟨h0, c, hc, h1, h2⟩
    refine ⟨by rw [follow_cons mem n i c rest hc]; exact h1, fun x hx => ?_⟩
    rw [nodesOn, hc] at hx
    rcases List.mem_cons.mp hx with e | e
    · rw [e]
      exact h0
    · exact h2 x e

theorem Walk_snoc (mem : Nat → BlockTreeNode) (d i c : Nat) (hc : (mem d).Childs[i]? = some c)
    (hs : 0 < (mem c).BlockSize) (path : List Nat) :
    ∀ n, Walk mem n path d → Walk mem n (path ++ [i]) c := by
  induction path with
  | nil =>
    intro n h
    obtain ⟨e, h0⟩ := (Walk_nil_iff mem n d).mp h
    subst e
    exact (Walk_cons_iff mem n i c []).mpr ⟨h0, c, hc, (Walk_nil_iff mem c c).mpr ⟨rfl, hs⟩⟩
  | cons j rest ih =>
    intro n h
    obtain ⟨h0, c1, hc1, h1⟩ := (Walk_cons_iff mem n j d rest).mp h
    exact (Walk_cons_iff mem n j c (rest ++ [i])).mpr ⟨h0, c1, hc1, ih c1 h1⟩

theorem Walk_unsnoc (mem : Nat → BlockTreeNode) (d i : Nat) (path : List Nat) :
    ∀ n, Walk mem n (path ++ [i]) d → ∃ q, Walk mem n path q ∧ (mem q).Childs[i]? = some d := by
  induction path with
  | nil =>
    intro n h
    obtain ⟨h0, c, hc, h1⟩ := (Walk_cons_iff mem n i d []).mp h
    obtain ⟨e, _⟩ := (Walk_nil_iff mem c d).mp h1
    subst e
    exact ⟨n, (Walk_nil_iff mem n n).mpr ⟨rfl, h0⟩, hc⟩
  | cons j rest ih =>
    intro n h
    obtain ⟨h0, c1, hc1, h1⟩ := (Walk_cons_iff mem n j d (rest ++ [i])).mp h
    obtain ⟨q, hq, hqc⟩ := ih c1 h1
    exact ⟨q, (Walk_cons_iff mem n j q rest).mpr ⟨h0, c1, hc1, hq⟩, hqc⟩

theorem follow_height (mem : Nat → BlockTreeNode) (hl : Linked mem) (d : Nat)
    (path : List Nat) :
    ∀ n, follow mem n path = some d → (mem d).Height = (mem n).Height + path.length := by
  induction path with
  | nil =>
    intro n h
    rw [follow] at h
    injection h with h
    rw [h]
    rfl
  | cons i rest ih =>
    intro n h
    obtain ⟨c, hc, h1⟩ := follow_cons_inv mem n i d rest h
    rw [ih c h1, (hl n c (List.getElem?_mem hc)).2, List.length_cons]
    omega

theorem Reach_height (mem : Nat → BlockTreeNode) (hl : Linked mem) (n d : Nat)
    (h : Reach mem n d) : (mem n).Height ≤ (mem d).Height := by
  obtain ⟨path, hp⟩ := h
  rw [follow_height mem hl d path n hp]
  omega

/-- A walk to `d` is a walk in every memory that agrees with this one on the
nodes lower than `d` and on the `BlockSize` of `d`. -/
theorem Walk_frame (mem mem1 : Nat → BlockTreeNode) (hl : Linked mem) (d : Nat)
    (hlow : ∀ x, (mem x).Height < (mem d).Height → mem1 x = mem x)
    (hd : (mem1 d).BlockSize = (mem d).BlockSize) (path : List Nat) :
    ∀ n, Walk mem n path d → Walk mem1 n path d := by
  induction path with
  | nil =>
    intro n h
    obtain ⟨e, h0⟩ := (Walk_nil_iff mem n d).mp h
    subst e
    exact (Walk_nil_iff mem1 n n).mpr ⟨rfl, by rw [hd]; exact h0⟩
  | cons i rest ih =>
    intro n h
    obtain ⟨h0, c, hc, h1⟩ := (Walk_cons_iff mem n i d rest).mp h
    have hH := follow_height mem hl d rest c h1.1
    have hc1 := (hl n c (List.getElem?_mem hc)).2
    have e := hlow n (by omega)
    exact (Walk_cons_iff mem1 n i d rest).mpr
      ⟨by rw [e]; exact h0, c, by rw [e]; exact hc, ih c h1⟩

theorem Walk_sameTree (m1 m2 : Nat → BlockTreeNode) (h : SameTree m1 m2) (d : Nat)
    (path : List Nat) : ∀ n, Walk m1 n path d → Walk m2 n path d := by
  induction path with
  | nil =>
    intro n hw
    obtain ⟨e, h0⟩ := (Walk_nil_iff m1 n d).mp hw
    obtain ⟨a, ha⟩ := h n
    exact (Walk_nil_iff m2 n d).mpr ⟨e, by rw [ha]; exact h0⟩
  | cons i rest ih =>
    intro n hw
    obtain ⟨h0, c, hc, h1⟩ := (Walk_cons_iff m1 n i d rest).mp hw
    obtain ⟨a, ha⟩ := h n
    exact (Walk_cons_iff m2 n i d rest).mpr
      ⟨by rw [ha]; exact h0, c, by rw [ha]; exact hc, ih c h1⟩

theorem follow_sameTree (m1 m2 : Nat → BlockTreeNode) (h : SameTree m1 m2) (d : Nat)
    (path : List Nat) : ∀ n, follow m1 n path = some d → follow m2 n path = some d := by
  induction path with
  | nil =>
    intro n hf
    exact hf
  | cons i rest ih =>
    intro n hf
    obtain ⟨c, hc, h1⟩ := follow_cons_inv m1 n i d rest hf
    obtain ⟨a, ha⟩ := h n
    rw [follow_cons m2 n i c rest (by rw [ha]; exact hc)]
    exact ih c h1

theorem Linked_shrunk (m0 m1 : Nat → BlockTreeNode) (R : Nat → Prop) (h : Shrunk m0 m1 R)
    (hl : Linked m0) : Linked m1 := by
  intro x c hc
  have h0 := hl x c (Shrunk_childs m0 m1 R h x c hc)
  obtain ⟨⟨l, e, _⟩, _⟩ := h c
  obtain ⟨⟨l2, e2, _⟩, _⟩ := h x
  rw [e, e2]
  exact h0

theorem Linked_sameTree (m1 m2 : Nat → BlockTreeNode) (h : SameTree m1 m2)
    (hl : Linked m1) : Linked m2 := by
  intro x c hc
  obtain ⟨a, ha⟩ := h x
  obtain ⟨b, hb⟩ := h c
  rw [ha] at hc
  rw [ha, hb]
  exact hl x c hc

/-- The parent links above a node reachable from the root are child links: every
node met on the way up is among the `Childs` of its `Parent`. -/
theorem Reach_linked (mem : Nat → BlockTreeNode) (hl : Linked mem) (root : Nat)
    (hroot : (mem root).Parent = none) (d : Nat) (hr : Reach mem root d) :
    ∀ m x q, ancestorAt mem m d = some x → (mem x).Parent = some q → x ∈ (mem q).Childs := by
  obtain ⟨path, hp⟩ := hr
  have key : ∀ (path : List Nat) n,
      (∀ m x q, ancestorAt mem m n = some x → (mem x).Parent = some q → x ∈ (mem q).Childs) →
      follow mem n path = some d →
      ∀ m x q, ancestorAt mem m d = some x → (mem x).Parent = some q → x ∈ (mem q).Childs := by
    intro path
    induction path with
    | nil =>
      intro n hn h
      rw [follow] at h
      injection h with h
      subst h
      exact hn
    | cons i rest ih =>
      intro n hn h
      obtain ⟨c, hc, h1⟩ := follow_cons_inv mem n i d rest h
      have hcn := hl n c (List.getElem?_mem hc)
      apply ih c _ h1
      intro m x q hx hxq
      cases m with
      | zero =>
        rw [ancestorAt] at hx
        injection hx with hx
        subst hx
        rw [hcn.1] at hxq
        injection hxq with hxq
        subst hxq
        exact List.getElem?_mem hc
      | succ m =>
        rw [ancestorAt_parent mem m c n hcn.1] at hx
        exact hn m x q hx hxq
  apply key path root _ hp
  intro m x q hx hxq
  cases m with
  | zero =>
    rw [ancestorAt] at hx
    injection hx with hx
    subst hx
    rw [hroot] at hxq
    cases hxq
  | succ m =>
    rw [ancestorAt, hroot] at hx
    cases hx

theorem FindPathTo_loop_inv (mem : Nat → BlockTreeNode) (n : Nat) (fuel : Nat) :
    ∀ e0 e, FindPathTo.loop mem n fuel (some e0) = .ret e →
      ∃ m, ancestorAt mem m e0 = some e ∧ (mem e).Parent = some n := by
  induction fuel with
  | zero =>
    intro e0 e h
    rw [FindPathTo.loop] at h
    cases h
  | succ fuel ih =>
    intro e0 e h
    rw [FindPathTo.loop] at h
    by_cases hp : (mem e0).Parent = some n
    · rw [if_pos hp] at h
      injection h with h
      subst h
      exact ⟨0, rfl, hp⟩
    · rw [if_neg hp] at h
      cases hq : (mem e0).Parent with
      | none =>
        rw [hq] at h
        cases fuel <;> rw [FindPathTo.loop] at h <;> cases h
      | some p =>
        rw [hq] at h
        obtain ⟨m, hm, hmp⟩ := ih p e h
        exact ⟨m + 1, by rw [ancestorAt_parent mem m e0 p hq]; exact hm, hmp⟩

/-- What `FindPathTo` returns is a child of the node, when the parent links
above the target are child links. -/
theorem FindPathTo_child (lib : Lib) (mem : Nat → BlockTreeNode) (fuel n end_ c : Nat)
    (hq : ∀ m x q, ancestorAt mem m end_ = some x → (mem x).Parent = some q →
      x ∈ (mem q).Childs)
    (h : FindPathTo lib mem fuel n end_ = .ret (some c)) : c ∈ (mem n).Childs := by
  unfold FindPathTo at h
  split at h
  · cases h
  · split at h
    · cases h
    · split at h
      · cases h
      · rename_i c1 hc1
        injection h with h
        injection h with h
        rw [hc1, ← h]
        exact List.mem_singleton.mpr rfl
      · split at h
        · rename_i e he
          injection h with h
          injection h with h
          subst h
          obtain ⟨m, hm, hmp⟩ := FindPathTo_loop_inv mem n fuel end_ e he
          exact hq m e n hm hmp
        · cases h
        · cases h

theorem FindFarthestNode_loop_inv (rec : Nat → Option (Nat × Nat)) (cs : List Nat) :
    ∀ acc r, FindFarthestNode.loop rec cs acc = some r →
      r = acc ∨ ∃ c, c ∈ cs ∧ rec c = some r := by
  induction cs with
  | nil =>
    intro acc r h
    rw [FindFarthestNode.loop] at h
    exact Or.inl (Option.some.inj h).symm
  | cons c cs ih =>
    intro acc r h
    rw [FindFarthestNode.loop] at h
    split at h
    · cases h
    · rename_i r1 hr1
      rcases ih _ r h with e | ⟨c2, hc2, hr2⟩
      · by_cases hgt : r1.2 > acc.2
        · rw [if_pos hgt] at e
          exact Or.inr ⟨c, List.mem_cons_self _ _, by rw [hr1, e]⟩
        · rw [if_neg hgt] at e
          exact Or.inl e
      · exact Or.inr ⟨c2, List.mem_cons_of_mem _ hc2, hr2⟩

/-- The node that `FindFarthestNode` returns is the node itself or one of its
descendants. -/
theorem FindFarthestNode_reach (mem : Nat → BlockTreeNode) (fuel : Nat) :
    ∀ n r, FindFarthestNode mem fuel n = some r → Reach mem n r.1 := by
  induction fuel with
  | zero =>
    intro n r h
    rw [FindFarthestNode] at h
    cases h
  | succ fuel ih =>
    intro n r h
    rw [FindFarthestNode] at h
    split at h
    · injection h with h
      rw [← h]
      exact Reach_refl mem n
    · rename_i c0 cs hcs
      split at h
      · cases h
      · rename_i r0 hr0
        split at h
        · cases h
        · rename_i r1 hr1
          injection h with h
          rw [← h]
          have hmem : ∀ c, c ∈ c0 :: cs → Reach mem n c := fun c hc =>
            Reach.child mem n n c (Reach_refl mem n) (by rw [hcs]; exact hc)
          rcases FindFarthestNode_loop_inv _ cs r0 r1 hr1 with e | ⟨c, hc, hr⟩
          · rw [e]
            exact Reach_trans mem n c0 _ (hmem c0 (List.mem_cons_self _ _)) (ih c0 r0 hr0)
          · exact Reach_trans mem n c _ (hmem c (List.mem_cons_of_mem _ hc)) (ih c r1 hr)

/-! ### The invariant of the tip -/

theorem UndoLastBlock_inv (lib : Lib) (env : Store) (s s1 : St)
    (h : UndoLastBlock lib env s = .ret s1) :
    ∃ p, (s.ch.mem s.ch.BlockTreeEnd).Parent = some p
      ∧ s1.ch = { s.ch with BlockTreeEnd := p } := by
  unfold UndoLastBlock at h
  dsimp only at h
  split at h
  · cases h
  · split at h
    · cases h
    · split at h
      · cases h
      · rename_i p hp
        injection h with h
        exact ⟨p, hp, by rw [← h]; rfl⟩

theorem UndoLastBlock_tip (lib : Lib) (env : Store) (s s1 : St) (hl : Linked s.ch.mem)
    (hinv : TipInv s.ch) (hne : s.ch.BlockTreeEnd ≠ s.ch.BlockTreeRoot)
    (h : UndoLastBlock lib env s = .ret s1) : TipInv s1.ch := by
  obtain ⟨p, hp, e⟩ := UndoLastBlock_inv lib env s s1 h
  obtain ⟨path, hw⟩ := hinv
  rcases List.eq_nil_or_concat path with e0 | ⟨path1, i, e0⟩
  · subst e0
    exact (hne ((Walk_nil_iff _ _ _).mp hw).1.symm).elim
  · rw [List.concat_eq_append] at e0
    subst e0
    obtain ⟨q, hq, hqc⟩ := Walk_unsnoc s.ch.mem _ i path1 _ hw
    have hpq := (hl q _ (List.getElem?_mem hqc)).1
    rw [hp] at hpq
    injection hpq with hpq
    subst hpq
    rw [e]
    exact ⟨path1, hq⟩

theorem UndoLastBlock_good (lib : Lib) (env : Store) (s s1 : St) (hg : Good s.ch)
    (h : UndoLastBlock lib env s = .ret s1) :
    Good s1.ch ∧ s1.ch.mem = s.ch.mem ∧ s1.ch.BlockTreeRoot = s.ch.BlockTreeRoot := by
  obtain ⟨hl, hroot, hinv⟩ := hg
  obtain ⟨p, hp, e⟩ := UndoLastBlock_inv lib env s s1 h
  have hne : s.ch.BlockTreeEnd ≠ s.ch.BlockTreeRoot := fun e1 => by
    rw [e1, hroot] at hp
    cases hp
  have ht := UndoLastBlock_tip lib env s s1 hl hinv hne h
  have hm : s1.ch.mem = s.ch.mem := by rw [e]
  have hr : s1.ch.BlockTreeRoot = s.ch.BlockTreeRoot := by rw [e]
  exact ⟨⟨by rw [hm]; exact hl, by rw [hm, hr]; exact hroot, ht⟩, hm, hr⟩

theorem undo_good (lib : Lib) (env : Store) (c : Nat) (fuel : Nat) :
    ∀ (s s1 : St) b, Good s.ch → MoveToBlock.undo lib env c fuel s = .ret (s1, b) →
      Good s1.ch ∧ s1.ch.mem = s.ch.mem ∧ s1.ch.BlockTreeRoot = s.ch.BlockTreeRoot := by
  induction fuel with
  | zero =>
    intro s s1 b hg h
    rw [MoveToBlock.undo] at h
    split at h
    · cases h
    · injection h with h
      injection h with h
      subst h
      exact ⟨hg, rfl, rfl⟩
  | succ fuel ih =>
    intro s s1 b hg h
    rw [MoveToBlock.undo] at h
    split at h
    · split at h
      · injection h with h
        injection h with h
        subst h
        exact ⟨hg, rfl, rfl⟩
      · split at h
        · rename_i s2 hu
          obtain ⟨hg2, hm2, hr2⟩ := UndoLastBlock_good lib env s s2 hg hu
          obtain ⟨hg1, hm1, hr1⟩ := ih s2 s1 b hg2 h
          exact ⟨hg1, hm1.trans hm2, hr1.trans hr2⟩
        · cases h
        · cases h
    · injection h with h
      injection h with h
      subst h
      exact ⟨hg, rfl, rfl⟩

/-- A returning `DeleteBranch` of a child of the tip keeps the state of the
tree. -/
theorem DeleteBranch_good (lib : Lib) (fuel : Nat) (s s1 : St) (nxt : Nat) (hg : Good s.ch)
    (hc : nxt ∈ (s.ch.mem s.ch.BlockTreeEnd).Childs)
    (h : DeleteBranch lib fuel s nxt = .ret s1) :
    Good s1.ch ∧ s1.ch.BlockTreeRoot = s.ch.BlockTreeRoot := by
  obtain ⟨hl, hroot, path, hw⟩ := hg
  obtain ⟨p, hp, hs, hr, ht⟩ := DeleteBranch_frame lib fuel s s1 nxt h
  have hn := hl _ nxt hc
  rw [hp] at hn
  have hpt : p = s.ch.BlockTreeEnd := Option.some.inj hn.1
  subst hpt
  refine ⟨⟨Linked_shrunk _ _ _ hs hl, ?_, path, ?_⟩, hr⟩
  · obtain ⟨⟨l, e, _⟩, _⟩ := hs s.ch.BlockTreeRoot
    rw [hr, e]
    exact hroot
  · rw [hr, ht]
    apply Walk_frame s.ch.mem s1.ch.mem hl _ _ _ path _ hw
    · intro x hx
      apply (hs x).2
      rintro (e | e)
      · rw [e] at hx
        omega
      · have := Reach_height s.ch.mem hl nxt x e
        omega
    · obtain ⟨⟨l, e, _⟩, _⟩ := hs s.ch.BlockTreeEnd
      rw [e]

/-- The advance of the tip to a child with `BlockSize > 0` keeps the state of the
tree. -/
theorem advance_good (s s2 : St) (nxt sig : Nat) (hg : Good s.ch)
    (hc : nxt ∈ (s.ch.mem s.ch.BlockTreeEnd).Childs) (hb : (s.ch.mem nxt).BlockSize ≠ 0)
    (hm : s2.ch.mem = Function.update s.ch.mem nxt { s.ch.mem nxt with Sigops := sig })
    (ht : s2.ch.BlockTreeEnd = nxt) (hr : s2.ch.BlockTreeRoot = s.ch.BlockTreeRoot) :
    Good s2.ch ∧ SameTree s.ch.mem s2.ch.mem := by
  obtain ⟨hl, hroot, path, hw⟩ := hg
  have hst : SameTree s.ch.mem s2.ch.mem := by
    rw [hm]
    exact SameTree_update _ _ _
  obtain ⟨i, hi⟩ := List.mem_iff_getElem?.mp hc
  refine ⟨⟨Linked_sameTree _ _ hst hl, ?_, path ++ [i], ?_⟩, hst⟩
  · obtain ⟨a, ha⟩ := hst s.ch.BlockTreeRoot
    rw [hr, ha]
    exact hroot
  · rw [hr, ht]
    exact Walk_sameTree _ _ hst nxt _ _
      (Walk_snoc s.ch.mem _ i nxt hi (Nat.pos_of_ne_zero hb) path _ hw)

theorem commit_inv (lib : Lib) (env : Store) (fuel : Nat) (s s2 : St) (end_ nxt : Nat)
    (bl : Block) (trusted b : Bool)
    (h : ParseTillBlock.commit lib env fuel s end_ nxt bl trusted = .ret (s2, b)) :
    (b = false ∧ DeleteBranch lib fuel s nxt = .ret s2)
      ∨ (b = true ∧ ∃ sig, s2.ch.mem
            = Function.update s.ch.mem nxt { s.ch.mem nxt with Sigops := sig }
          ∧ s2.ch.BlockTreeEnd = nxt ∧ s2.ch.BlockTreeRoot = s.ch.BlockTreeRoot) := by
  unfold ParseTillBlock.commit at h
  split at h
  · cases h
  · split at h
    · rename_i s3 hd
      injection h with h
      injection h with h1 h2
      subst h1
      exact Or.inl ⟨h2.symm, hd⟩
    · cases h
    · cases h
  · dsimp only at h
    split at h
    · split at h
      · rename_i s3 hd
        injection h with h
        injection h with h1 h2
        subst h1
        exact Or.inl ⟨h2.symm, hd⟩
      · cases h
      · cases h
    · injection h with h
      injection h with h1 h2
      subst h1
      cases trusted
      · exact Or.inr ⟨h2.symm, _, rfl, rfl, rfl⟩
      · exact Or.inr ⟨h2.symm, _, rfl, rfl, rfl⟩

/-- A returning iteration of the loop of `ParseTillBlock` leaves the state as it
is, or deletes the branch of the node that `FindPathTo` returned, or advances
the tip to that node. -/
theorem step_inv (lib : Lib) (env : Store) (fuel : Nat) (s s2 : St) (end_ : Nat) (b : Bool)
    (h : ParseTillBlock.step lib env fuel s end_ = .ret (s2, b)) :
    (s2 = s ∧ b = false)
      ∨ ∃ nxt, FindPathTo lib s.ch.mem fuel s.ch.BlockTreeEnd end_ = .ret (some nxt)
        ∧ (s.ch.mem nxt).BlockSize ≠ 0
        ∧ ((b = false ∧ DeleteBranch lib fuel s nxt = .ret s2)
          ∨ (b = true ∧ ∃ sig, s2.ch.mem
                = Function.update s.ch.mem nxt { s.ch.mem nxt with Sigops := sig }
              ∧ s2.ch.BlockTreeEnd = nxt ∧ s2.ch.BlockTreeRoot = s.ch.BlockTreeRoot)) := by
  unfold ParseTillBlock.step at h
  split at h
  · cases h
  · cases h
  · injection h with h
    injection h with h1 h2
    exact Or.inl ⟨h1.symm, h2.symm⟩
  · rename_i nxt hf
    split at h
    · injection h with h
      injection h with h1 h2
      exact Or.inl ⟨h1.symm, h2.symm⟩
    · rename_i hb
      dsimp only at h
      split at h
      · cases h
      · split at h
        · split at h
          · rename_i s3 hd
            injection h with h
            injection h with h1 h2
            subst h1
            exact Or.inr ⟨nxt, hf, hb, Or.inl ⟨h2.symm, hd⟩⟩
          · cases h
          · cases h
        · cases h
        · exact Or.inr ⟨nxt, hf, hb, commit_inv lib env fuel s s2 end_ nxt _ _ b h⟩

theorem step_good (lib : Lib) (env : Store) (fuel : Nat) (s s2 : St) (end_ : Nat) (b : Bool)
    (hg : Good s.ch) (hr : Reach s.ch.mem s.ch.BlockTreeRoot end_)
    (h : ParseTillBlock.step lib env fuel s end_ = .ret (s2, b)) :
    Good s2.ch ∧ s2.ch.BlockTreeRoot = s.ch.BlockTreeRoot
      ∧ (b = true → SameTree s.ch.mem s2.ch.mem) := by
  rcases step_inv lib env fuel s s2 end_ b h with ⟨e, hb⟩ | ⟨nxt, hf, hsz, h1⟩
  · subst e
    subst hb
    exact ⟨hg, rfl, fun e => by cases e⟩
  · have hc := FindPathTo_child lib s.ch.mem fuel _ end_ nxt
      (Reach_linked s.ch.mem hg.1 _ hg.2.1 end_ hr) hf
    rcases h1 with ⟨hb, hd⟩ | ⟨hb, sig, hm, ht, hroot⟩
    · subst hb
      obtain ⟨h2, h3⟩ := DeleteBranch_good lib fuel s s2 nxt hg hc hd
      exact ⟨h2, h3, fun e => by cases e⟩
    · obtain ⟨h2, h3⟩ := advance_good s s2 nxt sig hg hc hsz hm ht hroot
      exact ⟨h2, hroot, fun _ => h3⟩

theorem loop_good (lib : Lib) (env : Store) (fuel end_ : Nat) (todo : Nat) :
    ∀ (s s1 : St), Good s.ch → Reach s.ch.mem s.ch.BlockTreeRoot end_ →
      ParseTillBlock.loop lib env fuel end_ todo s = .ret s1 →
      Good s1.ch ∧ s1.ch.BlockTreeRoot = s.ch.BlockTreeRoot := by
  induction todo with
  | zero =>
    intro s s1 hg _ h
    rw [ParseTillBlock.loop] at h
    split at h
    · cases h
    · injection h with h
      subst h
      exact ⟨hg, rfl⟩
  | succ todo ih =>
    intro s s1 hg hr h
    rw [ParseTillBlock.loop] at h
    split at h
    · split at h
      · rename_i s2 hs
        obtain ⟨hg2, hr2, hst⟩ := step_good lib env fuel s s2 end_ true hg hr hs
        obtain ⟨path, hp⟩ := hr
        obtain ⟨hg1, hr1⟩ := ih s2 s1 hg2
          ⟨path, by rw [hr2]; exact follow_sameTree _ _ (hst rfl) end_ path _ hp⟩ h
        exact ⟨hg1, hr1.trans hr2⟩
      · rename_i s2 hs
        injection h with h
        subst h
        obtain ⟨hg2, hr2, -⟩ := step_good lib env fuel s s2 end_ false hg hr hs
        exact ⟨hg2, hr2⟩
      · cases h
      · cases h
    · injection h with h
      subst h
      exact ⟨hg, rfl⟩

theorem run_good (move : St → Nat → Run St) (lib : Lib) (env : Store) (fuel : Nat)
    (hmove : ∀ (s : St) dst s1, Good s.ch → Reach s.ch.mem s.ch.BlockTreeRoot dst →
      move s dst = .ret s1 → Good s1.ch ∧ s1.ch.BlockTreeRoot = s.ch.BlockTreeRoot)
    (s s1 : St) (end_ : Nat) (hg : Good s.ch) (hr : Reach s.ch.mem s.ch.BlockTreeRoot end_)
    (h : ParseTillBlock.run move lib env fuel s end_ = .ret s1) :
    Good s1.ch ∧ s1.ch.BlockTreeRoot = s.ch.BlockTreeRoot := by
  unfold ParseTillBlock.run at h
  split at h
  · rename_i s2 hl
    obtain ⟨hg2, hr2⟩ := loop_good lib env fuel end_ fuel s s2 hg hr hl
    unfold ParseTillBlock.finish at h
    dsimp only at h
    split at h
    · rename_i s3 hfin
      injection h with h
      have hch : s1.ch = s3.ch := by rw [← h]; rfl
      rw [hch]
      split at hfin
      · split at hfin
        · cases hfin
        · rename_i e he
          obtain ⟨hg3, hr3⟩ := hmove s2 e.1 s3 hg2 (FindFarthestNode_reach _ _ _ _ he) hfin
          exact ⟨hg3, hr3.trans hr2⟩
      · injection hfin with hfin
        subst hfin
        exact ⟨hg2, hr2⟩
    · cases h
    · cases h
  · cases h
  · cases h

/-- A returning `MoveToBlock` to a node reachable from the root keeps the state
of the tree. -/
theorem MoveToBlock_good (lib : Lib) (env : Store) (fuel : Nat) :
    ∀ (s : St) dst s1, Good s.ch → Reach s.ch.mem s.ch.BlockTreeRoot dst →
      MoveToBlock lib env fuel s dst = .ret s1 →
      Good s1.ch ∧ s1.ch.BlockTreeRoot = s.ch.BlockTreeRoot := by
  induction fuel with
  | zero =>
    intro s dst s1 _ _ h
    rw [MoveToBlock] at h
    cases h
  | succ fuel ih =>
    intro s dst s1 hg hr h
    rw [MoveToBlock] at h
    split at h
    · cases h
    · cases h
    · injection h with h
      subst h
      exact ⟨hg, rfl⟩
    · split at h
      · cases h
      · cases h
      · injection h with h
        subst h
        exact ⟨hg, rfl⟩
      · split at h
        · cases h
        · cases h
        · rename_i s2 hu
          injection h with h
          subst h
          obtain ⟨hg2, -, hr2⟩ := undo_good lib env _ fuel s s2 false hg hu
          exact ⟨hg2, hr2⟩
        · rename_i s2 hu
          obtain ⟨hg2, hm2, hr2⟩ := undo_good lib env _ fuel s s2 true hg hu
          obtain ⟨hg1, hr1⟩ := run_good (MoveToBlock lib env fuel) lib env fuel ih s2 s1 dst hg2
            (by rw [hm2, hr2]; exact hr) h
          exact ⟨hg1, hr1.trans hr2⟩

theorem forkMem_Linked : Linked forkMem := by
  intro x c h
  by_cases hx : x < 9
  · interval_cases x <;> simp [forkMem, forkTable, mkNode] at h <;>
      first | (rcases h with h | h <;> subst h <;> decide) | (subst h; decide)
  · unfold forkMem at h
    rw [List.getD_eq_default _ _ (by simpa [forkTable] using hx)] at h
    cases h

theorem forkChain_Good : Good forkChain :=
  ⟨forkMem_Linked, by decide, [0, 0], by decide, by decide⟩

theorem forkChain_move :
    ∃ s1, MoveToBlock sampleLib sampleStore 4 { ch := forkChain, log := [] } 5 = .ret s1 :=
  (MoveToBlock_ret sampleLib sampleStore { ch := forkChain, log := [] } 5 0 2 3 4
    forkMem_WellFormed (by decide) (by decide)
    (fun d a b ha hb => by
      rcases forkMem_anc3 a d ha with h | h | h <;>
        rcases forkMem_anc5 b d hb with h1 | h1 | h1 | h1 <;> first | omega | (subst h; decide))
    (by decide) (fun x _ => forkMem_hasData x) (fun _ _ _ _ => rfl) (fun _ => rfl)
    (by decide)).imp (fun _ h => h.1)

/-- C27: let the child links be consistent (every node in the `Childs` of `x`
has `x` as its `Parent` and is one higher), let the root have no parent, and
let the invariant hold: `BlockTreeEnd` is reachable from `BlockTreeRoot` by
child links and every node on the path has `BlockSize > 0`. Then the same three
facts hold again, with the same root, after every returning iteration of the
loop of `ParseTillBlock` towards a node reachable from the root, which leaves
the state as it is, or deletes the branch of a child of the tip, or advances the
tip to a child of the tip; after every returning `UndoLastBlock` when the tip
is not the root; and after every returning `MoveToBlock` and `ParseTillBlock`
towards a node reachable from the root. -/
theorem C27_tip_invariant (lib : Lib) (env : Store) (s : St) (hg : Good s.ch) :
    (∀ fuel end_ s2 b, Reach s.ch.mem s.ch.BlockTreeRoot end_ →
      ParseTillBlock.step lib env fuel s end_ = .ret (s2, b) →
      Good s2.ch ∧ s2.ch.BlockTreeRoot = s.ch.BlockTreeRoot
        ∧ ((s2 = s ∧ b = false)
          ∨ ∃ nxt, nxt ∈ (s.ch.mem s.ch.BlockTreeEnd).Childs
            ∧ ((b = false ∧ DeleteBranch lib fuel s nxt = .ret s2)
              ∨ (b = true ∧ s2.ch.BlockTreeEnd = nxt))))
    ∧ (∀ s2, s.ch.BlockTreeEnd ≠ s.ch.BlockTreeRoot → UndoLastBlock lib env s = .ret s2 →
      Good s2.ch ∧ s2.ch.BlockTreeRoot = s.ch.BlockTreeRoot)
    ∧ (∀ fuel dst s2, Reach s.ch.mem s.ch.BlockTreeRoot dst →
      MoveToBlock lib env fuel s dst = .ret s2 →
      Good s2.ch ∧ s2.ch.BlockTreeRoot = s.ch.BlockTreeRoot)
    ∧ (∀ fuel end_ s2, Reach s.ch.mem s.ch.BlockTreeRoot end_ →
      ParseTillBlock lib env fuel s end_ = .ret s2 →
      Good s2.ch ∧ s2.ch.BlockTreeRoot = s.ch.BlockTreeRoot) := by
  refine ⟨fun fuel end_ s2 b hr h => ?_, fun s2 _ h => ?_, fun fuel dst s2 hr h => ?_,
    fun fuel end_ s2 hr h => ?_⟩
  · obtain ⟨h1, h2, -⟩ := step_good lib env fuel s s2 end_ b hg hr h
    refine ⟨h1, h2, ?_⟩
    rcases step_inv lib env fuel s s2 end_ b h with h3 | ⟨nxt, hf, -, h3⟩
    · exact Or.inl h3
    · refine Or.inr ⟨nxt, FindPathTo_child lib s.ch.mem fuel _ end_ nxt
        (Reach_linked s.ch.mem hg.1 _ hg.2.1 end_ hr) hf, ?_⟩
      rcases h3 with h3 | ⟨hb, sig, -, ht, -⟩
      · exact Or.inl h3
      · exact Or.inr ⟨hb, ht⟩
  · obtain ⟨h1, -, h2⟩ := UndoLastBlock_good lib env s s2 hg h
    exact ⟨h1, h2⟩
  · exact MoveToBlock_good lib env fuel s dst s2 hg hr h
  · exact run_good (MoveToBlock lib env fuel) lib env fuel (MoveToBlock_good lib env fuel)
      s s2 end_ hg hr h

set_option maxRecDepth 8000 in
theorem C27_tip_invariant_witness :
    Good forkChain
    ∧ (∃ s2, MoveToBlock sampleLib sampleStore 4 { ch := forkChain, log := [] } 5 = .ret s2
      ∧ Good s2.ch ∧ s2.ch.BlockTreeRoot = 0)
    ∧ ∃ s2, ParseTillBlock.step sampleLib failStore 4
          { ch := { forkChain with BlockTreeEnd := 2 }, log := [] } 5 = .ret (s2, false)
      ∧ (s2.ch.mem 2).Childs = [] ∧ Good s2.ch :=
  ⟨forkChain_Good, forkChain_move.imp (fun s2 h =>
    ⟨h, (C27_tip_invariant sampleLib sampleStore { ch := forkChain, log := [] }
      forkChain_Good).2.2.1 4 5 s2 ⟨[1, 0, 0], by decide⟩ h⟩),
    _, rfl, by decide,
    ((C27_tip_invariant sampleLib failStore
      { ch := { forkChain with BlockTreeEnd := 2 }, log := [] }
      ⟨forkMem_Linked, by decide, [1], by decide, by decide⟩).1 4 5 _ false
        ⟨[1, 0, 0], by decide⟩ rfl).1⟩

/-! ## Theorems about `GetBlockReward` -/

theorem GetBlockReward_eq (h : Nat) : GetBlockReward h = 5000000000 / 2 ^ (h / 210000) := by
  unfold GetBlockReward
  rw [Nat.shiftRight_eq_div_pow]

theorem GetBlockReward_zero (h : Nat) (hk : 33 ≤ h / 210000) : GetBlockReward h = 0 := by
  rw [GetBlockReward_eq]
  apply Nat.div_eq_of_lt
  calc 5000000000 < 2 ^ 33 := by norm_num
    _ ≤ 2 ^ (h / 210000) := Nat.pow_le_pow_right (by norm_num) hk

theorem GetBlockReward_anti (h1 h2 : Nat) (hle : h1 ≤ h2) :
    GetBlockReward h2 ≤ GetBlockReward h1 := by
  rw [GetBlockReward_eq, GetBlockReward_eq]
  exact Nat.div_le_div_left
    (Nat.pow_le_pow_right (by norm_num) (Nat.div_le_div_right hle)) (by positivity)

theorem period_sum (k m : Nat) (hm : m ≤ 210000) :
    ∑ x ∈ Finset.range m, GetBlockReward (210000 * k + x) = m * (5000000000 / 2 ^ k) := by
  induction m with
  | zero => simp
  | succ m ih =>
    have : (210000 * k + m) / 210000 = k := by omega
    rw [Finset.sum_range_succ, ih (by omega), GetBlockReward_eq, this, Nat.succ_mul]

/-- The rewards of the first `210000 * k` heights: 210000 times each of the
first `k` values. -/
theorem totalReward_periods (k : Nat) :
    totalReward (210000 * k) = 210000 * ∑ i ∈ Finset.range k, 5000000000 / 2 ^ i := by
  induction k with
  | zero => rfl
  | succ k ih =>
    have e : 210000 * (k + 1) = 210000 * k + 210000 := by ring
    have hp := period_sum k 210000 (le_refl _)
    generalize 210000 = P at *
    unfold totalReward at ih ⊢
    rw [e, Finset.sum_range_add, ih, hp, Finset.sum_range_succ (fun i => 5000000000 / 2 ^ i) k,
      Nat.mul_add]

theorem sum_halvings_le (k : Nat) :
    ∑ i ∈ Finset.range k, 5000000000 / 2 ^ i ≤ 9999999989 := by
  have h33 : ∑ i ∈ Finset.range 33, 5000000000 / 2 ^ i = 9999999989 := by
    simp [Finset.sum_range_succ]
  by_cases hk : k ≤ 33
  · rw [← h33]
    exact Finset.sum_le_sum_of_subset (Finset.range_subset.mpr hk)
  · obtain ⟨m, rfl⟩ : ∃ m, k = 33 + m := ⟨k - 33, by omega⟩
    rw [Finset.sum_range_add, h33]
    have : ∑ x ∈ Finset.range m, 5000000000 / 2 ^ (33 + x) = 0 := by
      apply Finset.sum_eq_zero
      intro x _
      apply Nat.div_eq_of_lt
      calc 5000000000 < 2 ^ 33 := by norm_num
        _ ≤ 2 ^ (33 + x) := Nat.pow_le_pow_right (by norm_num) (by omega)
    rw [this]

theorem totalReward_le (n : Nat) : totalReward n ≤ 2099999997690000 := by
  have h1 : totalReward n ≤ totalReward (210000 * (n / 210000 + 1)) := by
    unfold totalReward
    exact Finset.sum_le_sum_of_subset (Finset.range_subset.mpr (by omega))
  rw [totalReward_periods] at h1
  have h2 := sum_halvings_le (n / 210000 + 1)
  calc totalReward n ≤ 210000 * ∑ i ∈ Finset.range (n / 210000 + 1), 5000000000 / 2 ^ i := h1
    _ ≤ 210000 * 9999999989 := Nat.mul_le_mul_left _ h2
    _ = 2099999997690000 := by norm_num

/-- C39: `GetBlockReward(h)` is the integer part of `5000000000 / 2^(h div
210000)` for every height `h` (the heights of the 32 bits among them), it is 0
once `h div 210000 >= 33`, it does not grow with `h`, and the sum of the rewards
of the heights below any bound, hence of all heights, is at most
2099999997690000, which is below 21000000 * 10^8 satoshi. -/
theorem C39_GetBlockReward :
    (∀ h, GetBlockReward h = 5000000000 / 2 ^ (h / 210000))
    ∧ (∀ h, 33 ≤ h / 210000 → GetBlockReward h = 0)
    ∧ (∀ h1 h2, h1 ≤ h2 → GetBlockReward h2 ≤ GetBlockReward h1)
    ∧ (∀ n, totalReward n ≤ 2099999997690000)
    ∧ totalReward (2 ^ 32) < 21000000 * 10 ^ 8
    ∧ (2099999997690000 : Nat) < 21000000 * 10 ^ 8 :=
  ⟨GetBlockReward_eq, GetBlockReward_zero, GetBlockReward_anti, totalReward_le,
    lt_of_le_of_lt (totalReward_le _) (by norm_num), by norm_num⟩

/-! ## Theorems about the failure cases of `ProcessInv`, `BuildTxList` and `MoveToBlock` -/

/-- A payload shorter than 37 bytes: `ProcessInv` does the `DoS` and nothing
else. -/
theorem ProcessInv_short (lib : Lib) (env : NetEnv) (c : OneConnection) (pl : List UInt8)
    (h : pl.length < 37) :
    ProcessInv lib env c pl = .ok (DoS c (str "InvEmpty"))
    ∧ (DoS c (str "InvEmpty")).banit = true ∧ (DoS c (str "InvEmpty")).broken = true
    ∧ (DoS c (str "InvEmpty")).X = c.X ∧ (DoS c (str "InvEmpty")).Node = c.Node := by
  unfold ProcessInv
  rw [if_pos h]
  exact ⟨rfl, rfl, rfl, rfl, rfl⟩

set_option maxRecDepth 8000 in
/-- C31 fails for a length mismatch. The payload `twoCountInv` has 37 bytes and
announces two entries (37 is not 1 + 36 * 2): `ProcessInv` handles the first
entry and panics on the slice of the second, outside the payload. The payload
`longInv` has 38 bytes and announces one entry (38 is not 1 + 36): `ProcessInv`
handles the entry (`GetBlocksDataNow` is set) and the peer is neither banned
nor broken. -/
theorem C31_length_mismatch_not_rejected :
    (twoCountInv.length = 37
      ∧ (twoCountInv.length : Int)
          ≠ (sampleLib.VLen twoCountInv).2 + 36 * (sampleLib.VLen twoCountInv).1
      ∧ ProcessInv sampleLib sampleEnv syncedPeer twoCountInv
          = .error "slice bounds out of range")
    ∧ (longInv.length = 38
      ∧ (longInv.length : Int)
          ≠ (sampleLib.VLen longInv).2 + 36 * (sampleLib.VLen longInv).1
      ∧ (ProcessInv sampleLib sampleEnv syncedPeer longInv).toOption.map
          (fun c => (c.banit, c.broken, c.X.GetBlocksDataNow, c.X.InvsRecieved))
          = some (false, false, true, 1)) := by
  refine ⟨⟨by decide, by decide, by rfl⟩, by decide, by decide, by decide⟩

/-- A block whose first transaction does not parse: `BuildTxList` dereferences
the nil `bl.Txs[0]` after its loop. -/
theorem BuildTxList_first_nil (lib : Lib) (bl : Block) (hc : 0 < bl.TxCount)
    (ho : 0 ≤ bl.TxOffset ∧ bl.TxOffset ≤ bl.Raw.length)
    (hn : (lib.NewTx (bl.Raw.drop bl.TxOffset.toNat)).1 = none) :
    bl.BuildTxList lib = .error "invalid memory address or nil pointer dereference" := by
  obtain ⟨n, hn1⟩ : ∃ n, bl.TxCount.toNat = n + 1 := ⟨bl.TxCount.toNat - 1, by omega⟩
  unfold Block.BuildTxList
  rw [if_neg (by omega)]
  unfold BuildTxList.build
  rw [if_neg (by omega)]
  dsimp only
  rw [hn1, BuildTxList.loop, if_neg (by omega)]
  simp only [hn]
  rfl

set_option maxRecDepth 8000 in
/-- C37 fails when the first transaction does not parse. `NewBlock` accepts the
81 bytes of `noTxRaw` (a header and the count 1), `NewTx` finds no transaction
after the count, and `BuildTxList` panics on the nil `bl.Txs[0]`. When the
count is 0 (`zeroCountRaw`), `BuildTxList` returns an error. -/
theorem C37_first_tx_nil_panics :
    (NewBlock sampleLib noTxRaw).2 = none
    ∧ (blockOf noTxRaw).TxCount = 1
    ∧ (sampleLib.NewTx (noTxRaw.drop (blockOf noTxRaw).TxOffset.toNat)).1 = none
    ∧ (blockOf noTxRaw).BuildTxList sampleLib
        = .error "invalid memory address or nil pointer dereference"
    ∧ (NewBlock sampleLib zeroCountRaw).2 = none
    ∧ ((blockOf zeroCountRaw).BuildTxList sampleLib).toOption.map (fun r => r.1)
        = some (some "Block's txn_count field corrupt - RPC_Result:bad-blk-length") := by
  refine ⟨by decide, by decide, by decide, ?_, by decide, by decide⟩
  exact BuildTxList_first_nil sampleLib (blockOf noTxRaw) (by decide) (by decide) (by decide)

set_option maxRecDepth 8000 in
/-- C38 fails when the node below the tip is the farthest node and has no block
data. In the tree of `stubMem` (root 0 with its data, child 1 header-only, tip at
the root) `MoveToBlock(node 1)` undoes nothing and calls `ParseTillBlock`, whose
loop stops at once on `nxt.BlockSize == 0` with the tip unchanged; the tip is
not the target, `FindFarthestNode` returns node 1 again and `MoveToBlock(node
1)` is called in the same state. No bound on the depth of the calls lets the
call return. -/
theorem C38_header_only_recursion :
    treeWithin stubMem 2 0 = true
    ∧ (stubMem stubChain.BlockTreeEnd).Height ≤ (stubMem 1).Height
    ∧ (stubMem 1).BlockSize = 0
    ∧ (∀ log, sampleStore.AbortNow log = false)
    ∧ ∀ fuel, MoveToBlock sampleLib sampleStore fuel { ch := stubChain, log := [] } 1 = .more := by
  refine ⟨by decide, by decide, by decide, fun _ => rfl, fun fuel => ?_⟩
  induction fuel with
  | zero => rfl
  | succ f ih =>
    cases f with
    | zero => rfl
    | succ g =>
      cases g with
      | zero => rfl
      | succ k =>
        have h1 : MoveToBlock.descend stubChain.mem (stubChain.mem stubChain.BlockTreeEnd).Height
            (k + 2) 1 = .ret (some 0) := rfl
        have h2 : MoveToBlock.meet stubChain.mem (k + 2) (some stubChain.BlockTreeEnd) 0
            = .ret (some 0) := rfl
        have h3 : MoveToBlock.undo sampleLib sampleStore 0 (k + 2) { ch := stubChain, log := [] }
            = .ret ({ ch := stubChain, log := [] }, true) := rfl
        have h4 : ParseTillBlock.loop sampleLib sampleStore (k + 2) 1 (k + 2)
            { ch := stubChain, log := [] } = .ret { ch := stubChain, log := [] } := rfl
        have h5 : FindFarthestNode stubChain.mem (k + 2) stubChain.BlockTreeRoot
            = some (1, 1) := rfl
        rw [MoveToBlock]
        dsimp only
        rw [h1]
        dsimp only
        rw [h2]
        dsimp only
        rw [h3]
        dsimp only
        unfold ParseTillBlock.run
        rw [h4]
        dsimp only
        unfold ParseTillBlock.finish
        dsimp only
        rw [if_pos ⟨rfl, by decide⟩, h5]
        dsimp only
        rw [ih]

/-! ## Theorems about the walks of `MoveToBlock` and `FirstCommonParent` -/

/-- The walks of `MoveToBlock` to a node not lower than the tip end at the lowest
common ancestor. -/
theorem walks_ret (mem : Nat → BlockTreeNode)
    (hh : ∀ x p, (mem x).Parent = some p → (mem x).Height = (mem p).Height + 1)
    (tip dst c i j fuel : Nat)
    (hi : ancestorAt mem i tip = some c) (hj : ancestorAt mem j dst = some c)
    (hlca : ∀ d a b, ancestorAt mem a tip = some d → ancestorAt mem b dst = some d →
      (mem d).Height ≤ (mem c).Height)
    (hge : (mem tip).Height ≤ (mem dst).Height)
    (htx : ∀ b x, b ≤ j → ancestorAt mem b dst = some x → (mem x).TxCount ≠ 0)
    (hf : j ≤ fuel) :
    MoveToBlock.walks mem fuel tip dst = .ret (some c) := by
  have hHi := ancestorAt_height mem hh _ _ _ hi
  have hHj := ancestorAt_height mem hh _ _ _ hj
  have hij : i ≤ j := by omega
  obtain ⟨y, hy, hyc⟩ := ancestorAt_split mem (j - i) i dst c (by
    rw [Nat.sub_add_cancel hij]; exact hj)
  have hHy := ancestorAt_height mem hh _ _ _ hyc
  have h1 : MoveToBlock.descend mem (mem tip).Height fuel dst = .ret (some y) :=
    descend_ret mem hh _ (j - i) fuel dst y (by omega) hy (by omega)
      (fun b x _ hb hx => htx b x (by omega) hx)
  have h2 : MoveToBlock.meet mem fuel (some tip) y = .ret (some c) := by
    apply meet_ret mem c i fuel _ y (by omega) hi hyc
    · intro a ha e
      obtain ⟨x, hx, hxc⟩ := ancestorAt_split mem a (i - a) tip c (by
        rw [Nat.add_sub_cancel' (le_of_lt ha)]; exact hi)
      have hx2 : ancestorAt mem ((j - i) + a) dst = some x := by
        rw [ancestorAt_add mem _ a dst y hy, ← e]
        exact hx
      have h3 := ancestorAt_height mem hh _ _ _ hxc
      have := hlca x a _ hx hx2
      omega
    · intro b x _ hb hx
      exact htx ((j - i) + b) x (by omega) (by
        rw [ancestorAt_add mem _ b dst y hy]; exact hx)
  unfold MoveToBlock.walks
  rw [h1]
  exact h2

/-- The second walk of `MoveToBlock`, started at two nodes of different heights:
the pointers never meet and the walk dereferences the nil parent of the root. -/
theorem meet_panic (mem : Nat → BlockTreeNode)
    (hh : ∀ x p, (mem x).Parent = some p → (mem x).Height = (mem p).Height + 1)
    (htx : ∀ x, (mem x).TxCount ≠ 0) (r : Nat) (hr : (mem r).Parent = none) (j : Nat) :
    ∀ fuel t cur m, ancestorAt mem j cur = some r → ancestorAt mem (j + 1 + m) t = some r →
      j < fuel →
      MoveToBlock.meet mem fuel (some t) cur
        = .panic "invalid memory address or nil pointer dereference" := by
  induction j with
  | zero =>
    intro fuel t cur m hc ht hf
    rw [ancestorAt] at hc
    injection hc with hc
    subst hc
    obtain ⟨f, rfl⟩ : ∃ f, fuel = f + 1 := ⟨fuel - 1, by omega⟩
    have hne : some t ≠ some cur := by
      intro e
      injection e with e
      subst e
      have := ancestorAt_height mem hh _ _ _ ht
      omega
    rw [MoveToBlock.meet, if_pos hne, hr]
  | succ j ih =>
    intro fuel t cur m hc ht hf
    obtain ⟨f, rfl⟩ : ∃ f, fuel = f + 1 := ⟨fuel - 1, by omega⟩
    obtain ⟨p, hp, h1⟩ := ancestorAt_succ mem j cur r hc
    have e : j + 1 + 1 + m = (j + 1 + m) + 1 := by omega
    rw [e] at ht
    obtain ⟨tp, htp, h2⟩ := ancestorAt_succ mem (j + 1 + m) t r ht
    have hne : some t ≠ some cur := by
      intro e1
      injection e1 with e1
      subst e1
      have a1 := ancestorAt_height mem hh _ _ _ ht
      have a2 := ancestorAt_height mem hh _ _ _ hc
      omega
    rw [MoveToBlock.meet, if_pos hne, hp]
    dsimp only
    rw [if_neg (htx p), htp]
    exact ih f tp p m h1 h2 (by omega)

theorem walks_panic (mem : Nat → BlockTreeNode)
    (hh : ∀ x p, (mem x).Parent = some p → (mem x).Height = (mem p).Height + 1)
    (htx : ∀ x, (mem x).TxCount ≠ 0) (tip dst r ka kb fuel : Nat)
    (hr : (mem r).Parent = none)
    (ha : ancestorAt mem ka tip = some r) (hb : ancestorAt mem kb dst = some r)
    (hlt : (mem dst).Height < (mem tip).Height) (hf : kb < fuel) :
    MoveToBlock.walks mem fuel tip dst
      = .panic "invalid memory address or nil pointer dereference" := by
  have hHa := ancestorAt_height mem hh _ _ _ ha
  have hHb := ancestorAt_height mem hh _ _ _ hb
  have h1 : MoveToBlock.descend mem (mem tip).Height fuel dst = .ret (some dst) := by
    cases fuel <;> rw [MoveToBlock.descend, if_neg (by omega)]
  unfold MoveToBlock.walks
  rw [h1]
  dsimp only
  obtain ⟨m, hm⟩ : ∃ m, ka = kb + 1 + m := ⟨ka - kb - 1, by omega⟩
  rw [hm] at ha
  exact meet_panic mem hh htx r hr kb fuel tip dst m hb ha hf

set_option maxRecDepth 8000 in
/-- C35, as stated, fails: the tip is node 3 of the sample tree and `dst` is node
1, its parent; `FirstCommonParent` returns node 1, while the walks of
`MoveToBlock(dst)` dereference nil, so that `MoveToBlock` panics. -/
theorem C35_counterexample :
    (forkMem 3).Parent = some 1
    ∧ FirstCommonParent forkMem 5 3 1 = .ret (some 1)
    ∧ MoveToBlock.walks forkMem 5 3 1
        = .panic "invalid memory address or nil pointer dereference"
    ∧ MoveToBlock sampleLib sampleStore 5 { ch := forkChain, log := [] } 1
        = .panic "invalid memory address or nil pointer dereference" := by
  refine ⟨by decide, by decide, by decide, by rfl⟩

/-- C35 (amended): in a tree in which every node is one higher than its parent
and every node has `TxCount > 0`, let the tip and `dst` have the common ancestor
`r`, which has no parent. When `dst` is not lower than the tip, the two walks
of `MoveToBlock(dst)` end, without a nil dereference and for every bound above
the distance from `dst` to `r`, at the node that `tip.FirstCommonParent(dst)`
returns, and no common ancestor is higher than this node. When `dst` is lower
than the tip, an ancestor of the tip in particular, `FirstCommonParent` still
returns such a node, but the walks of `MoveToBlock(dst)` start at different
heights, never meet, and dereference the nil parent of the root. -/
theorem C35_walks_vs_FirstCommonParent (mem : Nat → BlockTreeNode)
    (hh : ∀ x p, (mem x).Parent = some p → (mem x).Height = (mem p).Height + 1)
    (htx : ∀ x, (mem x).TxCount ≠ 0) (tip dst r ka kb fuel : Nat)
    (hr : (mem r).Parent = none)
    (ha : ancestorAt mem ka tip = some r) (hb : ancestorAt mem kb dst = some r)
    (hf : ka + kb < fuel) :
    ∃ c, FirstCommonParent mem fuel tip dst = .ret (some c)
      ∧ (∀ d i1 j1, ancestorAt mem i1 tip = some d → ancestorAt mem j1 dst = some d →
          (mem d).Height ≤ (mem c).Height)
      ∧ ((mem tip).Height ≤ (mem dst).Height →
          MoveToBlock.walks mem fuel tip dst = .ret (some c))
      ∧ ((mem dst).Height < (mem tip).Height →
          MoveToBlock.walks mem fuel tip dst
            = .panic "invalid memory address or nil pointer dereference") := by
  have hHa := ancestorAt_height mem hh _ _ _ ha
  have hHb := ancestorAt_height mem hh _ _ _ hb
  have key : ∃ c i j, FirstCommonParent mem fuel tip dst = .ret (some c)
      ∧ ancestorAt mem i tip = some c ∧ ancestorAt mem j dst = some c
      ∧ (∀ d i1 j1, ancestorAt mem i1 tip = some d → ancestorAt mem j1 dst = some d →
          (mem d).Height ≤ (mem c).Height) := by
    by_cases hge : kb ≤ ka
    · obtain ⟨c, i, j, h1, -, h3, h4, h5⟩ :=
        FirstCommonParent_ge mem hh tip dst r ka kb fuel ha hb hge (by omega)
      exact ⟨c, i, j, h1, h3, h4, h5⟩
    · obtain ⟨c, i, j, -, h2, h3, h4, h5⟩ :=
        FirstCommonParent_ge mem hh dst tip r kb ka fuel hb ha (by omega) (by omega)
      exact ⟨c, j, i, h2, h4, h3, fun d i1 j1 h6 h7 => h5 d j1 i1 h7 h6⟩
  obtain ⟨c, i, j, h1, h2, h3, h4⟩ := key
  refine ⟨c, h1, h4, fun hge => ?_, fun hlt => ?_⟩
  · have hHj := ancestorAt_height mem hh _ _ _ h3
    have hrc := h4 r ka kb ha hb
    exact walks_ret mem hh tip dst c i j fuel h2 h3 h4 hge (fun b x _ _ => htx x) (by omega)
  · exact walks_panic mem hh htx tip dst r ka kb fuel hr ha hb hlt (by omega)

theorem C35_walks_vs_FirstCommonParent_witness :
    ∃ c, FirstCommonParent forkMem 6 3 5 = .ret (some c)
      ∧ (∀ d i1 j1, ancestorAt forkMem i1 3 = some d → ancestorAt forkMem j1 5 = some d →
          (forkMem d).Height ≤ (forkMem c).Height)
      ∧ ((forkMem 3).Height ≤ (forkMem 5).Height →
          MoveToBlock.walks forkMem 6 3 5 = .ret (some c))
      ∧ ((forkMem 5).Height < (forkMem 3).Height →
          MoveToBlock.walks forkMem 6 3 5
            = .panic "invalid memory address or nil pointer dereference") :=
  C35_walks_vs_FirstCommonParent forkMem (fun x p h => (forkMem_WellFormed x p h).2)
    (fun x => (forkMem_hasData x).1) 3 5 0 2 3 6 (by decide) (by decide) (by decide) (by decide)

/-! ## Theorems about the delivery of a stream to `FetchMessage` -/

theorem fetchMany_fixed (x : Ext) (c : OneConnection) (s : Sock)
    (h : FetchMessage x c s = (none, c, s)) (n : Nat) : (fetchMany x n c s).1 = [] := by
  induction n with
  | zero => rfl
  | succ n ih =>
    rw [fetchMany, h]
    exact ih

theorem fetchMany_succ (x : Ext) (n : Nat) (c : OneConnection) (s : Sock) :
    (fetchMany x (n + 1) c s).1
      = (FetchMessage x c s).1.toList
        ++ (fetchMany x n (FetchMessage x c s).2.1 (FetchMessage x c s).2.2).1 := rfl

set_option maxRecDepth 8000 in
/-- C36 fails when a read hands over bytes together with a timeout. The same
stream, one `ping` message with 8 payload bytes, is delivered to a new
connection in two ways. With reads of 5 bytes and no error the first call of
`FetchMessage` returns the message. With a first read that hands over the 24
header bytes together with a timeout, the first call returns nil before the
payload length is taken from the header; the second call skips the header,
finds the payload length 0 of the new connection, compares the checksum of the
header with that of an empty payload, and bans the peer: no number of calls
returns a message. -/
theorem C36_chunking_changes_reception :
    (fetchMany sampleExt 1 NewConnection ⟨pingStream, script40⟩).1
        = [⟨str "ping", [1, 2, 3, 4, 5, 6, 7, 8]⟩]
    ∧ (∀ n, (fetchMany sampleExt n NewConnection ⟨pingStream, timeoutScript⟩).1 = [])
    ∧ (fetchMany sampleExt 2 NewConnection ⟨pingStream, timeoutScript⟩).2.1.banit = true := by
  refine ⟨by decide, fun n => ?_, by decide⟩
  have h1 : (FetchMessage sampleExt NewConnection ⟨pingStream, timeoutScript⟩).1 = none := by
    decide
  have h2 : (FetchMessage sampleExt
      (FetchMessage sampleExt NewConnection ⟨pingStream, timeoutScript⟩).2.1
      (FetchMessage sampleExt NewConnection ⟨pingStream, timeoutScript⟩).2.2).1 = none := by
    decide
  have h3 : FetchMessage sampleExt (fetchMany sampleExt 2 NewConnection
        ⟨pingStream, timeoutScript⟩).2.1
      (fetchMany sampleExt 2 NewConnection ⟨pingStream, timeoutScript⟩).2.2
      = (none, (fetchMany sampleExt 2 NewConnection ⟨pingStream, timeoutScript⟩).2.1,
        (fetchMany sampleExt 2 NewConnection ⟨pingStream, timeoutScript⟩).2.2) := by
    rfl
  match n with
  | 0 => rfl
  | 1 => rw [fetchMany_succ, h1]; rfl
  | n + 2 =>
    rw [fetchMany_succ, h1, fetchMany_succ, h2]
    exact fetchMany_fixed sampleExt _ _ h3 n

theorem fetchMany_fixed_state (x : Ext) (c : OneConnection) (s : Sock)
    (h : FetchMessage x c s = (none, c, s)) (n : Nat) : (fetchMany x n c s).2 = (c, s) := by
  induction n with
  | zero => rfl
  | succ n ih =>
    rw [fetchMany, h]
    exact ih

set_option maxRecDepth 8000 in
/-- C10 fails for a stream that does not start with the magic when a read hands
over bytes together with a timeout. The 24 bytes of `badMagicStream`, whose
first four bytes are not the magic, reach a new connection in one read that
also reports a timeout. The first call of `FetchMessage` counts the 24 bytes
and returns nil before it compares the magic, and the connection is not broken.
The second call finds the header complete, skips the loop that holds the
comparison, and returns a message with the command and the payload length of
the new connection, both empty. The connection is neither broken nor banned
then, nor after any number of further calls. -/
theorem C10_bad_magic_not_detected :
    badMagicStream.take 4 ≠ slice sampleExt.Magic 0 4
    ∧ (FetchMessage sampleExt NewConnection ⟨badMagicStream, [(24, some .timeout)]⟩).1 = none
    ∧ (FetchMessage sampleExt NewConnection
        ⟨badMagicStream, [(24, some .timeout)]⟩).2.1.broken = false
    ∧ (fetchMany sampleExt 2 NewConnection ⟨badMagicStream, [(24, some .timeout)]⟩).1
        = [⟨[], []⟩]
    ∧ (∀ n, (fetchMany sampleExt (n + 2) NewConnection
        ⟨badMagicStream, [(24, some .timeout)]⟩).2.1.broken = false
      ∧ (fetchMany sampleExt (n + 2) NewConnection
        ⟨badMagicStream, [(24, some .timeout)]⟩).2.1.banit = false) := by
  refine ⟨by decide, by decide, by decide, by decide, fun n => ?_⟩
  have h3 : FetchMessage sampleExt (fetchMany sampleExt 2 NewConnection
        ⟨badMagicStream, [(24, some .timeout)]⟩).2.1
      (fetchMany sampleExt 2 NewConnection ⟨badMagicStream, [(24, some .timeout)]⟩).2.2
      = (none, (fetchMany sampleExt 2 NewConnection
          ⟨badMagicStream, [(24, some .timeout)]⟩).2.1,
        (fetchMany sampleExt 2 NewConnection ⟨badMagicStream, [(24, some .timeout)]⟩).2.2) := by
    rfl
  have e : (fetchMany sampleExt (n + 2) NewConnection
        ⟨badMagicStream, [(24, some .timeout)]⟩).2
      = (fetchMany sampleExt 2 NewConnection ⟨badMagicStream, [(24, some .timeout)]⟩).2 := by
    have hs : ∀ k c s, (fetchMany sampleExt (k + 1) c s).2
        = (fetchMany sampleExt k (FetchMessage sampleExt c s).2.1
            (FetchMessage sampleExt c s).2.2).2 := fun _ _ _ => rfl
    rw [hs, hs]
    exact fetchMany_fixed_state sampleExt _ _ h3 n
  rw [e]
  exact ⟨by decide, by decide⟩

/-! ## Theorems about `retry_cached_blocks` -/

/-- The loop of `retry_cached_blocks` from the index `idx` on, when the entries
from `idx` up to `i` are not at the wanted height and the entry at `i` is. -/
theorem retry_loop_hit {W : Type} (env : MainEnv W) (w : W) (cached : List BlockRcvd)
    (i : Nat) (b : BlockRcvd) (hb : cached[i]? = some b)
    (hh : b.Height = (env.tipHeight w + 1) % 2^32)
    (hx : env.Exit_now (acceptOne env w b).2 = false) (k : Nat) :
    ∀ idx todo, idx + k = i → k < todo →
      (∀ j bj, idx ≤ j → j < i → cached[j]? = some bj →
        bj.Height ≠ (env.tipHeight w + 1) % 2^32) →
      retry_cached_blocks.loop env w cached todo idx
        = (decide ((cached.eraseIdx i).length > 0), (acceptOne env w b).2, cached.eraseIdx i) := by
  induction k with
  | zero =>
    intro idx todo hi ht _
    obtain ⟨t, rfl⟩ : ∃ t, todo = t + 1 := ⟨todo - 1, by omega⟩
    have e : idx = i := by omega
    subst e
    rw [retry_cached_blocks.loop, hb]
    dsimp only
    rw [if_pos hh, hx, List.eraseIdx_eq_take_drop_succ]
    rfl
  | succ k ih =>
    intro idx todo hi ht hn
    obtain ⟨t, rfl⟩ : ∃ t, todo = t + 1 := ⟨todo - 1, by omega⟩
    have hlt : idx < cached.length := by
      have := (List.getElem?_eq_some_iff.mp hb).1
      omega
    rw [retry_cached_blocks.loop, List.getElem?_eq_getElem hlt]
    dsimp only
    rw [if_neg (hn idx _ (le_refl _) (by omega) (List.getElem?_eq_getElem hlt))]
    exact ih (idx + 1) t (by omega) (by omega)
      (fun j bj h1 h2 h3 => hn j bj (by omega) h2 h3)

/-- The loop of `retry_cached_blocks` when no entry from `idx` on is at the
wanted height. -/
theorem retry_loop_miss {W : Type} (env : MainEnv W) (w : W) (cached : List BlockRcvd)
    (todo : Nat) :
    ∀ idx, (∀ j bj, idx ≤ j → cached[j]? = some bj →
        bj.Height ≠ (env.tipHeight w + 1) % 2^32) →
      retry_cached_blocks.loop env w cached todo idx = (false, w, cached) := by
  induction todo with
  | zero =>
    intro idx _
    rfl
  | succ todo ih =>
    intro idx hn
    rw [retry_cached_blocks.loop]
    cases hc : cached[idx]? with
    | none => rfl
    | some bj =>
      dsimp only
      rw [if_neg (hn idx bj (le_refl _) hc)]
      exact ih (idx + 1) (fun j b h1 h2 => hn j b (by omega) h2)

/-- The statements around `LocalAcceptBlock` when it returns no error. -/
theorem acceptOne_ok {W : Type} (env : MainEnv W) (w : W) (b : BlockRcvd)
    (h : (env.LocalAcceptBlock w b).1 = none) :
    (acceptOne env w b).2 = (env.LocalAcceptBlock w b).2 := by
  unfold acceptOne
  dsimp only
  rw [h]

/-- The statements around `LocalAcceptBlock` when it returns an error. -/
theorem acceptOne_err {W : Type} (env : MainEnv W) (w : W) (b : BlockRcvd)
    (h : (env.LocalAcceptBlock w b).1 ≠ none) :
    (acceptOne env w b).2 = env.ConnDoS (env.LocalAcceptBlock w b).2 b := by
  unfold acceptOne
  dsimp only
  cases hr : (env.LocalAcceptBlock w b).1 with
  | none => exact absurd hr h
  | some e => rfl

/-- C32: let the tip be below the height 2^32 - 1, and let the entry `b` at the
index `i` of `CachedBlocks` be the first one in list order whose `Height` is
`BlockTreeEnd.Height + 1`. Then `retry_cached_blocks` makes one attempt, on `b`:
when `LocalAcceptBlock(b)` returns no error the state afterwards is the one that
this call leaves, and when it returns an error the state afterwards is the one
that `b.Conn.DoS` makes of it; no other entry is attempted. In both cases, with
`Exit_now` false after the attempt, `CachedBlocks` afterwards is the former list
without the entry at `i`, the others in their order, and the returned value is
true exactly when `CachedBlocks` is not empty afterwards. When no entry has that
height, the state and `CachedBlocks` are unchanged and the returned value is
false. -/
theorem C32_retry_cached_blocks {W : Type} (env : MainEnv W) (w : W) (cached : List BlockRcvd)
    (htip : env.tipHeight w + 1 < 2^32) :
    (∀ i b, cached[i]? = some b → b.Height = env.tipHeight w + 1 →
      (∀ j bj, j < i → cached[j]? = some bj → bj.Height ≠ env.tipHeight w + 1) →
      ((env.LocalAcceptBlock w b).1 = none →
        env.Exit_now (env.LocalAcceptBlock w b).2 = false →
        retry_cached_blocks env w cached
            = (decide ((cached.eraseIdx i).length > 0), (env.LocalAcceptBlock w b).2,
                cached.eraseIdx i)
          ∧ ((retry_cached_blocks env w cached).1 = true
              ↔ (retry_cached_blocks env w cached).2.2 ≠ [])
          ∧ (retry_cached_blocks env w cached).2.2 = cached.take i ++ cached.drop (i + 1)
          ∧ (retry_cached_blocks env w cached).2.2.length + 1 = cached.length)
      ∧ ((env.LocalAcceptBlock w b).1 ≠ none →
        env.Exit_now (env.ConnDoS (env.LocalAcceptBlock w b).2 b) = false →
        retry_cached_blocks env w cached
            = (decide ((cached.eraseIdx i).length > 0),
                env.ConnDoS (env.LocalAcceptBlock w b).2 b, cached.eraseIdx i)
          ∧ ((retry_cached_blocks env w cached).1 = true
              ↔ (retry_cached_blocks env w cached).2.2 ≠ [])
          ∧ (retry_cached_blocks env w cached).2.2 = cached.take i ++ cached.drop (i + 1)
          ∧ (retry_cached_blocks env w cached).2.2.length + 1 = cached.length))
    ∧ ((∀ b, b ∈ cached → b.Height ≠ env.tipHeight w + 1) →
      retry_cached_blocks env w cached = (false, w, cached)) := by
  have hm : (env.tipHeight w + 1) % 2^32 = env.tipHeight w + 1 := Nat.mod_eq_of_lt htip
  have key : ∀ i b (w2 : W), cached[i]? = some b → b.Height = env.tipHeight w + 1 →
      (∀ j bj, j < i → cached[j]? = some bj → bj.Height ≠ env.tipHeight w + 1) →
      (acceptOne env w b).2 = w2 → env.Exit_now w2 = false →
      retry_cached_blocks env w cached
          = (decide ((cached.eraseIdx i).length > 0), w2, cached.eraseIdx i)
        ∧ ((retry_cached_blocks env w cached).1 = true
            ↔ (retry_cached_blocks env w cached).2.2 ≠ [])
        ∧ (retry_cached_blocks env w cached).2.2 = cached.take i ++ cached.drop (i + 1)
        ∧ (retry_cached_blocks env w cached).2.2.length + 1 = cached.length := by
    intro i b w2 hb hh hfirst hw hx
    have hlt := (List.getElem?_eq_some_iff.mp hb).1
    have hr : retry_cached_blocks env w cached
        = (decide ((cached.eraseIdx i).length > 0), w2, cached.eraseIdx i) := by
      unfold retry_cached_blocks
      rw [← hw]
      exact retry_loop_hit env w cached i b hb (by rw [hm]; exact hh) (by rw [hw]; exact hx)
        i 0 cached.length (by omega) hlt
        (fun j bj _ h2 h3 => by rw [hm]; exact hfirst j bj h2 h3)
    rw [hr]
    refine ⟨rfl, ?_, List.eraseIdx_eq_take_drop_succ _ _, ?_⟩
    · dsimp only
      rw [decide_eq_true_eq]
      exact List.length_pos
    · dsimp only
      rw [List.length_eraseIdx, if_pos hlt]
      omega
  constructor
  · intro i b hb hh hfirst
    exact ⟨fun hok hx => key i b _ hb hh hfirst (acceptOne_ok env w b hok) hx,
      fun her hx => key i b _ hb hh hfirst (acceptOne_err env w b her) hx⟩
  · intro hn
    unfold retry_cached_blocks
    exact retry_loop_miss env w cached cached.length 0 (fun j bj _ h => by
      rw [hm]
      exact hn bj (List.getElem?_mem h))

set_option maxRecDepth 8000 in
theorem C32_retry_cached_blocks_witness :
    retry_cached_blocks sampleMain { tip := 4, tried := [], banned := [] } sampleCache
        = (true, { tip := 4, tried := [[]], banned := [1] },
            [{ Height := 7, Hash := [1], Conn := 0 }, { Height := 5, Hash := [2], Conn := 2 }])
    ∧ retry_cached_blocks sampleMain { tip := 6, tried := [], banned := [] } sampleCache
        = (true, { tip := 7, tried := [[1]], banned := [] },
            [{ Height := 5, Hash := [], Conn := 1 }, { Height := 5, Hash := [2], Conn := 2 }])
    ∧ retry_cached_blocks sampleMain { tip := 8, tried := [], banned := [] } sampleCache
        = (false, { tip := 8, tried := [], banned := [] }, sampleCache) :=
  ⟨(((C32_retry_cached_blocks sampleMain { tip := 4, tried := [], banned := [] } sampleCache
      (by decide)).1 1 { Height := 5, Hash := [], Conn := 1 } (by decide) (by decide)
      (fun j bj hj hbj => by
        have e : j = 0 := by omega
        subst e
        have := Option.some.inj hbj
        subst this
        decide)).2 (by decide) (by decide)).1,
    (((C32_retry_cached_blocks sampleMain { tip := 6, tried := [], banned := [] } sampleCache
      (by decide)).1 0 { Height := 7, Hash := [1], Conn := 0 } (by decide) (by decide)
      (fun j bj hj _ => absurd hj (by omega))).1 (by decide) (by decide)).1,
    (C32_retry_cached_blocks sampleMain { tip := 8, tried := [], banned := [] } sampleCache
      (by decide)).2 (by decide)⟩

/-! ## Theorems about the memory pool -/

set_option maxRecDepth 8000 in
/-- C34 fails: `LoadRawTx` admits a transaction whose only input is a known
unspent output of the value 1 and whose only output has the value 2. The
entry has `Own` 1 and `Volume` 1, the sum of the inputs, which is below the sum
of the outputs, 2; and the stored `Fee` is the wrapped difference 2^64 - 1. -/
theorem C34_overspending_fee_wraps :
    (DecodeTxSops spendLib sampleTxLib emptyPool.TransactionsToSend spendTx).missinginp = false
    ∧ (DecodeTxSops spendLib sampleTxLib emptyPool.TransactionsToSend spendTx).totinp = 1
    ∧ (DecodeTxSops spendLib sampleTxLib emptyPool.TransactionsToSend spendTx).totout = 2
    ∧ ((LoadRawTx spendLib sampleTxLib 1000 emptyPool [1, 2, 3]).TransactionsToSend
          (spendLib.BIdx (spendLib.NewSha2Hash [1, 2, 3]))).map
        (fun v => (v.Own, v.Volume, v.Fee)) = some (1, 1, 18446744073709551615)
    ∧ (18446744073709551615 : Nat) = 2^64 - 1 := by
  decide

theorem Less_eq (fl : Floats) (tl : List OneTxToSend) (i j : Nat) (a b : OneTxToSend)
    (ha : tl[i]? = some a) (hb : tl[j]? = some b) :
    SortedTxToSend.Less fl tl i j = .ok (fl.lt (spb fl b) (spb fl a)) := by
  unfold SortedTxToSend.Less
  rw [ha, hb]

theorem lessTable_firstseen (fl : Floats) (vals : List OneTxToSend) (f : OneTxToSend → Int) :
    lessTable fl (vals.map (fun v => { v with Firstseen := f v })) = lessTable fl vals := by
  funext i j
  unfold lessTable SortedTxToSend.Less
  rw [List.getElem?_map, List.getElem?_map]
  cases vals[i]? <;> cases vals[j]? <;> rfl

/-- The slice after the sort does not depend on the `Firstseen` of the entries. -/
theorem sorted_firstseen (fl : Floats) (srt : Nat → (Nat → Nat → Bool) → List Nat)
    (vals : List OneTxToSend) (f : OneTxToSend → Int) :
    MemoryPoolFees.sorted fl srt (vals.map (fun v => { v with Firstseen := f v }))
      = (MemoryPoolFees.sorted fl srt vals).map (fun v => { v with Firstseen := f v }) := by
  unfold MemoryPoolFees.sorted
  rw [List.length_map, lessTable_firstseen, List.map_filterMap]
  congr 1
  funext k
  rw [List.getElem?_map]

/-- When the arrangement that `sort.Sort` makes is sorted for `Less`, the fee
rates never go up along the slice. -/
theorem sorted_descending (fl : Floats) (srt : Nat → (Nat → Nat → Bool) → List Nat)
    (vals : List OneTxToSend)
    (hsort : (srt vals.length (lessTable fl vals)).Pairwise
      (fun ip iq => lessTable fl vals iq ip = false)) :
    (MemoryPoolFees.sorted fl srt vals).Pairwise
      (fun a b => fl.lt (spb fl a) (spb fl b) = false) := by
  unfold MemoryPoolFees.sorted
  rw [List.pairwise_filterMap]
  apply hsort.imp
  intro ip iq h a ha b hb
  unfold lessTable at h
  rw [Less_eq fl vals iq ip b a hb ha] at h
  exact h

theorem head_swapped (a b : OneTxToSend) (hab : a ≠ b) (p : List Nat) :
    (p.filterMap (fun k => [a, b][k]?)).head? = some a →
      (p.filterMap (fun k => [b, a][k]?)).head? = some b := by
  induction p with
  | nil =>
    intro h
    cases h
  | cons k rest ih =>
    intro h
    match k with
    | 0 => rfl
    | 1 =>
      exfalso
      apply hab
      have e : (List.filterMap (fun k => [a, b][k]?) (1 :: rest)).head? = some b := rfl
      rw [e] at h
      exact (Option.some.inj h).symm
    | k + 2 =>
      have e1 : List.filterMap (fun k => [a, b][k]?) ((k + 2) :: rest)
          = List.filterMap (fun k => [a, b][k]?) rest := rfl
      have e2 : List.filterMap (fun k => [b, a][k]?) ((k + 2) :: rest)
          = List.filterMap (fun k => [b, a][k]?) rest := rfl
      rw [e1] at h
      rw [e2]
      exact ih h

theorem lessTable_equal_rates (fl : Floats) (a b : OneTxToSend) (h : spb fl a = spb fl b) :
    lessTable fl [a, b] = fun _ _ => false := by
  funext i j
  unfold lessTable SortedTxToSend.Less
  match i, j with
  | 0, 0 => exact fl.lt_irrefl _
  | 0, 1 => show fl.lt (spb fl b) (spb fl a) = false; rw [h]; exact fl.lt_irrefl _
  | 1, 0 => show fl.lt (spb fl a) (spb fl b) = false; rw [h]; exact fl.lt_irrefl _
  | 1, 1 => exact fl.lt_irrefl _
  | 0, j + 2 => rfl
  | 1, j + 2 => rfl
  | i + 2, _ => rfl

/-- C33, as stated, fails for entries with equal fee rates. Two entries have the
fee 100 and 10 bytes of data; the first was seen at the time 1, the second at
the time 2. For every arithmetic of `float64` and every `sort.Sort`, `Less` is
false between them in both directions, and if the earlier entry comes first
when the `range` loop met the entries in the order earlier, later, then the
later entry comes first when the loop met them in the order later, earlier. -/
theorem C33_counterexample :
    (poolEntry 100 10 1).Firstseen < (poolEntry 100 10 2).Firstseen
    ∧ ∀ (fl : Floats) (srt : Nat → (Nat → Nat → Bool) → List Nat),
      SortedTxToSend.Less fl [poolEntry 100 10 1, poolEntry 100 10 2] 0 1 = .ok false
      ∧ SortedTxToSend.Less fl [poolEntry 100 10 1, poolEntry 100 10 2] 1 0 = .ok false
      ∧ ((MemoryPoolFees.sorted fl srt [poolEntry 100 10 1, poolEntry 100 10 2]).head?
            = some (poolEntry 100 10 1) →
          (MemoryPoolFees.sorted fl srt [poolEntry 100 10 2, poolEntry 100 10 1]).head?
            = some (poolEntry 100 10 2)) := by
  refine ⟨by decide, fun fl srt => ⟨?_, ?_, ?_⟩⟩
  · rw [Less_eq fl _ 0 1 _ _ rfl rfl]
    exact congrArg Except.ok (fl.lt_irrefl _)
  · rw [Less_eq fl _ 1 0 _ _ rfl rfl]
    exact congrArg Except.ok (fl.lt_irrefl _)
  · unfold MemoryPoolFees.sorted
    rw [lessTable_equal_rates fl (poolEntry 100 10 1) (poolEntry 100 10 2) rfl,
      lessTable_equal_rates fl (poolEntry 100 10 2) (poolEntry 100 10 1) rfl]
    exact head_swapped _ _ (by decide) _

/-- C33 (amended): `Less(i, j)` is the comparison `spb_j < spb_i` of the fee
rates `float64(Fee)/float64(len(Data))` and reads nothing else of the entries:
the slice that `sort.Sort` makes is the same whatever the `Firstseen` of the
entries are, so entries with equal fee rates come in an order that `Firstseen`
does not decide. When the arrangement made by `sort.Sort` is sorted for `Less`,
the fee rates never go up along the slice. -/
theorem C33_fee_order (fl : Floats) (srt : Nat → (Nat → Nat → Bool) → List Nat)
    (vals : List OneTxToSend)
    (hsort : (srt vals.length (lessTable fl vals)).Pairwise
      (fun ip iq => lessTable fl vals iq ip = false)) :
    (∀ i j a b, vals[i]? = some a → vals[j]? = some b →
      SortedTxToSend.Less fl vals i j = .ok (fl.lt (spb fl b) (spb fl a)))
    ∧ (∀ f : OneTxToSend → Int,
        MemoryPoolFees.sorted fl srt (vals.map (fun v => { v with Firstseen := f v }))
          = (MemoryPoolFees.sorted fl srt vals).map (fun v => { v with Firstseen := f v }))
    ∧ (MemoryPoolFees.sorted fl srt vals).Pairwise
        (fun a b => fl.lt (spb fl a) (spb fl b) = false) :=
  ⟨fun i j a b ha hb => Less_eq fl vals i j a b ha hb, sorted_firstseen fl srt vals,
    sorted_descending fl srt vals hsort⟩

set_option maxRecDepth 8000 in
theorem C33_fee_order_witness :
    MemoryPoolFees.sorted sampleFloats sampleSort
        [poolEntry 100 10 1, poolEntry 300 10 2, poolEntry 100 5 3]
      = [poolEntry 300 10 2, poolEntry 100 5 3, poolEntry 100 10 1]
    ∧ (MemoryPoolFees.sorted sampleFloats sampleSort
        [poolEntry 100 10 1, poolEntry 300 10 2, poolEntry 100 5 3]).Pairwise
        (fun a b => sampleFloats.lt (spb sampleFloats a) (spb sampleFloats b) = false) :=
  ⟨by decide, (C33_fee_order sampleFloats sampleSort
    [poolEntry 100 10 1, poolEntry 300 10 2, poolEntry 100 5 3] (by decide)).2.2⟩

end Gocoin
